import Mathlib

/-!
Waffles `GBayesianNetwork.cpp`: a shallow embedding

The probabilistic-graphical-model classes of `src/GClasses/GBayesianNetwork.cpp`
(`GPGMNode`, `GPGMVariable`, `GPGMCategorical`, `GPGMMetropolisNode`, the
distribution families and `GBayesNet`) as Lean functions over an explicit heap.

Conventions of the embedding

* A node pointer is a `NodeId`, an address of the arena; the arena is a total
  map from addresses to node records.
* In the heap model `double` is modelled by the exact rationals `ℚ` (no
  rounding, no NaN, no infinities; a quotient by zero has the value 0 of the
  field).  The transcendental functions of `<cmath>` and `GMath::gamma` are
  parameters, collected in `Libm`.
* The functions whose behaviour depends on rounding, on NaN or on a division by
  zero (the uniform likelihoods, `metropolis` and `sample`) are embedded a
  second time on the values of IEEE 754 (`Dbl`: numbers, signed zeros,
  infinities, NaN), in the section on the arithmetic of `double`.  The
  rounding is a parameter there (`Fpu`), with the rounding of binary64 as an
  instance.
* `size_t` is the 64-bit unsigned type: every `size_t` operation of the source
  is reduced modulo `2 ^ 64`.  Memory is unbounded: an allocation never fails.
* `throw Ex(...)` is the outcome `thrown`, which records the state the throw
  leaves behind; an out-of-range `std::vector::operator[]` and an
  unrepresentable `double → size_t` conversion are the outcome `undefined`.
* `GAssert` is compiled out (release build) and has no counterpart in the
  functions; the condition of the assertion of `currentCatIndex` is a
  definition of its own, `GPGMVariable.currentCatIndexAssertion`.
-/

namespace GClasses

/-- An address in the arena of a network: the model of a `GPGMNode*`. -/
abbrev NodeId := Nat

/-- Number of values of `size_t`. -/
def SIZE_MOD : Nat := 2 ^ 64

/-- Multiplication of two `size_t` values. -/
def sizeMul (a b : Nat) : Nat := (a * b) % SIZE_MOD

/-- Addition of two `size_t` values. -/
def sizeAdd (a b : Nat) : Nat := (a + b) % SIZE_MOD

/-- The macro `MIN_LOG_PROB`, `-1e300`. -/
def MIN_LOG_PROB : ℚ := -(10 ^ 300)

/-- The macro `SQRT_2PI`, `2.50662827463`. -/
def SQRT_2PI : ℚ := 250662827463 / 100000000000

/-- Result of an evaluation that reads the heap without changing it. -/
inductive Res (α : Type) where
  | ok (a : α)
  | thrown
  | undefined
deriving DecidableEq, Repr

/-- Sequencing of read-only evaluations. -/
def Res.bind {α β : Type} (r : Res α) (f : α → Res β) : Res β :=
  match r with
  | .ok a => f a
  | .thrown => .thrown
  | .undefined => .undefined

instance : Monad Res where
  pure := Res.ok
  bind := Res.bind

/-- Result of a call that may change the state `σ`: a normal return with the
new state, an `Ex` thrown with the state the throw leaves behind, or
behaviour that C++ leaves undefined. -/
inductive Outcome (σ : Type) (α : Type) where
  | ok (a : α) (s : σ)
  | thrown (s : σ)
  | undefined

/-- The state an outcome leaves behind, when it leaves one. -/
def Outcome.state? {σ α : Type} : Outcome σ α → Option σ
  | .ok _ s => some s
  | .thrown s => some s
  | .undefined => none

/-- Whether the call threw. -/
def Outcome.isThrown {σ α : Type} : Outcome σ α → Bool
  | .thrown _ => true
  | _ => false

/-- Whether the call returned normally. -/
def Outcome.isOk {σ α : Type} : Outcome σ α → Bool
  | .ok _ _ => true
  | _ => false

/-- The functions of `<cmath>` and `GMath` that have no exact rational value;
they are parameters of the embedding. -/
structure Libm where
  log : ℚ → ℚ
  exp : ℚ → ℚ
  sqrt : ℚ → ℚ
  pow : ℚ → ℚ → ℚ
  gamma : ℚ → ℚ

/-- Modelled from the spec: the pseudo-random source `GRand` (GRand.h is not
among the sources).  It is consumed through `uniform()` and `normal()`; the
model is a stream of draws and a count of the draws taken so far. -/
structure GRand where
  drawn : Nat
  uniformAt : Nat → ℚ
  normalAt : Nat → ℚ

/-- One `pRand->uniform()`. -/
def GRand.uniform (r : GRand) : ℚ × GRand :=
  (r.uniformAt r.drawn, { r with drawn := r.drawn + 1 })

/-- One `pRand->normal()`. -/
def GRand.normal (r : GRand) : ℚ × GRand :=
  (r.normalAt r.drawn, { r with drawn := r.drawn + 1 })

/-- The subclasses of `GPGMMetropolisNode`. -/
inductive Family where
  | normal
  | logNormal
  | pareto
  | uniformDiscrete
  | uniformContinuous
  | poisson
  | exponential
  | beta
  | gamma (m_betaIsScaleInsteadOfRate : Bool)
deriving DecidableEq, Repr

/-- The dynamic type of a node. -/
inductive Kind where
  | constant
  | categorical
  | metropolis (fam : Family)
deriving DecidableEq, Repr

/-- A node record: the members of `GPGMNode`, `GPGMVariable` and of the
concrete classes, side by side; `kind` tells which class the node is.
`m_params` is the parameter vector of a distribution (`m_meanAndDev`,
`m_alphaAndM`, `m_minAndMax`, `m_lambda`, `m_alphaAndBeta`). -/
structure GPGMNode where
  kind : Kind
  m_observed : Bool
  m_observedValue : ℚ
  m_catParents : List NodeId
  m_children : List NodeId
  m_value : ℚ
  m_categories : Nat
  m_val : ℚ
  m_weights : List NodeId
  m_currentMean : ℚ
  m_currentDeviation : ℚ
  m_nSamples : Nat
  m_nNewValues : Nat
  m_sumOfValues : ℚ
  m_sumOfSquaredValues : ℚ
  m_params : List NodeId
deriving DecidableEq, Repr

/-- The arena: what is stored at every address. -/
abbrev Heap := NodeId → GPGMNode

/-- Store `n` at address `p`. -/
def Heap.put (h : Heap) (p : NodeId) (n : GPGMNode) : Heap :=
  fun q => if q = p then n else h q

/-- `v[i]` of a `std::vector`: undefined outside the vector. -/
def vecAt {α : Type} (v : List α) (i : Nat) : Res α :=
  match v[i]? with
  | some a => .ok a
  | none => .undefined

/-- `v[i] = a` of a `std::vector`: undefined outside the vector. -/
def vecSet {α : Type} (v : List α) (i : Nat) (a : α) : Option (List α) :=
  if i < v.length then some (v.set i a) else none

/-- `v.resize(n, d)` of a `std::vector`. -/
def vecResize {α : Type} (v : List α) (n : Nat) (d : α) : List α :=
  v.take n ++ List.replicate (n - v.length) d

/-- The conversion `(size_t)x` of a `double`: truncation toward zero, defined
when the truncated value is a `size_t`. -/
def toSize (x : ℚ) : Res Nat :=
  if -1 < x ∧ x < (SIZE_MOD : ℚ) then .ok (Int.toNat (Int.floor x)) else .undefined

/-- Modelled from the spec: `GPGMNode::setObserved` (declared in
GBayesianNetwork.h, which is not among the sources): "`setObserved(v)` pins"
the node to the value `v`. -/
def GPGMNode.setObserved (h : Heap) (p : NodeId) (v : ℚ) : Heap :=
  h.put p { h p with m_observed := true, m_observedValue := v }

/-- Modelled from the spec: `GPGMConstant::currentValue` (the class is declared
in GBayesianNetwork.h, which is not among the sources): the pinned value if
observed, else the fixed value. -/
def GPGMConstant.currentValue (n : GPGMNode) : ℚ :=
  if n.m_observed then n.m_observedValue else n.m_value

/-- The method `GPGMCategorical::currentValue`. -/
def GPGMCategorical.currentValue (n : GPGMNode) : ℚ :=
  if n.m_observed then n.m_observedValue else n.m_val

/-- The method `GPGMMetropolisNode::currentValue`. -/
def GPGMMetropolisNode.currentValue (n : GPGMNode) : ℚ :=
  if n.m_observed then n.m_observedValue else n.m_currentMean

/-- The virtual call `p->currentValue()`. -/
def GPGMNode.currentValue (h : Heap) (p : NodeId) : ℚ :=
  match (h p).kind with
  | .constant => GPGMConstant.currentValue (h p)
  | .categorical => GPGMCategorical.currentValue (h p)
  | .metropolis _ => GPGMMetropolisNode.currentValue (h p)

/-- The accessor `p->categories()`. -/
def GPGMCategorical.categories (h : Heap) (p : NodeId) : Nat := (h p).m_categories

/-- The method `GPGMVariable::onNewChild`, called as `p->onNewChild(pChild)`.
Modelled from the spec for a `GPGMConstant` receiver, whose class is not among
the sources: a Constant is "a degenerate Variable". -/
def GPGMVariable.onNewChild (h : Heap) (p : NodeId) (pChild : NodeId) : Heap :=
  h.put p { h p with m_children := (h p).m_children ++ [pChild] }

/-- The method `GPGMVariable::catCount`. -/
def GPGMVariable.catCount (h : Heap) (v : NodeId) : Nat :=
  (h v).m_catParents.foldl (fun cats p => sizeMul cats (GPGMCategorical.categories h p)) 1

/-- The loop of `GPGMVariable::currentCatIndex` over the remaining parents. -/
def GPGMVariable.currentCatIndexLoop (h : Heap) : List NodeId → Nat → Nat → Res Nat
  | [], _, ind => .ok ind
  | pPar :: rest, mult, ind =>
    match toSize (GPGMNode.currentValue h pPar) with
    | .ok val =>
      if GPGMCategorical.categories h pPar = 0 then
        .thrown
      else
        GPGMVariable.currentCatIndexLoop h rest
          (sizeMul mult (GPGMCategorical.categories h pPar)) (sizeAdd ind (sizeMul mult val))
    | .thrown => .thrown
    | .undefined => .undefined

/-- The method `GPGMVariable::currentCatIndex`. -/
def GPGMVariable.currentCatIndex (h : Heap) (v : NodeId) : Res Nat :=
  GPGMVariable.currentCatIndexLoop h (h v).m_catParents 1 0

/-- The first loop of `GPGMCategorical::likelihood`: the sum of
`m_weights[base + i]->currentValue()` for `i` in `0 .. n - 1`, accumulated from
`0.0` in that order. -/
def GPGMCategorical.sumWeight (h : Heap) (v : NodeId) (base : Nat) : Nat → Res ℚ
  | 0 => .ok 0
  | n + 1 =>
    match GPGMCategorical.sumWeight h v base n with
    | .ok sumWeight =>
      match vecAt (h v).m_weights (sizeAdd base n) with
      | .ok w => .ok (sumWeight + GPGMNode.currentValue h w)
      | .thrown => .thrown
      | .undefined => .undefined
    | .thrown => .thrown
    | .undefined => .undefined

/-- The method `GPGMCategorical::likelihood`. -/
def GPGMCategorical.likelihood (h : Heap) (v : NodeId) (x : ℚ) : Res ℚ := do
  let ind ← GPGMVariable.currentCatIndex h v
  let base := sizeMul (h v).m_categories ind
  let sumWeight ← GPGMCategorical.sumWeight h v base (h v).m_categories
  let xx ← toSize x
  let pX ← vecAt (h v).m_weights (sizeAdd base xx)
  let num := GPGMNode.currentValue h pX
  if num > 0 ∧ sumWeight > 0 then
    pure (num / sumWeight)
  else
    pure 0

/-- The two parameters of the current row of a distribution:
`m_params[base]->currentValue()` and `m_params[base + 1]->currentValue()` with
`base = 2 * currentCatIndex()`. -/
def currentPair (h : Heap) (v : NodeId) : Res (ℚ × ℚ) := do
  let ind ← GPGMVariable.currentCatIndex h v
  let base := sizeMul 2 ind
  let a ← vecAt (h v).m_params base
  let b ← vecAt (h v).m_params (sizeAdd base 1)
  pure (GPGMNode.currentValue h a, GPGMNode.currentValue h b)

/-- The parameter of the current row of a one-parameter distribution:
`m_lambda[base]->currentValue()` with `base = 1 * currentCatIndex()`. -/
def currentLambda (h : Heap) (v : NodeId) : Res ℚ := do
  let ind ← GPGMVariable.currentCatIndex h v
  let base := sizeMul 1 ind
  let l ← vecAt (h v).m_params base
  pure (GPGMNode.currentValue h l)

/-- The method `GPGMNormal::likelihood`. -/
def GPGMNormal.likelihood (lm : Libm) (h : Heap) (v : NodeId) (x : ℚ) : Res ℚ := do
  let (mean, dev) ← currentPair h v
  let t := x - mean
  pure (1 / (dev * SQRT_2PI) * lm.exp (-(t * t) / (2 * dev * dev)))

/-- The method `GPGMLogNormal::likelihood`. -/
def GPGMLogNormal.likelihood (lm : Libm) (h : Heap) (v : NodeId) (x : ℚ) : Res ℚ := do
  let (mean, dev) ← currentPair h v
  let t := lm.log (x - mean)
  pure (1 / (x * dev * SQRT_2PI) * lm.exp (-(t * t) / (2 * dev * dev)))

/-- The method `GPGMPareto::likelihood`. -/
def GPGMPareto.likelihood (lm : Libm) (h : Heap) (v : NodeId) (x : ℚ) : Res ℚ := do
  let (alpha, m) ← currentPair h v
  if x < m then
    pure 0
  else
    pure (alpha * lm.pow m alpha / lm.pow x (alpha + 1))

/-- The method `GPGMUniformDiscrete::likelihood` on exact numbers; for its
behaviour at NaN see `Fp.GPGMUniformDiscrete.likelihood`. -/
def GPGMUniformDiscrete.likelihood (h : Heap) (v : NodeId) (x : ℚ) : Res ℚ := do
  let (lo, hi) ← currentPair h v
  let a : ℚ := Int.ceil lo
  let b : ℚ := Int.floor hi
  if x < a then
    pure 0
  else if x > b then
    pure 0
  else
    pure (1 / (b - a + 1))

/-- The method `GPGMUniformContinuous::likelihood` on exact numbers. Where `a = b`
the quotient has the value 0 of the field; on `double`s, see
`Fp.GPGMUniformContinuous.likelihood`, it is an infinity. -/
def GPGMUniformContinuous.likelihood (h : Heap) (v : NodeId) (x : ℚ) : Res ℚ := do
  let (a, b) ← currentPair h v
  if x < a then
    pure 0
  else if x > b then
    pure 0
  else
    pure (1 / (b - a))

/-- The method `GPGMPoisson::likelihood`. -/
def GPGMPoisson.likelihood (lm : Libm) (h : Heap) (v : NodeId) (x : ℚ) : Res ℚ := do
  let l ← currentLambda h v
  if x < 0 then
    pure 0
  else
    pure (lm.pow l x * lm.exp (-l) / lm.gamma (x + 1))

/-- The method `GPGMExponential::likelihood`. -/
def GPGMExponential.likelihood (lm : Libm) (h : Heap) (v : NodeId) (x : ℚ) : Res ℚ := do
  let l ← currentLambda h v
  if x < 0 then
    pure 0
  else
    pure (l * lm.exp (-l * x))

/-- The divisor of `GPGMBeta::likelihood`: `gamma(alpha) * gamma(beta)`, kept
away from zero. -/
def GPGMBeta.denom (lm : Libm) (alpha beta : ℚ) : ℚ :=
  let denom := lm.gamma alpha * lm.gamma beta
  if |denom| < 1 / 10 ^ 15 then
    (if denom < 0 then -(1 / 10 ^ 15) else 1 / 10 ^ 15)
  else
    denom

/-- The method `GPGMBeta::likelihood`. -/
def GPGMBeta.likelihood (lm : Libm) (h : Heap) (v : NodeId) (x : ℚ) : Res ℚ :=
  if x < 0 ∨ x > 1 then
    pure 0
  else do
    let (alpha, beta) ← currentPair h v
    pure (lm.gamma (alpha + beta) / GPGMBeta.denom lm alpha beta
      * lm.pow x (alpha - 1) * lm.pow (1 - x) (beta - 1))

/-- The method `GPGMGamma::likelihood`. -/
def GPGMGamma.likelihood (lm : Libm) (m_betaIsScaleInsteadOfRate : Bool) (h : Heap)
    (v : NodeId) (x : ℚ) : Res ℚ :=
  if x < 0 then
    pure 0
  else do
    let (alpha, beta0) ← currentPair h v
    let beta := if m_betaIsScaleInsteadOfRate then 1 / beta0 else beta0
    pure (lm.pow beta alpha * lm.pow x (alpha - 1) * lm.exp (-beta * x) / lm.gamma alpha)

/-- The virtual call `p->likelihood(x)`.  Only a `GPGMVariable` has a
likelihood; a `GPGMConstant` is never a child, and a call on one is not
defined. -/
def GPGMVariable.likelihood (lm : Libm) (h : Heap) (p : NodeId) (x : ℚ) : Res ℚ :=
  match (h p).kind with
  | .constant => .undefined
  | .categorical => GPGMCategorical.likelihood h p x
  | .metropolis .normal => GPGMNormal.likelihood lm h p x
  | .metropolis .logNormal => GPGMLogNormal.likelihood lm h p x
  | .metropolis .pareto => GPGMPareto.likelihood lm h p x
  | .metropolis .uniformDiscrete => GPGMUniformDiscrete.likelihood h p x
  | .metropolis .uniformContinuous => GPGMUniformContinuous.likelihood h p x
  | .metropolis .poisson => GPGMPoisson.likelihood lm h p x
  | .metropolis .exponential => GPGMExponential.likelihood lm h p x
  | .metropolis .beta => GPGMBeta.likelihood lm h p x
  | .metropolis (.gamma scale) => GPGMGamma.likelihood lm scale h p x

/-- The constructor `GPGMNode::GPGMNode` followed by `GPGMVariable::GPGMVariable`:
not observed, no parents, no children.  Members that the constructors leave
unset are given the value zero. -/
def GPGMNode.construct (kind : Kind) : GPGMNode :=
  { kind := kind, m_observed := false, m_observedValue := 0, m_catParents := [],
    m_children := [], m_value := 0, m_categories := 0, m_val := 0, m_weights := [],
    m_currentMean := 0, m_currentDeviation := 0, m_nSamples := 0, m_nNewValues := 0,
    m_sumOfValues := 0, m_sumOfSquaredValues := 0, m_params := [] }

/-- Modelled from the spec: the constructor of `GPGMConstant` (the class is
declared in GBayesianNetwork.h, which is not among the sources): a node "with a
fixed value". -/
def GPGMConstant.construct (val : ℚ) : GPGMNode :=
  { GPGMNode.construct .constant with m_value := val }

/-- The constructor `GPGMCategorical::GPGMCategorical`. -/
def GPGMCategorical.construct (categories : Nat) (pDefaultWeight : NodeId) :
    Res GPGMNode :=
  if categories < 2 then
    .thrown
  else
    .ok { GPGMNode.construct .categorical with
      m_categories := categories, m_val := 0,
      m_weights := vecResize [] categories pDefaultWeight }

/-- The constructor `GPGMMetropolisNode::GPGMMetropolisNode`. -/
def GPGMMetropolisNode.construct (fam : Family) (priorMean priorDeviation : ℚ) :
    GPGMNode :=
  { GPGMNode.construct (.metropolis fam) with
    m_currentMean := priorMean, m_currentDeviation := priorDeviation,
    m_nSamples := 0, m_nNewValues := 0, m_sumOfValues := 0, m_sumOfSquaredValues := 0 }

/-- Number of parameter nodes in one row of a distribution: the factor in
`resize(2 * catCount(), ...)` and `resize(1 * catCount(), ...)`. -/
def Family.slots : Family → Nat
  | .poisson => 1
  | .exponential => 1
  | _ => 2

/-- The constructors of the distributions (`GPGMNormal::GPGMNormal`, ...,
`GPGMGamma::GPGMGamma`): the base constructor, then the parameter vector is
resized to one row of default nodes. -/
def Family.construct (fam : Family) (priorMean priorDeviation : ℚ) (pDefaultVal : NodeId) :
    GPGMNode :=
  { GPGMMetropolisNode.construct fam priorMean priorDeviation with
    m_params := vecResize [] fam.slots pDefaultVal }

/-- The method `GPGMCategorical::addCatParent`. -/
def GPGMCategorical.addCatParent (h : Heap) (v : NodeId) (pNode : NodeId)
    (pDefaultWeight : NodeId) : Heap :=
  let h1 := h.put v { h v with m_catParents := (h v).m_catParents ++ [pNode] }
  let h2 := GPGMVariable.onNewChild h1 pNode v
  h2.put v { h2 v with
    m_weights := vecResize (h2 v).m_weights
      (sizeMul (h2 v).m_categories (GPGMVariable.catCount h2 v)) pDefaultWeight }

/-- The methods `addCatParent` of the distributions, which differ in the number
of parameters of a row only. -/
def addCatParentParams (slots : Nat) (h : Heap) (v : NodeId) (pNode : NodeId)
    (pDefaultVal : NodeId) : Heap :=
  let h1 := h.put v { h v with m_catParents := (h v).m_catParents ++ [pNode] }
  let h2 := GPGMVariable.onNewChild h1 pNode v
  h2.put v { h2 v with
    m_params := vecResize (h2 v).m_params
      (sizeMul slots (GPGMVariable.catCount h2 v)) pDefaultVal }

/-- The method `GPGMNormal::addCatParent`. -/
def GPGMNormal.addCatParent (h : Heap) (v pNode pDefaultVal : NodeId) : Heap :=
  addCatParentParams 2 h v pNode pDefaultVal

/-- The method `GPGMLogNormal::addCatParent`. -/
def GPGMLogNormal.addCatParent (h : Heap) (v pNode pDefaultVal : NodeId) : Heap :=
  addCatParentParams 2 h v pNode pDefaultVal

/-- The method `GPGMPareto::addCatParent`. -/
def GPGMPareto.addCatParent (h : Heap) (v pNode pDefaultVal : NodeId) : Heap :=
  addCatParentParams 2 h v pNode pDefaultVal

/-- The method `GPGMUniformDiscrete::addCatParent`. -/
def GPGMUniformDiscrete.addCatParent (h : Heap) (v pNode pDefaultVal : NodeId) : Heap :=
  addCatParentParams 2 h v pNode pDefaultVal

/-- The method `GPGMUniformContinuous::addCatParent`. -/
def GPGMUniformContinuous.addCatParent (h : Heap) (v pNode pDefaultVal : NodeId) : Heap :=
  addCatParentParams 2 h v pNode pDefaultVal

/-- The method `GPGMPoisson::addCatParent`. -/
def GPGMPoisson.addCatParent (h : Heap) (v pNode pDefaultVal : NodeId) : Heap :=
  addCatParentParams 1 h v pNode pDefaultVal

/-- The method `GPGMExponential::addCatParent`. -/
def GPGMExponential.addCatParent (h : Heap) (v pNode pDefaultVal : NodeId) : Heap :=
  addCatParentParams 1 h v pNode pDefaultVal

/-- The method `GPGMBeta::addCatParent`. -/
def GPGMBeta.addCatParent (h : Heap) (v pNode pDefaultVal : NodeId) : Heap :=
  addCatParentParams 2 h v pNode pDefaultVal

/-- The method `GPGMGamma::addCatParent`. -/
def GPGMGamma.addCatParent (h : Heap) (v pNode pDefaultVal : NodeId) : Heap :=
  addCatParentParams 2 h v pNode pDefaultVal

/-- The statements `m_weights[i] = pW; pW->onNewChild(this);`. -/
def assignWeight (h : Heap) (v : NodeId) (i : Nat) (pW : NodeId) : Option Heap :=
  match vecSet (h v).m_weights i pW with
  | some ws => some (GPGMVariable.onNewChild (h.put v { h v with m_weights := ws }) pW v)
  | none => none

/-- The nested `if(pW3){ ... if(pW4){ ... } }` of `GPGMCategorical::setWeights`:
the optional arguments are stored one after the other up to the first null one,
and `given` counts the arguments stored. -/
def GPGMCategorical.setWeightsRest (v : NodeId) (base : Nat) :
    List (Option NodeId) → Nat → Heap → Option (Heap × Nat)
  | some pW :: rest, given, h =>
    match assignWeight h v (sizeAdd base given) pW with
    | some h1 => GPGMCategorical.setWeightsRest v base rest (given + 1) h1
    | none => none
  | _, given, h => some (h, given)

/-- The method `GPGMCategorical::setWeights`.  `pW1` and `pW2` are dereferenced
without a test, so they are node addresses; `pW3 .. pW8` may be null. -/
def GPGMCategorical.setWeights (h : Heap) (v : NodeId) (cat : Nat) (pW1 pW2 : NodeId)
    (pW3 pW4 pW5 pW6 pW7 pW8 : Option NodeId) : Outcome Heap Unit :=
  if cat ≥ GPGMVariable.catCount h v then
    .thrown h
  else
    let base := sizeMul cat (h v).m_categories
    match assignWeight h v base pW1 with
    | none => .undefined
    | some h1 =>
      match assignWeight h1 v (sizeAdd base 1) pW2 with
      | none => .undefined
      | some h2 =>
        match GPGMCategorical.setWeightsRest v base [pW3, pW4, pW5, pW6, pW7, pW8] 2 h2 with
        | none => .undefined
        | some (h3, given) =>
          if given ≠ (h3 v).m_categories then .thrown h3 else .ok () h3

/-- The statements `m_params[i] = p; p->onNewChild(this);` of a distribution. -/
def assignParam (h : Heap) (v : NodeId) (i : Nat) (p : NodeId) : Option Heap :=
  match vecSet (h v).m_params i p with
  | some ps => some (GPGMVariable.onNewChild (h.put v { h v with m_params := ps }) p v)
  | none => none

/-- The two-parameter setters (`setMeanAndDev`, `setAlphaAndM`, `setMinAndMax`,
`setAlphaAndBeta`), which share one body. -/
def setParamPair (h : Heap) (v : NodeId) (cat : Nat) (p1 p2 : NodeId) : Outcome Heap Unit :=
  if cat ≥ GPGMVariable.catCount h v then
    .thrown h
  else
    let base := sizeMul 2 cat
    match assignParam h v base p1 with
    | none => .undefined
    | some h1 =>
      match assignParam h1 v (sizeAdd base 1) p2 with
      | none => .undefined
      | some h2 => .ok () h2

/-- The one-parameter setters (`GPGMPoisson::setLambda`,
`GPGMExponential::setLambda`), which share one body. -/
def setParamSingle (h : Heap) (v : NodeId) (cat : Nat) (pLambda : NodeId) : Outcome Heap Unit :=
  if cat ≥ GPGMVariable.catCount h v then
    .thrown h
  else
    let base := sizeMul 1 cat
    match assignParam h v base pLambda with
    | none => .undefined
    | some h1 => .ok () h1

/-- The method `GPGMNormal::setMeanAndDev`. -/
def GPGMNormal.setMeanAndDev (h : Heap) (v : NodeId) (cat : Nat) (pMean pDeviation : NodeId) :
    Outcome Heap Unit := setParamPair h v cat pMean pDeviation

/-- The method `GPGMLogNormal::setMeanAndDev`. -/
def GPGMLogNormal.setMeanAndDev (h : Heap) (v : NodeId) (cat : Nat)
    (pMean pDeviation : NodeId) : Outcome Heap Unit := setParamPair h v cat pMean pDeviation

/-- The method `GPGMPareto::setAlphaAndM`. -/
def GPGMPareto.setAlphaAndM (h : Heap) (v : NodeId) (cat : Nat) (pAlpha pM : NodeId) :
    Outcome Heap Unit := setParamPair h v cat pAlpha pM

/-- The method `GPGMUniformDiscrete::setMinAndMax`. -/
def GPGMUniformDiscrete.setMinAndMax (h : Heap) (v : NodeId) (cat : Nat) (pMin pMax : NodeId) :
    Outcome Heap Unit := setParamPair h v cat pMin pMax

/-- The method `GPGMUniformContinuous::setMinAndMax`. -/
def GPGMUniformContinuous.setMinAndMax (h : Heap) (v : NodeId) (cat : Nat)
    (pMin pMax : NodeId) : Outcome Heap Unit := setParamPair h v cat pMin pMax

/-- The method `GPGMPoisson::setLambda`. -/
def GPGMPoisson.setLambda (h : Heap) (v : NodeId) (cat : Nat) (pLambda : NodeId) :
    Outcome Heap Unit := setParamSingle h v cat pLambda

/-- The method `GPGMExponential::setLambda`. -/
def GPGMExponential.setLambda (h : Heap) (v : NodeId) (cat : Nat) (pLambda : NodeId) :
    Outcome Heap Unit := setParamSingle h v cat pLambda

/-- The method `GPGMBeta::setAlphaAndBeta`. -/
def GPGMBeta.setAlphaAndBeta (h : Heap) (v : NodeId) (cat : Nat) (pAlpha pBeta : NodeId) :
    Outcome Heap Unit := setParamPair h v cat pAlpha pBeta

/-- The method `GPGMGamma::setAlphaAndBeta`. -/
def GPGMGamma.setAlphaAndBeta (h : Heap) (v : NodeId) (cat : Nat) (pAlpha pBeta : NodeId) :
    Outcome Heap Unit := setParamPair h v cat pAlpha pBeta

/-- Modelled from the spec: the virtual method `isDiscrete` (declared in
GBayesianNetwork.h, which is not among the sources): "discrete subtypes (e.g.
UniformDiscrete, Poisson) round proposals to the nearest integer". -/
def GPGMMetropolisNode.isDiscrete : Kind → Bool
  | .metropolis .uniformDiscrete => true
  | .metropolis .poisson => true
  | _ => false

/-- The loop over the children in `GPGMMetropolisNode::gibbs`; `h` is the heap
on entry of `gibbs`, in which `m_currentMean` is set to `x` around each
evaluation of a child. -/
def GPGMMetropolisNode.gibbsKids (lm : Libm) (h : Heap) (v : NodeId) (x : ℚ) :
    List NodeId → ℚ → Outcome Heap ℚ
  | [], logSum => .ok logSum h
  | pChildNode :: rest, logSum =>
    let h1 := h.put v { h v with m_currentMean := x }
    match GPGMVariable.likelihood lm h1 pChildNode (GPGMNode.currentValue h1 pChildNode) with
    | .ok l =>
      let d := lm.log l
      if d ≥ MIN_LOG_PROB then
        GPGMMetropolisNode.gibbsKids lm h v x rest (logSum + d)
      else
        .ok MIN_LOG_PROB h
    | .thrown => .thrown h1
    | .undefined => .undefined

/-- The method `GPGMMetropolisNode::gibbs`. -/
def GPGMMetropolisNode.gibbs (lm : Libm) (h : Heap) (v : NodeId) (x : ℚ) : Outcome Heap ℚ :=
  match GPGMVariable.likelihood lm h v x with
  | .ok l =>
    let logSum := lm.log l
    if logSum ≥ MIN_LOG_PROB then
      GPGMMetropolisNode.gibbsKids lm h v x (h v).m_children logSum
    else
      .ok MIN_LOG_PROB h
  | .thrown => .thrown h
  | .undefined => .undefined

/-- The candidate of `GPGMMetropolisNode::metropolis` for the normal draw `z`. -/
def GPGMMetropolisNode.candidate (n : GPGMNode) (z : ℚ) : ℚ :=
  let dCandidateValue := z * n.m_currentDeviation + n.m_currentMean
  if GPGMMetropolisNode.isDiscrete n.kind then
    ((Int.floor (dCandidateValue + 1 / 2) : ℤ) : ℚ)
  else
    dCandidateValue

/-- The method `GPGMMetropolisNode::metropolis`. -/
def GPGMMetropolisNode.metropolis (lm : Libm) (h : Heap) (pRand : GRand) (v : NodeId) :
    Outcome (Heap × GRand) Bool :=
  let (z, r1) := pRand.normal
  let dCandidateValue := GPGMMetropolisNode.candidate (h v) z
  if dCandidateValue = (h v).m_currentMean then
    .ok false (h, r1)
  else
    match GPGMMetropolisNode.gibbs lm h v dCandidateValue with
    | .ok cand _ =>
      if cand ≥ MIN_LOG_PROB then
        match GPGMMetropolisNode.gibbs lm h v (h v).m_currentMean with
        | .ok curr _ =>
          if curr ≥ MIN_LOG_PROB then
            let (u, r2) := r1.uniform
            if lm.log u < cand - curr then
              .ok true (h.put v { h v with m_currentMean := dCandidateValue }, r2)
            else
              .ok false (h, r2)
          else
            .ok false (h, r1)
        | .thrown h1 => .thrown (h1, r1)
        | .undefined => .undefined
      else
        .ok false (h, r1)
    | .thrown h1 => .thrown (h1, r1)
    | .undefined => .undefined

/-- The body of `if(metropolis(pRand)) { ... }` in `GPGMMetropolisNode::sample`:
the counter of accepted proposals is incremented, and at 10 the deviation is
recomputed and the counter reset. The sums and the variance are exact here; for
their rounding on `double`s see `Fp.GPGMMetropolisNode.onAccepted`. -/
def GPGMMetropolisNode.onAccepted (lm : Libm) (n : GPGMNode) : GPGMNode :=
  if n.m_nNewValues + 1 ≥ 10 then
    let dMean := n.m_sumOfValues / n.m_nSamples
    { n with
      m_currentDeviation := lm.sqrt (n.m_sumOfSquaredValues / n.m_nSamples - dMean * dMean),
      m_nNewValues := 0 }
  else
    { n with m_nNewValues := n.m_nNewValues + 1 }

/-- The last statement of `GPGMMetropolisNode::sample`: the running sums are
updated while `m_nSamples < 0xffffffff`. -/
def GPGMMetropolisNode.accumulate (n : GPGMNode) : GPGMNode :=
  if n.m_nSamples < 0xffffffff then
    { n with
      m_sumOfValues := n.m_sumOfValues + n.m_currentMean,
      m_sumOfSquaredValues := n.m_sumOfSquaredValues + n.m_currentMean * n.m_currentMean,
      m_nSamples := n.m_nSamples + 1 }
  else
    n

/-- The method `GPGMMetropolisNode::sample`. -/
def GPGMMetropolisNode.sample (lm : Libm) (h : Heap) (pRand : GRand) (v : NodeId) :
    Outcome (Heap × GRand) Unit :=
  match GPGMMetropolisNode.metropolis lm h pRand v with
  | .ok accepted (h1, r1) =>
    let h2 := if accepted then h1.put v (GPGMMetropolisNode.onAccepted lm (h1 v)) else h1
    .ok () (h2.put v (GPGMMetropolisNode.accumulate (h2 v)), r1)
  | .thrown s => .thrown s
  | .undefined => .undefined

/-- The statement `m_val = i` on the node at `v`. -/
def setVal (h : Heap) (v : NodeId) (x : ℚ) : Heap :=
  h.put v { h v with m_val := x }

/-- The inner loop of `GPGMCategorical::sample` over the children: `catProb` is
multiplied by the likelihood of every child, each evaluated while `m_val` is
set to `i`. -/
def GPGMCategorical.blanket (lm : Libm) (h : Heap) (v : NodeId) (i : Nat) :
    List NodeId → ℚ → Res ℚ
  | [], catProb => .ok catProb
  | pChildNode :: rest, catProb =>
    let h1 := setVal h v i
    match GPGMVariable.likelihood lm h1 pChildNode (GPGMNode.currentValue h1 pChildNode) with
    | .ok l => GPGMCategorical.blanket lm h v i rest (catProb * l)
    | .thrown => .thrown
    | .undefined => .undefined

/-- The body `catProb` of both loops of `GPGMCategorical::sample` for the
category `i`: the weight `m_weights[base + i]->currentValue()` times the
likelihoods of the children. -/
def GPGMCategorical.catProb (lm : Libm) (h : Heap) (v : NodeId) (base i : Nat) : Res ℚ :=
  match vecAt (h v).m_weights (sizeAdd base i) with
  | .ok w =>
    GPGMCategorical.blanket lm h v i (h v).m_children (GPGMNode.currentValue h w)
  | .thrown => .thrown
  | .undefined => .undefined

/-- The first loop of `GPGMCategorical::sample`: `sumProb` over the categories
`0 .. n - 1`.  A throw inside the evaluation of a child leaves `m_val` at the
category being tried. -/
def GPGMCategorical.sumProb (lm : Libm) (h : Heap) (v : NodeId) (base : Nat) :
    Nat → Outcome Heap ℚ
  | 0 => .ok 0 h
  | n + 1 =>
    match GPGMCategorical.sumProb lm h v base n with
    | .ok sumProb _ =>
      match GPGMCategorical.catProb lm h v base n with
      | .ok catProb => .ok (sumProb + catProb) h
      | .thrown => .thrown (setVal h v n)
      | .undefined => .undefined
    | .thrown h1 => .thrown h1
    | .undefined => .undefined

/-- The second loop of `GPGMCategorical::sample`, from category `i` on with
`remaining` categories to go: `m_val` is set to each category in turn until the
running sum `sumProb2` reaches `uni`. -/
def GPGMCategorical.pick (lm : Libm) (v : NodeId) (base : Nat) (sumProb uni : ℚ) :
    Nat → Nat → Heap → ℚ → Outcome Heap Unit
  | 0, _, h, _ => .ok () h
  | remaining + 1, i, h, sumProb2 =>
    match GPGMCategorical.catProb lm h v base i with
    | .ok catProb =>
      if sumProb2 + catProb / sumProb ≥ uni then
        .ok () (setVal h v i)
      else
        GPGMCategorical.pick lm v base sumProb uni remaining (i + 1) (setVal h v i)
          (sumProb2 + catProb / sumProb)
    | .thrown => .thrown (setVal h v i)
    | .undefined => .undefined

/-- The method `GPGMCategorical::sample`. -/
def GPGMCategorical.sample (lm : Libm) (h : Heap) (pRand : GRand) (v : NodeId) :
    Outcome (Heap × GRand) Unit :=
  if (h v).m_observed then
    .ok () (h, pRand)
  else
    match GPGMVariable.currentCatIndex h v with
    | .ok ind =>
      let base := sizeMul (h v).m_categories ind
      match GPGMCategorical.sumProb lm h v base (h v).m_categories with
      | .ok sumProb _ =>
        let (uni, r1) := pRand.uniform
        match GPGMCategorical.pick lm v base sumProb uni (h v).m_categories 0 h 0 with
        | .ok _ h1 => .ok () (h1, r1)
        | .thrown h1 => .thrown (h1, r1)
        | .undefined => .undefined
      | .thrown h1 => .thrown (h1, pRand)
      | .undefined => .undefined
    | .thrown => .thrown (h, pRand)
    | .undefined => .undefined

/-- The virtual call `p->sample(pRand)`.  A `GPGMConstant` is not a
`GPGMVariable` of the registry and is never sampled; on one the call does
nothing. -/
def GPGMVariable.sample (lm : Libm) (h : Heap) (pRand : GRand) (p : NodeId) :
    Outcome (Heap × GRand) Unit :=
  match (h p).kind with
  | .constant => .ok () (h, pRand)
  | .categorical => GPGMCategorical.sample lm h pRand p
  | .metropolis _ => GPGMMetropolisNode.sample lm h pRand p

/-- A sequence of calls `p->sample(pRand)`, one for each element of the list in
turn; a throw ends the sequence. -/
def sampleAll (lm : Libm) : List NodeId → Heap → GRand → Outcome (Heap × GRand) Unit
  | [], h, pRand => .ok () (h, pRand)
  | p :: rest, h, pRand =>
    match GPGMVariable.sample lm h pRand p with
    | .ok _ (h1, r1) => sampleAll lm rest h1 r1
    | .thrown s => .thrown s
    | .undefined => .undefined

/-- The network: the arena (`m_heap`, with the number of nodes placed in it),
the registry of the sampled variables, the built-in constant and the random
source. -/
structure GBayesNet where
  m_heap : Heap
  allocated : Nat
  m_sampleNodes : List NodeId
  m_pConstOne : NodeId
  m_rand : GRand

/-- The pair `m_heap.allocAligned(...)` and placement `new`: the node is stored
at the next free address. -/
def GBayesNet.place (bn : GBayesNet) (n : GPGMNode) : NodeId × GBayesNet :=
  (bn.allocated,
    { bn with m_heap := bn.m_heap.put bn.allocated n, allocated := bn.allocated + 1 })

/-- The method `GBayesNet::newConst`. -/
def GBayesNet.newConst (bn : GBayesNet) (val : ℚ) : NodeId × GBayesNet :=
  bn.place (GPGMConstant.construct val)

/-- The constructor `GBayesNet::GBayesNet`; the random source stands for the
one the seed initialises. -/
def GBayesNet.construct (rand : GRand) : GBayesNet :=
  let bn : GBayesNet :=
    { m_heap := fun _ => GPGMNode.construct .constant, allocated := 0, m_sampleNodes := [],
      m_pConstOne := 0, m_rand := rand }
  { (bn.newConst 1).2 with m_pConstOne := (bn.newConst 1).1 }

/-- The accessor `GBayesNet::def`, the built-in constant 1. -/
def GBayesNet.def (bn : GBayesNet) : NodeId := bn.m_pConstOne

/-- The method `GBayesNet::newCat`.  When the constructor throws, the memory has
been taken from the arena and nothing else has happened. -/
def GBayesNet.newCat (bn : GBayesNet) (categories : Nat) : Outcome GBayesNet NodeId :=
  match GPGMCategorical.construct categories bn.m_pConstOne with
  | .ok n =>
    .ok (bn.place n).1
      { (bn.place n).2 with m_sampleNodes := (bn.place n).2.m_sampleNodes ++ [(bn.place n).1] }
  | .thrown => .thrown { bn with allocated := bn.allocated + 1 }
  | .undefined => .undefined

/-- The methods `GBayesNet::newNormal`, ..., `GBayesNet::newGamma`, which share
one body: the node is constructed in the arena with the built-in constant as
default parameter and appended to the registry. -/
def GBayesNet.newVariable (bn : GBayesNet) (fam : Family) (priorMean priorDev : ℚ) :
    NodeId × GBayesNet :=
  let r := bn.place (fam.construct priorMean priorDev bn.m_pConstOne)
  (r.1, { r.2 with m_sampleNodes := r.2.m_sampleNodes ++ [r.1] })

/-- The method `GBayesNet::newNormal`. -/
def GBayesNet.newNormal (bn : GBayesNet) (priorMean priorDev : ℚ) : NodeId × GBayesNet :=
  bn.newVariable .normal priorMean priorDev

/-- The method `GBayesNet::newLogNormal`. -/
def GBayesNet.newLogNormal (bn : GBayesNet) (priorMean priorDev : ℚ) : NodeId × GBayesNet :=
  bn.newVariable .logNormal priorMean priorDev

/-- The method `GBayesNet::newPareto`. -/
def GBayesNet.newPareto (bn : GBayesNet) (priorMean priorDev : ℚ) : NodeId × GBayesNet :=
  bn.newVariable .pareto priorMean priorDev

/-- The method `GBayesNet::newUniformDiscrete`. -/
def GBayesNet.newUniformDiscrete (bn : GBayesNet) (priorMean priorDev : ℚ) :
    NodeId × GBayesNet :=
  bn.newVariable .uniformDiscrete priorMean priorDev

/-- The method `GBayesNet::newUniformContinuous`. -/
def GBayesNet.newUniformContinuous (bn : GBayesNet) (priorMean priorDev : ℚ) :
    NodeId × GBayesNet :=
  bn.newVariable .uniformContinuous priorMean priorDev

/-- The method `GBayesNet::newPoisson`. -/
def GBayesNet.newPoisson (bn : GBayesNet) (priorMean priorDev : ℚ) : NodeId × GBayesNet :=
  bn.newVariable .poisson priorMean priorDev

/-- The method `GBayesNet::newExponential`. -/
def GBayesNet.newExponential (bn : GBayesNet) (priorMean priorDev : ℚ) : NodeId × GBayesNet :=
  bn.newVariable .exponential priorMean priorDev

/-- The method `GBayesNet::newBeta`. -/
def GBayesNet.newBeta (bn : GBayesNet) (priorMean priorDev : ℚ) : NodeId × GBayesNet :=
  bn.newVariable .beta priorMean priorDev

/-- The method `GBayesNet::newGamma`. -/
def GBayesNet.newGamma (bn : GBayesNet) (priorMean priorDev : ℚ)
    (useScaleInsteadOfRate : Bool) : NodeId × GBayesNet :=
  bn.newVariable (.gamma useScaleInsteadOfRate) priorMean priorDev

/-- The method `GBayesNet::sample`: one sweep over the registry. -/
def GBayesNet.sample (lm : Libm) (bn : GBayesNet) : Outcome GBayesNet Unit :=
  match sampleAll lm bn.m_sampleNodes bn.m_heap bn.m_rand with
  | .ok _ (h, r) => .ok () { bn with m_heap := h, m_rand := r }
  | .thrown (h, r) => .thrown { bn with m_heap := h, m_rand := r }
  | .undefined => .undefined

/-- Repeated sweeps `bn.sample()`; a throw ends the sequence. -/
def GBayesNet.sweeps (lm : Libm) : Nat → GBayesNet → Outcome GBayesNet Unit
  | 0, bn => .ok () bn
  | n + 1, bn =>
    match GBayesNet.sample lm bn with
    | .ok _ bn1 => GBayesNet.sweeps lm n bn1
    | .thrown bn1 => .thrown bn1
    | .undefined => .undefined

/-! ### The networks of the tests, for examples -/

/-- The state an outcome leaves behind, or `d` when it leaves none. -/
def Outcome.stateD {σ α : Type} (d : σ) : Outcome σ α → σ
  | .ok _ s => s
  | .thrown s => s
  | .undefined => d

/-- A call of a method of a node of the network: the heap of the network is
replaced by the one the call leaves behind. -/
def GBayesNet.call (bn : GBayesNet) (f : Heap → Outcome Heap Unit) : GBayesNet :=
  { bn with m_heap := (f bn.m_heap).stateD bn.m_heap }

/-- Rational stand-ins for the library functions, for evaluating the
definitions on examples. -/
def exampleLibm : Libm :=
  { log := fun x => x - 1, exp := fun x => 1 / (1 - x), sqrt := fun x => (x + 1) / 2,
    pow := fun x _ => x, gamma := fun _ => 1 }

/-- A random source for examples: every uniform draw is 1/2 and the normal
draws alternate between 0 and 1. -/
def exampleRand : GRand :=
  { drawn := 0, uniformAt := fun _ => 1 / 2, normalAt := fun n => if n % 2 = 0 then 0 else 1 }

/-- The graph of `GBayesNet_simpleTest`, as it is before
`pChild->setObserved(1.0)`.  Addresses: 0 the built-in constant, 1 `pPar`, 2 and
3 its weights, 4 `pChild`, 5 to 8 the means and deviations. -/
def simpleTestGraph (rand : GRand) : GBayesNet :=
  let bn := GBayesNet.construct rand
  let bn := (bn.newCat 2).stateD bn
  let bn := (bn.newConst (2 / 5)).2
  let bn := (bn.newConst (3 / 5)).2
  let bn := bn.call (fun h => GPGMCategorical.setWeights h 1 0 2 3 none none none none none none)
  let bn := (bn.newNormal 1 3).2
  let bn := { bn with m_heap := GPGMNormal.addCatParent bn.m_heap 4 1 bn.def }
  let bn := (bn.newConst 0).2
  let bn := (bn.newConst 1).2
  let bn := bn.call (fun h => GPGMNormal.setMeanAndDev h 4 0 5 6)
  let bn := (bn.newConst 3).2
  let bn := (bn.newConst 2).2
  bn.call (fun h => GPGMNormal.setMeanAndDev h 4 1 7 8)

/-- The network of `GBayesNet_simpleTest` as it is before the first sweep:
the child is observed at 1. -/
def simpleTest (rand : GRand) : GBayesNet :=
  { simpleTestGraph rand with m_heap := GPGMNode.setObserved (simpleTestGraph rand).m_heap 4 1 }

/-- The statement `p->setWeights(cat, bn.newConst(w1), bn.newConst(w2))` of the
tests: two constants are allocated and made the weights of the row `cat`. -/
def GBayesNet.setRow (bn : GBayesNet) (p : NodeId) (cat : Nat) (w1 w2 : ℚ) : GBayesNet :=
  ((bn.newConst w1).2.newConst w2).2.call (fun h =>
    GPGMCategorical.setWeights h p cat (bn.newConst w1).1 ((bn.newConst w1).2.newConst w2).1
      none none none none none none)

/-- The statements `p = bn.newCat(2); p->addCatParent(parent, bn.def())` of the
tests. -/
def GBayesNet.newCatWithParents (bn : GBayesNet) (parents : List NodeId) : GBayesNet :=
  parents.foldl
    (fun b parent =>
      { b with m_heap := GPGMCategorical.addCatParent b.m_heap bn.allocated parent b.def })
    ((bn.newCat 2).stateD bn)

/-- The network of `GBayesNet_alarmTest`, first part: `pBurglary` (address 1)
and `pEarthquake` (address 4) with their weights. -/
def alarmTestCauses (rand : GRand) : GBayesNet :=
  ((((GBayesNet.construct rand).newCatWithParents []).setRow 1 0 (1 / 1000) (999 / 1000)
    ).newCatWithParents []).setRow 4 0 (2 / 1000) (998 / 1000)

/-- The network of `GBayesNet_alarmTest`, second part: `pAlarm` (address 7) with
its two parents and four rows of weights. -/
def alarmTestAlarm (rand : GRand) : GBayesNet :=
  (((((alarmTestCauses rand).newCatWithParents [1, 4]).setRow 7 0 (95 / 100) (5 / 100)
    ).setRow 7 1 (29 / 100) (71 / 100)).setRow 7 2 (94 / 100) (6 / 100)
    ).setRow 7 3 (1 / 1000) (999 / 1000)

/-- The graph of `GBayesNet_alarmTest`, as it is before the two observations.
Addresses: 0 the built-in constant, 1 `pBurglary`, 4 `pEarthquake`, 7 `pAlarm`,
16 `pJohnCalls`, 21 `pMaryCalls`; the other addresses hold the weights. -/
def alarmTestGraph (rand : GRand) : GBayesNet :=
  ((((((alarmTestAlarm rand).newCatWithParents [7]).setRow 16 0 (9 / 10) (1 / 10)
    ).setRow 16 1 (5 / 100) (95 / 100)).newCatWithParents [7]).setRow 21 0 (7 / 10) (3 / 10)
    ).setRow 21 1 (1 / 100) (99 / 100)

/-- The network of `GBayesNet_alarmTest` as it is before the first sweep:
`pJohnCalls` and `pMaryCalls` are observed at 0. -/
def alarmTest (rand : GRand) : GBayesNet :=
  { alarmTestGraph rand with
    m_heap := GPGMNode.setObserved
      (GPGMNode.setObserved (alarmTestGraph rand).m_heap 16 0) 21 0 }

/-- A network with two Categorical variables of `2 ^ 32` categories each
(addresses 1 and 2) that are the parents of a Poisson variable (address 3). -/
def wideParents (rand : GRand) : GBayesNet :=
  let bn := GBayesNet.construct rand
  let bn := (bn.newCat (2 ^ 32)).stateD bn
  let bn := (bn.newCat (2 ^ 32)).stateD bn
  let bn := (bn.newPoisson 0 1).2
  let bn := { bn with m_heap := GPGMPoisson.addCatParent bn.m_heap 3 1 bn.def }
  { bn with m_heap := GPGMPoisson.addCatParent bn.m_heap 3 2 bn.def }

/-! ### Notions used in the statements -/

/-- The mixed-radix sum `Σ_j vals[j] * Π_{i<j} cats[i]`: the digit `vals[0]` is
the least significant one. -/
def radixSum {R : Type} [CommSemiring R] (vals : List R) (cats : List Nat) : R :=
  ∑ j in Finset.range vals.length, vals.getD j 0 * ∏ i in Finset.range j, (cats.getD i 1 : R)

/-- The weights that `setWeights` takes from its optional arguments: those
before the first null one. -/
def leadingNodes : List (Option NodeId) → List NodeId
  | some pW :: rest => pW :: leadingNodes rest
  | _ => []

/-- A node with its three tables (children, weights, parameters) emptied: what
the setters never touch. -/
def GPGMNode.shell (n : GPGMNode) : GPGMNode :=
  { n with m_children := [], m_weights := [], m_params := [] }

/-- A network with one Categorical of three categories (address 1) and three
constants (addresses 2, 3 and 4). -/
def threeCategories (rand : GRand) : GBayesNet :=
  let bn := GBayesNet.construct rand
  let bn := (bn.newCat 3).stateD bn
  let bn := (bn.newConst (1 / 2)).2
  let bn := (bn.newConst (1 / 4)).2
  (bn.newConst (1 / 4)).2


/-- The writes of one row: the nodes of the list go to the consecutive
`size_t` indices `base + start`, `base + start + 1`, ... -/
def rowWrites (base : Nat) : Nat → List NodeId → List (Nat × NodeId)
  | _, [] => []
  | start, pW :: rest => (sizeAdd base start, pW) :: rowWrites base (start + 1) rest

/-- A sequence of statements `m_weights[i] = pW; pW->onNewChild(this);` on the
node `v`, one for each pair of the list in turn. -/
def writeAll (v : NodeId) : List (Nat × NodeId) → Heap → Option Heap
  | [], h => some h
  | (i, pW) :: rest, h =>
    match assignWeight h v i pW with
    | some h1 => writeAll v rest h1
    | none => none

/-- The effect of a sequence of writes into the weight table of `v`: `h1` is
`h` with the weights of `v` overwritten at the listed indices and with `v`
appended to the children of every node written, once for each write. -/
def Wrote (v : NodeId) (h h1 : Heap) (writes : List (Nat × NodeId)) : Prop :=
  (∀ q, (h1 q).shell = (h q).shell) ∧
  (∀ q, (h1 q).m_params = (h q).m_params) ∧
  (∀ q, (h1 q).m_children
    = (h q).m_children ++ List.replicate ((writes.map Prod.snd).count q) v) ∧
  (h1 v).m_weights = writes.foldl (fun l iw => l.set iw.1 iw.2) (h v).m_weights ∧
  (∀ q, q ≠ v → (h1 q).m_weights = (h q).m_weights) ∧
  (∀ iw ∈ writes, iw.1 < (h v).m_weights.length)

/-- Two heaps with the same dynamic types and the same observations. -/
def ObsEq (h h1 : Heap) : Prop :=
  ∀ q, (h1 q).kind = (h q).kind ∧ (h1 q).m_observed = (h q).m_observed ∧
    (h1 q).m_observedValue = (h q).m_observedValue

/-! ### Further notions and examples for the sampling steps -/

/-- The value an outcome returns, when it returns normally. -/
def Outcome.value? {σ α : Type} : Outcome σ α → Option α
  | .ok a _ => some a
  | _ => none

/-- Stand-ins as `exampleLibm`, but with a logarithm that is below the floor
`MIN_LOG_PROB` on the numbers that are not positive, where `log` of the C
library gives minus infinity or a NaN. -/
def floorLibm : Libm :=
  { exampleLibm with log := fun x => if x ≤ 0 then -(10 ^ 301) else x - 1 }

/-- A network with one continuous uniform variable on the interval from 0 to 2
(address 1; the bounds are the constants at the addresses 2 and 3) whose prior
mean 5 lies outside of the interval. -/
def uniformOutside (rand : GRand) : GBayesNet :=
  let bn := GBayesNet.construct rand
  let bn := (bn.newUniformContinuous 5 1).2
  let bn := (bn.newConst 0).2
  let bn := (bn.newConst 2).2
  bn.call (fun h => GPGMUniformContinuous.setMinAndMax h 1 0 2 3)

/-- A network with two Normal variables: the one at the address 2 has the one
at the address 1 as its mean and the built-in constant as its deviation. -/
def normalChain (rand : GRand) : GBayesNet :=
  let bn := GBayesNet.construct rand
  let bn := (bn.newNormal 0 1).2
  let bn := (bn.newNormal 0 1).2
  bn.call (fun h => GPGMNormal.setMeanAndDev h 2 0 1 0)

/-- A relation between the record of a node before and after that every store
of the sample paths keeps: the stores of `m_val` and of `m_currentMean`, the
update on an accepted proposal and the update of the running sums. -/
structure SampleStable (lm : Libm) (P : GPGMNode → GPGMNode → Prop) : Prop where
  refl : ∀ n, P n n
  trans : ∀ a b c, P a b → P b c → P a c
  val : ∀ n x, P n { n with m_val := x }
  mean : ∀ n x, P n { n with m_currentMean := x }
  accepted : ∀ n, P n (GPGMMetropolisNode.onAccepted lm n)
  accumulate : ∀ n, P n (GPGMMetropolisNode.accumulate n)

/-- Two heaps whose records are related node by node. -/
def HeapRel (P : GPGMNode → GPGMNode → Prop) (h h1 : Heap) : Prop :=
  ∀ q, P (h q) (h1 q)

/-- The heap of `normalChain` with the first variable in a later state of its
chain: nine accepted proposals since the last recomputation of the deviation,
and four samples with the sum 8 and the sum of squares 28. -/
def normalChainNinth (rand : GRand) : Heap :=
  (normalChain rand).m_heap.put 1
    { (normalChain rand).m_heap 1 with
      m_nNewValues := 9, m_nSamples := 4, m_sumOfValues := 8, m_sumOfSquaredValues := 28 }

/-- The cumulative normalised sum `Σ_{j ≤ i} p_j / S` of the second loop of
`GPGMCategorical::sample`. -/
def cumulative (p : Nat → ℚ) (S : ℚ) (i : Nat) : ℚ :=
  ∑ j in Finset.range (i + 1), p j / S

/-- The category selected among `k` for the probabilities `p`, the normaliser
`S` and the draw `u`: the least `i` whose cumulative normalised sum is at least
`u`, and the last category when there is none. -/
def IsSelected (p : Nat → ℚ) (S u : ℚ) (k sel : Nat) : Prop :=
  (sel < k ∧ u ≤ cumulative p S sel ∧ ∀ j, j < sel → cumulative p S j < u) ∨
  (sel + 1 = k ∧ ∀ j, j < k → cumulative p S j < u)

/-- A network with one Categorical of three categories (address 1) that is the
second weight of its own row: `p->setWeights(0, bn.newConst(0.5), p,
bn.newConst(0.25))`. -/
def selfWeighted (rand : GRand) : GBayesNet :=
  let bn := GBayesNet.construct rand
  let bn := (bn.newCat 3).stateD bn
  let bn := (bn.newConst (1 / 2)).2
  let bn := (bn.newConst (1 / 4)).2
  bn.call (fun h => GPGMCategorical.setWeights h 1 0 2 1 (some 3) none none none none none)

/-- A random source whose uniform draws are all 99/100. -/
def lateRand : GRand :=
  { drawn := 0, uniformAt := fun _ => 99 / 100, normalAt := fun _ => 0 }

/-! ### Building a network and the calls of one sweep -/

/-- A step of building a network: a call of one of the factory methods of
`GBayesNet`, or a call of a method of a node (`setWeights`, `addCatParent`,
`setObserved`, ...), which has the heap of the nodes to work on and nothing
else of the network. -/
inductive BuildStep where
  | newConst (val : ℚ)
  | newCat (categories : Nat)
  | newNormal (priorMean priorDev : ℚ)
  | newLogNormal (priorMean priorDev : ℚ)
  | newPareto (priorMean priorDev : ℚ)
  | newUniformDiscrete (priorMean priorDev : ℚ)
  | newUniformContinuous (priorMean priorDev : ℚ)
  | newPoisson (priorMean priorDev : ℚ)
  | newExponential (priorMean priorDev : ℚ)
  | newBeta (priorMean priorDev : ℚ)
  | newGamma (priorMean priorDev : ℚ) (useScaleInsteadOfRate : Bool)
  | onNode (f : Heap → Outcome Heap Unit)

/-- The step on the network `bn`: the node that the factory method returns, if
it returns one, and the network after the step. -/
def BuildStep.run (bn : GBayesNet) : BuildStep → Option NodeId × GBayesNet
  | .newConst val => (some (bn.newConst val).1, (bn.newConst val).2)
  | .newCat categories =>
    match bn.newCat categories with
    | .ok p bn1 => (some p, bn1)
    | .thrown bn1 => (none, bn1)
    | .undefined => (none, bn)
  | .newNormal m d => (some (bn.newNormal m d).1, (bn.newNormal m d).2)
  | .newLogNormal m d => (some (bn.newLogNormal m d).1, (bn.newLogNormal m d).2)
  | .newPareto m d => (some (bn.newPareto m d).1, (bn.newPareto m d).2)
  | .newUniformDiscrete m d =>
    (some (bn.newUniformDiscrete m d).1, (bn.newUniformDiscrete m d).2)
  | .newUniformContinuous m d =>
    (some (bn.newUniformContinuous m d).1, (bn.newUniformContinuous m d).2)
  | .newPoisson m d => (some (bn.newPoisson m d).1, (bn.newPoisson m d).2)
  | .newExponential m d => (some (bn.newExponential m d).1, (bn.newExponential m d).2)
  | .newBeta m d => (some (bn.newBeta m d).1, (bn.newBeta m d).2)
  | .newGamma m d scale => (some (bn.newGamma m d scale).1, (bn.newGamma m d scale).2)
  | .onNode f => (none, bn.call f)

/-- Whether the step is a call of one of the ten factory methods of variables,
`newCat`, `newNormal`, ..., `newGamma`. -/
def BuildStep.isVariableFactory : BuildStep → Bool
  | .newConst _ => false
  | .onNode _ => false
  | _ => true

/-- The network after a sequence of steps. -/
def buildAll : List BuildStep → GBayesNet → GBayesNet
  | [], bn => bn
  | c :: rest, bn => buildAll rest (c.run bn).2

/-- The variables that the factory methods of variables return in a sequence of
steps, in the order of their creation. -/
def createdVariables : List BuildStep → GBayesNet → List NodeId
  | [], _ => []
  | c :: rest, bn =>
    (if c.isVariableFactory then (c.run bn).1.toList else [])
      ++ createdVariables rest (c.run bn).2

/-- The loop of `GBayesNet::sample` together with a record of its calls
`(*it)->sample(&m_rand)`: the receivers of the calls in the order in which they
are made, and the outcome of the loop.  A call that does not return is the
last one. -/
def sampleAllCalls (lm : Libm) :
    List NodeId → Heap → GRand → List NodeId × Outcome (Heap × GRand) Unit
  | [], h, pRand => ([], .ok () (h, pRand))
  | p :: rest, h, pRand =>
    match GPGMVariable.sample lm h pRand p with
    | .ok _ (h1, r1) =>
      (p :: (sampleAllCalls lm rest h1 r1).1, (sampleAllCalls lm rest h1 r1).2)
    | .thrown s => ([p], .thrown s)
    | .undefined => ([p], .undefined)

/-- The steps that build the network of `GBayesNet_simpleTest`. -/
def simpleTestSteps : List BuildStep :=
  [.newCat 2, .newConst (2 / 5), .newConst (3 / 5),
    .onNode (fun h => GPGMCategorical.setWeights h 1 0 2 3 none none none none none none),
    .newNormal 1 3,
    .onNode (fun h => .ok () (GPGMNormal.addCatParent h 4 1 0)),
    .newConst 0, .newConst 1,
    .onNode (fun h => GPGMNormal.setMeanAndDev h 4 0 5 6),
    .newConst 3, .newConst 2,
    .onNode (fun h => GPGMNormal.setMeanAndDev h 4 1 7 8),
    .onNode (fun h => .ok () (GPGMNode.setObserved h 4 1))]

/-! ### Networks with one distribution each, for examples -/

/-- The statement `p->setMeanAndDev(cat, bn.newConst(a), bn.newConst(b))` of the
tests and its likes for the other two-parameter distributions: two constants
are allocated and made the parameters of the row `cat`. -/
def GBayesNet.setPair (bn : GBayesNet) (p : NodeId) (cat : Nat) (a b : ℚ) : GBayesNet :=
  ((bn.newConst a).2.newConst b).2.call (fun h =>
    setParamPair h p cat (bn.newConst a).1 ((bn.newConst a).2.newConst b).1)

/-- A network with one discrete uniform variable (address 1) with the
parameters `min = 1/2` and `max = 7/2`: its support is 1, 2, 3. -/
def discreteNet (rand : GRand) : GBayesNet :=
  ((GBayesNet.construct rand).newUniformDiscrete 0 1).2.setPair 1 0 (1 / 2) (7 / 2)

/-- A network with one Beta variable (address 1) with `alpha = 2`, `beta = 3`. -/
def betaNet (rand : GRand) : GBayesNet :=
  ((GBayesNet.construct rand).newBeta (1 / 2) 1).2.setPair 1 0 2 3

/-- A network with one Gamma variable (address 1) constructed with the scale
flag, with `alpha = 2` and the second parameter 4. -/
def gammaScaleNet (rand : GRand) : GBayesNet :=
  ((GBayesNet.construct rand).newGamma 1 1 true).2.setPair 1 0 2 4

/-- A network with one Gamma variable (address 1) constructed without the scale
flag, with `alpha = 2` and the second parameter 1/4. -/
def gammaRateNet (rand : GRand) : GBayesNet :=
  ((GBayesNet.construct rand).newGamma 1 1 false).2.setPair 1 0 2 (1 / 4)

/-! ### Calls that change the graph, and the sizes of the tables -/

/-- The call `v->addCatParent(pNode, pDefaultVal)` on a node of any class: the
method of the class of `v`.  A `GPGMConstant` has no such method. -/
def GPGMVariable.addCatParent (h : Heap) (v pNode pDefaultVal : NodeId) : Outcome Heap Unit :=
  match (h v).kind with
  | .constant => .undefined
  | .categorical => .ok () (GPGMCategorical.addCatParent h v pNode pDefaultVal)
  | .metropolis fam => .ok () (addCatParentParams fam.slots h v pNode pDefaultVal)

/-- A call of a method of a node: `addCatParent`, `setWeights`, a setter of two
parameters (`setMeanAndDev`, `setAlphaAndM`, `setMinAndMax`, `setAlphaAndBeta`),
a setter of one parameter (`setLambda`), or `setObserved`. -/
inductive NodeCall where
  | addCatParent (v pNode pDefaultVal : NodeId)
  | setWeights (v : NodeId) (cat : Nat) (pW1 pW2 : NodeId)
      (pW3 pW4 pW5 pW6 pW7 pW8 : Option NodeId)
  | setPair (v : NodeId) (cat : Nat) (p1 p2 : NodeId)
  | setSingle (v : NodeId) (cat : Nat) (pLambda : NodeId)
  | setObserved (v : NodeId) (x : ℚ)

/-- The call on the heap `h`.  A method that the class of the receiver does not
have is not defined. -/
def NodeCall.run : NodeCall → Heap → Outcome Heap Unit
  | .addCatParent v pNode pDefaultVal, h => GPGMVariable.addCatParent h v pNode pDefaultVal
  | .setWeights v cat pW1 pW2 pW3 pW4 pW5 pW6 pW7 pW8, h =>
    match (h v).kind with
    | .categorical => GPGMCategorical.setWeights h v cat pW1 pW2 pW3 pW4 pW5 pW6 pW7 pW8
    | _ => .undefined
  | .setPair v cat p1 p2, h =>
    match (h v).kind with
    | .metropolis fam => if fam.slots = 2 then setParamPair h v cat p1 p2 else .undefined
    | _ => .undefined
  | .setSingle v cat pLambda, h =>
    match (h v).kind with
    | .metropolis fam => if fam.slots = 1 then setParamSingle h v cat pLambda else .undefined
    | _ => .undefined
  | .setObserved v x, h => .ok () (GPGMNode.setObserved h v x)

/-- The nodes that `addCatParent` is given: they are nodes of the network. -/
def NodeCall.Valid (bn : GBayesNet) : NodeCall → Prop
  | .addCatParent v pNode _ => v < bn.allocated ∧ pNode < bn.allocated
  | _ => True

/-- The step is a call of a factory method, with a `size_t` for the number of
categories, or a call of a method of a node. -/
def BuildStep.IsGraphStep (bn : GBayesNet) : BuildStep → Prop
  | .onNode f => ∃ c : NodeCall, c.Valid bn ∧ f = c.run
  | .newCat categories => categories < SIZE_MOD
  | _ => True

/-- Every step of the sequence is a factory call or a call of a method of a
node. -/
def GraphSteps : List BuildStep → GBayesNet → Prop
  | [], _ => True
  | c :: rest, bn => c.IsGraphStep bn ∧ GraphSteps rest (c.run bn).2

/-- The tables of every node have the sizes of the specification: the weight
table of a Categorical `categories * catCount()` entries, the parameter table
of a distribution `slots * catCount()` entries, the products being those of
`size_t`. -/
def TablesSized (h : Heap) : Prop :=
  ∀ v, ((h v).kind = .categorical →
      (h v).m_weights.length = sizeMul (h v).m_categories (GPGMVariable.catCount h v)) ∧
    (∀ fam, (h v).kind = .metropolis fam →
      (h v).m_params.length = sizeMul fam.slots (GPGMVariable.catCount h v))

/-- Two heaps whose nodes have the same classes, numbers of categories and
categorical parents, and tables of the same lengths. -/
def SameSizing (h h1 : Heap) : Prop :=
  ∀ q, (h1 q).kind = (h q).kind ∧ (h1 q).m_categories = (h q).m_categories ∧
    (h1 q).m_catParents = (h q).m_catParents ∧
    (h1 q).m_weights.length = (h q).m_weights.length ∧
    (h1 q).m_params.length = (h q).m_params.length

/-- The steps that build the graph of `GBayesNet_simpleTest`. -/
def simpleTestGraphSteps : List BuildStep :=
  [.newCat 2, .newConst (2 / 5), .newConst (3 / 5),
    .onNode (NodeCall.run (.setWeights 1 0 2 3 none none none none none none)),
    .newNormal 1 3,
    .onNode (NodeCall.run (.addCatParent 4 1 0)),
    .newConst 0, .newConst 1,
    .onNode (NodeCall.run (.setPair 4 0 5 6)),
    .newConst 3, .newConst 2,
    .onNode (NodeCall.run (.setPair 4 1 7 8)),
    .onNode (NodeCall.run (.setObserved 4 1))]

/-- The network `wideParents` before the second call of `addCatParent`. -/
def wideParentsFirst (rand : GRand) : GBayesNet :=
  let bn := GBayesNet.construct rand
  let bn := (bn.newCat (2 ^ 32)).stateD bn
  let bn := (bn.newCat (2 ^ 32)).stateD bn
  let bn := (bn.newPoisson 0 1).2
  { bn with m_heap := GPGMPoisson.addCatParent bn.m_heap 3 1 bn.def }

/-! ### The graph of a network, which sampling does not change -/

/-- The part of a node that no `sample` writes: the node with its value, its
mean and deviation and its running statistics blanked. -/
def GPGMNode.frame (n : GPGMNode) : GPGMNode :=
  { n with
    m_val := 0, m_currentMean := 0, m_currentDeviation := 0, m_nSamples := 0,
    m_nNewValues := 0, m_sumOfValues := 0, m_sumOfSquaredValues := 0 }

/-- Two heaps that differ in values, means, deviations and statistics only. -/
def SameGraph (h h1 : Heap) : Prop := ∀ q, (h1 q).frame = (h q).frame

/-- Two heaps with the same graph in which every node has the same current
value. -/
def Agree (h h1 : Heap) : Prop :=
  SameGraph h h1 ∧ ∀ q, GPGMNode.currentValue h1 q = GPGMNode.currentValue h q

/-- A node whose current value no `sample` changes: a constant or an observed
node. -/
def GPGMNode.pinned (n : GPGMNode) : Bool :=
  decide (n.kind = .constant) || n.m_observed

/-- The network with its random source in the state `rand`. -/
def GBayesNet.withRand (bn : GBayesNet) (rand : GRand) : GBayesNet :=
  { bn with m_rand := rand }

/-- The steps that build the network of `GBayesNet_threeTest`.  Addresses: 1
`pA`, 4 `pB`, 9 `pC`; the other addresses hold the weights. -/
def threeTestSteps : List BuildStep :=
  [.newCat 2, .newConst (2 / 5), .newConst (3 / 5),
    .onNode (NodeCall.run (.setWeights 1 0 2 3 none none none none none none)),
    .newCat 2,
    .onNode (NodeCall.run (.addCatParent 4 1 0)),
    .newConst (2 / 3), .newConst (1 / 3),
    .onNode (NodeCall.run (.setWeights 4 0 5 6 none none none none none none)),
    .newConst (3 / 7), .newConst (4 / 7),
    .onNode (NodeCall.run (.setWeights 4 1 7 8 none none none none none none)),
    .newCat 2,
    .onNode (NodeCall.run (.addCatParent 9 4 0)),
    .newConst (1 / 2), .newConst (1 / 2),
    .onNode (NodeCall.run (.setWeights 9 0 10 11 none none none none none none)),
    .newConst (1 / 3), .newConst (2 / 3),
    .onNode (NodeCall.run (.setWeights 9 1 12 13 none none none none none none)),
    .onNode (NodeCall.run (.setObserved 1 0)),
    .onNode (NodeCall.run (.setObserved 9 0))]

/-- The network of `GBayesNet_threeTest` as it is before the first sweep. -/
def threeTest (rand : GRand) : GBayesNet :=
  buildAll threeTestSteps (GBayesNet.construct rand)

/-! ### Further examples for the setters -/

/-- A network with one Categorical of nine categories (address 1) and eight
constants (addresses 2 to 9). -/
def nineCategories (rand : GRand) : GBayesNet :=
  let bn := GBayesNet.construct rand
  let bn := (bn.newCat 9).stateD bn
  let bn := (bn.newConst (1 / 9)).2
  let bn := (bn.newConst (1 / 9)).2
  let bn := (bn.newConst (1 / 9)).2
  let bn := (bn.newConst (1 / 9)).2
  let bn := (bn.newConst (1 / 9)).2
  let bn := (bn.newConst (1 / 9)).2
  let bn := (bn.newConst (1 / 9)).2
  (bn.newConst (1 / 9)).2

/-! ### The children that the calls register -/

/-- The receiver `v` of a call `v->method(...)`. -/
def NodeCall.receiver : NodeCall → NodeId
  | .addCatParent v _ _ => v
  | .setWeights v _ _ _ _ _ _ _ _ _ => v
  | .setPair v _ _ _ => v
  | .setSingle v _ _ => v
  | .setObserved v _ => v

/-- The nodes on which a call that returns has called `onNewChild(this)`, with
one entry for each of these calls: the new parent for `addCatParent`, the
weights given for `setWeights`, the parameters for a setter. -/
def NodeCall.registered : NodeCall → List NodeId
  | .addCatParent _ pNode _ => [pNode]
  | .setWeights _ _ pW1 pW2 pW3 pW4 pW5 pW6 pW7 pW8 =>
    pW1 :: pW2 :: leadingNodes [pW3, pW4, pW5, pW6, pW7, pW8]
  | .setPair _ _ p1 p2 => [p1, p2]
  | .setSingle _ _ pLambda => [pLambda]
  | .setObserved _ _ => []

/-- A sequence of calls of methods of nodes, one after the other; a call that
throws ends the sequence. -/
def runCalls : List NodeCall → Heap → Outcome Heap Unit
  | [], h => .ok () h
  | c :: rest, h =>
    match c.run h with
    | .ok _ h1 => runCalls rest h1
    | .thrown s => .thrown s
    | .undefined => .undefined

/-- The number of times the calls of the sequence with the receiver `v` have
called `q->onNewChild(v)`, if they all return. -/
def registrations (cs : List NodeCall) (q v : NodeId) : Nat :=
  (cs.map (fun c => if c.receiver = v then c.registered.count q else 0)).sum

/-- A network with two Normal variables: the one at the address 2 has the one
at the address 1 both as its mean and as its deviation,
`p2->setMeanAndDev(0, p1, p1)`. -/
def sharedParameter (rand : GRand) : GBayesNet :=
  let bn := GBayesNet.construct rand
  let bn := (bn.newNormal 1 1).2
  let bn := (bn.newNormal 0 1).2
  bn.call (fun h => GPGMNormal.setMeanAndDev h 2 0 1 1)

/-- A network with two Categorical variables of `2 ^ 32` categories each
(addresses 1 and 2) and a Categorical variable of two categories (address 3)
that has the first of them as its parent. -/
def wideCategoricalFirst (rand : GRand) : GBayesNet :=
  let bn := GBayesNet.construct rand
  let bn := (bn.newCat (2 ^ 32)).stateD bn
  let bn := (bn.newCat (2 ^ 32)).stateD bn
  let bn := (bn.newCat 2).stateD bn
  { bn with m_heap := GPGMCategorical.addCatParent bn.m_heap 3 1 bn.def }

/-- The network `wideCategoricalFirst` after the second of the two wide
variables has become a parent of the third as well. -/
def wideCategorical (rand : GRand) : GBayesNet :=
  { wideCategoricalFirst rand with
    m_heap := GPGMCategorical.addCatParent (wideCategoricalFirst rand).m_heap 3 2
      (GBayesNet.def (wideCategoricalFirst rand)) }

/-! ### Examples for the boundary of the uniform draw -/

/-- A network with one Categorical of two categories (address 1) whose weights
are the constants 0 and 1 (addresses 2 and 3): its first category has the
probability 0. -/
def zeroFirst (rand : GRand) : GBayesNet :=
  let bn := GBayesNet.construct rand
  let bn := (bn.newCat 2).stateD bn
  let bn := (bn.newConst 0).2
  let bn := (bn.newConst 1).2
  bn.call (fun h => GPGMCategorical.setWeights h 1 0 2 3 none none none none none none)

/-- A random source whose uniform draws are all 0, the least value of the
interval from 0 (included) to 1 (excluded). -/
def zeroRand : GRand :=
  { drawn := 0, uniformAt := fun _ => 0, normalAt := fun _ => 0 }

/-! ### What a call of `sample` does to the node it is called on -/

/-- The record `n1` of a node after a call `sample` on it that returns, the
record before the call being `n`: nothing changes (an observed Categorical, a
constant), or the value of an unobserved Categorical becomes one of its
categories, or a `GPGMMetropolisNode` updates its running sums, after a
rejected proposal or after an accepted one, which differs from the current
mean, has become the current mean and has been counted. -/
def SampleStep (lm : Libm) (n n1 : GPGMNode) : Prop :=
  n1 = n ∨
  (n.kind = .categorical ∧ n.m_observed = false ∧
    ∃ i : Nat, i < n.m_categories ∧ n1 = { n with m_val := (i : ℚ) }) ∨
  ((∃ fam, n.kind = .metropolis fam) ∧
    (n1 = GPGMMetropolisNode.accumulate n ∨
      ∃ z : ℚ, GPGMMetropolisNode.candidate n z ≠ n.m_currentMean ∧
        n1 = GPGMMetropolisNode.accumulate (GPGMMetropolisNode.onAccepted lm
          { n with m_currentMean := GPGMMetropolisNode.candidate n z })))

/-! ### The variance that the recomputation of the deviation takes the root of -/

/-- The square of the count of samples times the variance
`m_sumOfSquaredValues / m_nSamples - dMean * dMean` of
`GPGMMetropolisNode::sample`, where `dMean = m_sumOfValues / m_nSamples`. -/
def GPGMMetropolisNode.spread (n : GPGMNode) : ℚ :=
  (n.m_nSamples : ℚ) * n.m_sumOfSquaredValues - n.m_sumOfValues * n.m_sumOfValues

/-- The running sums of a node hold at least two different values, or the
values they hold are all equal to the current mean and at most one proposal has
been accepted since the last recomputation of the deviation; and the count of
accepted proposals is at most 9 and at most the count of samples. -/
def GPGMMetropolisNode.Spread (n : GPGMNode) : Prop :=
  n.m_nNewValues ≤ 9 ∧ n.m_nNewValues ≤ n.m_nSamples ∧
  (0 < GPGMMetropolisNode.spread n ∨
    (n.m_nNewValues ≤ 1 ∧ n.m_sumOfValues = (n.m_nSamples : ℚ) * n.m_currentMean ∧
      n.m_sumOfSquaredValues = (n.m_nSamples : ℚ) * (n.m_currentMean * n.m_currentMean)))
/-! ### A chain that accepts nothing before the cap of the count of samples -/

/-- A network with one Normal variable (address 1) with the prior mean 0 and
the prior deviation 1, whose mean and deviation are the built-in constant 1. -/
def singleNormal (rand : GRand) : GBayesNet :=
  ((GBayesNet.construct rand).newNormal 0 1).2

/-- A random source whose first `0xffffffff` normal draws are 0 and whose later
normal draws are 1 and -1 in turn, every second draw being a uniform one; the
uniform draws are all 1/2. -/
def capRand : GRand :=
  { drawn := 0, uniformAt := fun _ => 1 / 2,
    normalAt := fun n =>
      if n < 0xffffffff then 0 else if (n - 0xffffffff) % 4 = 0 then 1 else -1 }

/-- Stand-ins as `exampleLibm`, but with a square root that is exact at 0 and
at 1 and positive on the positive numbers. -/
def rootLibm : Libm :=
  { exampleLibm with sqrt := fun x => x }

/-- The heap of `singleNormal` after `k` calls of `sample` that have all
rejected a proposal equal to the current mean 0: the count of samples is `k`
and the running sums are 0. -/
def rejectedHeap (k : Nat) : Heap :=
  (singleNormal capRand).m_heap.put 1
    { (singleNormal capRand).m_heap 1 with m_nSamples := k }

/-- The loop of `GPGMVariable::currentCatIndex` with both of its variables: the
pair `(mult, ind)` with which the loop ends. -/
def GPGMVariable.currentCatIndexVars (h : Heap) : List NodeId → Nat → Nat → Res (Nat × Nat)
  | [], mult, ind => .ok (mult, ind)
  | pPar :: rest, mult, ind =>
    match toSize (GPGMNode.currentValue h pPar) with
    | .ok val =>
      if GPGMCategorical.categories h pPar = 0 then
        .thrown
      else
        GPGMVariable.currentCatIndexVars h rest
          (sizeMul mult (GPGMCategorical.categories h pPar)) (sizeAdd ind (sizeMul mult val))
    | .thrown => .thrown
    | .undefined => .undefined

/-- The condition of `GAssert(ind < mult)`, the statement before the `return`
of `GPGMVariable::currentCatIndex`: whether it holds when the loop has ended. A
release build does not evaluate it. -/
def GPGMVariable.currentCatIndexAssertion (h : Heap) (v : NodeId) : Res Bool :=
  match GPGMVariable.currentCatIndexVars h (h v).m_catParents 1 0 with
  | .ok (mult, ind) => .ok (decide (ind < mult))
  | .thrown => .thrown
  | .undefined => .undefined

/-! ### The arithmetic of `double`

The heap model above computes on exact rationals. The definitions of this
section follow the floating-point arithmetic of the source instead: a `double`
is a number, a signed zero, an infinity or NaN, every operation rounds its exact
result once (a product and a sum are not contracted into one operation), a
comparison with NaN is false and a division by zero yields an infinity or
NaN. -/

/-- A value of the type `double`: a number, the negative zero, an infinity or
NaN. `num 0` is the positive zero. -/
inductive Dbl where
  | num (q : ℚ)
  | negZero
  | posInf
  | negInf
  | nan
deriving DecidableEq

/-- The sign bit of a `double`. -/
def Dbl.isNeg : Dbl → Bool
  | .num q => decide (q < 0)
  | .negZero => true
  | .posInf => false
  | .negInf => true
  | .nan => false

/-- Whether a `double` is one of the two zeros. -/
def Dbl.isZero : Dbl → Bool
  | .num q => decide (q = 0)
  | .negZero => true
  | _ => false

/-- Whether a `double` is NaN. -/
def Dbl.isNan : Dbl → Bool
  | .nan => true
  | _ => false

/-- Whether a `double` is an infinity. -/
def Dbl.isInf : Dbl → Bool
  | .posInf => true
  | .negInf => true
  | _ => false

/-- Whether a `double` is a number or a zero: neither an infinity nor NaN. -/
def Dbl.isFinite : Dbl → Bool
  | .num _ => true
  | .negZero => true
  | _ => false

/-- The zero of the given sign. -/
def Dbl.zero (negative : Bool) : Dbl := if negative then .negZero else .num 0

/-- The infinity of the given sign. -/
def Dbl.inf (negative : Bool) : Dbl := if negative then .negInf else .posInf

/-- The exact value of a finite `double`; 0 for the others. -/
def Dbl.val : Dbl → ℚ
  | .num q => q
  | _ => 0

/-- The comparison `a < b` of two `double`s. -/
def Dbl.lt : Dbl → Dbl → Bool
  | .nan, _ => false
  | _, .nan => false
  | .posInf, _ => false
  | _, .negInf => false
  | .negInf, _ => true
  | _, .posInf => true
  | a, b => decide (a.val < b.val)

/-- The comparison `a <= b` of two `double`s. -/
def Dbl.le : Dbl → Dbl → Bool
  | .nan, _ => false
  | _, .nan => false
  | _, .posInf => true
  | .negInf, _ => true
  | .posInf, _ => false
  | _, .negInf => false
  | a, b => decide (a.val ≤ b.val)

/-- The comparison `a == b` of two `double`s. -/
def Dbl.eq : Dbl → Dbl → Bool
  | .nan, _ => false
  | _, .nan => false
  | .posInf, b => decide (b = .posInf)
  | .negInf, b => decide (b = .negInf)
  | _, .posInf => false
  | _, .negInf => false
  | a, b => decide (a.val = b.val)

/-- The negation `-a`. -/
def Dbl.neg : Dbl → Dbl
  | .num q => if q = 0 then .negZero else .num (-q)
  | .negZero => .num 0
  | .posInf => .negInf
  | .negInf => .posInf
  | .nan => .nan

/-- The sum `a + b`; `fl` rounds the exact sum of two numbers when it is not
zero. The sum of two opposite numbers is the positive zero. -/
def Dbl.add (fl : ℚ → Dbl) : Dbl → Dbl → Dbl
  | .nan, _ => .nan
  | _, .nan => .nan
  | .posInf, .negInf => .nan
  | .negInf, .posInf => .nan
  | .posInf, _ => .posInf
  | _, .posInf => .posInf
  | .negInf, _ => .negInf
  | _, .negInf => .negInf
  | .negZero, b => b
  | a, .negZero => a
  | .num x, .num y => if x + y = 0 then .num 0 else fl (x + y)

/-- The difference `a - b`. -/
def Dbl.sub (fl : ℚ → Dbl) (a b : Dbl) : Dbl := Dbl.add fl a (Dbl.neg b)

/-- The product `a * b`; `fl` rounds the exact product of two numbers that are
not zero. -/
def Dbl.mul (fl : ℚ → Dbl) (a b : Dbl) : Dbl :=
  if a.isNan || b.isNan then .nan
  else if a.isInf || b.isInf then
    (if a.isZero || b.isZero then .nan else Dbl.inf (xor a.isNeg b.isNeg))
  else if a.isZero || b.isZero then Dbl.zero (xor a.isNeg b.isNeg)
  else fl (a.val * b.val)

/-- The quotient `a / b`; `fl` rounds the exact quotient of two numbers that
are not zero. A number that is not zero divided by a zero is an infinity. -/
def Dbl.div (fl : ℚ → Dbl) (a b : Dbl) : Dbl :=
  if a.isNan || b.isNan then .nan
  else if a.isInf then (if b.isInf then .nan else Dbl.inf (xor a.isNeg b.isNeg))
  else if b.isInf then Dbl.zero (xor a.isNeg b.isNeg)
  else if b.isZero then (if a.isZero then .nan else Dbl.inf (xor a.isNeg b.isNeg))
  else if a.isZero then Dbl.zero (xor a.isNeg b.isNeg)
  else fl (a.val / b.val)

/-- The function `floor` of `<cmath>`. -/
def Dbl.floor : Dbl → Dbl
  | .num q => .num (Int.floor q)
  | d => d

/-- The function `ceil` of `<cmath>`; the ceiling of a number between -1 and 0
is the negative zero. -/
def Dbl.ceil : Dbl → Dbl
  | .num q => if q < 0 ∧ Int.ceil q = 0 then .negZero else .num (Int.ceil q)
  | d => d

/-- The function `sqrt` of `<cmath>`; `root` is its value at a positive
number. -/
def Dbl.sqrt (root : ℚ → Dbl) : Dbl → Dbl
  | .num q => if q < 0 then .nan else if q = 0 then .num 0 else root q
  | .negZero => .negZero
  | .posInf => .posInf
  | .negInf => .nan
  | .nan => .nan

/-- The function `log` of `<cmath>`; `lg` is its value at a positive number. -/
def Dbl.log (lg : ℚ → Dbl) : Dbl → Dbl
  | .num q => if q < 0 then .nan else if q = 0 then .negInf else lg q
  | .negZero => .negInf
  | .posInf => .posInf
  | .negInf => .nan
  | .nan => .nan

/-- The floating-point environment of the program: the rounding of an exact
result to a `double`, and the values of `sqrt` and `log` at positive numbers. -/
structure Fpu where
  round : ℚ → Dbl
  sqrt : ℚ → Dbl
  log : ℚ → Dbl

/-- The conversion of an unsigned integer to `double`. -/
def Dbl.ofNat (fp : Fpu) (n : Nat) : Dbl := if n = 0 then .num 0 else fp.round n

/-- The power `2 ^ e` for an integer exponent. -/
def pow2 (e : ℤ) : ℚ :=
  if 0 ≤ e then ((2 ^ e.toNat : ℕ) : ℚ) else 1 / ((2 ^ (-e).toNat : ℕ) : ℚ)

/-- The integer nearest to `x`, the even one of the two when `x` lies halfway
between them. -/
def roundHalfEven (x : ℚ) : ℤ :=
  if x - Int.floor x < 1 / 2 then Int.floor x
  else if 1 / 2 < x - Int.floor x then Int.floor x + 1
  else if Int.floor x % 2 = 0 then Int.floor x
  else Int.floor x + 1

/-- The number of halvings that bring `n` below 2, counted with at most `k`
steps. -/
def halvings : Nat → Nat → Nat
  | 0, _ => 0
  | k + 1, n => if n < 2 then 0 else halvings k (n / 2) + 1

/-- The binary logarithm of a positive integer, rounded down. -/
def ilog2 (n : Nat) : Nat := halvings n n

/-- The exponent `e` with `2 ^ e ≤ a < 2 ^ (e + 1)` of a positive number. -/
def binade (a : ℚ) : ℤ :=
  if pow2 ((ilog2 a.num.natAbs : ℤ) - (ilog2 a.den : ℤ)) ≤ a then
    (ilog2 a.num.natAbs : ℤ) - (ilog2 a.den : ℤ)
  else (ilog2 a.num.natAbs : ℤ) - (ilog2 a.den : ℤ) - 1

/-- The distance between neighbouring values of binary64 around the positive
number `a`: `2 ^ (e - 52)` for the exponent `e` of `a`, but not less than
`2 ^ -1074`. -/
def binary64Ulp (a : ℚ) : ℚ := pow2 (max (binade a) (-1022) - 52)

/-- The multiple of `binary64Ulp a` nearest to the positive number `a`, the
even one of the two when `a` lies halfway between them. -/
def binary64Nearest (a : ℚ) : ℚ := (roundHalfEven (a / binary64Ulp a) : ℚ) * binary64Ulp a

/-- The rounding of IEEE 754 binary64, to nearest with ties to even: 53
significant bits, exponents from -1022 to 1023, gradual underflow, and an
infinity from `2 ^ 1024 - 2 ^ 970` on. -/
def binary64 (q : ℚ) : Dbl :=
  if q = 0 then .num 0
  else if pow2 1024 ≤ binary64Nearest |q| then Dbl.inf (decide (q < 0))
  else if binary64Nearest |q| = 0 then Dbl.zero (decide (q < 0))
  else if q < 0 then .num (-binary64Nearest |q|)
  else .num (binary64Nearest |q|)

/-- The comparison `a > b` of two `double`s. -/
def Dbl.gt (a b : Dbl) : Bool := Dbl.lt b a

/-- The comparison `a >= b` of two `double`s. -/
def Dbl.ge (a b : Dbl) : Bool := Dbl.le b a

/-- The macro `MIN_LOG_PROB`, `-1e300`, as a `double`. -/
def Dbl.MIN_LOG_PROB (fp : Fpu) : Dbl := fp.round (-(10 ^ 300))

/-- Exact arithmetic: no operation rounds. -/
def exactFpu : Fpu :=
  { round := fun q => .num q, sqrt := fun q => .num ((q + 1) / 2), log := fun q => .num (q - 1) }

/-- The arithmetic of IEEE 754 binary64. Its `sqrt` and `log` at positive numbers
are stand-ins, rounded like every other result, for evaluating the definitions
on examples; the stand-in for `log` is negative below 1, as `log` is. -/
def binary64Fpu : Fpu :=
  { round := binary64, sqrt := fun q => binary64 ((q + 1) / 2), log := fun q => binary64 (q - 1) }

/-- The arithmetic of `GPGMUniformDiscrete::likelihood` on `double`s. `min` and
`max` are the current values of the two parameters of the row that
`currentCatIndex()` selects. -/
def Fp.GPGMUniformDiscrete.likelihood (fp : Fpu) (min max x : Dbl) : Dbl :=
  if Dbl.lt x (Dbl.ceil min) then .num 0
  else if Dbl.gt x (Dbl.floor max) then .num 0
  else Dbl.div fp.round (.num 1)
    (Dbl.add fp.round (Dbl.sub fp.round (Dbl.floor max) (Dbl.ceil min)) (.num 1))

/-- The arithmetic of `GPGMUniformContinuous::likelihood` on `double`s. `min` and
`max` are the current values of the two parameters of the row that
`currentCatIndex()` selects. -/
def Fp.GPGMUniformContinuous.likelihood (fp : Fpu) (min max x : Dbl) : Dbl :=
  if Dbl.lt x min then .num 0
  else if Dbl.gt x max then .num 0
  else Dbl.div fp.round (.num 1) (Dbl.sub fp.round max min)

/-- The members of a `GPGMMetropolisNode` that `metropolis` and `sample` read
and write, as `double`s and counters, with the answer of the virtual
`isDiscrete()`. -/
structure Fp.GPGMMetropolisNode where
  isDiscrete : Bool
  m_currentMean : Dbl
  m_currentDeviation : Dbl
  m_nSamples : Nat
  m_nNewValues : Nat
  m_sumOfValues : Dbl
  m_sumOfSquaredValues : Dbl
deriving DecidableEq

/-- The constructor `GPGMMetropolisNode(priorMean, priorDeviation)`. -/
def Fp.GPGMMetropolisNode.create (isDiscrete : Bool) (priorMean priorDeviation : Dbl) :
    Fp.GPGMMetropolisNode :=
  { isDiscrete := isDiscrete, m_currentMean := priorMean, m_currentDeviation := priorDeviation,
    m_nSamples := 0, m_nNewValues := 0, m_sumOfValues := .num 0,
    m_sumOfSquaredValues := .num 0 }

/-- `GPGMMetropolisNode::gibbs` of a node that has no children: the loop over
`children()` runs no iteration. `likelihood` is the overrider of the node. -/
def Fp.GPGMMetropolisNode.gibbsLeaf (fp : Fpu) (likelihood : Dbl → Dbl) (x : Dbl) : Dbl :=
  if Dbl.ge (Dbl.log fp.log (likelihood x)) (Dbl.MIN_LOG_PROB fp) then
    Dbl.log fp.log (likelihood x)
  else Dbl.MIN_LOG_PROB fp

/-- The proposal of `GPGMMetropolisNode::metropolis` for the normal draw `z`:
`normal() * m_currentDeviation + m_currentMean`, and `floor` of it plus 0.5 for
a discrete node. -/
def Fp.GPGMMetropolisNode.candidate (fp : Fpu) (n : Fp.GPGMMetropolisNode) (z : Dbl) : Dbl :=
  if n.isDiscrete then
    Dbl.floor (Dbl.add fp.round
      (Dbl.add fp.round (Dbl.mul fp.round z n.m_currentDeviation) n.m_currentMean) (.num (1 / 2)))
  else Dbl.add fp.round (Dbl.mul fp.round z n.m_currentDeviation) n.m_currentMean

/-- `GPGMMetropolisNode::metropolis` on `double`s. `gibbs` is the value that
`gibbs` returns in the current state of the network, `z` the normal draw and `u`
the uniform draw. The result holds the returned flag and the node. -/
def Fp.GPGMMetropolisNode.metropolis (fp : Fpu) (gibbs : Dbl → Dbl)
    (n : Fp.GPGMMetropolisNode) (z u : Dbl) : Bool × Fp.GPGMMetropolisNode :=
  if Dbl.eq (Fp.GPGMMetropolisNode.candidate fp n z) n.m_currentMean then (false, n)
  else if Dbl.ge (gibbs (Fp.GPGMMetropolisNode.candidate fp n z)) (Dbl.MIN_LOG_PROB fp) then
    if Dbl.ge (gibbs n.m_currentMean) (Dbl.MIN_LOG_PROB fp) then
      if Dbl.lt (Dbl.log fp.log u)
          (Dbl.sub fp.round (gibbs (Fp.GPGMMetropolisNode.candidate fp n z))
            (gibbs n.m_currentMean)) then
        (true, { n with m_currentMean := Fp.GPGMMetropolisNode.candidate fp n z })
      else (false, n)
    else (false, n)
  else (false, n)

/-- The branch of `GPGMMetropolisNode::sample` taken when `metropolis` returned
true: the tenth new value recomputes the deviation from the running sums. -/
def Fp.GPGMMetropolisNode.onAccepted (fp : Fpu) (n : Fp.GPGMMetropolisNode) :
    Fp.GPGMMetropolisNode :=
  if n.m_nNewValues + 1 ≥ 10 then
    { n with
      m_currentDeviation := Dbl.sqrt fp.sqrt
        (Dbl.sub fp.round
          (Dbl.div fp.round n.m_sumOfSquaredValues (Dbl.ofNat fp n.m_nSamples))
          (Dbl.mul fp.round
            (Dbl.div fp.round n.m_sumOfValues (Dbl.ofNat fp n.m_nSamples))
            (Dbl.div fp.round n.m_sumOfValues (Dbl.ofNat fp n.m_nSamples)))),
      m_nNewValues := 0 }
  else { n with m_nNewValues := n.m_nNewValues + 1 }

/-- The last statement of `GPGMMetropolisNode::sample`: below the cap
`0xffffffff` the current value enters the running sums. -/
def Fp.GPGMMetropolisNode.accumulate (fp : Fpu) (n : Fp.GPGMMetropolisNode) :
    Fp.GPGMMetropolisNode :=
  if n.m_nSamples < 0xffffffff then
    { n with
      m_sumOfValues := Dbl.add fp.round n.m_sumOfValues n.m_currentMean,
      m_sumOfSquaredValues := Dbl.add fp.round n.m_sumOfSquaredValues
        (Dbl.mul fp.round n.m_currentMean n.m_currentMean),
      m_nSamples := n.m_nSamples + 1 }
  else n

/-- `GPGMMetropolisNode::sample` on `double`s. -/
def Fp.GPGMMetropolisNode.sample (fp : Fpu) (gibbs : Dbl → Dbl)
    (n : Fp.GPGMMetropolisNode) (z u : Dbl) : Fp.GPGMMetropolisNode :=
  if (Fp.GPGMMetropolisNode.metropolis fp gibbs n z u).1 then
    Fp.GPGMMetropolisNode.accumulate fp
      (Fp.GPGMMetropolisNode.onAccepted fp (Fp.GPGMMetropolisNode.metropolis fp gibbs n z u).2)
  else Fp.GPGMMetropolisNode.accumulate fp (Fp.GPGMMetropolisNode.metropolis fp gibbs n z u).2

/-- One call of `sample`: the function `gibbs` of the state of the network at
the call, the normal draw and the uniform draw. -/
structure Fp.Call where
  gibbs : Dbl → Dbl
  z : Dbl
  u : Dbl

/-- A sequence of calls of `sample` on one node. -/
def Fp.GPGMMetropolisNode.run (fp : Fpu) :
    List Fp.Call → Fp.GPGMMetropolisNode → Fp.GPGMMetropolisNode
  | [], n => n
  | c :: rest, n => Fp.GPGMMetropolisNode.run fp rest (Fp.GPGMMetropolisNode.sample fp c.gibbs n c.z c.u)

/-- The values that a sequence of calls of `sample` adds to the running sums,
in the order of the calls. -/
def Fp.GPGMMetropolisNode.accumulated (fp : Fpu) :
    List Fp.Call → Fp.GPGMMetropolisNode → List Dbl
  | [], _ => []
  | c :: rest, n =>
    if n.m_nSamples < 0xffffffff then
      (Fp.GPGMMetropolisNode.sample fp c.gibbs n c.z c.u).m_currentMean ::
        Fp.GPGMMetropolisNode.accumulated fp rest (Fp.GPGMMetropolisNode.sample fp c.gibbs n c.z c.u)
    else Fp.GPGMMetropolisNode.accumulated fp rest (Fp.GPGMMetropolisNode.sample fp c.gibbs n c.z c.u)

/-- The function `gibbs` of a UniformDiscrete node without parents and
children, whose parameters are the constants `min` and `max`, on the arithmetic
of binary64. -/
def Fp.uniformDiscreteLeaf (min max : ℚ) : Dbl → Dbl :=
  Fp.GPGMMetropolisNode.gibbsLeaf binary64Fpu
    (Fp.GPGMUniformDiscrete.likelihood binary64Fpu (.num min) (.num max))

/-- A sequence of `k` calls of `sample` on a UniformDiscrete node without
parents and children: the normal draws alternate between 1 and -1, and the
uniform draws are all 1/2. -/
def Fp.alternating (min max : ℚ) (k : Nat) : List Fp.Call :=
  (List.range k).map (fun i =>
    { gibbs := Fp.uniformDiscreteLeaf min max, z := if i % 2 = 0 then .num 1 else .num (-1),
      u := .num (1 / 2) })

/-- Whether a `double` is an integer: a zero or a number without fractional
part. -/
def Dbl.isInteger : Dbl → Bool
  | .num q => decide (q = Int.floor q)
  | .negZero => true
  | _ => false

/-- Whether a `double` can be a value of the type: every number that one holds
is a fixed point of the rounding. -/
def Dbl.isValue (fp : Fpu) : Dbl → Bool
  | .num q => decide (fp.round q = .num q)
  | _ => true

/-- Facts of IEEE 754 arithmetic on which results below rely: 0 and 1 are
values of the type, rounding is monotone, and the rounded difference of two
different values of the type is not zero (gradual underflow). -/
structure Fpu.Ieee (fp : Fpu) : Prop where
  round_zero : fp.round 0 = .num 0
  round_one : fp.round 1 = .num 1
  round_mono : ∀ p q : ℚ, p ≤ q → Dbl.le (fp.round p) (fp.round q) = true
  round_sub : ∀ p q : ℚ, fp.round p = .num p → fp.round q = .num q → p < q →
    Dbl.lt (.num 0) (fp.round (q - p)) = true

/-- Whether the sum `normal() * m_currentDeviation + m_currentMean + 0.5`, of
which a discrete node takes the `floor`, is a number in every call of a
sequence. -/
def Fp.GPGMMetropolisNode.finiteProposals (fp : Fpu) :
    List Fp.Call → Fp.GPGMMetropolisNode → Bool
  | [], _ => true
  | c :: rest, n =>
    (Dbl.add fp.round
      (Dbl.add fp.round (Dbl.mul fp.round c.z n.m_currentDeviation) n.m_currentMean)
      (.num (1 / 2))).isFinite &&
    Fp.GPGMMetropolisNode.finiteProposals fp rest
      (Fp.GPGMMetropolisNode.sample fp c.gibbs n c.z c.u)

/-- What the values `H` accumulated so far say about a node whose counter is
below the cap `0xffffffff`: there is one of them for every count, no more new
values than counts, and either two of the values differ, or at most one new
value has been accepted and every value is the current mean. -/
def Fp.GPGMMetropolisNode.Accumulated (n : Fp.GPGMMetropolisNode) (H : List Dbl) : Prop :=
  n.m_nSamples < 0xffffffff →
    H.length = n.m_nSamples ∧ n.m_nNewValues ≤ n.m_nSamples ∧
    ((∃ a ∈ H, ∃ b ∈ H, Dbl.eq a b = false) ∨
      (n.m_nNewValues ≤ 1 ∧ ∀ d ∈ H, d = n.m_currentMean))

/-- A sequence of `k` calls of `sample` on a UniformDiscrete node without
parents and children: the normal draws are all 0, and the uniform draws are all
1/2. -/
def Fp.still (min max : ℚ) (k : Nat) : List Fp.Call :=
  List.replicate k
    { gibbs := Fp.uniformDiscreteLeaf min max, z := .num 0, u := .num (1 / 2) }

/-- A discrete node with the current mean 0 and the deviation 1 that has
accumulated the value 0 only, `s` times. -/
def Fp.zeros (s : Nat) : Fp.GPGMMetropolisNode :=
  { isDiscrete := true, m_currentMean := .num 0, m_currentDeviation := .num 1,
    m_nSamples := s, m_nNewValues := 0, m_sumOfValues := .num 0,
    m_sumOfSquaredValues := .num 0 }

/-- The variance of a list of numbers in exact arithmetic: the mean of the
squares minus the square of the mean. -/
def Fp.variance (l : List ℚ) : ℚ :=
  (l.map (fun x => x ^ 2)).sum / l.length - (l.sum / l.length) ^ 2

/-- The quantity of which `GPGMMetropolisNode::sample` takes the square root
when it recomputes the deviation:
`m_sumOfSquaredValues / m_nSamples - (dMean * dMean)` with
`dMean = m_sumOfValues / m_nSamples`, on `double`s. -/
def Fp.GPGMMetropolisNode.recomputed (fp : Fpu) (n : Fp.GPGMMetropolisNode) : Dbl :=
  Dbl.sub fp.round
    (Dbl.div fp.round n.m_sumOfSquaredValues (Dbl.ofNat fp n.m_nSamples))
    (Dbl.mul fp.round
      (Dbl.div fp.round n.m_sumOfValues (Dbl.ofNat fp n.m_nSamples))
      (Dbl.div fp.round n.m_sumOfValues (Dbl.ofNat fp n.m_nSamples)))

/-- The environment `fp` without rounding: every operation returns its exact
result. -/
def Fpu.exact (fp : Fpu) : Fpu := { fp with round := fun q => .num q }

end GClasses

/-! ### Theorems -/

namespace GClasses

/-! ### Frame lemmas: sampling never touches the observations -/

theorem heap_put_same (h : Heap) (p : NodeId) (n : GPGMNode) : (h.put p n) p = n := by
  simp [Heap.put]

theorem heap_put_other (h : Heap) (p q : NodeId) (n : GPGMNode) (hq : q ≠ p) :
    (h.put p n) q = h q := by
  simp [Heap.put, hq]

theorem obsEq_refl (h : Heap) : ObsEq h h := fun _ => ⟨rfl, rfl, rfl⟩

theorem obsEq_trans {h h1 h2 : Heap} (a : ObsEq h h1) (b : ObsEq h1 h2) : ObsEq h h2 := by
  intro q
  obtain ⟨a1, a2, a3⟩ := a q
  obtain ⟨b1, b2, b3⟩ := b q
  exact ⟨b1.trans a1, b2.trans a2, b3.trans a3⟩

theorem obsEq_put (h : Heap) (v : NodeId) (n : GPGMNode) (hk : n.kind = (h v).kind)
    (ho : n.m_observed = (h v).m_observed) (hv : n.m_observedValue = (h v).m_observedValue) :
    ObsEq h (h.put v n) := by
  intro q
  by_cases hq : q = v
  · subst hq; simp [Heap.put, hk, ho, hv]
  · simp [Heap.put, hq]

theorem obsEq_setVal (h : Heap) (v : NodeId) (x : ℚ) : ObsEq h (setVal h v x) :=
  obsEq_put h v _ rfl rfl rfl

theorem pick_obsEq (lm : Libm) (v : NodeId) (base : Nat) (sumProb uni : ℚ) :
    ∀ (remaining i : Nat) (h : Heap) (sumProb2 : ℚ) (s : Heap),
      (GPGMCategorical.pick lm v base sumProb uni remaining i h sumProb2).state? = some s →
      ObsEq h s := by
  intro remaining
  induction remaining with
  | zero =>
    intro i h sumProb2 s hs
    simp [GPGMCategorical.pick, Outcome.state?] at hs
    subst hs
    exact obsEq_refl h
  | succ k ih =>
    intro i h sumProb2 s hs
    unfold GPGMCategorical.pick at hs
    cases hc : GPGMCategorical.catProb lm h v base i with
    | ok catProb =>
      rw [hc] at hs
      simp only at hs
      split at hs
      · simp [Outcome.state?] at hs
        subst hs
        exact obsEq_setVal h v i
      · exact obsEq_trans (obsEq_setVal h v i) (ih _ _ _ _ hs)
    | thrown =>
      rw [hc] at hs
      simp [Outcome.state?] at hs
      subst hs
      exact obsEq_setVal h v i
    | undefined =>
      rw [hc] at hs
      simp [Outcome.state?] at hs

theorem sumProb_state (lm : Libm) (h : Heap) (v : NodeId) (base : Nat) :
    ∀ (n : Nat) (s : Heap),
      (GPGMCategorical.sumProb lm h v base n).state? = some s → ObsEq h s := by
  intro n
  induction n with
  | zero =>
    intro s hs
    simp [GPGMCategorical.sumProb, Outcome.state?] at hs
    subst hs
    exact obsEq_refl h
  | succ k ih =>
    intro s hs
    unfold GPGMCategorical.sumProb at hs
    cases hp : GPGMCategorical.sumProb lm h v base k with
    | ok sp h1 =>
      rw [hp] at hs
      simp only at hs
      cases hc : GPGMCategorical.catProb lm h v base k with
      | ok c =>
        rw [hc] at hs
        simp [Outcome.state?] at hs
        subst hs
        exact obsEq_refl h
      | thrown =>
        rw [hc] at hs
        simp [Outcome.state?] at hs
        subst hs
        exact obsEq_setVal h v k
      | undefined =>
        rw [hc] at hs
        simp [Outcome.state?] at hs
    | thrown h1 =>
      rw [hp] at hs
      simp only at hs
      exact ih s (by rw [hp]; exact hs)
    | undefined =>
      rw [hp] at hs
      simp [Outcome.state?] at hs

theorem catSample_obsEq (lm : Libm) (h : Heap) (r : GRand) (v : NodeId) (s : Heap × GRand)
    (hs : (GPGMCategorical.sample lm h r v).state? = some s) : ObsEq h s.1 := by
  unfold GPGMCategorical.sample at hs
  split at hs
  · simp [Outcome.state?] at hs
    subst hs
    exact obsEq_refl h
  · cases hi : GPGMVariable.currentCatIndex h v with
    | ok ind =>
      rw [hi] at hs
      simp only at hs
      cases hp : GPGMCategorical.sumProb lm h v (sizeMul (h v).m_categories ind)
          (h v).m_categories with
      | ok sp h1 =>
        rw [hp] at hs
        simp only at hs
        cases hk : GPGMCategorical.pick lm v (sizeMul (h v).m_categories ind) sp
            r.uniform.1 (h v).m_categories 0 h 0 with
        | ok u h2 =>
          rw [hk] at hs
          simp [Outcome.state?] at hs
          subst hs
          exact pick_obsEq lm v _ _ _ _ _ _ _ h2 (by rw [hk]; rfl)
        | thrown h2 =>
          rw [hk] at hs
          simp [Outcome.state?] at hs
          subst hs
          exact pick_obsEq lm v _ _ _ _ _ _ _ h2 (by rw [hk]; rfl)
        | undefined =>
          rw [hk] at hs
          simp [Outcome.state?] at hs
      | thrown h1 =>
        rw [hp] at hs
        simp [Outcome.state?] at hs
        subst hs
        exact sumProb_state lm h v _ _ h1 (by rw [hp]; rfl)
      | undefined =>
        rw [hp] at hs
        simp [Outcome.state?] at hs
    | thrown =>
      rw [hi] at hs
      simp [Outcome.state?] at hs
      subst hs
      exact obsEq_refl h
    | undefined =>
      rw [hi] at hs
      simp [Outcome.state?] at hs

theorem gibbsKids_state (lm : Libm) (h : Heap) (v : NodeId) (x : ℚ) :
    ∀ (kids : List NodeId) (logSum : ℚ) (s : Heap),
      (GPGMMetropolisNode.gibbsKids lm h v x kids logSum).state? = some s → ObsEq h s := by
  intro kids
  induction kids with
  | nil =>
    intro logSum s hs
    simp [GPGMMetropolisNode.gibbsKids, Outcome.state?] at hs
    subst hs
    exact obsEq_refl h
  | cons c rest ih =>
    intro logSum s hs
    unfold GPGMMetropolisNode.gibbsKids at hs
    simp only at hs
    split at hs
    · split at hs
      · exact ih _ _ hs
      · simp [Outcome.state?] at hs
        subst hs
        exact obsEq_refl h
    · simp [Outcome.state?] at hs
      subst hs
      exact obsEq_put h v _ rfl rfl rfl
    · simp [Outcome.state?] at hs

theorem gibbs_state (lm : Libm) (h : Heap) (v : NodeId) (x : ℚ) (s : Heap)
    (hs : (GPGMMetropolisNode.gibbs lm h v x).state? = some s) : ObsEq h s := by
  unfold GPGMMetropolisNode.gibbs at hs
  split at hs
  · simp only at hs
    split at hs
    · exact gibbsKids_state lm h v x _ _ _ hs
    · simp [Outcome.state?] at hs
      subst hs
      exact obsEq_refl h
  · simp [Outcome.state?] at hs
    subst hs
    exact obsEq_refl h
  · simp [Outcome.state?] at hs

theorem metropolis_obsEq (lm : Libm) (h : Heap) (r : GRand) (v : NodeId) (s : Heap × GRand)
    (hs : (GPGMMetropolisNode.metropolis lm h r v).state? = some s) : ObsEq h s.1 := by
  unfold GPGMMetropolisNode.metropolis at hs
  simp only at hs
  split at hs
  · simp [Outcome.state?] at hs
    subst hs
    exact obsEq_refl h
  · split at hs
    · split at hs
      · split at hs
        · split at hs
          · split at hs
            · simp [Outcome.state?] at hs
              subst hs
              exact obsEq_put h v _ rfl rfl rfl
            · simp [Outcome.state?] at hs
              subst hs
              exact obsEq_refl h
          · simp [Outcome.state?] at hs
            subst hs
            exact obsEq_refl h
        · rename_i h1 hg
          simp [Outcome.state?] at hs
          subst hs
          exact gibbs_state lm h v _ h1 (by rw [hg]; rfl)
        · simp [Outcome.state?] at hs
      · simp [Outcome.state?] at hs
        subst hs
        exact obsEq_refl h
    · rename_i h1 hg
      simp [Outcome.state?] at hs
      subst hs
      exact gibbs_state lm h v _ h1 (by rw [hg]; rfl)
    · simp [Outcome.state?] at hs

theorem onAccepted_obs (lm : Libm) (n : GPGMNode) :
    (GPGMMetropolisNode.onAccepted lm n).kind = n.kind ∧
    (GPGMMetropolisNode.onAccepted lm n).m_observed = n.m_observed ∧
    (GPGMMetropolisNode.onAccepted lm n).m_observedValue = n.m_observedValue := by
  unfold GPGMMetropolisNode.onAccepted
  split <;> exact ⟨rfl, rfl, rfl⟩

theorem accumulate_obs (n : GPGMNode) :
    (GPGMMetropolisNode.accumulate n).kind = n.kind ∧
    (GPGMMetropolisNode.accumulate n).m_observed = n.m_observed ∧
    (GPGMMetropolisNode.accumulate n).m_observedValue = n.m_observedValue := by
  unfold GPGMMetropolisNode.accumulate
  split <;> exact ⟨rfl, rfl, rfl⟩

theorem metropolisSample_obsEq (lm : Libm) (h : Heap) (r : GRand) (v : NodeId)
    (s : Heap × GRand) (hs : (GPGMMetropolisNode.sample lm h r v).state? = some s) :
    ObsEq h s.1 := by
  unfold GPGMMetropolisNode.sample at hs
  cases hm : GPGMMetropolisNode.metropolis lm h r v with
  | ok accepted s1 =>
    obtain ⟨h1, r1⟩ := s1
    rw [hm] at hs
    simp [Outcome.state?] at hs
    subst hs
    have e1 : ObsEq h h1 := metropolis_obsEq lm h r v (h1, r1) (by rw [hm]; rfl)
    refine obsEq_trans e1 ?_
    have e2 : ObsEq h1 (if accepted = true then
        h1.put v (GPGMMetropolisNode.onAccepted lm (h1 v)) else h1) := by
      split
      · exact obsEq_put h1 v _ (onAccepted_obs lm _).1 (onAccepted_obs lm _).2.1
          (onAccepted_obs lm _).2.2
      · exact obsEq_refl h1
    refine obsEq_trans e2 ?_
    exact obsEq_put _ v _ (accumulate_obs _).1 (accumulate_obs _).2.1 (accumulate_obs _).2.2
  | thrown s1 =>
    rw [hm] at hs
    simp [Outcome.state?] at hs
    subst hs
    exact metropolis_obsEq lm h r v s1 (by rw [hm]; rfl)
  | undefined =>
    rw [hm] at hs
    simp [Outcome.state?] at hs

theorem sample_obsEq (lm : Libm) (h : Heap) (r : GRand) (p : NodeId) (s : Heap × GRand)
    (hs : (GPGMVariable.sample lm h r p).state? = some s) : ObsEq h s.1 := by
  unfold GPGMVariable.sample at hs
  split at hs
  · simp [Outcome.state?] at hs
    subst hs
    exact obsEq_refl h
  · exact catSample_obsEq lm h r p s hs
  · exact metropolisSample_obsEq lm h r p s hs

theorem sampleAll_obsEq (lm : Libm) :
    ∀ (ps : List NodeId) (h : Heap) (r : GRand) (s : Heap × GRand),
      (sampleAll lm ps h r).state? = some s → ObsEq h s.1 := by
  intro ps
  induction ps with
  | nil =>
    intro h r s hs
    simp [sampleAll, Outcome.state?] at hs
    subst hs
    exact obsEq_refl h
  | cons p rest ih =>
    intro h r s hs
    unfold sampleAll at hs
    cases hp : GPGMVariable.sample lm h r p with
    | ok u s1 =>
      obtain ⟨h1, r1⟩ := s1
      rw [hp] at hs
      simp only at hs
      exact obsEq_trans (sample_obsEq lm h r p (h1, r1) (by rw [hp]; rfl)) (ih h1 r1 s hs)
    | thrown s1 =>
      rw [hp] at hs
      simp [Outcome.state?] at hs
      subst hs
      exact sample_obsEq lm h r p s1 (by rw [hp]; rfl)
    | undefined =>
      rw [hp] at hs
      simp [Outcome.state?] at hs

theorem sweeps_obsEq (lm : Libm) :
    ∀ (n : Nat) (bn bn1 : GBayesNet),
      (GBayesNet.sweeps lm n bn).state? = some bn1 → ObsEq bn.m_heap bn1.m_heap := by
  intro n
  induction n with
  | zero =>
    intro bn bn1 hs
    simp [GBayesNet.sweeps, Outcome.state?] at hs
    subst hs
    exact obsEq_refl _
  | succ k ih =>
    intro bn bn1 hs
    unfold GBayesNet.sweeps at hs
    unfold GBayesNet.sample at hs
    cases ha : sampleAll lm bn.m_sampleNodes bn.m_heap bn.m_rand with
    | ok u s1 =>
      obtain ⟨h1, r1⟩ := s1
      rw [ha] at hs
      simp only at hs
      have e := sampleAll_obsEq lm _ _ _ (h1, r1) (by rw [ha]; rfl)
      exact obsEq_trans e (ih _ _ hs)
    | thrown s1 =>
      obtain ⟨h1, r1⟩ := s1
      rw [ha] at hs
      simp [Outcome.state?] at hs
      subst hs
      exact sampleAll_obsEq lm _ _ _ (h1, r1) (by rw [ha]; rfl)
    | undefined =>
      rw [ha] at hs
      simp [Outcome.state?] at hs

theorem currentValue_of_observed (h : Heap) (x : NodeId) (val : ℚ)
    (ho : (h x).m_observed = true) (hv : (h x).m_observedValue = val) :
    GPGMNode.currentValue h x = val := by
  unfold GPGMNode.currentValue
  split <;>
    simp [GPGMConstant.currentValue, GPGMCategorical.currentValue,
      GPGMMetropolisNode.currentValue, ho, hv]

/-- Claim C1. After `setObserved(v)` on a node `x` (of any kind: Categorical or
any Metropolis node), `currentValue()` of `x` is `v` in the state left by any
sequence of `sample()` calls on any nodes, and in the state left by any number
of sweeps `GBayesNet::sample()` of a network whose heap holds the node. -/
theorem setObserved_freezes_currentValue (lm : Libm) (h : Heap) (x : NodeId) (val : ℚ) :
    (∀ (ps : List NodeId) (r : GRand) (s : Heap × GRand),
      (sampleAll lm ps (GPGMNode.setObserved h x val) r).state? = some s →
      GPGMNode.currentValue s.1 x = val) ∧
    (∀ (n : Nat) (bn bn1 : GBayesNet), bn.m_heap = GPGMNode.setObserved h x val →
      (GBayesNet.sweeps lm n bn).state? = some bn1 →
      GPGMNode.currentValue bn1.m_heap x = val) := by
  have key : ∀ h1 : Heap, ObsEq (GPGMNode.setObserved h x val) h1 →
      GPGMNode.currentValue h1 x = val := by
    intro h1 e
    obtain ⟨_, e2, e3⟩ := e x
    apply currentValue_of_observed
    · rw [e2]; simp [GPGMNode.setObserved, Heap.put]
    · rw [e3]; simp [GPGMNode.setObserved, Heap.put]
  constructor
  · intro ps r s hs
    exact key _ (sampleAll_obsEq lm ps _ r s hs)
  · intro n bn bn1 hb hs
    exact key _ (hb ▸ sweeps_obsEq lm n bn bn1 hs)

/-- Three sweeps of the network of `GBayesNet_simpleTest` return normally. -/
theorem simpleTest_sweeps_isSome :
    ((GBayesNet.sweeps exampleLibm 3 (simpleTest exampleRand)).state?).isSome = true := by
  decide!

/-- Sampling the child, the parent and the child again returns normally. -/
theorem simpleTest_sampleAll_isSome :
    ((sampleAll exampleLibm [4, 1, 4] (simpleTest exampleRand).m_heap exampleRand).state?).isSome
      = true := by
  decide!

/-- Witness of claim C1 on the network of `GBayesNet_simpleTest`, whose Normal
child is observed at 1: after three calls of `sample` and after three sweeps
the child still reads 1. -/
theorem setObserved_freezes_currentValue_witness :
    GPGMNode.currentValue
      (((sampleAll exampleLibm [4, 1, 4] (simpleTest exampleRand).m_heap exampleRand).state?).get
        simpleTest_sampleAll_isSome).1 4 = 1 ∧
    GPGMNode.currentValue
      (((GBayesNet.sweeps exampleLibm 3 (simpleTest exampleRand)).state?).get
        simpleTest_sweeps_isSome).m_heap 4 = 1 :=
  ⟨(setObserved_freezes_currentValue exampleLibm (simpleTestGraph exampleRand).m_heap 4 1).1
      [4, 1, 4] exampleRand _ (by simp [simpleTest]),
    (setObserved_freezes_currentValue exampleLibm (simpleTestGraph exampleRand).m_heap 4 1).2
      3 (simpleTest exampleRand) _ rfl (by simp)⟩

/-! ### Claims C2 and C3: sampling an observed node -/

/-- When the proposal equals the current mean, `metropolis` rejects it right
after the normal draw. -/
theorem metropolis_of_candidate_eq (lm : Libm) (h : Heap) (r : GRand) (v : NodeId)
    (hc : GPGMMetropolisNode.candidate (h v) r.normal.1 = (h v).m_currentMean) :
    GPGMMetropolisNode.metropolis lm h r v = .ok false (h, r.normal.2) := by
  unfold GPGMMetropolisNode.metropolis
  simp [hc]

/-- Claim C2, the code at a failing input: the Normal child of
`GBayesNet_simpleTest` is observed at 1, and `sample` on it, here with a normal
draw of 0, returns with the count of samples and the running sums changed and
one random number taken from the source. -/
theorem metropolis_sample_observed_changes_state (lm : Libm) :
    ((simpleTest exampleRand).m_heap 4).kind = .metropolis .normal ∧
    ((simpleTest exampleRand).m_heap 4).m_observed = true ∧
    ((simpleTest exampleRand).m_heap 4).m_nSamples = 0 ∧
    ((simpleTest exampleRand).m_heap 4).m_sumOfValues = 0 ∧
    ((simpleTest exampleRand).m_heap 4).m_sumOfSquaredValues = 0 ∧
    exampleRand.drawn = 0 ∧
    ∃ s, GPGMVariable.sample lm (simpleTest exampleRand).m_heap exampleRand 4 = .ok () s ∧
      (s.1 4).m_nSamples = 1 ∧ (s.1 4).m_sumOfValues = 1 ∧
      (s.1 4).m_sumOfSquaredValues = 1 ∧ s.2.drawn = 1 := by
  have hk : ((simpleTest exampleRand).m_heap 4).kind = .metropolis .normal := by decide!
  have hc : GPGMMetropolisNode.candidate ((simpleTest exampleRand).m_heap 4)
      exampleRand.normal.1 = ((simpleTest exampleRand).m_heap 4).m_currentMean := by decide!
  refine ⟨hk, by decide!, by decide!, by decide!, by decide!, rfl,
    (((simpleTest exampleRand).m_heap.put 4
      (GPGMMetropolisNode.accumulate ((simpleTest exampleRand).m_heap 4))),
      exampleRand.normal.2), ?_, ?_⟩
  · unfold GPGMVariable.sample
    rw [hk]
    simp only
    unfold GPGMMetropolisNode.sample
    rw [metropolis_of_candidate_eq lm _ _ _ hc]
    simp
  · simp only [heap_put_same]
    exact ⟨by decide!, by decide!, by decide!, rfl⟩

/-- Claim C3. `sample` on an observed Categorical returns at once: the heap
(the stored value, the weight table, every other node) and the random source
are the ones of the call. -/
theorem observed_categorical_sample_noop (lm : Libm) (h : Heap) (r : GRand) (v : NodeId)
    (hk : (h v).kind = .categorical) (ho : (h v).m_observed = true) :
    GPGMVariable.sample lm h r v = .ok () (h, r) := by
  unfold GPGMVariable.sample
  rw [hk]
  simp [GPGMCategorical.sample, ho]

/-- Witness of claim C3: `pJohnCalls` of `GBayesNet_alarmTest`, observed at 0. -/
theorem observed_categorical_sample_noop_witness :
    ((alarmTest exampleRand).m_heap 16).kind = .categorical ∧
    ((alarmTest exampleRand).m_heap 16).m_observed = true ∧
    GPGMVariable.sample exampleLibm (alarmTest exampleRand).m_heap exampleRand 16
      = .ok () ((alarmTest exampleRand).m_heap, exampleRand) :=
  ⟨by decide!, by decide!,
    observed_categorical_sample_noop exampleLibm (alarmTest exampleRand).m_heap exampleRand 16
      (by decide!) (by decide!)⟩

/-! ### Claims C4 and C5: `catCount` and `currentCatIndex` -/

theorem SIZE_MOD_pos : 0 < SIZE_MOD := by
  unfold SIZE_MOD
  positivity

theorem sizeMul_lt (a b : Nat) : sizeMul a b < SIZE_MOD :=
  Nat.mod_lt _ SIZE_MOD_pos

theorem sizeAdd_lt (a b : Nat) : sizeAdd a b < SIZE_MOD :=
  Nat.mod_lt _ SIZE_MOD_pos

theorem sizeMul_modEq (a b : Nat) : sizeMul a b ≡ a * b [MOD SIZE_MOD] :=
  Nat.mod_modEq _ _

theorem sizeAdd_modEq (a b : Nat) : sizeAdd a b ≡ a + b [MOD SIZE_MOD] :=
  Nat.mod_modEq _ _

/-- The loop of `catCount` started at `acc` computes `acc * Π categories`
modulo the size of `size_t`. -/
theorem foldl_sizeMul_modEq (f : NodeId → Nat) :
    ∀ (l : List NodeId) (acc : Nat),
      l.foldl (fun cats p => sizeMul cats (f p)) acc ≡ acc * (l.map f).prod [MOD SIZE_MOD] := by
  intro l
  induction l with
  | nil => intro acc; simp [Nat.ModEq]
  | cons p rest ih =>
    intro acc
    simp only [List.foldl_cons, List.map_cons, List.prod_cons]
    refine (ih (sizeMul acc (f p))).trans ?_
    rw [← Nat.mul_assoc]
    exact (sizeMul_modEq acc (f p)).mul_right _

theorem foldl_sizeMul_lt (f : NodeId → Nat) :
    ∀ (l : List NodeId) (acc : Nat), acc < SIZE_MOD →
      l.foldl (fun cats p => sizeMul cats (f p)) acc < SIZE_MOD := by
  intro l
  induction l with
  | nil => intro acc h; simpa using h
  | cons p rest ih =>
    intro acc _
    simp only [List.foldl_cons]
    exact ih _ (sizeMul_lt _ _)

theorem catCount_lt (h : Heap) (v : NodeId) : GPGMVariable.catCount h v < SIZE_MOD :=
  foldl_sizeMul_lt _ _ 1 (by unfold SIZE_MOD; norm_num)

/-- Claim C4, as amended. `catCount()` is the product of `categories()` over
the categorical parents taken in `size_t`, that is modulo `2 ^ 64`; it is the
product itself when that is below `2 ^ 64`, and 1 without categorical parents. -/
theorem catCount_eq_prod_mod (h : Heap) (v : NodeId) :
    GPGMVariable.catCount h v
      = ((h v).m_catParents.map (GPGMCategorical.categories h)).prod % 2 ^ 64 ∧
    (((h v).m_catParents.map (GPGMCategorical.categories h)).prod < 2 ^ 64 →
      GPGMVariable.catCount h v
        = ((h v).m_catParents.map (GPGMCategorical.categories h)).prod) ∧
    ((h v).m_catParents = [] → GPGMVariable.catCount h v = 1) := by
  have e : GPGMVariable.catCount h v
      = ((h v).m_catParents.map (GPGMCategorical.categories h)).prod % 2 ^ 64 := by
    have h1 := foldl_sizeMul_modEq (GPGMCategorical.categories h) (h v).m_catParents 1
    have h2 := catCount_lt h v
    unfold GPGMVariable.catCount at h2 ⊢
    unfold Nat.ModEq at h1
    rw [Nat.mod_eq_of_lt h2, Nat.one_mul] at h1
    rw [h1]
    rfl
  refine ⟨e, ?_, ?_⟩
  · intro hlt
    rw [e, Nat.mod_eq_of_lt hlt]
  · intro hnil
    simp [GPGMVariable.catCount, hnil]

/-- Witness of claim C4: `pAlarm` of `GBayesNet_alarmTest` has two parents of
two categories each and four rows; `pBurglary` has no parent and one row. -/
theorem catCount_eq_prod_mod_witness :
    GPGMVariable.catCount (alarmTest exampleRand).m_heap 7 = 4 ∧
    GPGMVariable.catCount (alarmTest exampleRand).m_heap 1 = 1 :=
  ⟨((catCount_eq_prod_mod (alarmTest exampleRand).m_heap 7).2.1 (by decide!)).trans
      (by decide!),
    (catCount_eq_prod_mod (alarmTest exampleRand).m_heap 1).2.2 (by decide!)⟩

/-- Claim C4 as stated fails: a variable whose two categorical parents have
`2 ^ 32` categories each has `catCount() = 0`, not the product `2 ^ 64`. -/
theorem catCount_ne_prod_wideParents :
    GPGMVariable.catCount (wideParents exampleRand).m_heap 3 = 0 ∧
    (((wideParents exampleRand).m_heap 3).m_catParents.map
      (GPGMCategorical.categories (wideParents exampleRand).m_heap)).prod = 2 ^ 64 ∧
    GPGMVariable.catCount (wideParents exampleRand).m_heap 3 ≠
      (((wideParents exampleRand).m_heap 3).m_catParents.map
        (GPGMCategorical.categories (wideParents exampleRand).m_heap)).prod := by
  refine ⟨by decide!, by decide!, by decide!⟩


theorem radixSum_nil {R : Type} [CommSemiring R] (cats : List Nat) :
    radixSum ([] : List R) cats = 0 := by
  simp [radixSum]

/-- Horner step of the mixed-radix sum. -/
theorem radixSum_cons {R : Type} [CommSemiring R] (v : R) (vs : List R) (c : Nat)
    (cs : List Nat) : radixSum (v :: vs) (c :: cs) = v + (c : R) * radixSum vs cs := by
  unfold radixSum
  rw [List.length_cons, Finset.sum_range_succ', Finset.mul_sum, add_comm]
  congr 1
  · simp
  · apply Finset.sum_congr rfl
    intro j _
    rw [Finset.prod_range_succ']
    simp only [List.getD_cons_succ, List.getD_cons_zero]
    ring

/-- The loop of `currentCatIndex`, started with the multiplier `mult` and the
index `ind`, returns `ind + mult * Σ_j val_j Π_{i<j} categories_i` modulo the
size of `size_t`, the `val_j` being the parents' values converted to `size_t`. -/
theorem currentCatIndexLoop_spec (h : Heap) :
    ∀ (ps : List NodeId) (mult ind : Nat),
      (∀ p ∈ ps, GPGMCategorical.categories h p ≠ 0) →
      (∀ p ∈ ps, -1 < GPGMNode.currentValue h p ∧
        GPGMNode.currentValue h p < (SIZE_MOD : ℚ)) →
      ∃ r, GPGMVariable.currentCatIndexLoop h ps mult ind = .ok r ∧
        (ind < SIZE_MOD → r < SIZE_MOD) ∧
        r ≡ ind + mult * radixSum
          (ps.map (fun p => Int.toNat (Int.floor (GPGMNode.currentValue h p))))
          (ps.map (GPGMCategorical.categories h)) [MOD SIZE_MOD] := by
  intro ps
  induction ps with
  | nil =>
    intro mult ind _ _
    refine ⟨ind, rfl, fun hlt => hlt, ?_⟩
    simp [radixSum_nil, Nat.ModEq]
  | cons p rest ih =>
    intro mult ind hcat hval
    have hp := hval p (List.mem_cons_self _ _)
    have hc := hcat p (List.mem_cons_self _ _)
    obtain ⟨r, hr, hlt, hmod⟩ := ih
      (sizeMul mult (GPGMCategorical.categories h p))
      (sizeAdd ind (sizeMul mult (Int.toNat (Int.floor (GPGMNode.currentValue h p)))))
      (fun q hq => hcat q (List.mem_cons_of_mem _ hq))
      (fun q hq => hval q (List.mem_cons_of_mem _ hq))
    refine ⟨r, ?_, fun _ => hlt (sizeAdd_lt _ _), ?_⟩
    · unfold GPGMVariable.currentCatIndexLoop
      simp only [toSize, hp, and_self, if_true, hc, if_false]
      exact hr
    · refine hmod.trans ?_
      simp only [List.map_cons, radixSum_cons, Nat.cast_id]
      have e1 := sizeAdd_modEq ind
        (sizeMul mult (Int.toNat (Int.floor (GPGMNode.currentValue h p))))
      have e2 := sizeMul_modEq mult (Int.toNat (Int.floor (GPGMNode.currentValue h p)))
      have e3 := sizeMul_modEq mult (GPGMCategorical.categories h p)
      have e4 := (e1.trans (e2.add_left ind)).add (e3.mul_right (radixSum
        (rest.map (fun p => Int.toNat (Int.floor (GPGMNode.currentValue h p))))
        (rest.map (GPGMCategorical.categories h))))
      refine e4.trans ?_
      have e5 : ind + mult * Int.toNat (Int.floor (GPGMNode.currentValue h p)) +
          mult * GPGMCategorical.categories h p * radixSum
            (rest.map (fun p => Int.toNat (Int.floor (GPGMNode.currentValue h p))))
            (rest.map (GPGMCategorical.categories h))
          = ind + mult * (Int.toNat (Int.floor (GPGMNode.currentValue h p)) +
            GPGMCategorical.categories h p * radixSum
              (rest.map (fun p => Int.toNat (Int.floor (GPGMNode.currentValue h p))))
              (rest.map (GPGMCategorical.categories h))) := by ring
      rw [e5]

/-- Claim C5, as amended. For a variable whose categorical parents have at
least one category each and a current value `x` with `-1 < x < 2 ^ 64` (one
that converts to `size_t`), `currentCatIndex()` returns the mixed-radix sum
`Σ_j trunc(P_j.currentValue()) * Π_{i<j} P_i.categories()` modulo `2 ^ 64`, hence
that sum itself when it is below `2 ^ 64`: the first-registered parent is the
least significant digit. -/
theorem currentCatIndex_mixed_radix (h : Heap) (v : NodeId)
    (hcat : ∀ p ∈ (h v).m_catParents, 1 ≤ GPGMCategorical.categories h p)
    (hval : ∀ p ∈ (h v).m_catParents, -1 < GPGMNode.currentValue h p ∧
      GPGMNode.currentValue h p < 2 ^ 64) :
    GPGMVariable.currentCatIndex h v = .ok (radixSum
      ((h v).m_catParents.map (fun p => Int.toNat (Int.floor (GPGMNode.currentValue h p))))
      ((h v).m_catParents.map (GPGMCategorical.categories h)) % 2 ^ 64) ∧
    (radixSum
      ((h v).m_catParents.map (fun p => Int.toNat (Int.floor (GPGMNode.currentValue h p))))
      ((h v).m_catParents.map (GPGMCategorical.categories h)) < 2 ^ 64 →
      GPGMVariable.currentCatIndex h v = .ok (radixSum
        ((h v).m_catParents.map (fun p => Int.toNat (Int.floor (GPGMNode.currentValue h p))))
        ((h v).m_catParents.map (GPGMCategorical.categories h)))) := by
  have hM : (SIZE_MOD : ℚ) = 2 ^ 64 := by unfold SIZE_MOD; norm_num
  obtain ⟨r, hr, hlt, hmod⟩ := currentCatIndexLoop_spec h (h v).m_catParents 1 0
    (fun p hp => Nat.one_le_iff_ne_zero.mp (hcat p hp))
    (fun p hp => by rw [hM]; exact hval p hp)
  have hlt1 := hlt SIZE_MOD_pos
  unfold Nat.ModEq at hmod
  rw [Nat.mod_eq_of_lt hlt1, Nat.zero_add, Nat.one_mul] at hmod
  have e : GPGMVariable.currentCatIndex h v = .ok (radixSum
      ((h v).m_catParents.map (fun p => Int.toNat (Int.floor (GPGMNode.currentValue h p))))
      ((h v).m_catParents.map (GPGMCategorical.categories h)) % 2 ^ 64) := by
    unfold GPGMVariable.currentCatIndex
    rw [hr, hmod]
    rfl
  refine ⟨e, ?_⟩
  intro hsmall
  rw [e, Nat.mod_eq_of_lt hsmall]

/-- Witness of claim C5 on `GBayesNet_alarmTest`: with `pBurglary` at 1 and
`pEarthquake` at 1 the row of `pAlarm` is `1 + 2 * 1 = 3`, and with `pBurglary`
at 0 and `pEarthquake` at 1 it is `0 + 2 * 1 = 2`. -/
theorem currentCatIndex_mixed_radix_witness :
    GPGMVariable.currentCatIndex (setVal (setVal (alarmTest exampleRand).m_heap 1 1) 4 1) 7
      = .ok 3 ∧
    GPGMVariable.currentCatIndex (setVal (setVal (alarmTest exampleRand).m_heap 1 0) 4 1) 7
      = .ok 2 :=
  ⟨((currentCatIndex_mixed_radix (setVal (setVal (alarmTest exampleRand).m_heap 1 1) 4 1) 7
      (by decide!) (by decide!)).2 (by decide!)).trans (by decide!),
    ((currentCatIndex_mixed_radix (setVal (setVal (alarmTest exampleRand).m_heap 1 0) 4 1) 7
      (by decide!) (by decide!)).2 (by decide!)).trans (by decide!)⟩

/-- Claim C5 as stated fails.  The parent of the Normal child of
`GBayesNet_simpleTest`, observed at 1/2, has `currentValue() = 1/2`, so the sum
of the claim is 1/2, and `currentCatIndex()` of the child is 0.  With two
parents of `2 ^ 32` categories, the second observed at `2 ^ 32`, the sum of the
claim is `2 ^ 64` and `currentCatIndex()` is 0.  With the parent observed at -5
the conversion to `size_t` has no defined result. -/
theorem currentCatIndex_ne_claimed_sum :
    (GPGMVariable.currentCatIndex
      (GPGMNode.setObserved (simpleTestGraph exampleRand).m_heap 1 (1 / 2)) 4 = .ok 0 ∧
    radixSum
      (((GPGMNode.setObserved (simpleTestGraph exampleRand).m_heap 1 (1 / 2))
        4).m_catParents.map
        (GPGMNode.currentValue
          (GPGMNode.setObserved (simpleTestGraph exampleRand).m_heap 1 (1 / 2))))
      (((GPGMNode.setObserved (simpleTestGraph exampleRand).m_heap 1 (1 / 2))
        4).m_catParents.map
        (GPGMCategorical.categories
          (GPGMNode.setObserved (simpleTestGraph exampleRand).m_heap 1 (1 / 2))))
      = (1 / 2 : ℚ)) ∧
    (GPGMVariable.currentCatIndex
      (GPGMNode.setObserved (wideParents exampleRand).m_heap 2 (2 ^ 32)) 3 = .ok 0 ∧
    radixSum
      (((GPGMNode.setObserved (wideParents exampleRand).m_heap 2 (2 ^ 32)) 3).m_catParents.map
        (GPGMNode.currentValue
          (GPGMNode.setObserved (wideParents exampleRand).m_heap 2 (2 ^ 32))))
      (((GPGMNode.setObserved (wideParents exampleRand).m_heap 2 (2 ^ 32)) 3).m_catParents.map
        (GPGMCategorical.categories
          (GPGMNode.setObserved (wideParents exampleRand).m_heap 2 (2 ^ 32))))
      = (2 ^ 64 : ℚ)) ∧
    GPGMVariable.currentCatIndex
      (GPGMNode.setObserved (simpleTestGraph exampleRand).m_heap 1 (-5)) 4 = .undefined := by
  refine ⟨⟨by decide!, by decide!⟩, ⟨by decide!, by decide!⟩, by decide!⟩

/-! ### Claim C6: construction of a Categorical -/

theorem vecResize_nil {α : Type} (n : Nat) (d : α) : vecResize [] n d = List.replicate n d := by
  simp [vecResize]

/-- Claim C6. The constructor of a Categorical throws exactly when
`categories < 2`; when it returns, the node is an unobserved Categorical with
value 0 whose weight table consists of `categories` copies of the default
weight.  `newCat` throws in the same case, and then the registry and the nodes
of the network are unchanged; otherwise it stores the node and returns. -/
theorem categorical_construct_spec (categories : Nat) (pDefaultWeight : NodeId) :
    (GPGMCategorical.construct categories pDefaultWeight = .thrown ↔ categories < 2) ∧
    (∀ n, GPGMCategorical.construct categories pDefaultWeight = .ok n →
      n.kind = .categorical ∧ n.m_observed = false ∧ n.m_val = 0 ∧
      GPGMCategorical.currentValue n = 0 ∧ n.m_categories = categories ∧
      n.m_weights.length = categories ∧ n.m_weights = List.replicate categories pDefaultWeight) ∧
    (2 ≤ categories → ∃ n, GPGMCategorical.construct categories pDefaultWeight = .ok n) ∧
    (∀ bn : GBayesNet,
      ((bn.newCat categories).isThrown = true ↔ categories < 2) ∧
      (2 ≤ categories → (bn.newCat categories).isOk = true) ∧
      (∀ bn1, bn.newCat categories = .thrown bn1 →
        bn1.m_sampleNodes = bn.m_sampleNodes ∧ bn1.m_heap = bn.m_heap) ∧
      (∀ p bn1, bn.newCat categories = .ok p bn1 →
        GPGMCategorical.construct categories bn.m_pConstOne = .ok (bn1.m_heap p))) := by
  refine ⟨?_, ?_, ?_, ?_⟩
  · unfold GPGMCategorical.construct
    split <;> simp [*]
  · intro n hn
    unfold GPGMCategorical.construct at hn
    split at hn
    · simp at hn
    · simp only [Res.ok.injEq] at hn
      subst hn
      simp [GPGMNode.construct, GPGMCategorical.currentValue, vecResize_nil]
  · intro h2
    unfold GPGMCategorical.construct
    rw [if_neg (by omega)]
    exact ⟨_, rfl⟩
  · intro bn
    unfold GBayesNet.newCat GPGMCategorical.construct
    by_cases hc : categories < 2
    · simp [hc, Outcome.isThrown, Outcome.isOk]
    · simp [hc, Outcome.isThrown, Outcome.isOk, GBayesNet.place, Heap.put]

/-- Witness of claim C6: two categories are accepted, one is refused. -/
theorem categorical_construct_spec_witness :
    ((GPGMCategorical.construct 2 0 = .ok
        { GPGMNode.construct .categorical with m_categories := 2, m_weights := [0, 0] }) ∧
      ({ GPGMNode.construct .categorical with
        m_categories := 2, m_weights := [0, 0] } : GPGMNode).m_weights = List.replicate 2 0) ∧
    GPGMCategorical.construct 1 0 = .thrown ∧
    ((GBayesNet.construct exampleRand).newCat 2).isOk = true ∧
    ((GBayesNet.construct exampleRand).newCat 1).isThrown = true :=
  ⟨⟨by decide!, ((categorical_construct_spec 2 0).2.1 _ (by decide!)).2.2.2.2.2.2⟩,
    (categorical_construct_spec 1 0).1.mpr (by decide),
    ((categorical_construct_spec 2 0).2.2.2 (GBayesNet.construct exampleRand)).2.1 (by decide),
    ((categorical_construct_spec 1 0).2.2.2 (GBayesNet.construct exampleRand)).1.mpr (by decide)⟩


/-! ### Writes into the weight table -/

theorem foldl_set_length {α : Type} (writes : List (Nat × α)) :
    ∀ l : List α, (writes.foldl (fun l iw => l.set iw.1 iw.2) l).length = l.length := by
  induction writes with
  | nil => intro l; rfl
  | cons iw rest ih => intro l; simp [List.foldl_cons, ih]

theorem wrote_nil (v : NodeId) (h : Heap) : Wrote v h h [] := by
  refine ⟨fun _ => rfl, fun _ => rfl, fun _ => by simp, rfl, fun _ _ => rfl, ?_⟩
  intro iw hiw
  simp at hiw

theorem wrote_length {v : NodeId} {h h1 : Heap} {writes : List (Nat × NodeId)}
    (w : Wrote v h h1 writes) : (h1 v).m_weights.length = (h v).m_weights.length := by
  rw [w.2.2.2.1, foldl_set_length]

theorem wrote_trans {v : NodeId} {h h1 h2 : Heap} {ws1 ws2 : List (Nat × NodeId)}
    (a : Wrote v h h1 ws1) (b : Wrote v h1 h2 ws2) : Wrote v h h2 (ws1 ++ ws2) := by
  obtain ⟨a1, a2, a3, a4, a5, a6⟩ := a
  obtain ⟨b1, b2, b3, b4, b5, b6⟩ := b
  have hl : (h1 v).m_weights.length = (h v).m_weights.length := by
    rw [a4, foldl_set_length]
  refine ⟨fun q => (b1 q).trans (a1 q), fun q => (b2 q).trans (a2 q), ?_, ?_, ?_, ?_⟩
  · intro q
    rw [b3 q, a3 q, List.append_assoc, List.map_append, List.count_append,
      List.replicate_add]
  · rw [b4, a4, List.foldl_append]
  · intro q hq
    rw [b5 q hq, a5 q hq]
  · intro iw hiw
    rcases List.mem_append.mp hiw with hm | hm
    · exact a6 iw hm
    · rw [← hl]; exact b6 iw hm

/-- The node at `q` after `m_weights = ws; pW->onNewChild(this)` on the node
`v`: the weights are replaced at `v` and `v` is appended to the children at
`pW`. -/
theorem put_weights_onNewChild (h : Heap) (v pW : NodeId) (ws : List NodeId) (q : NodeId) :
    (GPGMVariable.onNewChild (h.put v { h v with m_weights := ws }) pW v q).shell
      = (h q).shell ∧
    (GPGMVariable.onNewChild (h.put v { h v with m_weights := ws }) pW v q).m_params
      = (h q).m_params ∧
    (GPGMVariable.onNewChild (h.put v { h v with m_weights := ws }) pW v q).m_children
      = (h q).m_children ++ (if q = pW then [v] else []) ∧
    (GPGMVariable.onNewChild (h.put v { h v with m_weights := ws }) pW v q).m_weights
      = (if q = v then ws else (h q).m_weights) := by
  by_cases hqv : q = v
  · subst hqv
    by_cases hqw : q = pW
    · subst hqw
      simp [GPGMVariable.onNewChild, Heap.put, GPGMNode.shell]
    · have hwq : ¬ pW = q := fun e => hqw e.symm
      simp [GPGMVariable.onNewChild, Heap.put, GPGMNode.shell, hqw, hwq]
  · by_cases hqw : q = pW
    · subst hqw
      simp [GPGMVariable.onNewChild, Heap.put, GPGMNode.shell, hqv]
    · simp [GPGMVariable.onNewChild, Heap.put, GPGMNode.shell, hqv, hqw]

theorem assignWeight_wrote (h : Heap) (v : NodeId) (i : Nat) (pW : NodeId) (h1 : Heap)
    (e : assignWeight h v i pW = some h1) : Wrote v h h1 [(i, pW)] := by
  unfold assignWeight vecSet at e
  by_cases hi : i < (h v).m_weights.length
  · simp only [hi, if_true, Option.some.injEq] at e
    subst e
    refine ⟨fun q => (put_weights_onNewChild h v pW _ q).1,
      fun q => (put_weights_onNewChild h v pW _ q).2.1, ?_, ?_, ?_, ?_⟩
    · intro q
      rw [(put_weights_onNewChild h v pW _ q).2.2.1]
      by_cases hq : q = pW
      · subst hq; simp
      · have hq2 : ¬ pW = q := fun e => hq e.symm
        simp [hq, hq2]
    · rw [(put_weights_onNewChild h v pW _ v).2.2.2]
      simp
    · intro q hq
      rw [(put_weights_onNewChild h v pW _ q).2.2.2]
      simp [hq]
    · intro iw hiw
      simp only [List.mem_singleton] at hiw
      subst hiw
      exact hi
  · simp [hi] at e

theorem assignWeight_isSome (h : Heap) (v : NodeId) (i : Nat) (pW : NodeId) :
    (assignWeight h v i pW).isSome = true ↔ i < (h v).m_weights.length := by
  unfold assignWeight vecSet
  by_cases hi : i < (h v).m_weights.length <;> simp [hi]

theorem writeAll_wrote (v : NodeId) :
    ∀ (writes : List (Nat × NodeId)) (h h1 : Heap),
      writeAll v writes h = some h1 → Wrote v h h1 writes := by
  intro writes
  induction writes with
  | nil =>
    intro h h1 e
    simp only [writeAll, Option.some.injEq] at e
    subst e
    exact wrote_nil v h
  | cons iw rest ih =>
    intro h h1 e
    obtain ⟨i, pW⟩ := iw
    unfold writeAll at e
    cases ha : assignWeight h v i pW with
    | none => rw [ha] at e; simp at e
    | some h2 =>
      rw [ha] at e
      exact wrote_trans (assignWeight_wrote h v i pW h2 ha) (ih h2 h1 e)

theorem writeAll_isSome (v : NodeId) :
    ∀ (writes : List (Nat × NodeId)) (h : Heap),
      (writeAll v writes h).isSome = true ↔ ∀ iw ∈ writes, iw.1 < (h v).m_weights.length := by
  intro writes
  induction writes with
  | nil => intro h; simp [writeAll]
  | cons iw rest ih =>
    intro h
    obtain ⟨i, pW⟩ := iw
    unfold writeAll
    cases ha : assignWeight h v i pW with
    | none =>
      have hi : ¬ i < (h v).m_weights.length := by
        rw [← assignWeight_isSome h v i pW, ha]; simp
      simp only [Option.isSome_none, Bool.false_eq_true, false_iff]
      intro hall
      exact hi (hall (i, pW) (List.mem_cons_self _ _))
    | some h2 =>
      have hi : i < (h v).m_weights.length := by
        rw [← assignWeight_isSome h v i pW, ha]; simp
      have hl := wrote_length (assignWeight_wrote h v i pW h2 ha)
      simp only
      rw [ih h2, hl]
      constructor
      · intro hall iw hiw
        rcases List.mem_cons.mp hiw with hm | hm
        · subst hm; exact hi
        · exact hall iw hm
      · intro hall iw hiw
        exact hall iw (List.mem_cons_of_mem _ hiw)

theorem rowWrites_length (base : Nat) :
    ∀ (ws : List NodeId) (start : Nat), (rowWrites base start ws).length = ws.length := by
  intro ws
  induction ws with
  | nil => intro start; rfl
  | cons w rest ih => intro start; simp [rowWrites, ih]

theorem rowWrites_map_snd (base : Nat) :
    ∀ (ws : List NodeId) (start : Nat), (rowWrites base start ws).map Prod.snd = ws := by
  intro ws
  induction ws with
  | nil => intro start; rfl
  | cons w rest ih => intro start; simp [rowWrites, ih]

/-- The nested tests of `setWeights` are the writes of the leading non-null
arguments. -/
theorem setWeightsRest_eq_writeAll (v : NodeId) (base : Nat) :
    ∀ (ws : List (Option NodeId)) (given : Nat) (h : Heap),
      GPGMCategorical.setWeightsRest v base ws given h =
        (writeAll v (rowWrites base given (leadingNodes ws)) h).map
          (fun h1 => (h1, given + (leadingNodes ws).length)) := by
  intro ws
  induction ws with
  | nil => intro given h; simp [GPGMCategorical.setWeightsRest, leadingNodes, rowWrites, writeAll]
  | cons w rest ih =>
    intro given h
    cases w with
    | none => simp [GPGMCategorical.setWeightsRest, leadingNodes, rowWrites, writeAll]
    | some pW =>
      simp only [GPGMCategorical.setWeightsRest, leadingNodes, rowWrites, writeAll,
        List.length_cons]
      cases ha : assignWeight h v (sizeAdd base given) pW with
      | none => simp
      | some h1 =>
        simp only
        rw [ih (given + 1) h1]
        congr 1
        funext h2
        congr 1
        omega


theorem leadingNodes_length_le :
    ∀ ws : List (Option NodeId), (leadingNodes ws).length ≤ ws.length := by
  intro ws
  induction ws with
  | nil => simp [leadingNodes]
  | cons w rest ih =>
    cases w with
    | none => simp [leadingNodes]
    | some pW => simp [leadingNodes]; exact ih

theorem sizeAdd_sizeMul (a b i : Nat) : sizeAdd (sizeMul a b) i = (a * b + i) % 2 ^ 64 := by
  unfold sizeAdd sizeMul SIZE_MOD
  exact Nat.mod_add_mod _ _ _

theorem shell_categories {n n1 : GPGMNode} (e : n1.shell = n.shell) :
    n1.m_categories = n.m_categories := by
  have e1 := congrArg GPGMNode.m_categories e
  exact e1

theorem shell_catParents {n n1 : GPGMNode} (e : n1.shell = n.shell) :
    n1.m_catParents = n.m_catParents := by
  have e1 := congrArg GPGMNode.m_catParents e
  exact e1

/-- The method `setWeights` on a row below `catCount()`: the writes of `pW1`,
`pW2` and the leading non-null optional arguments, then the test of their
number. -/
theorem setWeights_eq_writeAll (h : Heap) (v : NodeId) (cat : Nat) (pW1 pW2 : NodeId)
    (pW3 pW4 pW5 pW6 pW7 pW8 : Option NodeId) (hcat : cat < GPGMVariable.catCount h v) :
    GPGMCategorical.setWeights h v cat pW1 pW2 pW3 pW4 pW5 pW6 pW7 pW8 =
      match writeAll v (rowWrites (sizeMul cat (h v).m_categories) 0
          (pW1 :: pW2 :: leadingNodes [pW3, pW4, pW5, pW6, pW7, pW8])) h with
      | none => .undefined
      | some h1 =>
        if (pW1 :: pW2 :: leadingNodes [pW3, pW4, pW5, pW6, pW7, pW8]).length
            ≠ (h v).m_categories then .thrown h1 else .ok () h1 := by
  have hb : sizeAdd (sizeMul cat (h v).m_categories) 0 = sizeMul cat (h v).m_categories := by
    unfold sizeAdd
    rw [Nat.add_zero, Nat.mod_eq_of_lt (sizeMul_lt _ _)]
  unfold GPGMCategorical.setWeights
  rw [if_neg (by omega)]
  simp only [rowWrites, writeAll, hb]
  cases h1e : assignWeight h v (sizeMul cat (h v).m_categories) pW1 with
  | none => rfl
  | some h1 =>
    simp only
    cases h2e : assignWeight h1 v (sizeAdd (sizeMul cat (h v).m_categories) 1) pW2 with
    | none => rfl
    | some h2 =>
      simp only
      rw [setWeightsRest_eq_writeAll]
      cases h3e : writeAll v (rowWrites (sizeMul cat (h v).m_categories) 2
          (leadingNodes [pW3, pW4, pW5, pW6, pW7, pW8])) h2 with
      | none => rfl
      | some h3 =>
        simp only [Option.map_some', List.length_cons]
        have w1 := assignWeight_wrote h v _ pW1 h1 h1e
        have w2 := assignWeight_wrote h1 v _ pW2 h2 h2e
        have w3 := writeAll_wrote v _ h2 h3 h3e
        have hk : (h3 v).m_categories = (h v).m_categories :=
          (shell_categories (w3.1 v)).trans
            ((shell_categories (w2.1 v)).trans (shell_categories (w1.1 v)))
        rw [hk]
        have e : 2 + (leadingNodes [pW3, pW4, pW5, pW6, pW7, pW8]).length
            = (leadingNodes [pW3, pW4, pW5, pW6, pW7, pW8]).length + 1 + 1 := by omega
        rw [e]

theorem rowWrites_fst (base : Nat) :
    ∀ (ws : List NodeId) (start : Nat) (iw : Nat × NodeId), iw ∈ rowWrites base start ws →
      ∃ i, i < ws.length ∧ iw.1 = sizeAdd base (start + i) := by
  intro ws
  induction ws with
  | nil => intro start iw hiw; simp [rowWrites] at hiw
  | cons w rest ih =>
    intro start iw hiw
    simp only [rowWrites, List.mem_cons] at hiw
    rcases hiw with hm | hm
    · subst hm
      exact ⟨0, by simp, rfl⟩
    · obtain ⟨i, hi, he⟩ := ih (start + 1) iw hm
      refine ⟨i + 1, by simp [hi], ?_⟩
      rw [he]
      congr 1
      omega

theorem rowWrites_mem (base : Nat) :
    ∀ (ws : List NodeId) (start i : Nat) (hi : i < ws.length),
      (sizeAdd base (start + i), ws[i]) ∈ rowWrites base start ws := by
  intro ws
  induction ws with
  | nil => intro start i hi; simp at hi
  | cons w rest ih =>
    intro start i hi
    cases i with
    | zero => simp [rowWrites]
    | succ j =>
      simp only [rowWrites, List.mem_cons, List.getElem_cons_succ]
      right
      have := ih (start + 1) j (by simpa using hi)
      have e : start + 1 + j = start + (j + 1) := by omega
      rw [e] at this
      exact this

theorem sizeAdd_inj (base a b : Nat) (ha : a < SIZE_MOD) (hb : b < SIZE_MOD)
    (e : sizeAdd base a = sizeAdd base b) : a = b := by
  have h1 : base + a ≡ base + b [MOD SIZE_MOD] := e
  exact Nat.ModEq.eq_of_lt_of_lt (Nat.ModEq.add_left_cancel' base h1) ha hb

theorem rowWrites_nodup (base : Nat) :
    ∀ (ws : List NodeId) (start : Nat), start + ws.length ≤ SIZE_MOD →
      ((rowWrites base start ws).map Prod.fst).Nodup := by
  intro ws
  induction ws with
  | nil => intro start _; simp [rowWrites]
  | cons w rest ih =>
    intro start hle
    simp only [List.length_cons] at hle
    simp only [rowWrites, List.map_cons, List.nodup_cons]
    refine ⟨?_, ih (start + 1) (by omega)⟩
    intro hmem
    obtain ⟨iw, hiw, he⟩ := List.mem_map.mp hmem
    obtain ⟨i, hi, hidx⟩ := rowWrites_fst base rest (start + 1) iw hiw
    rw [hidx] at he
    have := sizeAdd_inj base (start + 1 + i) start (by omega) (by omega) he
    omega

theorem foldl_set_getElem?_of_not_mem {α : Type} (writes : List (Nat × α)) :
    ∀ (l : List α) (j : Nat), j ∉ writes.map Prod.fst →
      (writes.foldl (fun l iw => l.set iw.1 iw.2) l)[j]? = l[j]? := by
  induction writes with
  | nil => intro l j _; rfl
  | cons iw rest ih =>
    intro l j hj
    simp only [List.map_cons, List.mem_cons, not_or] at hj
    simp only [List.foldl_cons]
    rw [ih _ j hj.2, List.getElem?_set_ne (fun e => hj.1 e.symm)]

theorem foldl_set_getElem?_of_mem {α : Type} (writes : List (Nat × α)) :
    ∀ (l : List α) (i : Nat) (a : α), (writes.map Prod.fst).Nodup → (i, a) ∈ writes →
      i < l.length → (writes.foldl (fun l iw => l.set iw.1 iw.2) l)[i]? = some a := by
  induction writes with
  | nil => intro l i a _ hm _; simp at hm
  | cons iw rest ih =>
    intro l i a hnd hm hi
    simp only [List.map_cons, List.nodup_cons] at hnd
    simp only [List.foldl_cons]
    rcases List.mem_cons.mp hm with he | he
    · subst he
      rw [foldl_set_getElem?_of_not_mem rest _ i hnd.1]
      simp [hi]
    · exact ih _ i a hnd.2 he (by simpa using hi)

/-- Claim C7, as amended. On a row below `catCount()`, and when every write of
the call falls inside the weight table, `setWeights` throws exactly when the
number of leading non-null weights (`pW1`, `pW2` and the optional arguments
before the first null one) differs from `categories`; some write falls outside
the table, and the behaviour is undefined, exactly when one of the indices
`cat * categories + j` (in `size_t`) of the weights given is not below the
length of the table. -/
theorem setWeights_throws_iff (h : Heap) (v : NodeId) (cat : Nat) (pW1 pW2 : NodeId)
    (pW3 pW4 pW5 pW6 pW7 pW8 : Option NodeId) (hcat : cat < GPGMVariable.catCount h v) :
    ((∀ j, j < 2 + (leadingNodes [pW3, pW4, pW5, pW6, pW7, pW8]).length →
        (cat * (h v).m_categories + j) % 2 ^ 64 < (h v).m_weights.length) →
      ((GPGMCategorical.setWeights h v cat pW1 pW2 pW3 pW4 pW5 pW6 pW7 pW8).isThrown = true ↔
        2 + (leadingNodes [pW3, pW4, pW5, pW6, pW7, pW8]).length ≠ (h v).m_categories) ∧
      ((GPGMCategorical.setWeights h v cat pW1 pW2 pW3 pW4 pW5 pW6 pW7 pW8).isOk = true ↔
        2 + (leadingNodes [pW3, pW4, pW5, pW6, pW7, pW8]).length = (h v).m_categories)) ∧
    (GPGMCategorical.setWeights h v cat pW1 pW2 pW3 pW4 pW5 pW6 pW7 pW8 = .undefined ↔
      ∃ j, j < 2 + (leadingNodes [pW3, pW4, pW5, pW6, pW7, pW8]).length ∧
        (h v).m_weights.length ≤ (cat * (h v).m_categories + j) % 2 ^ 64) := by
  have hlen : (pW1 :: pW2 :: leadingNodes [pW3, pW4, pW5, pW6, pW7, pW8]).length
      = 2 + (leadingNodes [pW3, pW4, pW5, pW6, pW7, pW8]).length := by
    simp only [List.length_cons]; omega
  have hsome := writeAll_isSome v (rowWrites (sizeMul cat (h v).m_categories) 0
    (pW1 :: pW2 :: leadingNodes [pW3, pW4, pW5, pW6, pW7, pW8])) h
  have hbounds : (∀ iw ∈ rowWrites (sizeMul cat (h v).m_categories) 0
        (pW1 :: pW2 :: leadingNodes [pW3, pW4, pW5, pW6, pW7, pW8]),
        iw.1 < (h v).m_weights.length) ↔
      ∀ j, j < 2 + (leadingNodes [pW3, pW4, pW5, pW6, pW7, pW8]).length →
        (cat * (h v).m_categories + j) % 2 ^ 64 < (h v).m_weights.length := by
    constructor
    · intro hall j hj
      have hm := rowWrites_mem (sizeMul cat (h v).m_categories)
        (pW1 :: pW2 :: leadingNodes [pW3, pW4, pW5, pW6, pW7, pW8]) 0 j (by rw [hlen]; exact hj)
      have := hall _ hm
      rw [Nat.zero_add, sizeAdd_sizeMul] at this
      exact this
    · intro hall iw hiw
      obtain ⟨i, hi, he⟩ := rowWrites_fst _ _ _ iw hiw
      rw [he, Nat.zero_add, sizeAdd_sizeMul]
      exact hall i (by rw [← hlen]; exact hi)
  rw [setWeights_eq_writeAll h v cat pW1 pW2 pW3 pW4 pW5 pW6 pW7 pW8 hcat, hlen]
  cases hw : writeAll v (rowWrites (sizeMul cat (h v).m_categories) 0
      (pW1 :: pW2 :: leadingNodes [pW3, pW4, pW5, pW6, pW7, pW8])) h with
  | none =>
    rw [hw] at hsome
    simp only [Option.isSome_none, Bool.false_eq_true, false_iff] at hsome
    rw [hbounds] at hsome
    refine ⟨fun hall => absurd hall hsome, ?_⟩
    simp only [true_iff]
    by_contra hne
    apply hsome
    intro j hj
    by_contra hlt
    exact hne ⟨j, hj, by omega⟩
  | some h1 =>
    rw [hw] at hsome
    simp only [Option.isSome_some, true_iff] at hsome
    rw [hbounds] at hsome
    simp only
    refine ⟨fun _ => ?_, ?_⟩
    · by_cases hk : 2 + (leadingNodes [pW3, pW4, pW5, pW6, pW7, pW8]).length
          = (h v).m_categories
      · simp [hk, Outcome.isThrown, Outcome.isOk]
      · simp [hk, Outcome.isThrown, Outcome.isOk]
    · constructor
      · intro e
        split at e <;> simp at e
      · rintro ⟨j, hj, hle⟩
        have := hsome j hj
        omega


/-- Witness of claim C7 on a Categorical of three categories: three leading
weights are accepted, two are refused. -/
theorem setWeights_throws_iff_witness :
    (GPGMCategorical.setWeights (threeCategories exampleRand).m_heap 1 0 2 3 (some 4)
      none none none none none).isOk = true ∧
    (GPGMCategorical.setWeights (threeCategories exampleRand).m_heap 1 0 2 3 none
      none none none none none).isThrown = true :=
  ⟨((setWeights_throws_iff (threeCategories exampleRand).m_heap 1 0 2 3 (some 4)
      none none none none none (by decide!)).1 (by decide!)).2.mpr (by decide!),
    ((setWeights_throws_iff (threeCategories exampleRand).m_heap 1 0 2 3 none
      none none none none none (by decide!)).1 (by decide!)).1.mpr (by decide!)⟩

/-- Claim C7 as stated fails.  On a Categorical of three categories, row 0, the
call `setWeights(0, w1, w2, NULL, w4)` provides three non-null weights, as many
as there are categories, and throws.  The call `setWeights(0, w1, w2, w3, w4)`
provides four, and instead of throwing it stores the fourth past the end of the
table of three entries, which C++ leaves undefined. -/
theorem setWeights_counts_leading_only :
    0 < GPGMVariable.catCount (threeCategories exampleRand).m_heap 1 ∧
    (2 + ([none, some 4, none, none, none, none].filter Option.isSome).length
      = ((threeCategories exampleRand).m_heap 1).m_categories ∧
    (GPGMCategorical.setWeights (threeCategories exampleRand).m_heap 1 0 2 3 none (some 4)
      none none none none).isThrown = true) ∧
    (2 + ([some 4, some 2, none, none, none, none].filter Option.isSome).length
      ≠ ((threeCategories exampleRand).m_heap 1).m_categories ∧
    (GPGMCategorical.setWeights (threeCategories exampleRand).m_heap 1 0 2 3 (some 4) (some 2)
      none none none none).isThrown = false ∧
    ((GPGMCategorical.setWeights (threeCategories exampleRand).m_heap 1 0 2 3 (some 4) (some 2)
      none none none none).state?).isNone = true) := by
  refine ⟨by decide!, ⟨by decide!, by decide!⟩, ⟨by decide!, by decide!, by decide!⟩⟩

/-! ### Claim C9: a successful `setWeights` -/

/-- Claim C9. A call `setWeights(cat, ...)` that returns normally was given
exactly `k = categories` leading weights `ws = [pW1, pW2, ...]` on a row below
`catCount()`; it leaves `m_weights[cat * k + i] = ws[i]` for every `i < k` (the
index taken in `size_t`), every other entry of the table of this node and the
tables of all other nodes as they were, and it appends this node to the
children of every node once for each time the node occurs among the weights. -/
theorem setWeights_ok_spec (h : Heap) (v : NodeId) (cat : Nat) (pW1 pW2 : NodeId)
    (pW3 pW4 pW5 pW6 pW7 pW8 : Option NodeId) (h1 : Heap)
    (hok : GPGMCategorical.setWeights h v cat pW1 pW2 pW3 pW4 pW5 pW6 pW7 pW8 = .ok () h1) :
    cat < GPGMVariable.catCount h v ∧
    (pW1 :: pW2 :: leadingNodes [pW3, pW4, pW5, pW6, pW7, pW8]).length = (h v).m_categories ∧
    (h v).m_categories ≤ 8 ∧
    (h1 v).m_weights.length = (h v).m_weights.length ∧
    (∀ i (hi : i < (pW1 :: pW2 :: leadingNodes [pW3, pW4, pW5, pW6, pW7, pW8]).length),
      (h1 v).m_weights[(cat * (h v).m_categories + i) % 2 ^ 64]?
        = some ((pW1 :: pW2 :: leadingNodes [pW3, pW4, pW5, pW6, pW7, pW8])[i])) ∧
    (∀ j, (∀ i, i < (h v).m_categories → j ≠ (cat * (h v).m_categories + i) % 2 ^ 64) →
      (h1 v).m_weights[j]? = (h v).m_weights[j]?) ∧
    (∀ q, q ≠ v → (h1 q).m_weights = (h q).m_weights) ∧
    (∀ q, (h1 q).m_children = (h q).m_children ++ List.replicate
      ((pW1 :: pW2 :: leadingNodes [pW3, pW4, pW5, pW6, pW7, pW8]).count q) v) := by
  have hcat : cat < GPGMVariable.catCount h v := by
    by_contra hge
    unfold GPGMCategorical.setWeights at hok
    rw [if_pos (by omega)] at hok
    simp at hok
  rw [setWeights_eq_writeAll h v cat pW1 pW2 pW3 pW4 pW5 pW6 pW7 pW8 hcat] at hok
  cases hw : writeAll v (rowWrites (sizeMul cat (h v).m_categories) 0
      (pW1 :: pW2 :: leadingNodes [pW3, pW4, pW5, pW6, pW7, pW8])) h with
  | none => rw [hw] at hok; simp at hok
  | some h2 =>
    rw [hw] at hok
    simp only at hok
    split at hok
    · simp at hok
    · rename_i hk
      simp only [Outcome.ok.injEq, true_and] at hok
      subst hok
      have hk1 : (pW1 :: pW2 :: leadingNodes [pW3, pW4, pW5, pW6, pW7, pW8]).length
          = (h v).m_categories := by
        by_contra hne; exact hk hne
      have hle := leadingNodes_length_le [pW3, pW4, pW5, pW6, pW7, pW8]
      have hk8 : (h v).m_categories ≤ 8 := by
        rw [← hk1]
        simp only [List.length_cons, List.length_nil] at hle ⊢
        omega
      obtain ⟨_, _, w3, w4, w5, w6⟩ := writeAll_wrote v _ h h2 hw
      have hnd := rowWrites_nodup (sizeMul cat (h v).m_categories)
        (pW1 :: pW2 :: leadingNodes [pW3, pW4, pW5, pW6, pW7, pW8]) 0
        (by rw [hk1]; unfold SIZE_MOD; omega)
      refine ⟨hcat, hk1, hk8, ?_, ?_, ?_, w5, ?_⟩
      · rw [w4, foldl_set_length]
      · intro i hi
        have hm := rowWrites_mem (sizeMul cat (h v).m_categories)
          (pW1 :: pW2 :: leadingNodes [pW3, pW4, pW5, pW6, pW7, pW8]) 0 i hi
        rw [Nat.zero_add, sizeAdd_sizeMul] at hm
        rw [w4]
        refine foldl_set_getElem?_of_mem _ _ _ _ hnd hm ?_
        have := w6 _ hm
        exact this
      · intro j hj
        rw [w4]
        apply foldl_set_getElem?_of_not_mem
        intro hmem
        obtain ⟨iw, hiw, he⟩ := List.mem_map.mp hmem
        obtain ⟨i, hi, hidx⟩ := rowWrites_fst _ _ _ iw hiw
        rw [Nat.zero_add, sizeAdd_sizeMul] at hidx
        rw [hk1] at hi
        exact hj i hi (by rw [← he, hidx])
      · intro q
        rw [w3 q, rowWrites_map_snd]

theorem outcome_eq_ok_of_isOk {σ : Type} (o : Outcome σ Unit) (d : σ)
    (e : o.isOk = true) : o = .ok () (o.state?.getD d) := by
  cases o with
  | ok a s => rfl
  | thrown s => simp [Outcome.isOk] at e
  | undefined => simp [Outcome.isOk] at e

/-- Witness of claim C9: row 2 of `pAlarm` in `GBayesNet_alarmTest`, set again to
the weights at the addresses 12 and 13. -/
theorem setWeights_ok_spec_witness :
    (GPGMCategorical.setWeights (alarmTest exampleRand).m_heap 7 2 12 13
      none none none none none none).isOk = true ∧
    ((((GPGMCategorical.setWeights (alarmTest exampleRand).m_heap 7 2 12 13
      none none none none none none).state?).getD (alarmTest exampleRand).m_heap) 7).m_weights[4]?
      = some 12 ∧
    ((((GPGMCategorical.setWeights (alarmTest exampleRand).m_heap 7 2 12 13
      none none none none none none).state?).getD (alarmTest exampleRand).m_heap) 12).m_children
      = ((alarmTest exampleRand).m_heap 12).m_children ++ [7] := by
  have hs : GPGMCategorical.setWeights (alarmTest exampleRand).m_heap 7 2 12 13
      none none none none none none = .ok ()
      (((GPGMCategorical.setWeights (alarmTest exampleRand).m_heap 7 2 12 13
        none none none none none none).state?).getD (alarmTest exampleRand).m_heap) :=
    outcome_eq_ok_of_isOk _ _ (by decide!)
  have hspec := setWeights_ok_spec _ _ _ _ _ _ _ _ _ _ _ _ hs
  refine ⟨by decide!, ?_, ?_⟩
  · exact hspec.2.2.2.2.1 0 (by decide)
  · exact hspec.2.2.2.2.2.2.2 12


/-! ### Claim C8: the row test of the setters -/

theorem assignParam_isSome (h : Heap) (v : NodeId) (i : Nat) (p : NodeId) :
    (assignParam h v i p).isSome = true ↔ i < (h v).m_params.length := by
  unfold assignParam vecSet
  by_cases hi : i < (h v).m_params.length <;> simp [hi]

theorem assignParam_length (h : Heap) (v : NodeId) (i : Nat) (p : NodeId) (h1 : Heap)
    (e : assignParam h v i p = some h1) : (h1 v).m_params.length = (h v).m_params.length := by
  unfold assignParam vecSet at e
  by_cases hi : i < (h v).m_params.length
  · simp only [hi, if_true, Option.some.injEq] at e
    subst e
    by_cases hp : v = p
    · subst hp; simp [GPGMVariable.onNewChild, Heap.put]
    · simp [GPGMVariable.onNewChild, Heap.put, hp]
  · simp [hi] at e

theorem setParamPair_spec (h : Heap) (v : NodeId) (cat : Nat) (p1 p2 : NodeId) :
    (GPGMVariable.catCount h v ≤ cat → setParamPair h v cat p1 p2 = .thrown h) ∧
    (cat < GPGMVariable.catCount h v → (setParamPair h v cat p1 p2).isThrown = false) ∧
    (cat < GPGMVariable.catCount h v → 2 * cat + 1 < (h v).m_params.length →
      (setParamPair h v cat p1 p2).isOk = true) := by
  refine ⟨?_, ?_, ?_⟩
  · intro hge
    unfold setParamPair
    rw [if_pos hge]
  · intro hlt
    unfold setParamPair
    rw [if_neg (by omega)]
    simp only
    split
    · rfl
    · split <;> rfl
  · intro hlt hrow
    unfold setParamPair
    rw [if_neg (by omega)]
    simp only
    have hb : sizeMul 2 cat ≤ 2 * cat := Nat.mod_le _ _
    have hb1 : sizeAdd (sizeMul 2 cat) 1 ≤ sizeMul 2 cat + 1 := Nat.mod_le _ _
    cases h1e : assignParam h v (sizeMul 2 cat) p1 with
    | none =>
      have := (assignParam_isSome h v (sizeMul 2 cat) p1).mpr (by omega)
      rw [h1e] at this
      simp at this
    | some h1 =>
      simp only
      have hl := assignParam_length h v _ p1 h1 h1e
      cases h2e : assignParam h1 v (sizeAdd (sizeMul 2 cat) 1) p2 with
      | none =>
        have := (assignParam_isSome h1 v (sizeAdd (sizeMul 2 cat) 1) p2).mpr (by omega)
        rw [h2e] at this
        simp at this
      | some h2 => rfl

theorem setParamSingle_spec (h : Heap) (v : NodeId) (cat : Nat) (p : NodeId) :
    (GPGMVariable.catCount h v ≤ cat → setParamSingle h v cat p = .thrown h) ∧
    (cat < GPGMVariable.catCount h v → (setParamSingle h v cat p).isThrown = false) ∧
    (cat < GPGMVariable.catCount h v → cat < (h v).m_params.length →
      (setParamSingle h v cat p).isOk = true) := by
  refine ⟨?_, ?_, ?_⟩
  · intro hge
    unfold setParamSingle
    rw [if_pos hge]
  · intro hlt
    unfold setParamSingle
    rw [if_neg (by omega)]
    simp only
    split <;> rfl
  · intro hlt hrow
    unfold setParamSingle
    rw [if_neg (by omega)]
    simp only
    have hb : sizeMul 1 cat ≤ 1 * cat := Nat.mod_le _ _
    cases h1e : assignParam h v (sizeMul 1 cat) p with
    | none =>
      have := (assignParam_isSome h v (sizeMul 1 cat) p).mpr (by omega)
      rw [h1e] at this
      simp at this
    | some h1 => rfl

/-- Claim C8. Every parameter setter called with a row `cat ≥ catCount()`
throws and leaves the whole heap (every table, every children list) as it was.
With `cat < catCount()` no setter of a distribution throws; it returns normally
whenever the row lies inside the parameter table. -/
theorem setters_row_check (h : Heap) (v : NodeId) (cat : Nat) (p1 p2 : NodeId)
    (pW3 pW4 pW5 pW6 pW7 pW8 : Option NodeId) :
    (GPGMVariable.catCount h v ≤ cat →
      GPGMCategorical.setWeights h v cat p1 p2 pW3 pW4 pW5 pW6 pW7 pW8 = .thrown h ∧
      (∀ f ∈ [GPGMNormal.setMeanAndDev, GPGMLogNormal.setMeanAndDev, GPGMPareto.setAlphaAndM,
          GPGMUniformDiscrete.setMinAndMax, GPGMUniformContinuous.setMinAndMax,
          GPGMBeta.setAlphaAndBeta, GPGMGamma.setAlphaAndBeta],
        f h v cat p1 p2 = .thrown h) ∧
      (∀ f ∈ [GPGMPoisson.setLambda, GPGMExponential.setLambda], f h v cat p1 = .thrown h)) ∧
    (cat < GPGMVariable.catCount h v →
      (∀ f ∈ [GPGMNormal.setMeanAndDev, GPGMLogNormal.setMeanAndDev, GPGMPareto.setAlphaAndM,
          GPGMUniformDiscrete.setMinAndMax, GPGMUniformContinuous.setMinAndMax,
          GPGMBeta.setAlphaAndBeta, GPGMGamma.setAlphaAndBeta],
        (f h v cat p1 p2).isThrown = false ∧
        (2 * cat + 1 < (h v).m_params.length → (f h v cat p1 p2).isOk = true)) ∧
      (∀ f ∈ [GPGMPoisson.setLambda, GPGMExponential.setLambda],
        (f h v cat p1).isThrown = false ∧
        (cat < (h v).m_params.length → (f h v cat p1).isOk = true))) := by
  have hp := setParamPair_spec h v cat p1 p2
  have hs := setParamSingle_spec h v cat p1
  refine ⟨fun hge => ⟨?_, ?_, ?_⟩, fun hlt => ⟨?_, ?_⟩⟩
  · unfold GPGMCategorical.setWeights
    rw [if_pos hge]
  · intro f hf
    simp only [List.mem_cons, List.mem_singleton, List.not_mem_nil, or_false] at hf
    rcases hf with e | e | e | e | e | e | e <;> subst e <;> exact hp.1 hge
  · intro f hf
    simp only [List.mem_cons, List.mem_singleton, List.not_mem_nil, or_false] at hf
    rcases hf with e | e <;> subst e <;> exact hs.1 hge
  · intro f hf
    simp only [List.mem_cons, List.mem_singleton, List.not_mem_nil, or_false] at hf
    rcases hf with e | e | e | e | e | e | e <;> subst e <;>
      exact ⟨hp.2.1 hlt, hp.2.2 hlt⟩
  · intro f hf
    simp only [List.mem_cons, List.mem_singleton, List.not_mem_nil, or_false] at hf
    rcases hf with e | e <;> subst e <;> exact ⟨hs.2.1 hlt, hs.2.2 hlt⟩

/-- Witness of claim C8 on the Normal child of `GBayesNet_simpleTest`, which has
two rows: row 2 is refused and the heap is left as it was, row 1 is accepted. -/
theorem setters_row_check_witness :
    GPGMNormal.setMeanAndDev (simpleTest exampleRand).m_heap 4 2 5 6
      = .thrown (simpleTest exampleRand).m_heap ∧
    (GPGMNormal.setMeanAndDev (simpleTest exampleRand).m_heap 4 1 5 6).isOk = true :=
  ⟨((setters_row_check (simpleTest exampleRand).m_heap 4 2 5 6 none none none none none none).1
      (by decide!)).2.1 _ (by simp),
    (((setters_row_check (simpleTest exampleRand).m_heap 4 1 5 6 none none none none none none).2
      (by decide!)).1 _ (by simp)).2 (by decide!)⟩


/-! ### Claim C10: the likelihood of a Categorical -/

theorem vecAt_of_lt {α : Type} [Inhabited α] (l : List α) (i : Nat) (hi : i < l.length) :
    vecAt l i = .ok (l.getD i default) := by
  unfold vecAt
  simp [List.getElem?_eq_getElem hi, List.getD_eq_getElem _ _ hi]

theorem toSize_natCast (n : Nat) (hn : n < 2 ^ 64) : toSize (n : ℚ) = .ok n := by
  unfold toSize
  have h1 : (-1 : ℚ) < (n : ℚ) := by
    have : (0 : ℚ) ≤ (n : ℚ) := Nat.cast_nonneg n
    linarith
  have h2 : (n : ℚ) < (SIZE_MOD : ℚ) := by
    unfold SIZE_MOD
    exact_mod_cast hn
  simp [h1, h2]

/-- The first loop of `likelihood` over a row inside the table is the sum of
the current values of the weights of the row. -/
theorem sumWeight_spec (h : Heap) (v : NodeId) (base : Nat) :
    ∀ n : Nat, (∀ i, i < n → sizeAdd base i < (h v).m_weights.length) →
      GPGMCategorical.sumWeight h v base n = .ok (∑ i in Finset.range n,
        GPGMNode.currentValue h ((h v).m_weights.getD (sizeAdd base i) default)) := by
  intro n
  induction n with
  | zero => intro _; simp [GPGMCategorical.sumWeight]
  | succ k ih =>
    intro hrow
    unfold GPGMCategorical.sumWeight
    rw [ih (fun i hi => hrow i (by omega)), vecAt_of_lt _ _ (hrow k (by omega)),
      Finset.sum_range_succ]

/-- Claim C10. For a Categorical whose row index `currentCatIndex()` is `ind`
and whose current row lies inside the weight table, and for every category
`x < categories`, `likelihood(x)` is `weight_x / Σ weights` when both `weight_x`
and the sum of the current values of the weights of the row are positive, and 0
otherwise, in particular whenever `weight_x ≤ 0`; the weights of the row are the
entries `categories * ind + i`, `i < categories`, of the table (index in
`size_t`). -/
theorem categorical_likelihood_spec (h : Heap) (v : NodeId) (ind x : Nat)
    (hind : GPGMVariable.currentCatIndex h v = .ok ind)
    (hx : x < (h v).m_categories) (hk : (h v).m_categories ≤ 2 ^ 64)
    (hrow : ∀ i, i < (h v).m_categories →
      ((h v).m_categories * ind + i) % 2 ^ 64 < (h v).m_weights.length) :
    GPGMCategorical.likelihood h v (x : ℚ) = .ok
      (if 0 < GPGMNode.currentValue h
            ((h v).m_weights.getD (((h v).m_categories * ind + x) % 2 ^ 64) default) ∧
          0 < ∑ i in Finset.range (h v).m_categories, GPGMNode.currentValue h
            ((h v).m_weights.getD (((h v).m_categories * ind + i) % 2 ^ 64) default) then
        GPGMNode.currentValue h
            ((h v).m_weights.getD (((h v).m_categories * ind + x) % 2 ^ 64) default) /
          ∑ i in Finset.range (h v).m_categories, GPGMNode.currentValue h
            ((h v).m_weights.getD (((h v).m_categories * ind + i) % 2 ^ 64) default)
      else 0) ∧
    (GPGMNode.currentValue h
        ((h v).m_weights.getD (((h v).m_categories * ind + x) % 2 ^ 64) default) ≤ 0 →
      GPGMCategorical.likelihood h v (x : ℚ) = .ok 0) := by
  have hrow1 : ∀ i, i < (h v).m_categories →
      sizeAdd (sizeMul (h v).m_categories ind) i < (h v).m_weights.length := by
    intro i hi
    rw [sizeAdd_sizeMul]
    exact hrow i hi
  have e : GPGMCategorical.likelihood h v (x : ℚ) = .ok
      (if 0 < GPGMNode.currentValue h
            ((h v).m_weights.getD (((h v).m_categories * ind + x) % 2 ^ 64) default) ∧
          0 < ∑ i in Finset.range (h v).m_categories, GPGMNode.currentValue h
            ((h v).m_weights.getD (((h v).m_categories * ind + i) % 2 ^ 64) default) then
        GPGMNode.currentValue h
            ((h v).m_weights.getD (((h v).m_categories * ind + x) % 2 ^ 64) default) /
          ∑ i in Finset.range (h v).m_categories, GPGMNode.currentValue h
            ((h v).m_weights.getD (((h v).m_categories * ind + i) % 2 ^ 64) default)
      else 0) := by
    have hvx := vecAt_of_lt (h v).m_weights _ (hrow x hx)
    unfold GPGMCategorical.likelihood
    simp only [bind, Res.bind, pure, hind, sumWeight_spec h v _ _ hrow1,
      toSize_natCast x (by omega), sizeAdd_sizeMul, hvx, gt_iff_lt]
    split <;> rfl
  refine ⟨e, ?_⟩
  intro hle
  rw [e, if_neg]
  intro hpos
  exact absurd hpos.1 (not_lt.mpr hle)

/-- Witness of claim C10.  `pAlarm` of `GBayesNet_alarmTest` with `pBurglary` at
0 and `pEarthquake` at 1 reads row 2, whose weights are 0.94 and 0.06:
`likelihood(0) = 0.94 / (0.94 + 0.06)`.  A Categorical of three categories with
its default weights 1, 1, 1 has `likelihood(0) = 1 / 3`. -/
theorem categorical_likelihood_spec_witness :
    GPGMCategorical.likelihood (setVal (setVal (alarmTest exampleRand).m_heap 1 0) 4 1) 7
      ((0 : Nat) : ℚ) = .ok (94 / 100) ∧
    GPGMCategorical.likelihood (threeCategories exampleRand).m_heap 1 ((0 : Nat) : ℚ)
      = .ok (1 / 3) :=
  ⟨((categorical_likelihood_spec (setVal (setVal (alarmTest exampleRand).m_heap 1 0) 4 1) 7 2 0
      (by decide!) (by decide!) (by decide!) (by decide!)).1).trans (by decide!),
    ((categorical_likelihood_spec (threeCategories exampleRand).m_heap 1 0 0
      (by decide!) (by decide!) (by decide!) (by decide!)).1).trans (by decide!)⟩

/-! ### Claim C11: the likelihoods of a Categorical sum to 1 -/

/-- The value of `GPGMCategorical::likelihood` on a row inside the table, for
any `x` that converts to a category of the row. -/
theorem categorical_likelihood_row (h : Heap) (v : NodeId) (ind x : Nat)
    (hind : GPGMVariable.currentCatIndex h v = .ok ind)
    (hx : x < (h v).m_categories) (hk : (h v).m_categories ≤ 2 ^ 64)
    (hrow : ∀ i, i < (h v).m_categories →
      ((h v).m_categories * ind + i) % 2 ^ 64 < (h v).m_weights.length) :
    GPGMCategorical.likelihood h v (x : ℚ) = .ok
      (if 0 < GPGMNode.currentValue h
            ((h v).m_weights.getD (((h v).m_categories * ind + x) % 2 ^ 64) default) ∧
          0 < ∑ i in Finset.range (h v).m_categories, GPGMNode.currentValue h
            ((h v).m_weights.getD (((h v).m_categories * ind + i) % 2 ^ 64) default) then
        GPGMNode.currentValue h
            ((h v).m_weights.getD (((h v).m_categories * ind + x) % 2 ^ 64) default) /
          ∑ i in Finset.range (h v).m_categories, GPGMNode.currentValue h
            ((h v).m_weights.getD (((h v).m_categories * ind + i) % 2 ^ 64) default)
      else 0) := by
  have hrow1 : ∀ i, i < (h v).m_categories →
      sizeAdd (sizeMul (h v).m_categories ind) i < (h v).m_weights.length := by
    intro i hi
    rw [sizeAdd_sizeMul]
    exact hrow i hi
  have hvx := vecAt_of_lt (h v).m_weights _ (hrow x hx)
  unfold GPGMCategorical.likelihood
  simp only [bind, Res.bind, pure, hind, sumWeight_spec h v _ _ hrow1,
    toSize_natCast x (by omega), sizeAdd_sizeMul, hvx, gt_iff_lt]
  split <;> rfl

/-- Claim C11. For a Categorical whose row index `currentCatIndex()` is `ind`,
whose current row lies inside the weight table and holds weights with
non-negative current values of positive sum: `likelihood(x)` is
`weight_x / Σ weights` for every category `x < categories`, these values lie in
`[0, 1]`, and their sum over all categories is exactly 1. -/
theorem categorical_likelihood_sums_to_one (h : Heap) (v : NodeId) (ind : Nat)
    (hind : GPGMVariable.currentCatIndex h v = .ok ind)
    (hk : (h v).m_categories ≤ 2 ^ 64)
    (hrow : ∀ i, i < (h v).m_categories →
      ((h v).m_categories * ind + i) % 2 ^ 64 < (h v).m_weights.length)
    (hnn : ∀ i, i < (h v).m_categories → 0 ≤ GPGMNode.currentValue h
      ((h v).m_weights.getD (((h v).m_categories * ind + i) % 2 ^ 64) default))
    (hpos : 0 < ∑ i in Finset.range (h v).m_categories, GPGMNode.currentValue h
      ((h v).m_weights.getD (((h v).m_categories * ind + i) % 2 ^ 64) default)) :
    (∀ x, x < (h v).m_categories →
      GPGMCategorical.likelihood h v (x : ℚ) = .ok
        (GPGMNode.currentValue h
            ((h v).m_weights.getD (((h v).m_categories * ind + x) % 2 ^ 64) default) /
          ∑ i in Finset.range (h v).m_categories, GPGMNode.currentValue h
            ((h v).m_weights.getD (((h v).m_categories * ind + i) % 2 ^ 64) default)) ∧
      0 ≤ GPGMNode.currentValue h
            ((h v).m_weights.getD (((h v).m_categories * ind + x) % 2 ^ 64) default) /
          ∑ i in Finset.range (h v).m_categories, GPGMNode.currentValue h
            ((h v).m_weights.getD (((h v).m_categories * ind + i) % 2 ^ 64) default) ∧
      GPGMNode.currentValue h
            ((h v).m_weights.getD (((h v).m_categories * ind + x) % 2 ^ 64) default) /
          ∑ i in Finset.range (h v).m_categories, GPGMNode.currentValue h
            ((h v).m_weights.getD (((h v).m_categories * ind + i) % 2 ^ 64) default) ≤ 1) ∧
    ∑ x in Finset.range (h v).m_categories,
      (GPGMNode.currentValue h
          ((h v).m_weights.getD (((h v).m_categories * ind + x) % 2 ^ 64) default) /
        ∑ i in Finset.range (h v).m_categories, GPGMNode.currentValue h
          ((h v).m_weights.getD (((h v).m_categories * ind + i) % 2 ^ 64) default)) = 1 := by
  generalize hS : (∑ i in Finset.range (h v).m_categories, GPGMNode.currentValue h
    ((h v).m_weights.getD (((h v).m_categories * ind + i) % 2 ^ 64) default)) = S at hpos ⊢
  refine ⟨?_, ?_⟩
  · intro x hx
    have e := categorical_likelihood_row h v ind x hind hx hk hrow
    rw [hS] at e
    have hwx := hnn x hx
    refine ⟨?_, div_nonneg hwx hpos.le, ?_⟩
    · rw [e]
      by_cases hw : 0 < GPGMNode.currentValue h
          ((h v).m_weights.getD (((h v).m_categories * ind + x) % 2 ^ 64) default)
      · rw [if_pos ⟨hw, hpos⟩]
      · have h0 : GPGMNode.currentValue h
            ((h v).m_weights.getD (((h v).m_categories * ind + x) % 2 ^ 64) default) = 0 :=
          le_antisymm (not_lt.mp hw) hwx
        rw [if_neg (fun hc => hw hc.1), h0, zero_div]
    · rw [div_le_one hpos, ← hS]
      exact Finset.single_le_sum (fun i hi => hnn i (Finset.mem_range.mp hi))
        (Finset.mem_range.mpr hx)
  · rw [← Finset.sum_div, hS, div_self hpos.ne']

/-- Witness of claim C11: row 2 of `pAlarm` in `GBayesNet_alarmTest` (weights 0.94
and 0.06) and a Categorical of three categories with the weights 1, 1, 1. -/
theorem categorical_likelihood_sums_to_one_witness :
    (GPGMCategorical.likelihood (setVal (setVal (alarmTest exampleRand).m_heap 1 0) 4 1) 7
      ((1 : Nat) : ℚ) = .ok (6 / 100)) ∧
    (GPGMCategorical.likelihood (threeCategories exampleRand).m_heap 1 ((2 : Nat) : ℚ)
      = .ok (1 / 3)) :=
  ⟨(((categorical_likelihood_sums_to_one
      (setVal (setVal (alarmTest exampleRand).m_heap 1 0) 4 1) 7 2
      (by decide!) (by decide!) (by decide!) (by decide!) (by decide!)).1 1
        (by decide!)).1).trans (by decide!),
    (((categorical_likelihood_sums_to_one (threeCategories exampleRand).m_heap 1 0
      (by decide!) (by decide!) (by decide!) (by decide!) (by decide!)).1 2
        (by decide!)).1).trans (by decide!)⟩

/-! ### Claims C13 and C14: `gibbs` -/

/-- The loop of `gibbs` over the children returns with the heap it was
entered with. -/
theorem gibbsKids_ok_state (lm : Libm) (h : Heap) (v : NodeId) (x : ℚ) :
    ∀ (kids : List NodeId) (logSum r : ℚ) (s : Heap),
      GPGMMetropolisNode.gibbsKids lm h v x kids logSum = .ok r s → s = h := by
  intro kids
  induction kids with
  | nil =>
    intro logSum r s e
    simp only [GPGMMetropolisNode.gibbsKids, Outcome.ok.injEq] at e
    exact e.2.symm
  | cons c rest ih =>
    intro logSum r s e
    unfold GPGMMetropolisNode.gibbsKids at e
    simp only at e
    split at e
    · split at e
      · exact ih _ _ _ e
      · simp only [Outcome.ok.injEq] at e
        exact e.2.symm
    · simp at e
    · simp at e

/-- The method `gibbs` returns with the heap it was entered with. -/
theorem gibbs_ok_state (lm : Libm) (h : Heap) (v : NodeId) (x r : ℚ) (s : Heap)
    (e : GPGMMetropolisNode.gibbs lm h v x = .ok r s) : s = h := by
  unfold GPGMMetropolisNode.gibbs at e
  split at e
  · simp only at e
    split at e
    · exact gibbsKids_ok_state lm h v x _ _ _ _ e
    · simp only [Outcome.ok.injEq] at e
      exact e.2.symm
  · simp at e
  · simp at e

/-- When every child term is at or above the floor, the loop of `gibbs` adds
all of them to the running sum. -/
theorem gibbsKids_sum (lm : Libm) (h : Heap) (v : NodeId) (x : ℚ) :
    ∀ (kids : List NodeId) (ls : List ℚ) (logSum : ℚ),
      List.Forall₂ (fun c l =>
        GPGMVariable.likelihood lm (h.put v { h v with m_currentMean := x }) c
          (GPGMNode.currentValue (h.put v { h v with m_currentMean := x }) c) = .ok l) kids ls →
      (∀ l ∈ ls, MIN_LOG_PROB ≤ lm.log l) →
      GPGMMetropolisNode.gibbsKids lm h v x kids logSum
        = .ok (logSum + (ls.map lm.log).sum) h := by
  intro kids
  induction kids with
  | nil =>
    intro ls logSum hf _
    cases hf
    simp [GPGMMetropolisNode.gibbsKids]
  | cons c rest ih =>
    intro ls logSum hf hge
    cases hf with
    | cons hc hrest =>
      rename_i l ls1
      unfold GPGMMetropolisNode.gibbsKids
      simp only [hc]
      rw [if_pos (hge l (List.mem_cons_self _ _))]
      rw [ih ls1 _ hrest (fun l1 hl1 => hge l1 (List.mem_cons_of_mem _ hl1))]
      simp only [List.map_cons, List.sum_cons, add_assoc]

/-- A normal return of the loop of `gibbs` is the floor itself or at least the
running sum minus the bound `B` for each child. -/
theorem gibbsKids_ge (lm : Libm) (h : Heap) (v : NodeId) (x B : ℚ)
    (hrange : ∀ y, MIN_LOG_PROB ≤ lm.log y → -B ≤ lm.log y) :
    ∀ (kids : List NodeId) (logSum r : ℚ) (s : Heap),
      GPGMMetropolisNode.gibbsKids lm h v x kids logSum = .ok r s →
      r = MIN_LOG_PROB ∨ logSum - kids.length * B ≤ r := by
  intro kids
  induction kids with
  | nil =>
    intro logSum r s e
    simp only [GPGMMetropolisNode.gibbsKids, Outcome.ok.injEq] at e
    right
    rw [← e.1]
    simp
  | cons c rest ih =>
    intro logSum r s e
    unfold GPGMMetropolisNode.gibbsKids at e
    simp only at e
    split at e
    · rename_i l _
      split at e
      · rename_i hd
        rcases ih _ _ _ e with h1 | h1
        · exact Or.inl h1
        · right
          have := hrange l hd
          simp only [List.length_cons, Nat.cast_add, Nat.cast_one]
          linarith
      · simp only [Outcome.ok.injEq] at e
        exact Or.inl e.1.symm
    · simp at e
    · simp at e

/-- The loop of `gibbs` returns when the likelihood of every child is defined. -/
theorem gibbsKids_returns (lm : Libm) (h : Heap) (v : NodeId) (x : ℚ) :
    ∀ (kids : List NodeId) (ls : List ℚ) (logSum : ℚ),
      List.Forall₂ (fun c l =>
        GPGMVariable.likelihood lm (h.put v { h v with m_currentMean := x }) c
          (GPGMNode.currentValue (h.put v { h v with m_currentMean := x }) c) = .ok l) kids ls →
      ∃ r, GPGMMetropolisNode.gibbsKids lm h v x kids logSum = .ok r h := by
  intro kids
  induction kids with
  | nil =>
    intro ls logSum _
    exact ⟨logSum, rfl⟩
  | cons c rest ih =>
    intro ls logSum hf
    cases hf with
    | cons hc hrest =>
      rename_i l ls1
      unfold GPGMMetropolisNode.gibbsKids
      simp only [hc]
      by_cases hd : lm.log l ≥ MIN_LOG_PROB
      · rw [if_pos hd]
        exact ih ls1 _ hrest
      · rw [if_neg hd]
        exact ⟨MIN_LOG_PROB, rfl⟩

/-- Claim C13. Let the finite values of `log` be at least `-B` (on doubles
`B = 745` does) with `(children + 1) * B ≤ 1e300`.  Then every value that
`gibbs(x)` returns is at least `MIN_LOG_PROB = -1e300`, and `gibbs(x)` does
return, with the heap unchanged, when the likelihood of the node and those of
its children are defined; and `gibbs(x)` returns exactly `MIN_LOG_PROB` when
`log(likelihood(x))` is below the floor, which is the case for
`likelihood(x) ≤ 0` as soon as `log` of a non-positive number compares below
the floor (`-inf` and NaN do). -/
theorem gibbs_floored (lm : Libm) (h : Heap) (v : NodeId) (x B : ℚ)
    (hrange : ∀ y, MIN_LOG_PROB ≤ lm.log y → -B ≤ lm.log y)
    (hB : (((h v).m_children.length : ℚ) + 1) * B ≤ 10 ^ 300) :
    (∀ r s, GPGMMetropolisNode.gibbs lm h v x = .ok r s → MIN_LOG_PROB ≤ r) ∧
    (∀ l, GPGMVariable.likelihood lm h v x = .ok l → lm.log l < MIN_LOG_PROB →
      GPGMMetropolisNode.gibbs lm h v x = .ok MIN_LOG_PROB h) ∧
    ((∀ y, y ≤ 0 → lm.log y < MIN_LOG_PROB) →
      ∀ l, GPGMVariable.likelihood lm h v x = .ok l → l ≤ 0 →
        GPGMMetropolisNode.gibbs lm h v x = .ok MIN_LOG_PROB h) ∧
    (∀ (l : ℚ) (ls : List ℚ), GPGMVariable.likelihood lm h v x = .ok l →
      List.Forall₂ (fun c lc =>
        GPGMVariable.likelihood lm (h.put v { h v with m_currentMean := x }) c
          (GPGMNode.currentValue (h.put v { h v with m_currentMean := x }) c) = .ok lc)
        (h v).m_children ls →
      ∃ r, GPGMMetropolisNode.gibbs lm h v x = .ok r h ∧ MIN_LOG_PROB ≤ r) := by
  have hfloor : ∀ l, GPGMVariable.likelihood lm h v x = .ok l → lm.log l < MIN_LOG_PROB →
      GPGMMetropolisNode.gibbs lm h v x = .ok MIN_LOG_PROB h := by
    intro l hl hlt
    unfold GPGMMetropolisNode.gibbs
    simp only [hl]
    rw [if_neg (not_le.mpr hlt)]
  have hge : ∀ r s, GPGMMetropolisNode.gibbs lm h v x = .ok r s → MIN_LOG_PROB ≤ r := ?_
  · refine ⟨hge, hfloor, fun hnp l hl hle => hfloor l hl (hnp l hle), ?_⟩
    intro l ls hl hf
    have hret : ∃ r, GPGMMetropolisNode.gibbs lm h v x = .ok r h := by
      unfold GPGMMetropolisNode.gibbs
      simp only [hl]
      by_cases hd : lm.log l ≥ MIN_LOG_PROB
      · rw [if_pos hd]
        exact gibbsKids_returns lm h v x _ ls _ hf
      · rw [if_neg hd]
        exact ⟨MIN_LOG_PROB, rfl⟩
    obtain ⟨r, hr⟩ := hret
    exact ⟨r, hr, hge r h hr⟩
  intro r s e
  unfold GPGMMetropolisNode.gibbs at e
  split at e
  · rename_i l _
    simp only at e
    split at e
    · rename_i hd
      rcases gibbsKids_ge lm h v x B hrange _ _ _ _ e with h1 | h1
      · rw [h1]
      · have h2 := hrange l hd
        have h3 : MIN_LOG_PROB = -(10 ^ 300) := rfl
        rw [h3]
        linarith
    · simp only [Outcome.ok.injEq] at e
      rw [← e.1]
  · simp at e
  · simp at e

/-- Claim C14. When `log(likelihood(x))` and the term
`log(child.likelihood(child.currentValue()))` of every child, evaluated with
`m_currentMean` set to `x`, are at or above the floor, `gibbs(x)` returns
`log(likelihood(x))` plus the sum of the children's terms; and every normal
return of `gibbs` leaves the heap, `m_currentMean` included, as it was. -/
theorem gibbs_sum (lm : Libm) (h : Heap) (v : NodeId) (x : ℚ) :
    (∀ (l : ℚ) (ls : List ℚ), GPGMVariable.likelihood lm h v x = .ok l →
      List.Forall₂ (fun c lc =>
        GPGMVariable.likelihood lm (h.put v { h v with m_currentMean := x }) c
          (GPGMNode.currentValue (h.put v { h v with m_currentMean := x }) c) = .ok lc)
        (h v).m_children ls →
      MIN_LOG_PROB ≤ lm.log l → (∀ lc ∈ ls, MIN_LOG_PROB ≤ lm.log lc) →
      GPGMMetropolisNode.gibbs lm h v x = .ok (lm.log l + (ls.map lm.log).sum) h) ∧
    (∀ r s, GPGMMetropolisNode.gibbs lm h v x = .ok r s → s = h) := by
  refine ⟨?_, fun r s e => gibbs_ok_state lm h v x r s e⟩
  intro l ls hl hf hge hges
  unfold GPGMMetropolisNode.gibbs
  simp only [hl]
  rw [if_pos hge]
  exact gibbsKids_sum lm h v x _ ls _ hf hges

theorem gibbs_eq_of_value (lm : Libm) (h : Heap) (v : NodeId) (x r : ℚ)
    (e : (GPGMMetropolisNode.gibbs lm h v x).value? = some r) :
    GPGMMetropolisNode.gibbs lm h v x = .ok r h := by
  cases hg : GPGMMetropolisNode.gibbs lm h v x with
  | ok a s =>
    rw [hg] at e
    simp only [Outcome.value?, Option.some.injEq] at e
    rw [gibbs_ok_state lm h v x a s hg, e]
  | thrown s =>
    rw [hg] at e
    simp [Outcome.value?] at e
  | undefined =>
    rw [hg] at e
    simp [Outcome.value?] at e

theorem floorLibm_range (y : ℚ) (hy : MIN_LOG_PROB ≤ floorLibm.log y) :
    -745 ≤ floorLibm.log y := by
  simp only [floorLibm, exampleLibm] at hy ⊢
  by_cases h0 : y ≤ 0
  · rw [if_pos h0] at hy
    exact absurd hy (by decide!)
  · rw [if_neg h0]
    push_neg at h0
    linarith

theorem floorLibm_nonpos (y : ℚ) (hy : y ≤ 0) : floorLibm.log y < MIN_LOG_PROB := by
  simp only [floorLibm, exampleLibm]
  rw [if_pos hy]
  decide!

/-- Witness of claim C13: the uniform variable of `uniformOutside` at 6, outside
of its interval, with a logarithm that is below the floor at 0; and the first
variable of `normalChain` at 1, with its child. -/
theorem gibbs_floored_witness :
    GPGMVariable.likelihood floorLibm (uniformOutside exampleRand).m_heap 1 6 = .ok 0 ∧
    GPGMMetropolisNode.gibbs floorLibm (uniformOutside exampleRand).m_heap 1 6
      = .ok MIN_LOG_PROB (uniformOutside exampleRand).m_heap ∧
    (∃ r, GPGMMetropolisNode.gibbs floorLibm (normalChain exampleRand).m_heap 1 1
      = .ok r (normalChain exampleRand).m_heap ∧ MIN_LOG_PROB ≤ r) :=
  have w := gibbs_floored floorLibm (uniformOutside exampleRand).m_heap 1 6 745
    floorLibm_range (by decide!)
  have w1 := gibbs_floored floorLibm (normalChain exampleRand).m_heap 1 1 745
    floorLibm_range (by decide!)
  ⟨by decide!, w.2.2.1 floorLibm_nonpos 0 (by decide!) (le_refl 0),
    w1.2.2.2 (100000000000 / 250662827463) [200000000000 / 751988482389] (by decide!)
      (List.Forall₂.cons (by decide!) List.Forall₂.nil)⟩

/-- Witness of claim C14: the first variable of `normalChain` at 1, with its
child, the second variable. -/
theorem gibbs_sum_witness :
    GPGMMetropolisNode.gibbs exampleLibm (normalChain exampleRand).m_heap 1 1
      = .ok (exampleLibm.log (100000000000 / 250662827463)
          + ([(200000000000 : ℚ) / 751988482389].map exampleLibm.log).sum)
        (normalChain exampleRand).m_heap ∧
    ((normalChain exampleRand).m_heap 1).m_children = [2] :=
  ⟨(gibbs_sum exampleLibm (normalChain exampleRand).m_heap 1 1).1
      (100000000000 / 250662827463) [200000000000 / 751988482389] (by decide!)
      (List.Forall₂.cons (by decide!) List.Forall₂.nil) (by decide!) (by decide!),
    by decide!⟩

/-! ### Claims C15, C16 and C17: `metropolis` -/

/-- Claim C15. When the candidate (the proposal `z * m_currentDeviation +
m_currentMean`, rounded for a discrete node) equals `m_currentMean`,
`metropolis` returns false with the heap unchanged and with the random source
advanced by the normal draw only, whatever `gibbs` and the likelihoods would
do (they may even be undefined on this heap): none of them is evaluated. -/
theorem metropolis_rejects_equal_candidate (lm : Libm) (h : Heap) (r : GRand) (v : NodeId)
    (hc : GPGMMetropolisNode.candidate (h v) r.normal.1 = (h v).m_currentMean) :
    GPGMMetropolisNode.metropolis lm h r v = .ok false (h, r.normal.2) ∧
    r.normal.2.drawn = r.drawn + 1 ∧
    r.normal.2.uniformAt = r.uniformAt ∧ r.normal.2.normalAt = r.normalAt := by
  refine ⟨?_, rfl, rfl, rfl⟩
  unfold GPGMMetropolisNode.metropolis
  simp [hc]

/-- The method `metropolis` when the candidate differs from the current mean
and both calls of `gibbs` return. -/
theorem metropolis_of_gibbs (lm : Libm) (h : Heap) (r : GRand) (v : NodeId)
    (cand curr : ℚ) (s1 s2 : Heap)
    (hne : GPGMMetropolisNode.candidate (h v) r.normal.1 ≠ (h v).m_currentMean)
    (hcand : GPGMMetropolisNode.gibbs lm h v (GPGMMetropolisNode.candidate (h v) r.normal.1)
      = .ok cand s1)
    (hcurr : GPGMMetropolisNode.gibbs lm h v (h v).m_currentMean = .ok curr s2) :
    GPGMMetropolisNode.metropolis lm h r v =
      if cand ≥ MIN_LOG_PROB then
        if curr ≥ MIN_LOG_PROB then
          if lm.log r.normal.2.uniform.1 < cand - curr then
            .ok true (h.put v { h v with
              m_currentMean := GPGMMetropolisNode.candidate (h v) r.normal.1 },
              r.normal.2.uniform.2)
          else .ok false (h, r.normal.2.uniform.2)
        else .ok false (h, r.normal.2)
      else .ok false (h, r.normal.2) := by
  unfold GPGMMetropolisNode.metropolis
  simp only [hne, if_false, hcand, hcurr]

/-- Claim C17. When the candidate differs from `m_currentMean` and both
`gibbs(candidate)` and `gibbs(m_currentMean)` are at or above the floor,
`metropolis` draws `u` and returns true exactly when
`log(u) < gibbs(candidate) - gibbs(m_currentMean)`; then `m_currentMean` is the
candidate, and otherwise the heap is unchanged. -/
theorem metropolis_accepts_iff (lm : Libm) (h : Heap) (r : GRand) (v : NodeId)
    (cand curr : ℚ) (s1 s2 : Heap)
    (hne : GPGMMetropolisNode.candidate (h v) r.normal.1 ≠ (h v).m_currentMean)
    (hcand : GPGMMetropolisNode.gibbs lm h v (GPGMMetropolisNode.candidate (h v) r.normal.1)
      = .ok cand s1)
    (hcurr : GPGMMetropolisNode.gibbs lm h v (h v).m_currentMean = .ok curr s2)
    (hcf : MIN_LOG_PROB ≤ cand) (hkf : MIN_LOG_PROB ≤ curr) :
    (lm.log r.normal.2.uniform.1 < cand - curr →
      GPGMMetropolisNode.metropolis lm h r v = .ok true
        (h.put v { h v with m_currentMean := GPGMMetropolisNode.candidate (h v) r.normal.1 },
          r.normal.2.uniform.2)) ∧
    (¬ lm.log r.normal.2.uniform.1 < cand - curr →
      GPGMMetropolisNode.metropolis lm h r v = .ok false (h, r.normal.2.uniform.2)) ∧
    (∀ acc s, GPGMMetropolisNode.metropolis lm h r v = .ok acc s →
      (acc = true ↔ lm.log r.normal.2.uniform.1 < cand - curr) ∧
      (acc = true → (s.1 v).m_currentMean
        = GPGMMetropolisNode.candidate (h v) r.normal.1) ∧
      (acc = false → s.1 = h)) := by
  have e := metropolis_of_gibbs lm h r v cand curr s1 s2 hne hcand hcurr
  rw [if_pos hcf, if_pos hkf] at e
  refine ⟨fun hlt => by rw [e, if_pos hlt], fun hlt => by rw [e, if_neg hlt], ?_⟩
  intro acc s hs
  rw [e] at hs
  by_cases hlt : lm.log r.normal.2.uniform.1 < cand - curr
  · rw [if_pos hlt] at hs
    simp only [Outcome.ok.injEq] at hs
    obtain ⟨ha, hs⟩ := hs
    subst ha
    subst hs
    simp [hlt, heap_put_same]
  · rw [if_neg hlt] at hs
    simp only [Outcome.ok.injEq] at hs
    obtain ⟨ha, hs⟩ := hs
    subst ha
    subst hs
    simp [hlt]

/-- The result of `gibbs` when `log(likelihood(x))` is below the floor. -/
theorem gibbs_of_log_lt (lm : Libm) (h : Heap) (v : NodeId) (x l : ℚ)
    (hl : GPGMVariable.likelihood lm h v x = .ok l) (hlt : lm.log l < MIN_LOG_PROB) :
    GPGMMetropolisNode.gibbs lm h v x = .ok MIN_LOG_PROB h := by
  unfold GPGMMetropolisNode.gibbs
  simp only [hl]
  rw [if_neg (not_le.mpr hlt)]

/-- Witness of claim C15: `pChild` of `GBayesNet_simpleTest` when its parent is
observed at -5 and the normal draw is 0.  The candidate is the current mean 1;
`gibbs` is not defined at it, and `metropolis` returns false all the same. -/
theorem metropolis_rejects_equal_candidate_witness :
    Option.isSome (GPGMMetropolisNode.gibbs exampleLibm
      (GPGMNode.setObserved (simpleTestGraph exampleRand).m_heap 1 (-5)) 4 1).state?
      = false ∧
    GPGMMetropolisNode.metropolis exampleLibm
      (GPGMNode.setObserved (simpleTestGraph exampleRand).m_heap 1 (-5)) exampleRand 4
      = .ok false (GPGMNode.setObserved (simpleTestGraph exampleRand).m_heap 1 (-5),
          exampleRand.normal.2) :=
  ⟨by decide!,
    (metropolis_rejects_equal_candidate exampleLibm
      (GPGMNode.setObserved (simpleTestGraph exampleRand).m_heap 1 (-5)) exampleRand 4
      (by decide!)).1⟩

/-- Claim C16, the failing input.  The uniform variable of `uniformOutside` has
the current mean 5 and the candidate 6, both outside of its interval: the
likelihood of the candidate is 0 and both calls of `gibbs` return the floor
`MIN_LOG_PROB`.  The tests `cand >= MIN_LOG_PROB` and `curr >= MIN_LOG_PROB` of
`metropolis` pass at the floor, the uniform draw 1/2 has a negative logarithm,
and the candidate is accepted. -/
theorem metropolis_accepts_at_floor (lm : Libm) (hzero : lm.log 0 < MIN_LOG_PROB)
    (hhalf : lm.log (1 / 2) < 0) :
    GPGMVariable.likelihood lm (uniformOutside exampleRand).m_heap 1 6 = .ok 0 ∧
    GPGMMetropolisNode.gibbs lm (uniformOutside exampleRand).m_heap 1 6
      = .ok MIN_LOG_PROB (uniformOutside exampleRand).m_heap ∧
    GPGMMetropolisNode.gibbs lm (uniformOutside exampleRand).m_heap 1 5
      = .ok MIN_LOG_PROB (uniformOutside exampleRand).m_heap ∧
    GPGMMetropolisNode.metropolis lm (uniformOutside exampleRand).m_heap
        { exampleRand with drawn := 1 } 1
      = .ok true ((uniformOutside exampleRand).m_heap.put 1
          { (uniformOutside exampleRand).m_heap 1 with m_currentMean := 6 },
          { exampleRand with drawn := 3 }) := by
  have hk : ((uniformOutside exampleRand).m_heap 1).kind = .metropolis .uniformContinuous := by
    decide!
  have hl : ∀ x, GPGMVariable.likelihood lm (uniformOutside exampleRand).m_heap 1 x
      = GPGMUniformContinuous.likelihood (uniformOutside exampleRand).m_heap 1 x := by
    intro x
    unfold GPGMVariable.likelihood
    rw [hk]
  have h6 : GPGMVariable.likelihood lm (uniformOutside exampleRand).m_heap 1 6 = .ok 0 := by
    rw [hl]
    decide!
  have h5 : GPGMVariable.likelihood lm (uniformOutside exampleRand).m_heap 1 5 = .ok 0 := by
    rw [hl]
    decide!
  have g6 := gibbs_of_log_lt lm _ 1 6 0 h6 hzero
  have g5 := gibbs_of_log_lt lm _ 1 5 0 h5 hzero
  have hc : GPGMMetropolisNode.candidate ((uniformOutside exampleRand).m_heap 1)
      ({ exampleRand with drawn := 1 } : GRand).normal.1 = 6 := by decide!
  have hm : ((uniformOutside exampleRand).m_heap 1).m_currentMean = 5 := by decide!
  have e := metropolis_of_gibbs lm (uniformOutside exampleRand).m_heap
    { exampleRand with drawn := 1 } 1 MIN_LOG_PROB MIN_LOG_PROB _ _
    (by rw [hc, hm]; decide!) (by rw [hc]; exact g6) (by rw [hm]; exact g5)
  have hu : ({ exampleRand with drawn := 1 } : GRand).normal.2.uniform.1 = 1 / 2 := by decide!
  rw [hu, sub_self, if_pos (le_refl _), if_pos (le_refl _), if_pos hhalf, hc] at e
  exact ⟨h6, g6, g5, e⟩

/-- Witness of claim C16, the failing input: a logarithm that is below the floor
at 0 and negative at 1/2. -/
theorem metropolis_accepts_at_floor_witness :
    GPGMVariable.likelihood floorLibm (uniformOutside exampleRand).m_heap 1 6 = .ok 0 ∧
    GPGMMetropolisNode.metropolis floorLibm (uniformOutside exampleRand).m_heap
        { exampleRand with drawn := 1 } 1
      = .ok true ((uniformOutside exampleRand).m_heap.put 1
          { (uniformOutside exampleRand).m_heap 1 with m_currentMean := 6 },
          { exampleRand with drawn := 3 }) :=
  have w := metropolis_accepts_at_floor floorLibm (by decide!) (by decide!)
  ⟨w.1, w.2.2.2⟩

/-- Witness of claim C17: the first variable of `normalChain` with the normal
draw 1 and the uniform draw 1/2.  The candidate 1 and the current mean 0 have
the same value of `gibbs`, the logarithm of the draw is negative, and the
candidate is accepted. -/
theorem metropolis_accepts_iff_witness :
    GPGMMetropolisNode.candidate ((normalChain exampleRand).m_heap 1)
      ({ exampleRand with drawn := 1 } : GRand).normal.1 = 1 ∧
    GPGMMetropolisNode.metropolis exampleLibm (normalChain exampleRand).m_heap
        { exampleRand with drawn := 1 } 1
      = .ok true ((normalChain exampleRand).m_heap.put 1
          { (normalChain exampleRand).m_heap 1 with
            m_currentMean := GPGMMetropolisNode.candidate ((normalChain exampleRand).m_heap 1)
              ({ exampleRand with drawn := 1 } : GRand).normal.1 },
          ({ exampleRand with drawn := 1 } : GRand).normal.2.uniform.2) :=
  ⟨by decide!,
    (metropolis_accepts_iff exampleLibm (normalChain exampleRand).m_heap
      { exampleRand with drawn := 1 } 1
      (-1003976964778 / 751988482389) (-1003976964778 / 751988482389)
      (normalChain exampleRand).m_heap (normalChain exampleRand).m_heap
      (by decide!)
      (gibbs_eq_of_value _ _ _ _ _ (by decide!))
      (gibbs_eq_of_value _ _ _ _ _ (by decide!))
      (by decide!) (by decide!)).1 (by decide!)⟩

/-! ### Relations that every sample path keeps -/

theorem heapRel_refl {lm : Libm} {P : GPGMNode → GPGMNode → Prop} (hP : SampleStable lm P)
    (h : Heap) : HeapRel P h h := fun q => hP.refl (h q)

theorem heapRel_trans {lm : Libm} {P : GPGMNode → GPGMNode → Prop} (hP : SampleStable lm P)
    {h h1 h2 : Heap} (a : HeapRel P h h1) (b : HeapRel P h1 h2) : HeapRel P h h2 :=
  fun q => hP.trans _ _ _ (a q) (b q)

theorem heapRel_put {lm : Libm} {P : GPGMNode → GPGMNode → Prop} (hP : SampleStable lm P)
    (h : Heap) (v : NodeId) (n : GPGMNode) (hn : P (h v) n) : HeapRel P h (h.put v n) := by
  intro q
  by_cases hq : q = v
  · subst hq
    rw [heap_put_same]
    exact hn
  · rw [heap_put_other h v q n hq]
    exact hP.refl _

theorem heapRel_setVal {lm : Libm} {P : GPGMNode → GPGMNode → Prop} (hP : SampleStable lm P)
    (h : Heap) (v : NodeId) (x : ℚ) : HeapRel P h (setVal h v x) :=
  heapRel_put hP h v _ (hP.val _ _)

theorem heapRel_mean {lm : Libm} {P : GPGMNode → GPGMNode → Prop} (hP : SampleStable lm P)
    (h : Heap) (v : NodeId) (x : ℚ) :
    HeapRel P h (h.put v { h v with m_currentMean := x }) :=
  heapRel_put hP h v _ (hP.mean _ _)

theorem pick_stable (lm : Libm) {P : GPGMNode → GPGMNode → Prop}
    (hP : SampleStable lm P) (v : NodeId) (base : Nat) (sumProb uni : ℚ) :
    ∀ (remaining i : Nat) (h : Heap) (sumProb2 : ℚ) (s : Heap),
      (GPGMCategorical.pick lm v base sumProb uni remaining i h sumProb2).state? = some s →
      HeapRel P h s := by
  intro remaining
  induction remaining with
  | zero =>
    intro i h sumProb2 s hs
    simp [GPGMCategorical.pick, Outcome.state?] at hs
    subst hs
    exact heapRel_refl hP h
  | succ k ih =>
    intro i h sumProb2 s hs
    unfold GPGMCategorical.pick at hs
    cases hc : GPGMCategorical.catProb lm h v base i with
    | ok catProb =>
      rw [hc] at hs
      simp only at hs
      split at hs
      · simp [Outcome.state?] at hs
        subst hs
        exact heapRel_setVal hP h v i
      · exact heapRel_trans hP (heapRel_setVal hP h v i) (ih _ _ _ _ hs)
    | thrown =>
      rw [hc] at hs
      simp [Outcome.state?] at hs
      subst hs
      exact heapRel_setVal hP h v i
    | undefined =>
      rw [hc] at hs
      simp [Outcome.state?] at hs

theorem sumProb_stable (lm : Libm) {P : GPGMNode → GPGMNode → Prop}
    (hP : SampleStable lm P) (h : Heap) (v : NodeId) (base : Nat) :
    ∀ (n : Nat) (s : Heap),
      (GPGMCategorical.sumProb lm h v base n).state? = some s → HeapRel P h s := by
  intro n
  induction n with
  | zero =>
    intro s hs
    simp [GPGMCategorical.sumProb, Outcome.state?] at hs
    subst hs
    exact heapRel_refl hP h
  | succ k ih =>
    intro s hs
    unfold GPGMCategorical.sumProb at hs
    cases hp : GPGMCategorical.sumProb lm h v base k with
    | ok sp h1 =>
      rw [hp] at hs
      simp only at hs
      cases hc : GPGMCategorical.catProb lm h v base k with
      | ok c =>
        rw [hc] at hs
        simp [Outcome.state?] at hs
        subst hs
        exact heapRel_refl hP h
      | thrown =>
        rw [hc] at hs
        simp [Outcome.state?] at hs
        subst hs
        exact heapRel_setVal hP h v k
      | undefined =>
        rw [hc] at hs
        simp [Outcome.state?] at hs
    | thrown h1 =>
      rw [hp] at hs
      simp only at hs
      exact ih s (by rw [hp]; exact hs)
    | undefined =>
      rw [hp] at hs
      simp [Outcome.state?] at hs

theorem catSample_stable (lm : Libm) {P : GPGMNode → GPGMNode → Prop}
    (hP : SampleStable lm P) (h : Heap) (r : GRand) (v : NodeId) (s : Heap × GRand)
    (hs : (GPGMCategorical.sample lm h r v).state? = some s) : HeapRel P h s.1 := by
  unfold GPGMCategorical.sample at hs
  split at hs
  · simp [Outcome.state?] at hs
    subst hs
    exact heapRel_refl hP h
  · cases hi : GPGMVariable.currentCatIndex h v with
    | ok ind =>
      rw [hi] at hs
      simp only at hs
      cases hp : GPGMCategorical.sumProb lm h v (sizeMul (h v).m_categories ind)
          (h v).m_categories with
      | ok sp h1 =>
        rw [hp] at hs
        simp only at hs
        cases hk : GPGMCategorical.pick lm v (sizeMul (h v).m_categories ind) sp
            r.uniform.1 (h v).m_categories 0 h 0 with
        | ok u h2 =>
          rw [hk] at hs
          simp [Outcome.state?] at hs
          subst hs
          exact pick_stable lm hP v _ _ _ _ _ _ _ h2 (by rw [hk]; rfl)
        | thrown h2 =>
          rw [hk] at hs
          simp [Outcome.state?] at hs
          subst hs
          exact pick_stable lm hP v _ _ _ _ _ _ _ h2 (by rw [hk]; rfl)
        | undefined =>
          rw [hk] at hs
          simp [Outcome.state?] at hs
      | thrown h1 =>
        rw [hp] at hs
        simp [Outcome.state?] at hs
        subst hs
        exact sumProb_stable lm hP h v _ _ h1 (by rw [hp]; rfl)
      | undefined =>
        rw [hp] at hs
        simp [Outcome.state?] at hs
    | thrown =>
      rw [hi] at hs
      simp [Outcome.state?] at hs
      subst hs
      exact heapRel_refl hP h
    | undefined =>
      rw [hi] at hs
      simp [Outcome.state?] at hs

theorem gibbsKids_stable (lm : Libm) {P : GPGMNode → GPGMNode → Prop}
    (hP : SampleStable lm P) (h : Heap) (v : NodeId) (x : ℚ) :
    ∀ (kids : List NodeId) (logSum : ℚ) (s : Heap),
      (GPGMMetropolisNode.gibbsKids lm h v x kids logSum).state? = some s → HeapRel P h s := by
  intro kids
  induction kids with
  | nil =>
    intro logSum s hs
    simp [GPGMMetropolisNode.gibbsKids, Outcome.state?] at hs
    subst hs
    exact heapRel_refl hP h
  | cons c rest ih =>
    intro logSum s hs
    unfold GPGMMetropolisNode.gibbsKids at hs
    simp only at hs
    split at hs
    · split at hs
      · exact ih _ _ hs
      · simp [Outcome.state?] at hs
        subst hs
        exact heapRel_refl hP h
    · simp [Outcome.state?] at hs
      subst hs
      exact heapRel_mean hP h v _
    · simp [Outcome.state?] at hs

theorem gibbs_stable (lm : Libm) {P : GPGMNode → GPGMNode → Prop}
    (hP : SampleStable lm P) (h : Heap) (v : NodeId) (x : ℚ) (s : Heap)
    (hs : (GPGMMetropolisNode.gibbs lm h v x).state? = some s) : HeapRel P h s := by
  unfold GPGMMetropolisNode.gibbs at hs
  split at hs
  · simp only at hs
    split at hs
    · exact gibbsKids_stable lm hP h v x _ _ _ hs
    · simp [Outcome.state?] at hs
      subst hs
      exact heapRel_refl hP h
  · simp [Outcome.state?] at hs
    subst hs
    exact heapRel_refl hP h
  · simp [Outcome.state?] at hs

theorem metropolis_stable (lm : Libm) {P : GPGMNode → GPGMNode → Prop}
    (hP : SampleStable lm P) (h : Heap) (r : GRand) (v : NodeId) (s : Heap × GRand)
    (hs : (GPGMMetropolisNode.metropolis lm h r v).state? = some s) : HeapRel P h s.1 := by
  unfold GPGMMetropolisNode.metropolis at hs
  simp only at hs
  split at hs
  · simp [Outcome.state?] at hs
    subst hs
    exact heapRel_refl hP h
  · split at hs
    · split at hs
      · split at hs
        · split at hs
          · split at hs
            · simp [Outcome.state?] at hs
              subst hs
              exact heapRel_mean hP h v _
            · simp [Outcome.state?] at hs
              subst hs
              exact heapRel_refl hP h
          · simp [Outcome.state?] at hs
            subst hs
            exact heapRel_refl hP h
        · rename_i h1 hg
          simp [Outcome.state?] at hs
          subst hs
          exact gibbs_stable lm hP h v _ h1 (by rw [hg]; rfl)
        · simp [Outcome.state?] at hs
      · simp [Outcome.state?] at hs
        subst hs
        exact heapRel_refl hP h
    · rename_i h1 hg
      simp [Outcome.state?] at hs
      subst hs
      exact gibbs_stable lm hP h v _ h1 (by rw [hg]; rfl)
    · simp [Outcome.state?] at hs

theorem metropolisSample_stable (lm : Libm) {P : GPGMNode → GPGMNode → Prop}
    (hP : SampleStable lm P) (h : Heap) (r : GRand) (v : NodeId)
    (s : Heap × GRand) (hs : (GPGMMetropolisNode.sample lm h r v).state? = some s) :
    HeapRel P h s.1 := by
  unfold GPGMMetropolisNode.sample at hs
  cases hm : GPGMMetropolisNode.metropolis lm h r v with
  | ok accepted s1 =>
    obtain ⟨h1, r1⟩ := s1
    rw [hm] at hs
    simp [Outcome.state?] at hs
    subst hs
    have e1 : HeapRel P h h1 := metropolis_stable lm hP h r v (h1, r1) (by rw [hm]; rfl)
    refine heapRel_trans hP e1 ?_
    have e2 : HeapRel P h1 (if accepted = true then
        h1.put v (GPGMMetropolisNode.onAccepted lm (h1 v)) else h1) := by
      split
      · exact heapRel_put hP h1 v _ (hP.accepted _)
      · exact heapRel_refl hP h1
    refine heapRel_trans hP e2 ?_
    exact heapRel_put hP _ v _ (hP.accumulate _)
  | thrown s1 =>
    rw [hm] at hs
    simp [Outcome.state?] at hs
    subst hs
    exact metropolis_stable lm hP h r v s1 (by rw [hm]; rfl)
  | undefined =>
    rw [hm] at hs
    simp [Outcome.state?] at hs

theorem sample_stable (lm : Libm) {P : GPGMNode → GPGMNode → Prop}
    (hP : SampleStable lm P) (h : Heap) (r : GRand) (p : NodeId) (s : Heap × GRand)
    (hs : (GPGMVariable.sample lm h r p).state? = some s) : HeapRel P h s.1 := by
  unfold GPGMVariable.sample at hs
  split at hs
  · simp [Outcome.state?] at hs
    subst hs
    exact heapRel_refl hP h
  · exact catSample_stable lm hP h r p s hs
  · exact metropolisSample_stable lm hP h r p s hs

theorem sampleAll_stable (lm : Libm) {P : GPGMNode → GPGMNode → Prop}
    (hP : SampleStable lm P) :
    ∀ (ps : List NodeId) (h : Heap) (r : GRand) (s : Heap × GRand),
      (sampleAll lm ps h r).state? = some s → HeapRel P h s.1 := by
  intro ps
  induction ps with
  | nil =>
    intro h r s hs
    simp [sampleAll, Outcome.state?] at hs
    subst hs
    exact heapRel_refl hP h
  | cons p rest ih =>
    intro h r s hs
    unfold sampleAll at hs
    cases hp : GPGMVariable.sample lm h r p with
    | ok u s1 =>
      obtain ⟨h1, r1⟩ := s1
      rw [hp] at hs
      simp only at hs
      exact heapRel_trans hP (sample_stable lm hP h r p (h1, r1) (by rw [hp]; rfl)) (ih h1 r1 s hs)
    | thrown s1 =>
      rw [hp] at hs
      simp [Outcome.state?] at hs
      subst hs
      exact sample_stable lm hP h r p s1 (by rw [hp]; rfl)
    | undefined =>
      rw [hp] at hs
      simp [Outcome.state?] at hs

theorem sweeps_stable (lm : Libm) {P : GPGMNode → GPGMNode → Prop}
    (hP : SampleStable lm P) :
    ∀ (n : Nat) (bn bn1 : GBayesNet),
      (GBayesNet.sweeps lm n bn).state? = some bn1 → HeapRel P bn.m_heap bn1.m_heap := by
  intro n
  induction n with
  | zero =>
    intro bn bn1 hs
    simp [GBayesNet.sweeps, Outcome.state?] at hs
    subst hs
    exact heapRel_refl hP _
  | succ k ih =>
    intro bn bn1 hs
    unfold GBayesNet.sweeps at hs
    unfold GBayesNet.sample at hs
    cases ha : sampleAll lm bn.m_sampleNodes bn.m_heap bn.m_rand with
    | ok u s1 =>
      obtain ⟨h1, r1⟩ := s1
      rw [ha] at hs
      simp only at hs
      have e := sampleAll_stable lm hP _ _ _ (h1, r1) (by rw [ha]; rfl)
      exact heapRel_trans hP e (ih _ _ hs)
    | thrown s1 =>
      obtain ⟨h1, r1⟩ := s1
      rw [ha] at hs
      simp [Outcome.state?] at hs
      subst hs
      exact sampleAll_stable lm hP _ _ _ (h1, r1) (by rw [ha]; rfl)
    | undefined =>
      rw [ha] at hs
      simp [Outcome.state?] at hs

/-! ### Claims C18 and C19: `GPGMMetropolisNode::sample` -/

/-- The heap that `metropolis` returns: the one of the call when the proposal is
rejected, and that with the candidate stored in `m_currentMean` when it is
accepted. -/
theorem metropolis_ok_heap (lm : Libm) (h : Heap) (r : GRand) (v : NodeId) (acc : Bool)
    (h0 : Heap) (r1 : GRand)
    (hm : GPGMMetropolisNode.metropolis lm h r v = .ok acc (h0, r1)) :
    (acc = false ∧ h0 = h) ∨
    (acc = true ∧ h0 = h.put v { h v with
      m_currentMean := GPGMMetropolisNode.candidate (h v) r.normal.1 }) := by
  unfold GPGMMetropolisNode.metropolis at hm
  simp only at hm
  split at hm
  · simp only [Outcome.ok.injEq, Prod.mk.injEq] at hm
    exact Or.inl ⟨hm.1.symm, hm.2.1.symm⟩
  · split at hm
    · split at hm
      · split at hm
        · split at hm
          · split at hm
            · simp only [Outcome.ok.injEq, Prod.mk.injEq] at hm
              exact Or.inr ⟨hm.1.symm, hm.2.1.symm⟩
            · simp only [Outcome.ok.injEq, Prod.mk.injEq] at hm
              exact Or.inl ⟨hm.1.symm, hm.2.1.symm⟩
          · simp only [Outcome.ok.injEq, Prod.mk.injEq] at hm
            exact Or.inl ⟨hm.1.symm, hm.2.1.symm⟩
        · simp at hm
        · simp at hm
      · simp only [Outcome.ok.injEq, Prod.mk.injEq] at hm
        exact Or.inl ⟨hm.1.symm, hm.2.1.symm⟩
    · simp at hm
    · simp at hm

/-- The method `sample` of a Metropolis node after its call of `metropolis`. -/
theorem metropolisSample_of_metropolis (lm : Libm) (h : Heap) (r : GRand) (v : NodeId)
    (acc : Bool) (h0 : Heap) (r1 : GRand)
    (hm : GPGMMetropolisNode.metropolis lm h r v = .ok acc (h0, r1)) :
    GPGMMetropolisNode.sample lm h r v = .ok ()
      ((if acc = true then h0.put v (GPGMMetropolisNode.onAccepted lm (h0 v)) else h0).put v
        (GPGMMetropolisNode.accumulate
          ((if acc = true then h0.put v (GPGMMetropolisNode.onAccepted lm (h0 v)) else h0) v)),
        r1) := by
  unfold GPGMMetropolisNode.sample
  rw [hm]

/-- The record of the node after `sample`, from the record `n0` that
`metropolis` leaves. -/
theorem metropolisSample_node (lm : Libm) (h : Heap) (r : GRand) (v : NodeId)
    (acc : Bool) (h0 : Heap) (r1 : GRand)
    (hm : GPGMMetropolisNode.metropolis lm h r v = .ok acc (h0, r1)) :
    ∃ h1, GPGMMetropolisNode.sample lm h r v = .ok () (h1, r1) ∧
      (∀ q, q ≠ v → h1 q = h q) ∧
      h1 v = GPGMMetropolisNode.accumulate
        (if acc = true then GPGMMetropolisNode.onAccepted lm (h0 v) else h0 v) ∧
      (h0 v = h v ∨ h0 v = { h v with
        m_currentMean := GPGMMetropolisNode.candidate (h v) r.normal.1 }) := by
  refine ⟨_, metropolisSample_of_metropolis lm h r v acc h0 r1 hm, ?_, ?_, ?_⟩
  · intro q hq
    rw [heap_put_other _ _ _ _ hq]
    rcases metropolis_ok_heap lm h r v acc h0 r1 hm with ⟨ha, e⟩ | ⟨ha, e⟩
    · subst ha
      subst e
      simp
    · subst ha
      subst e
      simp only [if_true]
      rw [heap_put_other _ _ _ _ hq, heap_put_other _ _ _ _ hq]
  · rw [heap_put_same]
    by_cases ha : acc = true
    · rw [if_pos ha, if_pos ha, heap_put_same]
    · rw [if_neg ha, if_neg ha]
  · rcases metropolis_ok_heap lm h r v acc h0 r1 hm with ⟨_, e⟩ | ⟨_, e⟩
    · exact Or.inl (by rw [e])
    · exact Or.inr (by rw [e, heap_put_same])

theorem onAccepted_stats (lm : Libm) (n : GPGMNode) :
    (GPGMMetropolisNode.onAccepted lm n).m_currentMean = n.m_currentMean ∧
    (GPGMMetropolisNode.onAccepted lm n).m_nSamples = n.m_nSamples ∧
    (GPGMMetropolisNode.onAccepted lm n).m_sumOfValues = n.m_sumOfValues ∧
    (GPGMMetropolisNode.onAccepted lm n).m_sumOfSquaredValues = n.m_sumOfSquaredValues := by
  unfold GPGMMetropolisNode.onAccepted
  split <;> exact ⟨rfl, rfl, rfl, rfl⟩

theorem accumulate_calibration (n : GPGMNode) :
    (GPGMMetropolisNode.accumulate n).m_currentMean = n.m_currentMean ∧
    (GPGMMetropolisNode.accumulate n).m_currentDeviation = n.m_currentDeviation ∧
    (GPGMMetropolisNode.accumulate n).m_nNewValues = n.m_nNewValues := by
  unfold GPGMMetropolisNode.accumulate
  split <;> exact ⟨rfl, rfl, rfl⟩

/-- The count of samples stays at or below the cap along every sample path. -/
theorem sampleStable_count (lm : Libm) :
    SampleStable lm (fun a b => a.m_nSamples ≤ 0xffffffff → b.m_nSamples ≤ 0xffffffff) where
  refl := fun _ hn => hn
  trans := fun _ _ _ ab bc hn => bc (ab hn)
  val := fun _ _ hn => hn
  mean := fun _ _ hn => hn
  accepted := fun n hn => by rw [(onAccepted_stats lm n).2.1]; exact hn
  accumulate := fun n hn => by
    unfold GPGMMetropolisNode.accumulate
    split
    · show n.m_nSamples + 1 ≤ 0xffffffff
      omega
    · exact hn

/-- The count of accepted proposals stays at or below 9 along every sample
path. -/
theorem sampleStable_newValues (lm : Libm) :
    SampleStable lm (fun a b => a.m_nNewValues ≤ 9 → b.m_nNewValues ≤ 9) where
  refl := fun _ hn => hn
  trans := fun _ _ _ ab bc hn => bc (ab hn)
  val := fun _ _ hn => hn
  mean := fun _ _ hn => hn
  accepted := fun n _ => by
    unfold GPGMMetropolisNode.onAccepted
    split
    · exact Nat.zero_le 9
    · show n.m_nNewValues + 1 ≤ 9
      omega
  accumulate := fun n hn => by rw [(accumulate_calibration n).2.2]; exact hn

/-- Claim C18. Whenever `metropolis` returns, accepting or not, `sample` returns
with the mean that `metropolis` left (the post-step `m_currentMean`) added to
`m_sumOfValues`, its square added to `m_sumOfSquaredValues` and `m_nSamples`
incremented when `m_nSamples < 0xffffffff`, and with the three unchanged when
`m_nSamples` has reached `0xffffffff`.  A constructed node has `m_nSamples = 0`,
and no call of `sample` and no sequence of sweeps takes the count of a node from
at most `0xffffffff` to more. -/
theorem sample_accumulates (lm : Libm) :
    (∀ (h : Heap) (r : GRand) (v : NodeId) (acc : Bool) (h0 : Heap) (r1 : GRand),
      GPGMMetropolisNode.metropolis lm h r v = .ok acc (h0, r1) →
      ∃ h1, GPGMMetropolisNode.sample lm h r v = .ok () (h1, r1) ∧
        (h1 v).m_currentMean = (h0 v).m_currentMean ∧
        ((h v).m_nSamples < 0xffffffff →
          (h1 v).m_sumOfValues = (h v).m_sumOfValues + (h1 v).m_currentMean ∧
          (h1 v).m_sumOfSquaredValues
            = (h v).m_sumOfSquaredValues + (h1 v).m_currentMean * (h1 v).m_currentMean ∧
          (h1 v).m_nSamples = (h v).m_nSamples + 1) ∧
        (0xffffffff ≤ (h v).m_nSamples →
          (h1 v).m_sumOfValues = (h v).m_sumOfValues ∧
          (h1 v).m_sumOfSquaredValues = (h v).m_sumOfSquaredValues ∧
          (h1 v).m_nSamples = (h v).m_nSamples)) ∧
    (∀ (fam : Family) (priorMean priorDeviation : ℚ),
      (GPGMMetropolisNode.construct fam priorMean priorDeviation).m_nSamples = 0) ∧
    (∀ (h : Heap) (r : GRand) (p : NodeId) (s : Heap × GRand) (q : NodeId),
      (GPGMVariable.sample lm h r p).state? = some s →
      (h q).m_nSamples ≤ 0xffffffff → (s.1 q).m_nSamples ≤ 0xffffffff) ∧
    (∀ (n : Nat) (bn bn1 : GBayesNet) (q : NodeId),
      (GBayesNet.sweeps lm n bn).state? = some bn1 →
      (bn.m_heap q).m_nSamples ≤ 0xffffffff → (bn1.m_heap q).m_nSamples ≤ 0xffffffff) := by
  refine ⟨?_, fun _ _ _ => rfl, ?_, ?_⟩
  · intro h r v acc h0 r1 hm
    obtain ⟨h1, hs, _, hv, h0v⟩ := metropolisSample_node lm h r v acc h0 r1 hm
    have hst : (if acc = true then GPGMMetropolisNode.onAccepted lm (h0 v) else h0 v).m_currentMean
          = (h0 v).m_currentMean ∧
        (if acc = true then GPGMMetropolisNode.onAccepted lm (h0 v) else h0 v).m_nSamples
          = (h v).m_nSamples ∧
        (if acc = true then GPGMMetropolisNode.onAccepted lm (h0 v) else h0 v).m_sumOfValues
          = (h v).m_sumOfValues ∧
        (if acc = true then GPGMMetropolisNode.onAccepted lm (h0 v)
          else h0 v).m_sumOfSquaredValues = (h v).m_sumOfSquaredValues := by
      have e0 : (h0 v).m_nSamples = (h v).m_nSamples ∧
          (h0 v).m_sumOfValues = (h v).m_sumOfValues ∧
          (h0 v).m_sumOfSquaredValues = (h v).m_sumOfSquaredValues := by
        rcases h0v with e | e <;> simp [e]
      have e1 := onAccepted_stats lm (h0 v)
      by_cases ha : acc = true
      · simp only [if_pos ha]
        exact ⟨e1.1, e1.2.1.trans e0.1, e1.2.2.1.trans e0.2.1, e1.2.2.2.trans e0.2.2⟩
      · simp only [if_neg ha]
        exact ⟨trivial, e0.1, e0.2.1, e0.2.2⟩
    refine ⟨h1, hs, ?_, ?_, ?_⟩
    · rw [hv, (accumulate_calibration _).1, hst.1]
    · intro hlt
      have hmean : (h1 v).m_currentMean = (h0 v).m_currentMean := by
        rw [hv, (accumulate_calibration _).1, hst.1]
      rw [hmean, hv]
      unfold GPGMMetropolisNode.accumulate
      rw [if_pos (by rw [hst.2.1]; exact hlt)]
      simp [hst.1, hst.2.1, hst.2.2.1, hst.2.2.2]
    · intro hge
      rw [hv]
      unfold GPGMMetropolisNode.accumulate
      rw [if_neg (by rw [hst.2.1]; exact not_lt.mpr hge)]
      exact ⟨hst.2.2.1, hst.2.2.2, hst.2.1⟩
  · intro h r p s q hs
    exact sample_stable lm (sampleStable_count lm) h r p s hs q
  · intro n bn bn1 q hs
    exact sweeps_stable lm (sampleStable_count lm) n bn bn1 hs q

/-- Witness of claim C18: `pChild` of `GBayesNet_simpleTest` with the normal
draw 0, a rejected proposal; the current mean 1 is accumulated. -/
theorem sample_accumulates_witness :
    ∃ h1, GPGMMetropolisNode.sample exampleLibm (simpleTest exampleRand).m_heap exampleRand 4
        = .ok () (h1, exampleRand.normal.2) ∧
      (h1 4).m_nSamples = 1 ∧ (h1 4).m_sumOfValues = 1 ∧ (h1 4).m_sumOfSquaredValues = 1 := by
  obtain ⟨h1, hs, hmean, hlt, _⟩ := (sample_accumulates exampleLibm).1
    (simpleTest exampleRand).m_heap exampleRand 4 false (simpleTest exampleRand).m_heap
    exampleRand.normal.2 (metropolis_of_candidate_eq _ _ _ _ (by decide!))
  have w := hlt (by decide!)
  refine ⟨h1, hs, ?_, ?_, ?_⟩
  · rw [w.2.2]
    decide!
  · rw [w.1, hmean]
    decide!
  · rw [w.2.1, hmean]
    decide!

/-- Claim C19. Whenever `metropolis` returns, `sample` returns, and: on an
accepted proposal that brings the count `m_nNewValues` of accepted proposals to
10, `m_currentDeviation` becomes
`sqrt(m_sumOfSquaredValues / m_nSamples - (m_sumOfValues / m_nSamples)^2)` of the
statistics the call found (this call's value is accumulated afterwards) and the
count is reset to 0; on any other accepted proposal the deviation is unchanged
and the count is incremented; on a rejected proposal both are unchanged.  A
constructed node has the count 0, and no call of `sample` and no sequence of
sweeps takes the count of a node from at most 9 to more. -/
theorem sample_recalibrates (lm : Libm) :
    (∀ (h : Heap) (r : GRand) (v : NodeId) (acc : Bool) (h0 : Heap) (r1 : GRand),
      GPGMMetropolisNode.metropolis lm h r v = .ok acc (h0, r1) →
      ∃ h1, GPGMMetropolisNode.sample lm h r v = .ok () (h1, r1) ∧
        (acc = true → (h v).m_nNewValues + 1 ≥ 10 →
          (h1 v).m_currentDeviation
            = lm.sqrt ((h v).m_sumOfSquaredValues / (h v).m_nSamples
              - (h v).m_sumOfValues / (h v).m_nSamples
                * ((h v).m_sumOfValues / (h v).m_nSamples)) ∧
          (h1 v).m_nNewValues = 0) ∧
        (acc = true → (h v).m_nNewValues + 1 < 10 →
          (h1 v).m_currentDeviation = (h v).m_currentDeviation ∧
          (h1 v).m_nNewValues = (h v).m_nNewValues + 1) ∧
        (acc = false →
          (h1 v).m_currentDeviation = (h v).m_currentDeviation ∧
          (h1 v).m_nNewValues = (h v).m_nNewValues) ∧
        (∀ q, q ≠ v → h1 q = h q)) ∧
    (∀ (fam : Family) (priorMean priorDeviation : ℚ),
      (GPGMMetropolisNode.construct fam priorMean priorDeviation).m_nNewValues = 0) ∧
    (∀ (h : Heap) (r : GRand) (p : NodeId) (s : Heap × GRand) (q : NodeId),
      (GPGMVariable.sample lm h r p).state? = some s →
      (h q).m_nNewValues ≤ 9 → (s.1 q).m_nNewValues ≤ 9) ∧
    (∀ (n : Nat) (bn bn1 : GBayesNet) (q : NodeId),
      (GBayesNet.sweeps lm n bn).state? = some bn1 →
      (bn.m_heap q).m_nNewValues ≤ 9 → (bn1.m_heap q).m_nNewValues ≤ 9) := by
  refine ⟨?_, fun _ _ _ => rfl, ?_, ?_⟩
  · intro h r v acc h0 r1 hm
    obtain ⟨h1, hs, hoth, hv, h0v⟩ := metropolisSample_node lm h r v acc h0 r1 hm
    have e0 : (h0 v).m_nSamples = (h v).m_nSamples ∧
        (h0 v).m_sumOfValues = (h v).m_sumOfValues ∧
        (h0 v).m_sumOfSquaredValues = (h v).m_sumOfSquaredValues ∧
        (h0 v).m_currentDeviation = (h v).m_currentDeviation ∧
        (h0 v).m_nNewValues = (h v).m_nNewValues := by
      rcases h0v with e | e <;> simp [e]
    have hc := accumulate_calibration
      (if acc = true then GPGMMetropolisNode.onAccepted lm (h0 v) else h0 v)
    refine ⟨h1, hs, ?_, ?_, ?_, hoth⟩
    · intro ha hten
      rw [hv, hc.2.1, hc.2.2, if_pos ha]
      unfold GPGMMetropolisNode.onAccepted
      rw [if_pos (by rw [e0.2.2.2.2]; exact hten)]
      simp [e0.1, e0.2.1, e0.2.2.1]
    · intro ha hten
      rw [hv, hc.2.1, hc.2.2, if_pos ha]
      unfold GPGMMetropolisNode.onAccepted
      rw [if_neg (by rw [e0.2.2.2.2]; exact not_le.mpr hten)]
      simp [e0.2.2.2.1, e0.2.2.2.2]
    · intro ha
      rw [hv, hc.2.1, hc.2.2, if_neg (by rw [ha]; decide)]
      exact ⟨e0.2.2.2.1, e0.2.2.2.2⟩
  · intro h r p s q hs
    exact sample_stable lm (sampleStable_newValues lm) h r p s hs q
  · intro n bn bn1 q hs
    exact sweeps_stable lm (sampleStable_newValues lm) n bn bn1 hs q
/-- Witness of claim C19: the first variable of `normalChainNinth`, with nine
accepted proposals so far, accepts a tenth one (normal draw 1, uniform draw
1/2): the deviation is recomputed from the four samples found, to the stand-in
square root of `28 / 4 - (8 / 4)^2 = 3`, and the count is reset. -/
theorem sample_recalibrates_witness :
    ∃ h1, GPGMMetropolisNode.sample exampleLibm (normalChainNinth exampleRand)
        { exampleRand with drawn := 1 } 1 = .ok () (h1, { exampleRand with drawn := 3 }) ∧
      (h1 1).m_currentDeviation = exampleLibm.sqrt 3 ∧ (h1 1).m_nNewValues = 0 := by
  have hm : GPGMMetropolisNode.metropolis exampleLibm (normalChainNinth exampleRand)
      { exampleRand with drawn := 1 } 1
      = .ok true ((normalChainNinth exampleRand).put 1
          { normalChainNinth exampleRand 1 with
            m_currentMean := GPGMMetropolisNode.candidate (normalChainNinth exampleRand 1)
              ({ exampleRand with drawn := 1 } : GRand).normal.1 },
          { exampleRand with drawn := 3 }) := by
    have e := metropolis_of_gibbs exampleLibm (normalChainNinth exampleRand)
      { exampleRand with drawn := 1 } 1
      (-1003976964778 / 751988482389) (-1003976964778 / 751988482389)
      (normalChainNinth exampleRand) (normalChainNinth exampleRand)
      (by decide!)
      (gibbs_eq_of_value _ _ _ _ _ (by decide!))
      (gibbs_eq_of_value _ _ _ _ _ (by decide!))
    rw [if_pos (by decide!), if_pos (by decide!), if_pos (by decide!)] at e
    exact e
  obtain ⟨h1, hs, hten, _⟩ := (sample_recalibrates exampleLibm).1 _ _ _ _ _ _ hm
  have w := hten rfl (by decide!)
  refine ⟨h1, hs, ?_, w.2⟩
  rw [w.1]
  decide!

/-! ### Claim C12: the category that `GPGMCategorical::sample` selects -/

theorem setVal_setVal (h : Heap) (v : NodeId) (a b : ℚ) :
    setVal (setVal h v a) v b = setVal h v b := by
  funext q
  unfold setVal Heap.put
  by_cases hq : q = v <;> simp [hq]

theorem setVal_same (h : Heap) (v : NodeId) (a : ℚ) :
    setVal h v a v = { h v with m_val := a } := by
  unfold setVal
  rw [heap_put_same]

theorem currentValue_setVal_other (h : Heap) (v w : NodeId) (a : ℚ) (hw : w ≠ v) :
    GPGMNode.currentValue (setVal h v a) w = GPGMNode.currentValue h w := by
  unfold GPGMNode.currentValue setVal
  rw [heap_put_other _ _ _ _ hw]

/-- The children are evaluated with `m_val` set to `i`, whatever it was. -/
theorem blanket_setVal (lm : Libm) (h : Heap) (v : NodeId) (a : ℚ) (i : Nat) :
    ∀ (kids : List NodeId) (c : ℚ),
      GPGMCategorical.blanket lm (setVal h v a) v i kids c
        = GPGMCategorical.blanket lm h v i kids c := by
  intro kids
  induction kids with
  | nil => intro c; rfl
  | cons k rest ih =>
    intro c
    unfold GPGMCategorical.blanket
    simp only [setVal_setVal]
    cases GPGMVariable.likelihood lm (setVal h v i) k
        (GPGMNode.currentValue (setVal h v i) k) with
    | ok l => exact ih (c * l)
    | thrown => rfl
    | undefined => rfl

/-- The body of the loops does not depend on `m_val` when the weight of the
category is another node. -/
theorem catProb_setVal (lm : Libm) (h : Heap) (v : NodeId) (base i : Nat) (a : ℚ)
    (hw : vecAt (h v).m_weights (sizeAdd base i) ≠ .ok v) :
    GPGMCategorical.catProb lm (setVal h v a) v base i
      = GPGMCategorical.catProb lm h v base i := by
  unfold GPGMCategorical.catProb
  rw [setVal_same]
  simp only
  cases hv : vecAt (h v).m_weights (sizeAdd base i) with
  | ok w =>
    have hne : w ≠ v := fun e => hw (by rw [hv, e])
    simp only
    rw [blanket_setVal, currentValue_setVal_other h v w a hne]
  | thrown => rfl
  | undefined => rfl

/-- The first loop of `sample` returns the sum of the bodies. -/
theorem sumProb_eq_sum (lm : Libm) (h : Heap) (v : NodeId) (base : Nat) (p : Nat → ℚ) :
    ∀ n, (∀ i, i < n → GPGMCategorical.catProb lm h v base i = .ok (p i)) →
      GPGMCategorical.sumProb lm h v base n = .ok (∑ i in Finset.range n, p i) h := by
  intro n
  induction n with
  | zero => intro _; rfl
  | succ n ih =>
    intro hp
    unfold GPGMCategorical.sumProb
    rw [ih (fun i hi => hp i (Nat.lt_succ_of_lt hi)), hp n (Nat.lt_succ_self n)]
    simp only
    rw [Finset.sum_range_succ]

theorem cumulative_zero (p : Nat → ℚ) (S : ℚ) : cumulative p S 0 = 0 + p 0 / S := by
  unfold cumulative
  simp

theorem cumulative_succ (p : Nat → ℚ) (S : ℚ) (i : Nat) :
    cumulative p S (i + 1) = cumulative p S i + p (i + 1) / S := by
  unfold cumulative
  rw [Finset.sum_range_succ]

/-- The second loop of `sample` after the category `i`, which did not reach the
draw. -/
theorem pick_from (lm : Libm) (h : Heap) (v : NodeId) (base : Nat) (S u : ℚ) (p : Nat → ℚ)
    (k : Nat)
    (hp : ∀ (a : ℚ) (j : Nat), j < k →
      GPGMCategorical.catProb lm (setVal h v a) v base j = .ok (p j)) :
    ∀ (remaining i : Nat), remaining + (i + 1) = k →
      (∀ j, j < i + 1 → cumulative p S j < u) →
      ∃ sel : Nat, GPGMCategorical.pick lm v base S u remaining (i + 1) (setVal h v i)
          (cumulative p S i) = .ok () (setVal h v sel) ∧ IsSelected p S u k sel := by
  intro remaining
  induction remaining with
  | zero =>
    intro i hk hlt
    refine ⟨i, rfl, Or.inr ⟨by omega, ?_⟩⟩
    intro j hj
    exact hlt j (by omega)
  | succ r ih =>
    intro i hk hlt
    unfold GPGMCategorical.pick
    rw [hp i (i + 1) (by omega)]
    simp only
    rw [← cumulative_succ, setVal_setVal]
    by_cases hu : cumulative p S (i + 1) ≥ u
    · rw [if_pos hu]
      exact ⟨i + 1, rfl, Or.inl ⟨by omega, hu, hlt⟩⟩
    · rw [if_neg hu]
      refine ih (i + 1) (by omega) ?_
      intro j hj
      by_cases hji : j < i + 1
      · exact hlt j hji
      · have e : j = i + 1 := by omega
        rw [e]
        exact not_le.mp hu

/-- Claim C12, as amended. An unobserved Categorical with at least one category
whose row index is defined, whose loop bodies `p_i` are defined, and which is
not itself a weight of its current row, draws `u` and is left by `sample` with
`m_val` set to the least category `i` with `Σ_{j ≤ i} p_j / Σp ≥ u`, and to the
last category when there is none; nothing else changes.  The sum `Σp` is taken
to be non-zero, where the quotients are numbers. -/
theorem categorical_sample_selects (lm : Libm) (h : Heap) (r : GRand) (v : NodeId) (ind : Nat)
    (p : Nat → ℚ)
    (hobs : (h v).m_observed = false)
    (hk : 0 < (h v).m_categories)
    (hind : GPGMVariable.currentCatIndex h v = .ok ind)
    (hp : ∀ i, i < (h v).m_categories →
      GPGMCategorical.catProb lm h v (sizeMul (h v).m_categories ind) i = .ok (p i))
    (hself : ∀ i, i < (h v).m_categories →
      vecAt (h v).m_weights (sizeAdd (sizeMul (h v).m_categories ind) i) ≠ .ok v)
    (_hS : ∑ i in Finset.range (h v).m_categories, p i ≠ 0) :
    ∃ sel : Nat, GPGMCategorical.sample lm h r v = .ok () (setVal h v sel, r.uniform.2) ∧
      IsSelected p (∑ i in Finset.range (h v).m_categories, p i) r.uniform.1
        (h v).m_categories sel := by
  have hp2 : ∀ (a : ℚ) (j : Nat), j < (h v).m_categories →
      GPGMCategorical.catProb lm (setVal h v a) v (sizeMul (h v).m_categories ind) j
        = .ok (p j) := by
    intro a j hj
    rw [catProb_setVal lm h v _ j a (hself j hj)]
    exact hp j hj
  unfold GPGMCategorical.sample
  rw [hobs, hind]
  simp only [Bool.false_eq_true, if_false]
  rw [sumProb_eq_sum lm h v _ p _ hp]
  simp only
  obtain ⟨k, hkk⟩ : ∃ k, (h v).m_categories = k + 1 := ⟨(h v).m_categories - 1, by omega⟩
  generalize hS : (∑ i in Finset.range (h v).m_categories, p i) = S
  rw [hkk] at hp hp2 ⊢
  unfold GPGMCategorical.pick
  rw [hp 0 (by omega)]
  simp only
  rw [← cumulative_zero]
  by_cases hu : cumulative p S 0 ≥ r.uniform.1
  · rw [if_pos hu]
    exact ⟨0, by simp, Or.inl ⟨by omega, hu, fun j hj => absurd hj (Nat.not_lt_zero j)⟩⟩
  · rw [if_neg hu]
    obtain ⟨sel, hs, hsel⟩ := pick_from lm h v _ S r.uniform.1 p (k + 1) hp2 k 0 (by omega)
      (fun j hj => by
        have e : j = 0 := by omega
        rw [e]
        exact not_le.mp hu)
    refine ⟨sel, ?_, hsel⟩
    rw [hs]
/-- Witness of claim C12, as amended: `pBurglary` of `GBayesNet_alarmTest` with
the draw 1/2.  Its loop bodies are `0.001 * 0.95` and `0.999 * 0.29` (the row of
`pAlarm`, whose value is 0, under each of the two values), the first does not
reach the draw, and the value becomes 1. -/
theorem categorical_sample_selects_witness :
    (∃ sel : Nat, GPGMCategorical.sample exampleLibm (alarmTest exampleRand).m_heap exampleRand 1
        = .ok () (setVal (alarmTest exampleRand).m_heap 1 sel, exampleRand.uniform.2) ∧
      IsSelected (fun i => ([19 / 20000, 28971 / 100000] : List ℚ).getD i 0)
        (∑ i in Finset.range ((alarmTest exampleRand).m_heap 1).m_categories,
          ([19 / 20000, 28971 / 100000] : List ℚ).getD i 0)
        exampleRand.uniform.1 ((alarmTest exampleRand).m_heap 1).m_categories sel) ∧
    (GPGMCategorical.sample exampleLibm (alarmTest exampleRand).m_heap exampleRand
      1).state?.map (fun s => (s.1 1).m_val) = some 1 :=
  ⟨categorical_sample_selects exampleLibm (alarmTest exampleRand).m_heap exampleRand 1 0
      (fun i => ([19 / 20000, 28971 / 100000] : List ℚ).getD i 0)
      (by decide!) (by decide!) (by decide!) (by decide!) (by decide!) (by decide!),
    by decide!⟩

/-- Claim C12 does not hold for a Categorical that is a weight of its own row.
The Categorical of `selfWeighted` has the value 2 after a first `sample` with the
draw 99/100.  Then its loop bodies are 1/3, 8/7 and 1/44 with the weights read
before the call, and 1/3, 4/7 and 1/44 with each weight read while the value is
the category; in both readings the cumulative sum reaches the draw 1/2 at the
category 1 and not before.  The second loop of `sample` reads the weight of the
category 1, the node itself, after it has stored the category 0 in `m_val`: it
never reaches the draw and the value is left at 2. -/
theorem categorical_sample_self_weight :
    (GPGMCategorical.sample exampleLibm (selfWeighted exampleRand).m_heap lateRand
      1).state?.map (fun s => (s.1 1).m_val) = some 2 ∧
    (setVal (selfWeighted exampleRand).m_heap 1 2 1).m_observed = false ∧
    GPGMVariable.currentCatIndex (setVal (selfWeighted exampleRand).m_heap 1 2) 1 = .ok 0 ∧
    (∀ i : Nat, i < 3 →
      GPGMCategorical.catProb exampleLibm (setVal (selfWeighted exampleRand).m_heap 1 2) 1 0 i
        = .ok (([1 / 3, 8 / 7, 1 / 44] : List ℚ).getD i 0)) ∧
    (∀ i : Nat, i < 3 →
      GPGMCategorical.catProb exampleLibm
        (setVal (setVal (selfWeighted exampleRand).m_heap 1 2) 1 i) 1 0 i
        = .ok (([1 / 3, 4 / 7, 1 / 44] : List ℚ).getD i 0)) ∧
    IsSelected (fun i => ([1 / 3, 8 / 7, 1 / 44] : List ℚ).getD i 0)
      (1 / 3 + 8 / 7 + 1 / 44) (1 / 2) 3 1 ∧
    ¬ IsSelected (fun i => ([1 / 3, 8 / 7, 1 / 44] : List ℚ).getD i 0)
      (1 / 3 + 8 / 7 + 1 / 44) (1 / 2) 3 2 ∧
    IsSelected (fun i => ([1 / 3, 4 / 7, 1 / 44] : List ℚ).getD i 0)
      (1 / 3 + 4 / 7 + 1 / 44) (1 / 2) 3 1 ∧
    ¬ IsSelected (fun i => ([1 / 3, 4 / 7, 1 / 44] : List ℚ).getD i 0)
      (1 / 3 + 4 / 7 + 1 / 44) (1 / 2) 3 2 ∧
    (GPGMCategorical.sample exampleLibm (setVal (selfWeighted exampleRand).m_heap 1 2)
      exampleRand 1).isOk = true ∧
    (GPGMCategorical.sample exampleLibm (setVal (selfWeighted exampleRand).m_heap 1 2)
      exampleRand 1).state?.map (fun s => (s.1 1).m_val) = some 2 := by
  refine ⟨by decide!, by decide!, by decide!, by decide!, by decide!, ?_, ?_, ?_, ?_,
    by decide!, by decide!⟩
  · unfold IsSelected cumulative
    decide!
  · unfold IsSelected cumulative
    decide!
  · unfold IsSelected cumulative
    decide!
  · unfold IsSelected cumulative
    decide!

/-! ### Claim C20: the registry `m_sampleNodes` and the sweep -/

/-- The registry after one of the factory methods of distributions. -/
theorem newVariable_sampleNodes (bn : GBayesNet) (fam : Family) (m d : ℚ) :
    (bn.newVariable fam m d).1 = bn.allocated ∧
    (bn.newVariable fam m d).2.m_sampleNodes = bn.m_sampleNodes ++ [bn.allocated] ∧
    (bn.newVariable fam m d).2.allocated = bn.allocated + 1 :=
  ⟨rfl, rfl, rfl⟩

/-- The registry after one step: the node that the step returns is appended
when the step is a factory method of variables, and nothing is appended
otherwise. -/
theorem run_sampleNodes (bn : GBayesNet) (c : BuildStep) :
    (c.run bn).2.m_sampleNodes
      = bn.m_sampleNodes ++ (if c.isVariableFactory then (c.run bn).1.toList else []) := by
  cases c with
  | newConst val => simp [BuildStep.run, BuildStep.isVariableFactory, GBayesNet.newConst,
      GBayesNet.place]
  | onNode f => simp [BuildStep.run, BuildStep.isVariableFactory, GBayesNet.call]
  | newCat categories =>
    cases hc : GPGMCategorical.construct categories bn.m_pConstOne with
    | ok n => simp [BuildStep.run, GBayesNet.newCat, hc, BuildStep.isVariableFactory,
        GBayesNet.place]
    | thrown => simp [BuildStep.run, GBayesNet.newCat, hc, BuildStep.isVariableFactory]
    | undefined => simp [BuildStep.run, GBayesNet.newCat, hc, BuildStep.isVariableFactory]
  | newNormal m d => simp [BuildStep.run, BuildStep.isVariableFactory, GBayesNet.newNormal,
      GBayesNet.newVariable, GBayesNet.place]
  | newLogNormal m d => simp [BuildStep.run, BuildStep.isVariableFactory,
      GBayesNet.newLogNormal, GBayesNet.newVariable, GBayesNet.place]
  | newPareto m d => simp [BuildStep.run, BuildStep.isVariableFactory, GBayesNet.newPareto,
      GBayesNet.newVariable, GBayesNet.place]
  | newUniformDiscrete m d => simp [BuildStep.run, BuildStep.isVariableFactory,
      GBayesNet.newUniformDiscrete, GBayesNet.newVariable, GBayesNet.place]
  | newUniformContinuous m d => simp [BuildStep.run, BuildStep.isVariableFactory,
      GBayesNet.newUniformContinuous, GBayesNet.newVariable, GBayesNet.place]
  | newPoisson m d => simp [BuildStep.run, BuildStep.isVariableFactory, GBayesNet.newPoisson,
      GBayesNet.newVariable, GBayesNet.place]
  | newExponential m d => simp [BuildStep.run, BuildStep.isVariableFactory,
      GBayesNet.newExponential, GBayesNet.newVariable, GBayesNet.place]
  | newBeta m d => simp [BuildStep.run, BuildStep.isVariableFactory, GBayesNet.newBeta,
      GBayesNet.newVariable, GBayesNet.place]
  | newGamma m d scale => simp [BuildStep.run, BuildStep.isVariableFactory,
      GBayesNet.newGamma, GBayesNet.newVariable, GBayesNet.place]

/-- A node that a step returns is placed at the next free address, and no step
gives an address back. -/
theorem run_allocated (bn : GBayesNet) (c : BuildStep) :
    bn.allocated ≤ (c.run bn).2.allocated ∧
    (∀ p, (c.run bn).1 = some p → p = bn.allocated ∧ (c.run bn).2.allocated = bn.allocated + 1)
    := by
  cases c with
  | newConst val => simp [BuildStep.run, GBayesNet.newConst, GBayesNet.place]
  | onNode f => simp [BuildStep.run, GBayesNet.call]
  | newCat categories =>
    cases hc : GPGMCategorical.construct categories bn.m_pConstOne with
    | ok n => simp [BuildStep.run, GBayesNet.newCat, hc, GBayesNet.place]
    | thrown => simp [BuildStep.run, GBayesNet.newCat, hc]
    | undefined => simp [BuildStep.run, GBayesNet.newCat, hc]
  | newNormal m d => simp [BuildStep.run, GBayesNet.newNormal, GBayesNet.newVariable,
      GBayesNet.place]
  | newLogNormal m d => simp [BuildStep.run, GBayesNet.newLogNormal, GBayesNet.newVariable,
      GBayesNet.place]
  | newPareto m d => simp [BuildStep.run, GBayesNet.newPareto, GBayesNet.newVariable,
      GBayesNet.place]
  | newUniformDiscrete m d => simp [BuildStep.run, GBayesNet.newUniformDiscrete,
      GBayesNet.newVariable, GBayesNet.place]
  | newUniformContinuous m d => simp [BuildStep.run, GBayesNet.newUniformContinuous,
      GBayesNet.newVariable, GBayesNet.place]
  | newPoisson m d => simp [BuildStep.run, GBayesNet.newPoisson, GBayesNet.newVariable,
      GBayesNet.place]
  | newExponential m d => simp [BuildStep.run, GBayesNet.newExponential,
      GBayesNet.newVariable, GBayesNet.place]
  | newBeta m d => simp [BuildStep.run, GBayesNet.newBeta, GBayesNet.newVariable,
      GBayesNet.place]
  | newGamma m d scale => simp [BuildStep.run, GBayesNet.newGamma, GBayesNet.newVariable,
      GBayesNet.place]

/-- The registry after a sequence of steps. -/
theorem buildAll_sampleNodes :
    ∀ (calls : List BuildStep) (bn : GBayesNet),
      (buildAll calls bn).m_sampleNodes = bn.m_sampleNodes ++ createdVariables calls bn := by
  intro calls
  induction calls with
  | nil => intro bn; simp [buildAll, createdVariables]
  | cons c rest ih =>
    intro bn
    unfold buildAll createdVariables
    rw [ih, run_sampleNodes, List.append_assoc]

/-- The registered nodes are pairwise different and lie below the next free
address, after every sequence of steps. -/
theorem buildAll_nodup :
    ∀ (calls : List BuildStep) (bn : GBayesNet),
      bn.m_sampleNodes.Nodup → (∀ p ∈ bn.m_sampleNodes, p < bn.allocated) →
      (buildAll calls bn).m_sampleNodes.Nodup ∧
      (∀ p ∈ (buildAll calls bn).m_sampleNodes, p < (buildAll calls bn).allocated) := by
  intro calls
  induction calls with
  | nil => intro bn hn hf; exact ⟨hn, hf⟩
  | cons c rest ih =>
    intro bn hn hf
    unfold buildAll
    have ha := run_allocated bn c
    have hs := run_sampleNodes bn c
    refine ih (c.run bn).2 ?_ ?_
    · rw [hs]
      by_cases hv : c.isVariableFactory = true
      · rw [if_pos hv]
        cases hr : (c.run bn).1 with
        | none => simpa using hn
        | some p =>
          have hp := (ha.2 p hr).1
          simp only [Option.toList]
          rw [List.nodup_append]
          refine ⟨hn, List.nodup_singleton p, ?_⟩
          intro a ha1 ha2
          have e : a = p := by simpa using ha2
          have hlt := hf a ha1
          rw [e, hp] at hlt
          exact lt_irrefl _ hlt
      · rw [if_neg hv]
        simpa using hn
    · intro p hp
      rw [hs] at hp
      rcases List.mem_append.mp hp with hp1 | hp2
      · exact lt_of_lt_of_le (hf p hp1) ha.1
      · by_cases hv : c.isVariableFactory = true
        · rw [if_pos hv] at hp2
          cases hr : (c.run bn).1 with
          | none => rw [hr] at hp2; simp at hp2
          | some q =>
            rw [hr] at hp2
            have e : p = q := by simpa using hp2
            have hq := ha.2 q hr
            rw [e, hq.1, hq.2]
            exact Nat.lt_succ_self _
        · rw [if_neg hv] at hp2
          simp at hp2

/-- The record of the calls is a record only: the outcome is that of the loop. -/
theorem sampleAllCalls_outcome (lm : Libm) :
    ∀ (ps : List NodeId) (h : Heap) (r : GRand),
      (sampleAllCalls lm ps h r).2 = sampleAll lm ps h r := by
  intro ps
  induction ps with
  | nil => intro h r; rfl
  | cons p rest ih =>
    intro h r
    unfold sampleAllCalls sampleAll
    cases GPGMVariable.sample lm h r p with
    | ok a s => exact ih s.1 s.2
    | thrown s => rfl
    | undefined => rfl

/-- The calls of the loop are made on the elements of the list in order: all of
them when the loop returns, and those up to the call that does not return
otherwise. -/
theorem sampleAllCalls_calls (lm : Libm) :
    ∀ (ps : List NodeId) (h : Heap) (r : GRand),
      (sampleAllCalls lm ps h r).1 <+: ps ∧
      ((sampleAll lm ps h r).isOk = true → (sampleAllCalls lm ps h r).1 = ps) := by
  intro ps
  induction ps with
  | nil => intro h r; exact ⟨List.prefix_refl _, fun _ => rfl⟩
  | cons p rest ih =>
    intro h r
    unfold sampleAllCalls sampleAll
    cases GPGMVariable.sample lm h r p with
    | ok a s =>
      obtain ⟨h1, r1⟩ := s
      simp only
      refine ⟨?_, fun hok => ?_⟩
      · exact (List.prefix_cons_inj p).mpr (ih h1 r1).1
      · rw [(ih h1 r1).2 hok]
    | thrown s =>
      refine ⟨?_, fun hok => ?_⟩
      · exact ⟨rest, rfl⟩
      · simp [Outcome.isOk] at hok
    | undefined =>
      refine ⟨?_, fun hok => ?_⟩
      · exact ⟨rest, rfl⟩
      · simp [Outcome.isOk] at hok
theorem sample_isOk (lm : Libm) (bn : GBayesNet) :
    (GBayesNet.sample lm bn).isOk = (sampleAll lm bn.m_sampleNodes bn.m_heap bn.m_rand).isOk := by
  unfold GBayesNet.sample
  cases sampleAll lm bn.m_sampleNodes bn.m_heap bn.m_rand with
  | ok a s => rfl
  | thrown s => rfl
  | undefined => rfl

/-- Claim C20. A new network has an empty registry, the built-in constant
included.  After every sequence of factory calls, interleaved with any calls of
methods of nodes, `m_sampleNodes` is the list of the nodes returned by `newCat`,
`newNormal`, ..., `newGamma` in the order of their creation, without
repetition: each of these calls appends the node it returns, a `newCat` that
throws appends nothing, and `newConst` appends nothing.  One `GBayesNet::sample`
makes its calls `sample(&m_rand)` on the registered nodes in the order of the
registry, one call on each when it returns. -/
theorem sampleNodes_lists_created_variables (lm : Libm) (rand : GRand)
    (calls : List BuildStep) :
    (GBayesNet.construct rand).m_sampleNodes = [] ∧
    (buildAll calls (GBayesNet.construct rand)).m_sampleNodes
      = createdVariables calls (GBayesNet.construct rand) ∧
    (buildAll calls (GBayesNet.construct rand)).m_sampleNodes.Nodup ∧
    (∀ (bn : GBayesNet) (val : ℚ), (bn.newConst val).2.m_sampleNodes = bn.m_sampleNodes) ∧
    (∀ (bn : GBayesNet) (c : BuildStep),
      (c.run bn).2.m_sampleNodes
        = bn.m_sampleNodes ++ (if c.isVariableFactory then (c.run bn).1.toList else [])) ∧
    (∀ bn : GBayesNet,
      (sampleAllCalls lm bn.m_sampleNodes bn.m_heap bn.m_rand).2
        = sampleAll lm bn.m_sampleNodes bn.m_heap bn.m_rand ∧
      (sampleAllCalls lm bn.m_sampleNodes bn.m_heap bn.m_rand).1 <+: bn.m_sampleNodes ∧
      ((GBayesNet.sample lm bn).isOk = true →
        (sampleAllCalls lm bn.m_sampleNodes bn.m_heap bn.m_rand).1 = bn.m_sampleNodes)) ∧
    ((GBayesNet.sample lm (buildAll calls (GBayesNet.construct rand))).isOk = true →
      ∀ p ∈ createdVariables calls (GBayesNet.construct rand),
        (sampleAllCalls lm (buildAll calls (GBayesNet.construct rand)).m_sampleNodes
          (buildAll calls (GBayesNet.construct rand)).m_heap
          (buildAll calls (GBayesNet.construct rand)).m_rand).1.count p = 1) := by
  have hreg : (buildAll calls (GBayesNet.construct rand)).m_sampleNodes
      = createdVariables calls (GBayesNet.construct rand) := by
    rw [buildAll_sampleNodes]
    rfl
  have hnd := (buildAll_nodup calls (GBayesNet.construct rand) List.nodup_nil
    (fun p hp => absurd hp (List.not_mem_nil p))).1
  have hsweep : ∀ bn : GBayesNet, (GBayesNet.sample lm bn).isOk = true →
      (sampleAllCalls lm bn.m_sampleNodes bn.m_heap bn.m_rand).1 = bn.m_sampleNodes := by
    intro bn hok
    rw [sample_isOk] at hok
    exact (sampleAllCalls_calls lm _ _ _).2 hok
  refine ⟨rfl, hreg, hnd, fun _ _ => rfl, run_sampleNodes, ?_, ?_⟩
  · intro bn
    exact ⟨sampleAllCalls_outcome lm _ _ _, (sampleAllCalls_calls lm _ _ _).1, hsweep bn⟩
  · intro hok p hp
    rw [hsweep _ hok]
    rw [← hreg] at hp
    exact List.count_eq_one_of_mem hnd hp

/-- Witness of claim C20: the steps of `GBayesNet_simpleTest` register `pPar`
(address 1) and `pChild` (address 4), and the sweep calls `sample` on the two in
this order. -/
theorem sampleNodes_lists_created_variables_witness :
    (buildAll simpleTestSteps (GBayesNet.construct exampleRand)).m_sampleNodes = [1, 4] ∧
    (GBayesNet.sample exampleLibm
      (buildAll simpleTestSteps (GBayesNet.construct exampleRand))).isOk = true ∧
    (sampleAllCalls exampleLibm
      (buildAll simpleTestSteps (GBayesNet.construct exampleRand)).m_sampleNodes
      (buildAll simpleTestSteps (GBayesNet.construct exampleRand)).m_heap
      (buildAll simpleTestSteps (GBayesNet.construct exampleRand)).m_rand).1
      = (buildAll simpleTestSteps (GBayesNet.construct exampleRand)).m_sampleNodes ∧
    ∀ p ∈ createdVariables simpleTestSteps (GBayesNet.construct exampleRand),
      (sampleAllCalls exampleLibm
        (buildAll simpleTestSteps (GBayesNet.construct exampleRand)).m_sampleNodes
        (buildAll simpleTestSteps (GBayesNet.construct exampleRand)).m_heap
        (buildAll simpleTestSteps (GBayesNet.construct exampleRand)).m_rand).1.count p = 1 :=
  have w := sampleNodes_lists_created_variables exampleLibm exampleRand simpleTestSteps
  ⟨w.2.1.trans (by decide!), by decide!, (w.2.2.2.2.2.1 _).2.2 (by decide!),
    w.2.2.2.2.2.2 (by decide!)⟩

/-! ### Claims C24 to C29: the likelihoods of the distributions -/

/-- The method `GPGMUniformDiscrete::likelihood` on the parameters of the
current row. -/
theorem uniformDiscrete_likelihood_eq (h : Heap) (v : NodeId) (lo hi x : ℚ)
    (hp : currentPair h v = .ok (lo, hi)) :
    GPGMUniformDiscrete.likelihood h v x = .ok
      (if x < ((Int.ceil lo : ℤ) : ℚ) ∨ x > ((Int.floor hi : ℤ) : ℚ) then 0
        else 1 / (((Int.floor hi : ℤ) : ℚ) - ((Int.ceil lo : ℤ) : ℚ) + 1)) := by
  unfold GPGMUniformDiscrete.likelihood
  rw [hp]
  show (if x < ((Int.ceil lo : ℤ) : ℚ) then (pure 0 : Res ℚ)
    else if x > ((Int.floor hi : ℤ) : ℚ) then pure 0
    else pure (1 / (((Int.floor hi : ℤ) : ℚ) - ((Int.ceil lo : ℤ) : ℚ) + 1))) = _
  by_cases h1 : x < ((Int.ceil lo : ℤ) : ℚ)
  · rw [if_pos h1, if_pos (Or.inl h1)]
    rfl
  · by_cases h2 : x > ((Int.floor hi : ℤ) : ℚ)
    · rw [if_neg h1, if_pos h2, if_pos (Or.inr h2)]
      rfl
    · rw [if_neg h1, if_neg h2, if_neg (not_or.mpr ⟨h1, h2⟩)]
      rfl

/-- In the heap model, whose values are exact numbers: for a UniformDiscrete
node whose current row holds the
parameters `min` and `max`, `likelihood(x)` is 0 when `x < ceil(min)` or
`x > floor(max)` and `1 / (floor(max) - ceil(min) + 1)` otherwise; when the
division is reached, `ceil(min) ≤ floor(max)` and the divisor is at least 1. -/
theorem uniformDiscrete_likelihood_spec (lm : Libm) (h : Heap) (v : NodeId) (lo hi x : ℚ)
    (hk : (h v).kind = .metropolis .uniformDiscrete)
    (hp : currentPair h v = .ok (lo, hi)) :
    (x < ((Int.ceil lo : ℤ) : ℚ) ∨ x > ((Int.floor hi : ℤ) : ℚ) →
      GPGMVariable.likelihood lm h v x = .ok 0) ∧
    (¬ x < ((Int.ceil lo : ℤ) : ℚ) → ¬ x > ((Int.floor hi : ℤ) : ℚ) →
      GPGMVariable.likelihood lm h v x
        = .ok (1 / (((Int.floor hi : ℤ) : ℚ) - ((Int.ceil lo : ℤ) : ℚ) + 1)) ∧
      Int.ceil lo ≤ Int.floor hi ∧
      (1 : ℚ) ≤ ((Int.floor hi : ℤ) : ℚ) - ((Int.ceil lo : ℤ) : ℚ) + 1) := by
  have e : GPGMVariable.likelihood lm h v x = GPGMUniformDiscrete.likelihood h v x := by
    unfold GPGMVariable.likelihood
    rw [hk]
  rw [e, uniformDiscrete_likelihood_eq h v lo hi x hp]
  refine ⟨fun hout => by rw [if_pos hout], fun h1 h2 => ⟨?_, ?_, ?_⟩⟩
  · rw [if_neg (not_or.mpr ⟨h1, h2⟩)]
  · have h3 : ((Int.ceil lo : ℤ) : ℚ) ≤ ((Int.floor hi : ℤ) : ℚ) :=
      le_trans (not_lt.mp h1) (not_lt.mp h2)
    exact_mod_cast h3
  · have h3 : ((Int.ceil lo : ℤ) : ℚ) ≤ ((Int.floor hi : ℤ) : ℚ) :=
      le_trans (not_lt.mp h1) (not_lt.mp h2)
    linarith

/-- An instance of `uniformDiscrete_likelihood_spec`: the variable of
`discreteNet`, with `min = 1/2` and
`max = 7/2`, at 2 and at 4. -/
theorem uniformDiscrete_likelihood_spec_witness :
    GPGMVariable.likelihood exampleLibm (discreteNet exampleRand).m_heap 1 4 = .ok 0 ∧
    GPGMVariable.likelihood exampleLibm (discreteNet exampleRand).m_heap 1 2
      = .ok (1 / (((Int.floor (7 / 2 : ℚ) : ℤ) : ℚ) - ((Int.ceil (1 / 2 : ℚ) : ℤ) : ℚ) + 1)) ∧
    (1 : ℚ) ≤ ((Int.floor (7 / 2 : ℚ) : ℤ) : ℚ) - ((Int.ceil (1 / 2 : ℚ) : ℤ) : ℚ) + 1 :=
  have w4 := uniformDiscrete_likelihood_spec exampleLibm (discreteNet exampleRand).m_heap 1
    (1 / 2) (7 / 2) 4 (by decide!) (by decide!)
  have w2 := uniformDiscrete_likelihood_spec exampleLibm (discreteNet exampleRand).m_heap 1
    (1 / 2) (7 / 2) 2 (by decide!) (by decide!)
  ⟨w4.1 (by decide!), (w2.2 (by decide!) (by decide!)).1, (w2.2 (by decide!) (by decide!)).2.2⟩
/-- The method `GPGMUniformContinuous::likelihood` on the parameters of the
current row. -/
theorem uniformContinuous_likelihood_eq (h : Heap) (v : NodeId) (a b x : ℚ)
    (hp : currentPair h v = .ok (a, b)) :
    GPGMUniformContinuous.likelihood h v x
      = .ok (if x < a ∨ x > b then 0 else 1 / (b - a)) := by
  unfold GPGMUniformContinuous.likelihood
  rw [hp]
  show (if x < a then (pure 0 : Res ℚ) else if x > b then pure 0 else pure (1 / (b - a))) = _
  by_cases h1 : x < a
  · rw [if_pos h1, if_pos (Or.inl h1)]
    rfl
  · by_cases h2 : x > b
    · rw [if_neg h1, if_pos h2, if_pos (Or.inr h2)]
      rfl
    · rw [if_neg h1, if_neg h2, if_neg (not_or.mpr ⟨h1, h2⟩)]
      rfl

/-- The divisor of `GPGMBeta::likelihood` is kept away from zero. -/
theorem beta_denom_spec (lm : Libm) (alpha beta : ℚ) :
    1 / 10 ^ 15 ≤ |GPGMBeta.denom lm alpha beta| ∧
    GPGMBeta.denom lm alpha beta ≠ 0 ∧
    (lm.gamma alpha * lm.gamma beta < 0 → GPGMBeta.denom lm alpha beta < 0) ∧
    (0 ≤ lm.gamma alpha * lm.gamma beta → 0 < GPGMBeta.denom lm alpha beta) ∧
    (1 / 10 ^ 15 ≤ |lm.gamma alpha * lm.gamma beta| →
      GPGMBeta.denom lm alpha beta = lm.gamma alpha * lm.gamma beta) := by
  have hε : (0 : ℚ) < 1 / 10 ^ 15 := by positivity
  unfold GPGMBeta.denom
  simp only
  by_cases hs : |lm.gamma alpha * lm.gamma beta| < 1 / 10 ^ 15
  · rw [if_pos hs]
    by_cases hn : lm.gamma alpha * lm.gamma beta < 0
    · rw [if_pos hn]
      refine ⟨?_, ?_, fun _ => ?_, fun h0 => ?_, fun h1 => ?_⟩
      · rw [abs_neg, abs_of_pos hε]
      · linarith
      · linarith
      · exact absurd hn (not_lt.mpr h0)
      · exact absurd hs (not_lt.mpr h1)
    · rw [if_neg hn]
      refine ⟨?_, ?_, fun h0 => ?_, fun _ => hε, fun h1 => ?_⟩
      · rw [abs_of_pos hε]
      · linarith
      · exact absurd h0 hn
      · exact absurd hs (not_lt.mpr h1)
  · rw [if_neg hs]
    have hge : 1 / 10 ^ 15 ≤ |lm.gamma alpha * lm.gamma beta| := not_lt.mp hs
    refine ⟨hge, ?_, fun h0 => h0, fun h0 => ?_, fun _ => rfl⟩
    · intro h0
      rw [h0, abs_zero] at hge
      linarith
    · rcases lt_or_eq_of_le h0 with h1 | h1
      · exact h1
      · rw [← h1, abs_zero] at hge
        linarith

/-- Claim C27. For a Beta node, `likelihood(x)` is 0 for every `x < 0` and every
`x > 1`, whatever the parameters; for `x` in `[0, 1]` it is
`gamma(alpha + beta) / denom * pow(x, alpha - 1) * pow(1 - x, beta - 1)` where
the divisor `denom` stands for `gamma(alpha) * gamma(beta)`: its absolute value
is at least `1e-15`, it is negative when the product is negative and positive
otherwise, the product 0 included, it is the product itself when that is not
within `1e-15` of 0, and it is never zero. -/
theorem beta_likelihood_spec (lm : Libm) (h : Heap) (v : NodeId) (x : ℚ)
    (hk : (h v).kind = .metropolis .beta) :
    (x < 0 ∨ x > 1 → GPGMVariable.likelihood lm h v x = .ok 0) ∧
    (∀ alpha beta, currentPair h v = .ok (alpha, beta) → 0 ≤ x → x ≤ 1 →
      GPGMVariable.likelihood lm h v x
        = .ok (lm.gamma (alpha + beta) / GPGMBeta.denom lm alpha beta
            * lm.pow x (alpha - 1) * lm.pow (1 - x) (beta - 1)) ∧
      1 / 10 ^ 15 ≤ |GPGMBeta.denom lm alpha beta| ∧
      GPGMBeta.denom lm alpha beta ≠ 0 ∧
      (lm.gamma alpha * lm.gamma beta < 0 → GPGMBeta.denom lm alpha beta < 0) ∧
      (0 ≤ lm.gamma alpha * lm.gamma beta → 0 < GPGMBeta.denom lm alpha beta) ∧
      (1 / 10 ^ 15 ≤ |lm.gamma alpha * lm.gamma beta| →
        GPGMBeta.denom lm alpha beta = lm.gamma alpha * lm.gamma beta)) := by
  have e : GPGMVariable.likelihood lm h v x = GPGMBeta.likelihood lm h v x := by
    unfold GPGMVariable.likelihood
    rw [hk]
  rw [e]
  refine ⟨fun hout => ?_, fun alpha beta hp h0 h1 => ⟨?_, beta_denom_spec lm alpha beta⟩⟩
  · unfold GPGMBeta.likelihood
    rw [if_pos hout]
    rfl
  · unfold GPGMBeta.likelihood
    rw [if_neg (not_or.mpr ⟨not_lt.mpr h0, not_lt.mpr h1⟩), hp]
    rfl

/-- Witness of claim C27: the variable of `betaNet`, with `alpha = 2` and
`beta = 3`, at 2 and at 1/2. -/
theorem beta_likelihood_spec_witness :
    GPGMVariable.likelihood exampleLibm (betaNet exampleRand).m_heap 1 2 = .ok 0 ∧
    GPGMVariable.likelihood exampleLibm (betaNet exampleRand).m_heap 1 (1 / 2)
      = .ok (exampleLibm.gamma (2 + 3) / GPGMBeta.denom exampleLibm 2 3
          * exampleLibm.pow (1 / 2) (2 - 1) * exampleLibm.pow (1 - 1 / 2) (3 - 1)) ∧
    GPGMBeta.denom exampleLibm 2 3 ≠ 0 :=
  have w2 := beta_likelihood_spec exampleLibm (betaNet exampleRand).m_heap 1 2 (by decide!)
  have w := beta_likelihood_spec exampleLibm (betaNet exampleRand).m_heap 1 (1 / 2)
    (by decide!)
  ⟨w2.1 (by decide!), (w.2 2 3 (by decide!) (by decide!) (by decide!)).1,
    (w.2 2 3 (by decide!) (by decide!) (by decide!)).2.2.1⟩
/-- The method `GPGMGamma::likelihood` on the parameters of the current row. -/
theorem gamma_likelihood_eq (lm : Libm) (scale : Bool) (h : Heap) (v : NodeId)
    (alpha b x : ℚ) (hp : currentPair h v = .ok (alpha, b)) :
    GPGMGamma.likelihood lm scale h v x
      = .ok (if x < 0 then 0 else
          lm.pow (if scale = true then 1 / b else b) alpha * lm.pow x (alpha - 1)
            * lm.exp (-(if scale = true then 1 / b else b) * x) / lm.gamma alpha) := by
  unfold GPGMGamma.likelihood
  by_cases hx : x < 0
  · rw [if_pos hx, if_pos hx]
    rfl
  · rw [if_neg hx, if_neg hx, hp]
    rfl

/-- Claim C28. A Gamma node constructed with the scale flag whose current row
holds `alpha` and `b`, and a Gamma node constructed without the flag whose
current row holds `alpha` and `1 / b`, have the same likelihood at every `x`,
namely `pow(1/b, alpha) * pow(x, alpha - 1) * exp(-(1/b) * x) / gamma(alpha)`
for `x ≥ 0` and 0 for `x < 0`; `newGamma` constructs the node with the flag it
is given. -/
theorem gamma_scale_is_inverse_rate (lm : Libm) (h1 h2 : Heap) (v1 v2 : NodeId)
    (alpha b x : ℚ) (_hb : b ≠ 0)
    (hk1 : (h1 v1).kind = .metropolis (.gamma true))
    (hk2 : (h2 v2).kind = .metropolis (.gamma false))
    (hp1 : currentPair h1 v1 = .ok (alpha, b))
    (hp2 : currentPair h2 v2 = .ok (alpha, 1 / b)) :
    GPGMVariable.likelihood lm h1 v1 x = GPGMVariable.likelihood lm h2 v2 x ∧
    (x < 0 → GPGMVariable.likelihood lm h1 v1 x = .ok 0 ∧
      GPGMVariable.likelihood lm h2 v2 x = .ok 0) ∧
    (¬ x < 0 → GPGMVariable.likelihood lm h1 v1 x
      = .ok (lm.pow (1 / b) alpha * lm.pow x (alpha - 1) * lm.exp (-(1 / b) * x)
          / lm.gamma alpha)) ∧
    (∀ (bn : GBayesNet) (priorMean priorDev : ℚ) (scale : Bool),
      ((bn.newGamma priorMean priorDev scale).2.m_heap
        (bn.newGamma priorMean priorDev scale).1).kind = .metropolis (.gamma scale)) := by
  have e1 : GPGMVariable.likelihood lm h1 v1 x = GPGMGamma.likelihood lm true h1 v1 x := by
    unfold GPGMVariable.likelihood
    rw [hk1]
  have e2 : GPGMVariable.likelihood lm h2 v2 x = GPGMGamma.likelihood lm false h2 v2 x := by
    unfold GPGMVariable.likelihood
    rw [hk2]
  rw [e1, e2, gamma_likelihood_eq lm true h1 v1 alpha b x hp1,
    gamma_likelihood_eq lm false h2 v2 alpha (1 / b) x hp2]
  simp only [if_true, Bool.false_eq_true, if_false]
  refine ⟨trivial, fun hx => ?_, fun hx => ?_, ?_⟩
  · rw [if_pos hx]
    exact ⟨rfl, rfl⟩
  · rw [if_neg hx]
  · intro bn priorMean priorDev scale
    unfold GBayesNet.newGamma GBayesNet.newVariable GBayesNet.place
    simp only
    rw [heap_put_same]
    rfl

/-- Witness of claim C28: the variables of `gammaScaleNet` (flag set, `alpha = 2`,
second parameter 4) and of `gammaRateNet` (flag not set, `alpha = 2`, second
parameter 1/4) at 1/2. -/
theorem gamma_scale_is_inverse_rate_witness :
    GPGMVariable.likelihood exampleLibm (gammaScaleNet exampleRand).m_heap 1 (1 / 2)
      = GPGMVariable.likelihood exampleLibm (gammaRateNet exampleRand).m_heap 1 (1 / 2) ∧
    GPGMVariable.likelihood exampleLibm (gammaScaleNet exampleRand).m_heap 1 (1 / 2)
      = .ok (exampleLibm.pow (1 / 4) 2 * exampleLibm.pow (1 / 2) (2 - 1)
          * exampleLibm.exp (-(1 / 4) * (1 / 2)) / exampleLibm.gamma 2) :=
  have w := gamma_scale_is_inverse_rate exampleLibm (gammaScaleNet exampleRand).m_heap
    (gammaRateNet exampleRand).m_heap 1 1 2 4 (1 / 2) (by decide!) (by decide!) (by decide!)
    (by decide!) (by decide!)
  ⟨w.1, w.2.2.1 (by decide!)⟩
/-- The constant `SQRT_2PI` of the source agrees with the square root of `2π`
to eleven decimal places. -/
theorem SQRT_2PI_close :
    |((SQRT_2PI : ℚ) : ℝ) - Real.sqrt (2 * Real.pi)| < 2 / 10 ^ 12 := by
  have hS : ((SQRT_2PI : ℚ) : ℝ) = 250662827463 / 100000000000 := by
    unfold SQRT_2PI
    push_cast
    rfl
  have h1 := Real.pi_gt_d20
  have h2 := Real.pi_lt_d20
  rw [hS, abs_sub_lt_iff]
  constructor
  · have h3 : (250662827463 / 100000000000 - 2 / 10 ^ 12 : ℝ) < Real.sqrt (2 * Real.pi) := by
      rw [Real.lt_sqrt (by norm_num)]
      norm_num at h1 ⊢
      linarith
    linarith
  · have h3 : Real.sqrt (2 * Real.pi) < (250662827463 / 100000000000 + 2 / 10 ^ 12 : ℝ) := by
      rw [Real.sqrt_lt' (by norm_num)]
      norm_num at h2 ⊢
      linarith
    linarith

/-- Claim C29, as amended. For a Normal node whose current row, selected by
`currentCatIndex()`, holds `mean` and `dev > 0`, `likelihood(x)` is
`1 / (dev * SQRT_2PI) * exp(-(x - mean)^2 / (2 * dev^2))` with a positive
divisor: the Gaussian density, with the library's `exp` and with the constant
`SQRT_2PI = 2.50662827463` of the source for the square root of `2π`, from which
it differs by less than `2e-12`. -/
theorem normal_likelihood_spec (lm : Libm) (h : Heap) (v : NodeId) (mean dev x : ℚ)
    (hk : (h v).kind = .metropolis .normal)
    (hp : currentPair h v = .ok (mean, dev)) (hdev : 0 < dev) :
    GPGMVariable.likelihood lm h v x
      = .ok (1 / (dev * SQRT_2PI) * lm.exp (-(x - mean) ^ 2 / (2 * dev ^ 2))) ∧
    0 < dev * SQRT_2PI ∧
    |((SQRT_2PI : ℚ) : ℝ) - Real.sqrt (2 * Real.pi)| < 2 / 10 ^ 12 := by
  refine ⟨?_, mul_pos hdev (by unfold SQRT_2PI; norm_num), SQRT_2PI_close⟩
  unfold GPGMVariable.likelihood
  rw [hk]
  unfold GPGMNormal.likelihood
  rw [hp]
  show Res.ok (1 / (dev * SQRT_2PI) * lm.exp (-((x - mean) * (x - mean)) / (2 * dev * dev))) = _
  have e : -((x - mean) * (x - mean)) / (2 * dev * dev) = -(x - mean) ^ 2 / (2 * dev ^ 2) := by
    ring
  rw [e]

/-- Witness of claim C29, as amended: `pChild` of `GBayesNet_simpleTest` at 2; its parent
has the value 0, which selects `mean = 0` and `dev = 1`. -/
theorem normal_likelihood_spec_witness :
    GPGMVariable.likelihood exampleLibm (simpleTest exampleRand).m_heap 4 2
      = .ok (1 / (1 * SQRT_2PI) * exampleLibm.exp (-(2 - 0) ^ 2 / (2 * 1 ^ 2))) ∧
    0 < 1 * SQRT_2PI :=
  have w := normal_likelihood_spec exampleLibm (simpleTest exampleRand).m_heap 4 0 1 2
    (by decide!) (by decide!) (by decide!)
  ⟨w.1, w.2.1⟩

/-! ### Claim C30: the sizes of the tables -/

theorem sameSizing_refl (h : Heap) : SameSizing h h := fun _ => ⟨rfl, rfl, rfl, rfl, rfl⟩

theorem sameSizing_trans {h h1 h2 : Heap} (a : SameSizing h h1) (b : SameSizing h1 h2) :
    SameSizing h h2 := by
  intro q
  obtain ⟨a1, a2, a3, a4, a5⟩ := a q
  obtain ⟨b1, b2, b3, b4, b5⟩ := b q
  exact ⟨b1.trans a1, b2.trans a2, b3.trans a3, b4.trans a4, b5.trans a5⟩

theorem foldl_sizeMul_congr (f g : NodeId → Nat) :
    ∀ (ps : List NodeId) (init : Nat), (∀ p ∈ ps, f p = g p) →
      ps.foldl (fun cats p => sizeMul cats (f p)) init
        = ps.foldl (fun cats p => sizeMul cats (g p)) init := by
  intro ps
  induction ps with
  | nil => intro init _; rfl
  | cons p rest ih =>
    intro init hfg
    simp only [List.foldl_cons]
    rw [hfg p (List.mem_cons_self _ _)]
    exact ih _ (fun q hq => hfg q (List.mem_cons_of_mem _ hq))

/-- The value of `catCount()` depends on the list of the categorical parents
and on their numbers of categories only. -/
theorem catCount_congr (h h1 : Heap) (v : NodeId)
    (hp : (h1 v).m_catParents = (h v).m_catParents)
    (hc : ∀ p ∈ (h v).m_catParents, (h1 p).m_categories = (h p).m_categories) :
    GPGMVariable.catCount h1 v = GPGMVariable.catCount h v := by
  unfold GPGMVariable.catCount GPGMCategorical.categories
  rw [hp]
  exact foldl_sizeMul_congr _ _ _ _ hc

theorem tablesSized_of_sameSizing {h h1 : Heap} (s : SameSizing h h1) (t : TablesSized h) :
    TablesSized h1 := by
  intro v
  obtain ⟨s1, s2, s3, s4, s5⟩ := s v
  have hc : GPGMVariable.catCount h1 v = GPGMVariable.catCount h v :=
    catCount_congr h h1 v s3 (fun p _ => (s p).2.1)
  refine ⟨fun hk => ?_, fun fam hk => ?_⟩
  · rw [s4, s2, hc]
    exact (t v).1 (s1 ▸ hk)
  · rw [s5, hc]
    exact (t v).2 fam (s1 ▸ hk)

theorem sameSizing_of_wrote {v : NodeId} {h h1 : Heap} {writes : List (Nat × NodeId)}
    (w : Wrote v h h1 writes) : SameSizing h h1 := by
  intro q
  have hs := w.1 q
  have hk : (h1 q).kind = (h q).kind := by
    have e1 := congrArg GPGMNode.kind hs
    exact e1
  refine ⟨hk, shell_categories hs, shell_catParents hs, ?_, by rw [w.2.1 q]⟩
  by_cases hq : q = v
  · rw [hq]
    exact wrote_length w
  · rw [w.2.2.2.2.1 q hq]

theorem setWeights_sameSizing (h : Heap) (v : NodeId) (cat : Nat) (pW1 pW2 : NodeId)
    (pW3 pW4 pW5 pW6 pW7 pW8 : Option NodeId) (h1 : Heap)
    (hs : (GPGMCategorical.setWeights h v cat pW1 pW2 pW3 pW4 pW5 pW6 pW7 pW8).state?
      = some h1) : SameSizing h h1 := by
  by_cases hcat : cat < GPGMVariable.catCount h v
  · rw [setWeights_eq_writeAll h v cat pW1 pW2 pW3 pW4 pW5 pW6 pW7 pW8 hcat] at hs
    cases hw : writeAll v (rowWrites (sizeMul cat (h v).m_categories) 0
        (pW1 :: pW2 :: leadingNodes [pW3, pW4, pW5, pW6, pW7, pW8])) h with
    | none =>
      rw [hw] at hs
      simp [Outcome.state?] at hs
    | some h2 =>
      rw [hw] at hs
      have e : h2 = h1 := by
        simp only at hs
        split at hs <;> simpa [Outcome.state?] using hs
      rw [← e]
      exact sameSizing_of_wrote (writeAll_wrote v _ h h2 hw)
  · unfold GPGMCategorical.setWeights at hs
    rw [if_pos (by omega)] at hs
    simp only [Outcome.state?, Option.some.injEq] at hs
    rw [← hs]
    exact sameSizing_refl h

theorem assignParam_sameSizing (h : Heap) (v : NodeId) (i : Nat) (p : NodeId) (h1 : Heap)
    (e : assignParam h v i p = some h1) : SameSizing h h1 := by
  unfold assignParam vecSet at e
  by_cases hi : i < (h v).m_params.length
  · simp only [hi, if_true, Option.some.injEq] at e
    subst e
    intro q
    by_cases hqv : q = v
    · subst hqv
      by_cases hqp : q = p
      · subst hqp
        simp [GPGMVariable.onNewChild, Heap.put]
      · have hpq : ¬ p = q := fun e => hqp e.symm
        simp [GPGMVariable.onNewChild, Heap.put, hqp, hpq]
    · by_cases hqp : q = p
      · subst hqp
        simp [GPGMVariable.onNewChild, Heap.put, hqv]
      · simp [GPGMVariable.onNewChild, Heap.put, hqv, hqp]
  · simp [hi] at e

theorem setParamPair_sameSizing (h : Heap) (v : NodeId) (cat : Nat) (p1 p2 : NodeId)
    (h1 : Heap) (hs : (setParamPair h v cat p1 p2).state? = some h1) : SameSizing h h1 := by
  unfold setParamPair at hs
  by_cases hcat : cat ≥ GPGMVariable.catCount h v
  · rw [if_pos hcat] at hs
    simp only [Outcome.state?, Option.some.injEq] at hs
    rw [← hs]
    exact sameSizing_refl h
  · rw [if_neg hcat] at hs
    simp only at hs
    cases ha : assignParam h v (sizeMul 2 cat) p1 with
    | none =>
      rw [ha] at hs
      simp [Outcome.state?] at hs
    | some h2 =>
      rw [ha] at hs
      simp only at hs
      cases hb : assignParam h2 v (sizeAdd (sizeMul 2 cat) 1) p2 with
      | none =>
        rw [hb] at hs
        simp [Outcome.state?] at hs
      | some h3 =>
        rw [hb] at hs
        simp only [Outcome.state?, Option.some.injEq] at hs
        rw [← hs]
        exact sameSizing_trans (assignParam_sameSizing h v _ p1 h2 ha)
          (assignParam_sameSizing h2 v _ p2 h3 hb)

theorem setParamSingle_sameSizing (h : Heap) (v : NodeId) (cat : Nat) (p : NodeId)
    (h1 : Heap) (hs : (setParamSingle h v cat p).state? = some h1) : SameSizing h h1 := by
  unfold setParamSingle at hs
  by_cases hcat : cat ≥ GPGMVariable.catCount h v
  · rw [if_pos hcat] at hs
    simp only [Outcome.state?, Option.some.injEq] at hs
    rw [← hs]
    exact sameSizing_refl h
  · rw [if_neg hcat] at hs
    simp only at hs
    cases ha : assignParam h v (sizeMul 1 cat) p with
    | none =>
      rw [ha] at hs
      simp [Outcome.state?] at hs
    | some h2 =>
      rw [ha] at hs
      simp only [Outcome.state?, Option.some.injEq] at hs
      rw [← hs]
      exact assignParam_sameSizing h v _ p h2 ha

theorem setObserved_sameSizing (h : Heap) (v : NodeId) (x : ℚ) :
    SameSizing h (GPGMNode.setObserved h v x) := by
  intro q
  unfold GPGMNode.setObserved
  by_cases hq : q = v
  · subst hq
    rw [heap_put_same]
    exact ⟨rfl, rfl, rfl, rfl, rfl⟩
  · rw [heap_put_other _ _ _ _ hq]
    exact ⟨rfl, rfl, rfl, rfl, rfl⟩
/-- What `GPGMCategorical.addCatParent` leaves of the node at `q`. -/
theorem catAddCatParent_frame (h : Heap) (v p d q : NodeId) :
    (GPGMCategorical.addCatParent h v p d q).kind = (h q).kind ∧
    (GPGMCategorical.addCatParent h v p d q).m_categories = (h q).m_categories ∧
    (GPGMCategorical.addCatParent h v p d q).m_params = (h q).m_params ∧
    (GPGMCategorical.addCatParent h v p d q).m_catParents
      = (if q = v then (h q).m_catParents ++ [p] else (h q).m_catParents) ∧
    (GPGMCategorical.addCatParent h v p d q).m_children
      = (if q = p then (h q).m_children ++ [v] else (h q).m_children) ∧
    (q ≠ v → (GPGMCategorical.addCatParent h v p d q).m_weights = (h q).m_weights) := by
  unfold GPGMCategorical.addCatParent
  simp only
  generalize sizeMul _ _ = n
  by_cases hqv : q = v
  · subst hqv
    by_cases hqp : q = p
    · subst hqp
      simp [GPGMVariable.onNewChild, Heap.put]
    · have hpq : ¬ p = q := fun e => hqp e.symm
      simp [GPGMVariable.onNewChild, Heap.put, hqp, hpq]
  · by_cases hqp : q = p
    · subst hqp
      simp [GPGMVariable.onNewChild, Heap.put, hqv]
    · simp [GPGMVariable.onNewChild, Heap.put, hqv, hqp]

/-- The value of `catCount()` after `GPGMCategorical.addCatParent`: the old one times the number of
categories of the new parent. -/
theorem catAddCatParent_catCount (h : Heap) (v p d : NodeId) :
    GPGMVariable.catCount (GPGMCategorical.addCatParent h v p d) v
      = sizeMul (GPGMVariable.catCount h v) (h p).m_categories := by
  unfold GPGMVariable.catCount GPGMCategorical.categories
  rw [(catAddCatParent_frame h v p d v).2.2.2.1, if_pos rfl]
  rw [foldl_sizeMul_congr (fun q => (GPGMCategorical.addCatParent h v p d q).m_categories)
    (fun q => (h q).m_categories) _ _ (fun q _ => (catAddCatParent_frame h v p d q).2.1)]
  rw [List.foldl_append]
  rfl

/-- The table that `GPGMCategorical.addCatParent` resizes. -/
theorem catAddCatParent_table (h : Heap) (v p d : NodeId) :
    (GPGMCategorical.addCatParent h v p d v).m_weights = vecResize (h v).m_weights
      (sizeMul (h v).m_categories (GPGMVariable.catCount (GPGMCategorical.addCatParent h v p d) v)) d := by
  have hc : GPGMVariable.catCount
      (GPGMVariable.onNewChild (h.put v { h v with m_catParents := (h v).m_catParents ++ [p] })
        p v) v = GPGMVariable.catCount (GPGMCategorical.addCatParent h v p d) v := by
    apply catCount_congr
    · rw [(catAddCatParent_frame h v p d v).2.2.2.1, if_pos rfl]
      by_cases hvp : v = p
      · subst hvp
        simp [GPGMVariable.onNewChild, Heap.put]
      · simp [GPGMVariable.onNewChild, Heap.put, hvp]
    · intro q _
      rw [(catAddCatParent_frame h v p d q).2.1]
      by_cases hqv : q = v
      · subst hqv
        by_cases hqp : q = p
        · subst hqp
          simp [GPGMVariable.onNewChild, Heap.put]
        · have hpq : ¬ p = q := fun e => hqp e.symm
          simp [GPGMVariable.onNewChild, Heap.put, hqp, hpq]
      · by_cases hqp : q = p
        · subst hqp
          simp [GPGMVariable.onNewChild, Heap.put, hqv]
        · simp [GPGMVariable.onNewChild, Heap.put, hqv, hqp]
  rw [← hc]
  unfold GPGMCategorical.addCatParent
  simp only
  rw [heap_put_same]
  by_cases hvp : v = p
  · subst hvp
    simp [GPGMVariable.onNewChild, Heap.put]
  · simp [GPGMVariable.onNewChild, Heap.put, hvp]

/-- What `addCatParentParams` leaves of the node at `q`. -/
theorem paramsAddCatParent_frame (slots : Nat) (h : Heap) (v p d q : NodeId) :
    (addCatParentParams slots h v p d q).kind = (h q).kind ∧
    (addCatParentParams slots h v p d q).m_categories = (h q).m_categories ∧
    (addCatParentParams slots h v p d q).m_weights = (h q).m_weights ∧
    (addCatParentParams slots h v p d q).m_catParents
      = (if q = v then (h q).m_catParents ++ [p] else (h q).m_catParents) ∧
    (addCatParentParams slots h v p d q).m_children
      = (if q = p then (h q).m_children ++ [v] else (h q).m_children) ∧
    (q ≠ v → (addCatParentParams slots h v p d q).m_params = (h q).m_params) := by
  unfold addCatParentParams
  simp only
  generalize sizeMul _ _ = n
  by_cases hqv : q = v
  · subst hqv
    by_cases hqp : q = p
    · subst hqp
      simp [GPGMVariable.onNewChild, Heap.put]
    · have hpq : ¬ p = q := fun e => hqp e.symm
      simp [GPGMVariable.onNewChild, Heap.put, hqp, hpq]
  · by_cases hqp : q = p
    · subst hqp
      simp [GPGMVariable.onNewChild, Heap.put, hqv]
    · simp [GPGMVariable.onNewChild, Heap.put, hqv, hqp]

/-- The value of `catCount()` after `addCatParentParams`: the old one times the number of
categories of the new parent. -/
theorem paramsAddCatParent_catCount (slots : Nat) (h : Heap) (v p d : NodeId) :
    GPGMVariable.catCount (addCatParentParams slots h v p d) v
      = sizeMul (GPGMVariable.catCount h v) (h p).m_categories := by
  unfold GPGMVariable.catCount GPGMCategorical.categories
  rw [(paramsAddCatParent_frame slots h v p d v).2.2.2.1, if_pos rfl]
  rw [foldl_sizeMul_congr (fun q => (addCatParentParams slots h v p d q).m_categories)
    (fun q => (h q).m_categories) _ _ (fun q _ => (paramsAddCatParent_frame slots h v p d q).2.1)]
  rw [List.foldl_append]
  rfl

/-- The table that `addCatParentParams` resizes. -/
theorem paramsAddCatParent_table (slots : Nat) (h : Heap) (v p d : NodeId) :
    (addCatParentParams slots h v p d v).m_params = vecResize (h v).m_params
      (sizeMul slots (GPGMVariable.catCount (addCatParentParams slots h v p d) v)) d := by
  have hc : GPGMVariable.catCount
      (GPGMVariable.onNewChild (h.put v { h v with m_catParents := (h v).m_catParents ++ [p] })
        p v) v = GPGMVariable.catCount (addCatParentParams slots h v p d) v := by
    apply catCount_congr
    · rw [(paramsAddCatParent_frame slots h v p d v).2.2.2.1, if_pos rfl]
      by_cases hvp : v = p
      · subst hvp
        simp [GPGMVariable.onNewChild, Heap.put]
      · simp [GPGMVariable.onNewChild, Heap.put, hvp]
    · intro q _
      rw [(paramsAddCatParent_frame slots h v p d q).2.1]
      by_cases hqv : q = v
      · subst hqv
        by_cases hqp : q = p
        · subst hqp
          simp [GPGMVariable.onNewChild, Heap.put]
        · have hpq : ¬ p = q := fun e => hqp e.symm
          simp [GPGMVariable.onNewChild, Heap.put, hqp, hpq]
      · by_cases hqp : q = p
        · subst hqp
          simp [GPGMVariable.onNewChild, Heap.put, hqv]
        · simp [GPGMVariable.onNewChild, Heap.put, hqv, hqp]
  rw [← hc]
  unfold addCatParentParams
  simp only
  rw [heap_put_same]
  by_cases hvp : v = p
  · subst hvp
    simp [GPGMVariable.onNewChild, Heap.put]
  · simp [GPGMVariable.onNewChild, Heap.put, hvp]
theorem vecResize_length {α : Type} (l : List α) (n : Nat) (d : α) :
    (vecResize l n d).length = n := by
  unfold vecResize
  rw [List.length_append, List.length_take, List.length_replicate]
  omega

/-- The entries of a resized vector: those below both sizes are kept, those
from the old size on are the default. -/
theorem vecResize_getElem? {α : Type} (l : List α) (n : Nat) (d : α) (i : Nat) (hi : i < n) :
    (i < l.length → (vecResize l n d)[i]? = l[i]?) ∧
    (l.length ≤ i → (vecResize l n d)[i]? = some d) := by
  unfold vecResize
  constructor
  · intro hl
    rw [List.getElem?_append_left (by rw [List.length_take]; omega)]
    rw [List.getElem?_take_of_lt hi]
  · intro hl
    rw [List.getElem?_append_right (by rw [List.length_take]; omega)]
    rw [List.length_take, Nat.min_eq_right (by omega)]
    rw [List.getElem?_replicate]
    rw [if_pos (by omega)]

/-- The sizes of the tables after `addCatParent` on a node of any class. -/
theorem addCatParent_tablesSized (h : Heap) (v p d : NodeId) (h1 : Heap)
    (hs : (GPGMVariable.addCatParent h v p d).state? = some h1) (t : TablesSized h) :
    TablesSized h1 ∧
    (∀ q, (h1 q).m_catParents = (if q = v then (h q).m_catParents ++ [p]
      else (h q).m_catParents)) := by
  unfold GPGMVariable.addCatParent at hs
  cases hk : (h v).kind with
  | constant =>
    rw [hk] at hs
    simp [Outcome.state?] at hs
  | categorical =>
    rw [hk] at hs
    simp only [Outcome.state?, Option.some.injEq] at hs
    subst hs
    refine ⟨fun q => ?_, fun q => (catAddCatParent_frame h v p d q).2.2.2.1⟩
    have hf := catAddCatParent_frame h v p d q
    by_cases hq : q = v
    · subst hq
      refine ⟨fun _ => ?_, fun fam hfam => ?_⟩
      · rw [catAddCatParent_table, vecResize_length, hf.2.1]
      · rw [hf.1, hk] at hfam
        exact absurd hfam (by simp)
    · have hc : GPGMVariable.catCount (GPGMCategorical.addCatParent h v p d) q
          = GPGMVariable.catCount h q :=
        catCount_congr _ _ q (by rw [hf.2.2.2.1, if_neg hq])
          (fun r _ => (catAddCatParent_frame h v p d r).2.1)
      refine ⟨fun hkq => ?_, fun fam hfam => ?_⟩
      · rw [hf.2.2.2.2.2 hq, hf.2.1, hc]
        exact (t q).1 (hf.1 ▸ hkq)
      · rw [hf.2.2.1, hc]
        exact (t q).2 fam (hf.1 ▸ hfam)
  | metropolis fam0 =>
    rw [hk] at hs
    simp only [Outcome.state?, Option.some.injEq] at hs
    subst hs
    refine ⟨fun q => ?_, fun q => (paramsAddCatParent_frame fam0.slots h v p d q).2.2.2.1⟩
    have hf := paramsAddCatParent_frame fam0.slots h v p d q
    by_cases hq : q = v
    · subst hq
      refine ⟨fun hkq => ?_, fun fam hfam => ?_⟩
      · rw [hf.1, hk] at hkq
        exact absurd hkq (by simp)
      · rw [hf.1, hk] at hfam
        have e : fam0 = fam := by simpa using hfam
        rw [paramsAddCatParent_table, vecResize_length, e]
    · have hc : GPGMVariable.catCount (addCatParentParams fam0.slots h v p d) q
          = GPGMVariable.catCount h q :=
        catCount_congr _ _ q (by rw [hf.2.2.2.1, if_neg hq])
          (fun r _ => (paramsAddCatParent_frame fam0.slots h v p d r).2.1)
      refine ⟨fun hkq => ?_, fun fam hfam => ?_⟩
      · rw [hf.2.2.1, hf.2.1, hc]
        exact (t q).1 (hf.1 ▸ hkq)
      · rw [hf.2.2.2.2.2 hq, hc]
        exact (t q).2 fam (hf.1 ▸ hfam)

/-- The invariant of a network under construction: the tables have their
sizes, and the categorical parents of every node are allocated nodes. -/
theorem place_tablesSized (bn : GBayesNet) (n : GPGMNode)
    (hn : n.m_catParents = [])
    (hw : n.kind = .categorical → n.m_weights.length = n.m_categories ∧ n.m_categories < SIZE_MOD)
    (hp : ∀ fam, n.kind = .metropolis fam → n.m_params.length = fam.slots)
    (t : TablesSized bn.m_heap)
    (wf : ∀ v, ∀ p ∈ (bn.m_heap v).m_catParents, p < bn.allocated) :
    TablesSized (bn.place n).2.m_heap ∧
    (∀ v, ∀ p ∈ ((bn.place n).2.m_heap v).m_catParents, p < (bn.place n).2.allocated) := by
  have hone : ∀ k, k < SIZE_MOD → sizeMul k 1 = k := by
    intro k hk
    unfold sizeMul
    rw [Nat.mul_one, Nat.mod_eq_of_lt hk]
  have hheap : (bn.place n).2.m_heap = bn.m_heap.put bn.allocated n := rfl
  have halloc : (bn.place n).2.allocated = bn.allocated + 1 := rfl
  rw [hheap, halloc]
  constructor
  · intro v
    by_cases hv : v = bn.allocated
    · subst hv
      have hc : GPGMVariable.catCount (bn.m_heap.put bn.allocated n) bn.allocated = 1 := by
        unfold GPGMVariable.catCount
        rw [heap_put_same, hn]
        rfl
      rw [heap_put_same, hc]
      refine ⟨fun hk => ?_, fun fam hk => ?_⟩
      · rw [(hw hk).1, hone _ (hw hk).2]
      · rw [hp fam hk, hone]
        unfold SIZE_MOD
        cases fam <;> simp [Family.slots]
    · have hc : GPGMVariable.catCount (bn.m_heap.put bn.allocated n) v
          = GPGMVariable.catCount bn.m_heap v := by
        apply catCount_congr
        · rw [heap_put_other _ _ _ _ hv]
        · intro p hp1
          have hlt := wf v p hp1
          rw [heap_put_other _ _ _ _ (Nat.ne_of_lt hlt)]
      rw [heap_put_other _ _ _ _ hv, hc]
      exact t v
  · intro v p hp1
    by_cases hv : v = bn.allocated
    · subst hv
      rw [heap_put_same, hn] at hp1
      simp at hp1
    · rw [heap_put_other _ _ _ _ hv] at hp1
      exact Nat.lt_succ_of_lt (wf v p hp1)
theorem stateD_eq {σ α : Type} (d : σ) (o : Outcome σ α) :
    (o.state? = none ∧ o.stateD d = d) ∨ (∃ s, o.state? = some s ∧ o.stateD d = s) := by
  cases o with
  | ok a s => exact Or.inr ⟨s, rfl, rfl⟩
  | thrown s => exact Or.inr ⟨s, rfl, rfl⟩
  | undefined => exact Or.inl ⟨rfl, rfl⟩

/-- A call of a method of a node other than `addCatParent` leaves the classes,
the parents and the lengths of the tables as they are. -/
theorem nodeCall_state (c : NodeCall) (h h1 : Heap) (hs : (c.run h).state? = some h1) :
    SameSizing h h1 ∨
    (∃ v p d, c = .addCatParent v p d ∧
      (GPGMVariable.addCatParent h v p d).state? = some h1) := by
  cases c with
  | addCatParent v p d => exact Or.inr ⟨v, p, d, rfl, hs⟩
  | setWeights v cat pW1 pW2 pW3 pW4 pW5 pW6 pW7 pW8 =>
    left
    simp only [NodeCall.run] at hs
    cases hk : (h v).kind with
    | categorical =>
      rw [hk] at hs
      exact setWeights_sameSizing h v cat pW1 pW2 pW3 pW4 pW5 pW6 pW7 pW8 h1 hs
    | constant =>
      rw [hk] at hs
      simp [Outcome.state?] at hs
    | metropolis fam =>
      rw [hk] at hs
      simp [Outcome.state?] at hs
  | setPair v cat p1 p2 =>
    left
    simp only [NodeCall.run] at hs
    cases hk : (h v).kind with
    | metropolis fam =>
      rw [hk] at hs
      simp only at hs
      by_cases h2 : fam.slots = 2
      · rw [if_pos h2] at hs
        exact setParamPair_sameSizing h v cat p1 p2 h1 hs
      · rw [if_neg h2] at hs
        simp [Outcome.state?] at hs
    | constant =>
      rw [hk] at hs
      simp [Outcome.state?] at hs
    | categorical =>
      rw [hk] at hs
      simp [Outcome.state?] at hs
  | setSingle v cat p =>
    left
    simp only [NodeCall.run] at hs
    cases hk : (h v).kind with
    | metropolis fam =>
      rw [hk] at hs
      simp only at hs
      by_cases h2 : fam.slots = 1
      · rw [if_pos h2] at hs
        exact setParamSingle_sameSizing h v cat p h1 hs
      · rw [if_neg h2] at hs
        simp [Outcome.state?] at hs
    | constant =>
      rw [hk] at hs
      simp [Outcome.state?] at hs
    | categorical =>
      rw [hk] at hs
      simp [Outcome.state?] at hs
  | setObserved v x =>
    left
    simp only [NodeCall.run, Outcome.state?, Option.some.injEq] at hs
    rw [← hs]
    exact setObserved_sameSizing h v x

theorem newVariable_tablesSized (bn : GBayesNet) (fam : Family) (m d : ℚ)
    (t : TablesSized bn.m_heap)
    (wf : ∀ v, ∀ p ∈ (bn.m_heap v).m_catParents, p < bn.allocated) :
    TablesSized (bn.newVariable fam m d).2.m_heap ∧
    (∀ v, ∀ p ∈ ((bn.newVariable fam m d).2.m_heap v).m_catParents,
      p < (bn.newVariable fam m d).2.allocated) :=
  place_tablesSized bn (fam.construct m d bn.m_pConstOne) rfl
    (fun hk => by simp [Family.construct, GPGMMetropolisNode.construct,
      GPGMNode.construct] at hk)
    (fun fam1 hk => by
      have e : fam = fam1 := by
        simpa [Family.construct, GPGMMetropolisNode.construct, GPGMNode.construct] using hk
      rw [← e]
      simp [Family.construct, vecResize_length])
    t wf

/-- One step keeps the invariant. -/
theorem run_tablesSized (bn : GBayesNet) (c : BuildStep) (hc : c.IsGraphStep bn)
    (t : TablesSized bn.m_heap)
    (wf : ∀ v, ∀ p ∈ (bn.m_heap v).m_catParents, p < bn.allocated) :
    TablesSized (c.run bn).2.m_heap ∧
    (∀ v, ∀ p ∈ ((c.run bn).2.m_heap v).m_catParents, p < (c.run bn).2.allocated) := by
  cases c with
  | newConst val =>
    exact place_tablesSized bn (GPGMConstant.construct val) rfl
      (fun hk => by simp [GPGMConstant.construct, GPGMNode.construct] at hk)
      (fun fam hk => by simp [GPGMConstant.construct, GPGMNode.construct] at hk) t wf
  | newCat categories =>
    have hsz : categories < SIZE_MOD := hc
    cases hcon : GPGMCategorical.construct categories bn.m_pConstOne with
    | ok n =>
      have hrun : (BuildStep.run bn (.newCat categories)).2.m_heap = (bn.place n).2.m_heap ∧
          (BuildStep.run bn (.newCat categories)).2.allocated = (bn.place n).2.allocated := by
        simp [BuildStep.run, GBayesNet.newCat, hcon]
      rw [hrun.1, hrun.2]
      unfold GPGMCategorical.construct at hcon
      by_cases h2 : categories < 2
      · rw [if_pos h2] at hcon
        simp at hcon
      · rw [if_neg h2] at hcon
        simp only [Res.ok.injEq] at hcon
        subst hcon
        exact place_tablesSized bn _ rfl
          (fun _ => ⟨by simp [vecResize_length], hsz⟩)
          (fun fam hk => by simp [GPGMNode.construct] at hk) t wf
    | thrown =>
      have hrun : (BuildStep.run bn (.newCat categories)).2.m_heap = bn.m_heap ∧
          (BuildStep.run bn (.newCat categories)).2.allocated = bn.allocated + 1 := by
        simp [BuildStep.run, GBayesNet.newCat, hcon]
      rw [hrun.1, hrun.2]
      exact ⟨t, fun v p hp => Nat.lt_succ_of_lt (wf v p hp)⟩
    | undefined =>
      have hrun : (BuildStep.run bn (.newCat categories)).2 = bn := by
        simp [BuildStep.run, GBayesNet.newCat, hcon]
      rw [hrun]
      exact ⟨t, wf⟩
  | newNormal m d => exact newVariable_tablesSized bn _ m d t wf
  | newLogNormal m d => exact newVariable_tablesSized bn _ m d t wf
  | newPareto m d => exact newVariable_tablesSized bn _ m d t wf
  | newUniformDiscrete m d => exact newVariable_tablesSized bn _ m d t wf
  | newUniformContinuous m d => exact newVariable_tablesSized bn _ m d t wf
  | newPoisson m d => exact newVariable_tablesSized bn _ m d t wf
  | newExponential m d => exact newVariable_tablesSized bn _ m d t wf
  | newBeta m d => exact newVariable_tablesSized bn _ m d t wf
  | newGamma m d scale => exact newVariable_tablesSized bn _ m d t wf
  | onNode f =>
    obtain ⟨c, hv, hf⟩ := hc
    subst hf
    have hheap : (BuildStep.run bn (.onNode c.run)).2.m_heap
        = (c.run bn.m_heap).stateD bn.m_heap := rfl
    have halloc : (BuildStep.run bn (.onNode c.run)).2.allocated = bn.allocated := rfl
    rw [hheap, halloc]
    rcases stateD_eq bn.m_heap (c.run bn.m_heap) with ⟨_, e⟩ | ⟨h1, hs, e⟩
    · rw [e]
      exact ⟨t, wf⟩
    · rw [e]
      rcases nodeCall_state c bn.m_heap h1 hs with s | ⟨v, p, d, hcd, hs1⟩
      · refine ⟨tablesSized_of_sameSizing s t, fun q r hr => ?_⟩
        rw [(s q).2.2.1] at hr
        exact wf q r hr
      · subst hcd
        obtain ⟨t1, hcp⟩ := addCatParent_tablesSized bn.m_heap v p d h1 hs1 t
        refine ⟨t1, fun q r hr => ?_⟩
        rw [hcp q] at hr
        by_cases hq : q = v
        · rw [if_pos hq] at hr
          rcases List.mem_append.mp hr with hr1 | hr1
          · exact wf q r hr1
          · have e1 : r = p := by simpa using hr1
            rw [e1]
            exact hv.2
        · rw [if_neg hq] at hr
          exact wf q r hr

/-- The tables have their sizes after every sequence of factory calls and calls
of methods of nodes. -/
theorem buildAll_tablesSized :
    ∀ (calls : List BuildStep) (bn : GBayesNet), GraphSteps calls bn →
      TablesSized bn.m_heap → (∀ v, ∀ p ∈ (bn.m_heap v).m_catParents, p < bn.allocated) →
      TablesSized (buildAll calls bn).m_heap := by
  intro calls
  induction calls with
  | nil => intro bn _ t _; exact t
  | cons c rest ih =>
    intro bn hg t wf
    obtain ⟨t1, wf1⟩ := run_tablesSized bn c hg.1 t wf
    exact ih (c.run bn).2 hg.2 t1 wf1

theorem construct_tablesSized (rand : GRand) :
    TablesSized (GBayesNet.construct rand).m_heap ∧
    (∀ v, ∀ p ∈ ((GBayesNet.construct rand).m_heap v).m_catParents,
      p < (GBayesNet.construct rand).allocated) := by
  constructor
  · intro v
    have hk : ((GBayesNet.construct rand).m_heap v).kind = .constant := by
      unfold GBayesNet.construct GBayesNet.newConst GBayesNet.place
      simp only
      by_cases hv : v = 0
      · rw [hv, heap_put_same]
        rfl
      · rw [heap_put_other _ _ _ _ hv]
        rfl
    refine ⟨fun h1 => ?_, fun fam h1 => ?_⟩
    · rw [hk] at h1
      exact absurd h1 (by simp)
    · rw [hk] at h1
      exact absurd h1 (by simp)
  · intro v p hp
    have hcp : ((GBayesNet.construct rand).m_heap v).m_catParents = [] := by
      unfold GBayesNet.construct GBayesNet.newConst GBayesNet.place
      simp only
      by_cases hv : v = 0
      · rw [hv, heap_put_same]
        rfl
      · rw [heap_put_other _ _ _ _ hv]
        rfl
    rw [hcp] at hp
    simp at hp
/-- Claim C30, as amended. After every sequence of factory calls and calls of
`addCatParent`, `setWeights`, the parameter setters and `setObserved` on a new
network, successful or not, the weight table of every Categorical has
`categories * catCount()` entries and the parameter table of every distribution
`slots * catCount()` entries, the products being those of `size_t`.  A call of
`addCatParent` appends the parent to the categorical parents and this node to
the children of the parent, multiplies `catCount()` by the number of categories
of the parent, keeps every entry of the table whose index is below the new
size, and fills the entries from the old size on with the default node. -/
theorem tables_sized_spec (rand : GRand) (calls : List BuildStep)
    (hg : GraphSteps calls (GBayesNet.construct rand)) :
    TablesSized (buildAll calls (GBayesNet.construct rand)).m_heap ∧
    (∀ (h : Heap) (v p d : NodeId) (h1 : Heap), h1 = GPGMCategorical.addCatParent h v p d →
      (h1 v).m_weights.length = sizeMul (h v).m_categories (GPGMVariable.catCount h1 v) ∧
      GPGMVariable.catCount h1 v = sizeMul (GPGMVariable.catCount h v) (h p).m_categories ∧
      (∀ i, i < (h v).m_weights.length → i < (h1 v).m_weights.length →
        (h1 v).m_weights[i]? = (h v).m_weights[i]?) ∧
      (∀ i, (h v).m_weights.length ≤ i → i < (h1 v).m_weights.length →
        (h1 v).m_weights[i]? = some d) ∧
      (h1 v).m_catParents = (h v).m_catParents ++ [p] ∧
      (h1 p).m_children = (h p).m_children ++ [v]) ∧
    (∀ (slots : Nat) (h : Heap) (v p d : NodeId) (h1 : Heap),
      h1 = addCatParentParams slots h v p d →
      (h1 v).m_params.length = sizeMul slots (GPGMVariable.catCount h1 v) ∧
      GPGMVariable.catCount h1 v = sizeMul (GPGMVariable.catCount h v) (h p).m_categories ∧
      (∀ i, i < (h v).m_params.length → i < (h1 v).m_params.length →
        (h1 v).m_params[i]? = (h v).m_params[i]?) ∧
      (∀ i, (h v).m_params.length ≤ i → i < (h1 v).m_params.length →
        (h1 v).m_params[i]? = some d) ∧
      (h1 v).m_catParents = (h v).m_catParents ++ [p] ∧
      (h1 p).m_children = (h p).m_children ++ [v]) := by
  refine ⟨buildAll_tablesSized calls _ hg (construct_tablesSized rand).1
    (construct_tablesSized rand).2, ?_, ?_⟩
  · intro h v p d h1 e
    subst e
    have hl : (GPGMCategorical.addCatParent h v p d v).m_weights.length
        = sizeMul (h v).m_categories
          (GPGMVariable.catCount (GPGMCategorical.addCatParent h v p d) v) := by
      rw [catAddCatParent_table, vecResize_length]
    refine ⟨hl, catAddCatParent_catCount h v p d, fun i hi hi1 => ?_, fun i hi hi1 => ?_, ?_, ?_⟩
    · rw [hl] at hi1
      rw [catAddCatParent_table]
      exact (vecResize_getElem? _ _ d i hi1).1 hi
    · rw [hl] at hi1
      rw [catAddCatParent_table]
      exact (vecResize_getElem? _ _ d i hi1).2 hi
    · rw [(catAddCatParent_frame h v p d v).2.2.2.1, if_pos rfl]
    · rw [(catAddCatParent_frame h v p d p).2.2.2.2.1, if_pos rfl]
  · intro slots h v p d h1 e
    subst e
    have hl : (addCatParentParams slots h v p d v).m_params.length
        = sizeMul slots (GPGMVariable.catCount (addCatParentParams slots h v p d) v) := by
      rw [paramsAddCatParent_table, vecResize_length]
    refine ⟨hl, paramsAddCatParent_catCount slots h v p d, fun i hi hi1 => ?_,
      fun i hi hi1 => ?_, ?_, ?_⟩
    · rw [hl] at hi1
      rw [paramsAddCatParent_table]
      exact (vecResize_getElem? _ _ d i hi1).1 hi
    · rw [hl] at hi1
      rw [paramsAddCatParent_table]
      exact (vecResize_getElem? _ _ d i hi1).2 hi
    · rw [(paramsAddCatParent_frame slots h v p d v).2.2.2.1, if_pos rfl]
    · rw [(paramsAddCatParent_frame slots h v p d p).2.2.2.2.1, if_pos rfl]

/-- The steps of `simpleTestGraphSteps` are factory calls and calls of methods
of allocated nodes. -/
theorem simpleTestGraphSteps_graph :
    GraphSteps simpleTestGraphSteps (GBayesNet.construct exampleRand) := by
  unfold simpleTestGraphSteps
  refine ⟨(by decide : 2 < SIZE_MOD), trivial, trivial,
    ⟨.setWeights 1 0 2 3 none none none none none none, trivial, rfl⟩, trivial,
    ⟨.addCatParent 4 1 0, ⟨by decide!, by decide!⟩, rfl⟩, trivial, trivial,
    ⟨.setPair 4 0 5 6, trivial, rfl⟩, trivial, trivial,
    ⟨.setPair 4 1 7 8, trivial, rfl⟩, ⟨.setObserved 4 1, trivial, rfl⟩, trivial⟩

/-- Witness of claim C30, as amended: the graph of `GBayesNet_simpleTest`.  The
table of `pChild` (address 4) has `2 * 2` entries after
`pChild->addCatParent(pPar, bn.def())`. -/
theorem tables_sized_spec_witness :
    TablesSized (buildAll simpleTestGraphSteps (GBayesNet.construct exampleRand)).m_heap ∧
    ((buildAll simpleTestGraphSteps (GBayesNet.construct exampleRand)).m_heap 4).m_params.length
      = 4 ∧
    GPGMVariable.catCount
      (buildAll simpleTestGraphSteps (GBayesNet.construct exampleRand)).m_heap 4 = 2 ∧
    ((addCatParentParams 2 (threeCategories exampleRand).m_heap 1 1 0) 1).m_children
      = ((threeCategories exampleRand).m_heap 1).m_children ++ [1] :=
  have w := tables_sized_spec exampleRand simpleTestGraphSteps simpleTestGraphSteps_graph
  ⟨w.1, by decide!, by decide!, (w.2.2 2 _ 1 1 0 _ rfl).2.2.2.2.2⟩

/-- Claim C30 does not hold where the `size_t` product wraps around.  The
Poisson variable of `wideParents` (address 3) has a table of `2 ^ 32` entries
after its first `addCatParent`, with a parent of `2 ^ 32` categories; the second
`addCatParent`, with another such parent, computes `catCount() = 2 ^ 64 mod
2 ^ 64 = 0` and resizes the table to 0 entries: no entry is kept. -/
theorem addCatParent_drops_entries :
    (wideParents exampleRand).m_heap
      = GPGMPoisson.addCatParent (wideParentsFirst exampleRand).m_heap 3 2 0 ∧
    ((wideParentsFirst exampleRand).m_heap 3).m_params.length = 2 ^ 32 ∧
    ((wideParents exampleRand).m_heap 3).m_params.length = 0 ∧
    ((wideParents exampleRand).m_heap 3).m_params[0]? = none := by
  have e2 : (wideParents exampleRand).m_heap
      = GPGMPoisson.addCatParent (wideParentsFirst exampleRand).m_heap 3 2 0 := rfl
  have e1 : ∃ H, (wideParentsFirst exampleRand).m_heap = addCatParentParams 1 H 3 1 0 :=
    ⟨_, rfl⟩
  have l1 : ((wideParentsFirst exampleRand).m_heap 3).m_params.length
      = sizeMul 1 (GPGMVariable.catCount (wideParentsFirst exampleRand).m_heap 3) := by
    obtain ⟨H, e⟩ := e1
    rw [e, paramsAddCatParent_table, vecResize_length]
  have l2 : ((wideParents exampleRand).m_heap 3).m_params.length
      = sizeMul 1 (GPGMVariable.catCount (wideParents exampleRand).m_heap 3) := by
    rw [e2]
    unfold GPGMPoisson.addCatParent
    rw [paramsAddCatParent_table, vecResize_length]
  have c1 : GPGMVariable.catCount (wideParentsFirst exampleRand).m_heap 3 = 2 ^ 32 := by
    decide!
  have c2 : GPGMVariable.catCount (wideParents exampleRand).m_heap 3 = 0 := by decide!
  rw [c1] at l1
  rw [c2] at l2
  have l1a : ((wideParentsFirst exampleRand).m_heap 3).m_params.length = 2 ^ 32 := by
    rw [l1]
    decide
  have l2a : ((wideParents exampleRand).m_heap 3).m_params.length = 0 := by
    rw [l2]
    decide
  refine ⟨e2, l1a, l2a, ?_⟩
  rw [List.getElem?_eq_none_iff, l2a]

/-! ### The graph of a network under sampling -/

/-- The members that two nodes with the same frame share. -/
theorem frame_fields {n n1 : GPGMNode} (e : n1.frame = n.frame) :
    n1.kind = n.kind ∧ n1.m_observed = n.m_observed ∧ n1.m_observedValue = n.m_observedValue ∧
    n1.m_catParents = n.m_catParents ∧ n1.m_children = n.m_children ∧
    n1.m_value = n.m_value ∧ n1.m_categories = n.m_categories ∧
    n1.m_weights = n.m_weights ∧ n1.m_params = n.m_params := by
  have e1 := congrArg GPGMNode.kind e
  have e2 := congrArg GPGMNode.m_observed e
  have e3 := congrArg GPGMNode.m_observedValue e
  have e4 := congrArg GPGMNode.m_catParents e
  have e5 := congrArg GPGMNode.m_children e
  have e6 := congrArg GPGMNode.m_value e
  have e7 := congrArg GPGMNode.m_categories e
  have e8 := congrArg GPGMNode.m_weights e
  have e9 := congrArg GPGMNode.m_params e
  exact ⟨e1, e2, e3, e4, e5, e6, e7, e8, e9⟩

/-- No `sample` changes the frame of a node. -/
theorem sampleStable_frame (lm : Libm) :
    SampleStable lm (fun a b => b.frame = a.frame) where
  refl := fun _ => rfl
  trans := fun _ _ _ ab bc => bc.trans ab
  val := fun _ _ => rfl
  mean := fun _ _ => rfl
  accepted := fun n => by
    unfold GPGMMetropolisNode.onAccepted
    split <;> rfl
  accumulate := fun n => by
    unfold GPGMMetropolisNode.accumulate
    split <;> rfl

theorem sameGraph_refl (h : Heap) : SameGraph h h := fun _ => rfl

theorem sameGraph_trans {h h1 h2 : Heap} (a : SameGraph h h1) (b : SameGraph h1 h2) :
    SameGraph h h2 := fun q => (b q).trans (a q)

theorem sameGraph_setVal {h h1 : Heap} (a : SameGraph h h1) (v : NodeId) (x y : ℚ) :
    SameGraph (setVal h v x) (setVal h1 v y) := by
  intro q
  unfold setVal
  by_cases hq : q = v
  · subst hq
    rw [heap_put_same, heap_put_same]
    exact a q
  · rw [heap_put_other _ _ _ _ hq, heap_put_other _ _ _ _ hq]
    exact a q

theorem sameGraph_setVal_right {h h1 : Heap} (a : SameGraph h h1) (v : NodeId) (y : ℚ) :
    SameGraph h (setVal h1 v y) := by
  intro q
  unfold setVal
  by_cases hq : q = v
  · subst hq
    rw [heap_put_same]
    exact a q
  · rw [heap_put_other _ _ _ _ hq]
    exact a q

/-- The current value of a constant or observed node is given by its frame. -/
theorem currentValue_of_pinned {h h1 : Heap} (q : NodeId) (e : (h1 q).frame = (h q).frame)
    (hp : (h q).pinned = true) :
    GPGMNode.currentValue h1 q = GPGMNode.currentValue h q := by
  obtain ⟨e1, e2, e3, _, _, e6, _, _, _⟩ := frame_fields e
  unfold GPGMNode.currentValue GPGMConstant.currentValue GPGMCategorical.currentValue
    GPGMMetropolisNode.currentValue
  rw [e1, e2, e3, e6]
  unfold GPGMNode.pinned at hp
  by_cases hobs : (h q).m_observed = true
  · simp [hobs]
  · have hk : (h q).kind = .constant := by simpa [hobs] using hp
    rw [hk]

/-- Two heaps with the same graph agree on every current value as soon as they
agree on that of `v` and all other nodes are constant or observed. -/
theorem agree_of_pinned {H h : Heap} (v : NodeId) (hg : SameGraph H h)
    (hpin : ∀ q, q ≠ v → (H q).pinned = true)
    (hv : GPGMNode.currentValue h v = GPGMNode.currentValue H v) : Agree H h := by
  refine ⟨hg, fun q => ?_⟩
  by_cases hq : q = v
  · rw [hq]
    exact hv
  · exact currentValue_of_pinned q (hg q) (hpin q hq)

theorem pinned_setVal (H : Heap) (v q : NodeId) (x : ℚ) :
    (setVal H v x q).pinned = (H q).pinned := by
  unfold setVal
  by_cases hq : q = v
  · subst hq
    rw [heap_put_same]
    rfl
  · rw [heap_put_other _ _ _ _ hq]

/-- The current value of an unobserved Categorical after `m_val = x`. -/
theorem currentValue_setVal_same (h : Heap) (v : NodeId) (x : ℚ)
    (hk : (h v).kind = .categorical) (hobs : (h v).m_observed = false) :
    GPGMNode.currentValue (setVal h v x) v = x := by
  unfold GPGMNode.currentValue
  rw [setVal_same]
  simp only
  rw [hk]
  simp [GPGMCategorical.currentValue, hobs]

/-- With all other nodes constant or observed, two heaps with the same graph
agree on every current value after `m_val = x` on the unobserved Categorical
`v`. -/
theorem agree_setVal {H h : Heap} (v : NodeId) (x : ℚ) (hg : SameGraph H h)
    (hpin : ∀ q, q ≠ v → (H q).pinned = true)
    (hk : (H v).kind = .categorical) (hobs : (H v).m_observed = false) :
    Agree (setVal H v x) (setVal h v x) := by
  have f := frame_fields (hg v)
  refine agree_of_pinned v (sameGraph_setVal hg v x x)
    (fun q hq => by rw [pinned_setVal]; exact hpin q hq) ?_
  rw [currentValue_setVal_same H v x hk hobs,
    currentValue_setVal_same h v x (f.1.trans hk) (f.2.1.trans hobs)]

theorem currentCatIndexLoop_congr {h h1 : Heap} (a : Agree h h1) :
    ∀ (ps : List NodeId) (mult ind : Nat),
      GPGMVariable.currentCatIndexLoop h1 ps mult ind
        = GPGMVariable.currentCatIndexLoop h ps mult ind := by
  intro ps
  induction ps with
  | nil => intro mult ind; rfl
  | cons p rest ih =>
    intro mult ind
    unfold GPGMVariable.currentCatIndexLoop
    have hc : GPGMCategorical.categories h1 p = GPGMCategorical.categories h p :=
      (frame_fields (a.1 p)).2.2.2.2.2.2.1
    rw [a.2 p, hc]
    cases toSize (GPGMNode.currentValue h p) with
    | ok val =>
      simp only
      split
      · rfl
      · exact ih _ _
    | thrown => rfl
    | undefined => rfl

theorem currentCatIndex_congr {h h1 : Heap} (a : Agree h h1) (v : NodeId) :
    GPGMVariable.currentCatIndex h1 v = GPGMVariable.currentCatIndex h v := by
  unfold GPGMVariable.currentCatIndex
  rw [(frame_fields (a.1 v)).2.2.2.1]
  exact currentCatIndexLoop_congr a _ _ _

theorem currentPair_congr {h h1 : Heap} (a : Agree h h1) (v : NodeId) :
    currentPair h1 v = currentPair h v := by
  unfold currentPair
  rw [currentCatIndex_congr a v, (frame_fields (a.1 v)).2.2.2.2.2.2.2.2]
  simp only [a.2]

theorem currentLambda_congr {h h1 : Heap} (a : Agree h h1) (v : NodeId) :
    currentLambda h1 v = currentLambda h v := by
  unfold currentLambda
  rw [currentCatIndex_congr a v, (frame_fields (a.1 v)).2.2.2.2.2.2.2.2]
  simp only [a.2]

theorem sumWeight_congr {h h1 : Heap} (a : Agree h h1) (v : NodeId) (base : Nat) :
    ∀ n, GPGMCategorical.sumWeight h1 v base n = GPGMCategorical.sumWeight h v base n := by
  intro n
  induction n with
  | zero => rfl
  | succ n ih =>
    unfold GPGMCategorical.sumWeight
    rw [ih, (frame_fields (a.1 v)).2.2.2.2.2.2.2.1]
    simp only [a.2]

/-- The likelihood of a node depends on the graph and on the current values
only. -/
theorem likelihood_congr (lm : Libm) {h h1 : Heap} (a : Agree h h1) (p : NodeId) (x : ℚ) :
    GPGMVariable.likelihood lm h1 p x = GPGMVariable.likelihood lm h p x := by
  unfold GPGMVariable.likelihood
  rw [(frame_fields (a.1 p)).1]
  cases (h p).kind with
  | constant => rfl
  | categorical =>
    simp only
    unfold GPGMCategorical.likelihood
    rw [currentCatIndex_congr a p, (frame_fields (a.1 p)).2.2.2.2.2.2.2.1,
      (frame_fields (a.1 p)).2.2.2.2.2.2.1]
    simp only [a.2, sumWeight_congr a]
  | metropolis fam =>
    cases fam with
    | normal => simp only [GPGMNormal.likelihood, currentPair_congr a]
    | logNormal => simp only [GPGMLogNormal.likelihood, currentPair_congr a]
    | pareto => simp only [GPGMPareto.likelihood, currentPair_congr a]
    | uniformDiscrete => simp only [GPGMUniformDiscrete.likelihood, currentPair_congr a]
    | uniformContinuous => simp only [GPGMUniformContinuous.likelihood, currentPair_congr a]
    | poisson => simp only [GPGMPoisson.likelihood, currentLambda_congr a]
    | exponential => simp only [GPGMExponential.likelihood, currentLambda_congr a]
    | beta => simp only [GPGMBeta.likelihood, currentPair_congr a]
    | gamma scale => simp only [GPGMGamma.likelihood, currentPair_congr a]

theorem blanket_congr (lm : Libm) {H h : Heap} (v : NodeId) (i : Nat)
    (a : Agree (setVal H v i) (setVal h v i)) :
    ∀ (kids : List NodeId) (c : ℚ),
      GPGMCategorical.blanket lm h v i kids c = GPGMCategorical.blanket lm H v i kids c := by
  intro kids
  induction kids with
  | nil => intro c; rfl
  | cons k rest ih =>
    intro c
    unfold GPGMCategorical.blanket
    simp only
    rw [a.2 k, likelihood_congr lm a k]
    cases GPGMVariable.likelihood lm (setVal H v i) k
        (GPGMNode.currentValue (setVal H v i) k) with
    | ok l => exact ih _
    | thrown => rfl
    | undefined => rfl

/-- The body of the loops of `GPGMCategorical::sample` for the unobserved
Categorical `v` is the same on two heaps with the same graph, when all other
nodes are constant or observed and `v` is not the weight of the category. -/
theorem catProb_transfer (lm : Libm) {H h : Heap} (v : NodeId) (base i : Nat)
    (hg : SameGraph H h) (hpin : ∀ q, q ≠ v → (H q).pinned = true)
    (hk : (H v).kind = .categorical) (hobs : (H v).m_observed = false)
    (hself : vecAt (H v).m_weights (sizeAdd base i) ≠ .ok v) :
    GPGMCategorical.catProb lm h v base i = GPGMCategorical.catProb lm H v base i := by
  have f := frame_fields (hg v)
  unfold GPGMCategorical.catProb
  rw [f.2.2.2.2.2.2.2.1, f.2.2.2.2.1]
  cases hw : vecAt (H v).m_weights (sizeAdd base i) with
  | ok w =>
    have hne : w ≠ v := fun e => hself (by rw [hw, e])
    simp only
    rw [currentValue_of_pinned w (hg w) (hpin w hne)]
    exact blanket_congr lm v i (agree_setVal v i hg hpin hk hobs) _ _
  | thrown => rfl
  | undefined => rfl
theorem addCatParent_kind (h : Heap) (v p d : NodeId) (h1 : Heap)
    (hs : (GPGMVariable.addCatParent h v p d).state? = some h1) (q : NodeId) :
    (h1 q).kind = (h q).kind := by
  unfold GPGMVariable.addCatParent at hs
  cases hk : (h v).kind with
  | constant =>
    rw [hk] at hs
    simp [Outcome.state?] at hs
  | categorical =>
    rw [hk] at hs
    simp only [Outcome.state?, Option.some.injEq] at hs
    rw [← hs]
    exact (catAddCatParent_frame h v p d q).1
  | metropolis fam =>
    rw [hk] at hs
    simp only [Outcome.state?, Option.some.injEq] at hs
    rw [← hs]
    exact (paramsAddCatParent_frame fam.slots h v p d q).1

/-- One step leaves constants at the addresses that are not allocated. -/
theorem run_kind_beyond (bn : GBayesNet) (c : BuildStep) (hc : c.IsGraphStep bn)
    (hb : ∀ q, bn.allocated ≤ q → (bn.m_heap q).kind = .constant) :
    ∀ q, (c.run bn).2.allocated ≤ q → ((c.run bn).2.m_heap q).kind = .constant := by
  have hplace : ∀ (n : GPGMNode) (q : NodeId), (bn.place n).2.allocated ≤ q →
      ((bn.place n).2.m_heap q).kind = .constant := by
    intro n q hq
    have hq1 : bn.allocated + 1 ≤ q := hq
    have hheap : (bn.place n).2.m_heap = bn.m_heap.put bn.allocated n := rfl
    rw [hheap, heap_put_other _ _ _ _ (Nat.ne_of_gt hq1)]
    exact hb q (Nat.le_of_succ_le hq1)
  cases c with
  | newConst val => exact hplace _
  | newCat categories =>
    cases hcon : GPGMCategorical.construct categories bn.m_pConstOne with
    | ok n =>
      have hrun : (BuildStep.run bn (.newCat categories)).2.m_heap = (bn.place n).2.m_heap ∧
          (BuildStep.run bn (.newCat categories)).2.allocated = (bn.place n).2.allocated := by
        simp [BuildStep.run, GBayesNet.newCat, hcon]
      rw [hrun.1, hrun.2]
      exact hplace n
    | thrown =>
      have hrun : (BuildStep.run bn (.newCat categories)).2.m_heap = bn.m_heap ∧
          (BuildStep.run bn (.newCat categories)).2.allocated = bn.allocated + 1 := by
        simp [BuildStep.run, GBayesNet.newCat, hcon]
      rw [hrun.1, hrun.2]
      intro q hq
      exact hb q (by omega)
    | undefined =>
      have hrun : (BuildStep.run bn (.newCat categories)).2 = bn := by
        simp [BuildStep.run, GBayesNet.newCat, hcon]
      rw [hrun]
      exact hb
  | newNormal m d => exact hplace _
  | newLogNormal m d => exact hplace _
  | newPareto m d => exact hplace _
  | newUniformDiscrete m d => exact hplace _
  | newUniformContinuous m d => exact hplace _
  | newPoisson m d => exact hplace _
  | newExponential m d => exact hplace _
  | newBeta m d => exact hplace _
  | newGamma m d scale => exact hplace _
  | onNode f =>
    obtain ⟨c, _, hf⟩ := hc
    subst hf
    have hheap : (BuildStep.run bn (.onNode c.run)).2.m_heap
        = (c.run bn.m_heap).stateD bn.m_heap := rfl
    have halloc : (BuildStep.run bn (.onNode c.run)).2.allocated = bn.allocated := rfl
    rw [hheap, halloc]
    intro q hq
    rcases stateD_eq bn.m_heap (c.run bn.m_heap) with ⟨_, e⟩ | ⟨h1, hs, e⟩
    · rw [e]
      exact hb q hq
    · rw [e]
      rcases nodeCall_state c bn.m_heap h1 hs with s | ⟨v, p, d, _, hs1⟩
      · rw [(s q).1]
        exact hb q hq
      · rw [addCatParent_kind bn.m_heap v p d h1 hs1 q]
        exact hb q hq

/-- After every sequence of steps on a new network, the addresses that are not
allocated hold constants. -/
theorem buildAll_kind_beyond :
    ∀ (calls : List BuildStep) (bn : GBayesNet), GraphSteps calls bn →
      (∀ q, bn.allocated ≤ q → (bn.m_heap q).kind = .constant) →
      ∀ q, (buildAll calls bn).allocated ≤ q →
        ((buildAll calls bn).m_heap q).kind = .constant := by
  intro calls
  induction calls with
  | nil => intro bn _ hb; exact hb
  | cons c rest ih =>
    intro bn hg hb
    exact ih (c.run bn).2 hg.2 (run_kind_beyond bn c hg.1 hb)

theorem construct_kind (rand : GRand) (q : NodeId) :
    ((GBayesNet.construct rand).m_heap q).kind = .constant := by
  unfold GBayesNet.construct GBayesNet.newConst GBayesNet.place
  simp only
  by_cases hv : q = 0
  · rw [hv, heap_put_same]
    rfl
  · rw [heap_put_other _ _ _ _ hv]
    rfl

theorem pinned_of_constant {n : GPGMNode} (hk : n.kind = .constant) : n.pinned = true := by
  unfold GPGMNode.pinned
  simp [hk]

/-- The method `GPGMCategorical::sample` on an unobserved node of two
categories whose loop bodies are `p0` and `p1`: the value becomes 0 when the
draw is at most `p0 / (p0 + p1)`, and 1 otherwise. -/
theorem catSample_two (lm : Libm) (h : Heap) (r : GRand) (v : NodeId) (ind : Nat) (p0 p1 : ℚ)
    (hobs : (h v).m_observed = false) (hcat : (h v).m_categories = 2)
    (hind : GPGMVariable.currentCatIndex h v = .ok ind)
    (h0 : GPGMCategorical.catProb lm h v (sizeMul 2 ind) 0 = .ok p0)
    (h1 : GPGMCategorical.catProb lm h v (sizeMul 2 ind) 1 = .ok p1)
    (hself : vecAt (h v).m_weights (sizeAdd (sizeMul 2 ind) 1) ≠ .ok v) :
    GPGMCategorical.sample lm h r v
      = .ok () (setVal h v (if r.uniform.1 ≤ p0 / (p0 + p1) then 0 else 1), r.uniform.2) := by
  have hsum : GPGMCategorical.sumProb lm h v (sizeMul 2 ind) 2 = .ok (p0 + p1) h := by
    have e := sumProb_eq_sum lm h v (sizeMul 2 ind) (fun i => if i = 0 then p0 else p1) 2
      (fun i hi => by
        have hi2 : i = 0 ∨ i = 1 := by omega
        rcases hi2 with e | e
        · rw [e]; exact h0
        · rw [e]; exact h1)
    rw [e]
    simp [Finset.sum_range_succ]
  have h1' : GPGMCategorical.catProb lm (setVal h v ((0 : Nat) : ℚ)) v (sizeMul 2 ind) 1
      = .ok p1 := by
    rw [catProb_setVal lm h v _ 1 _ hself]
    exact h1
  unfold GPGMCategorical.sample
  rw [hobs, hind, hcat]
  simp only [Bool.false_eq_true, if_false]
  rw [hsum]
  simp only
  unfold GPGMCategorical.pick
  rw [h0]
  simp only
  by_cases hu : r.uniform.1 ≤ p0 / (p0 + p1)
  · rw [if_pos (by rw [zero_add]; exact hu), if_pos hu]
    simp
  · rw [if_neg (by rw [zero_add]; exact hu), if_neg hu]
    unfold GPGMCategorical.pick
    rw [h1']
    simp only
    have e1 : setVal (setVal h v ((0 : Nat) : ℚ)) v (((0 + 1 : Nat)) : ℚ) = setVal h v 1 := by
      rw [setVal_setVal]
      simp
    by_cases h2 : 0 + p0 / (p0 + p1) + p1 / (p0 + p1) ≥ r.uniform.1
    · rw [if_pos h2, e1]
    · rw [if_neg h2]
      unfold GPGMCategorical.pick
      rw [e1]

/-! ### Claims C21 and C22: the probabilities of the tests -/

theorem currentCatIndexLoop_transfer {H h : Heap} (hg : SameGraph H h) :
    ∀ (ps : List NodeId) (mult ind : Nat), (∀ p ∈ ps, (H p).pinned = true) →
      GPGMVariable.currentCatIndexLoop h ps mult ind
        = GPGMVariable.currentCatIndexLoop H ps mult ind := by
  intro ps
  induction ps with
  | nil => intro mult ind _; rfl
  | cons p rest ih =>
    intro mult ind hp
    unfold GPGMVariable.currentCatIndexLoop
    have hc : GPGMCategorical.categories h p = GPGMCategorical.categories H p :=
      (frame_fields (hg p)).2.2.2.2.2.2.1
    rw [currentValue_of_pinned p (hg p) (hp p (List.mem_cons_self _ _)), hc]
    cases toSize (GPGMNode.currentValue H p) with
    | ok val =>
      simp only
      split
      · rfl
      · exact ih _ _ (fun q hq => hp q (List.mem_cons_of_mem _ hq))
    | thrown => rfl
    | undefined => rfl

/-- The row index of a node whose categorical parents are all observed is the
same on two heaps with the same graph. -/
theorem currentCatIndex_transfer {H h : Heap} (hg : SameGraph H h) (v : NodeId)
    (hp : ∀ p ∈ (H v).m_catParents, (H p).pinned = true) :
    GPGMVariable.currentCatIndex h v = GPGMVariable.currentCatIndex H v := by
  unfold GPGMVariable.currentCatIndex
  rw [(frame_fields (hg v)).2.2.2.1]
  exact currentCatIndexLoop_transfer hg _ _ _ hp

theorem blanket_indep_lm (lm lm1 : Libm) (h : Heap) (v : NodeId) (i : Nat) :
    ∀ (kids : List NodeId) (c : ℚ),
      (∀ k ∈ kids, (setVal h v i k).kind = .categorical) →
      GPGMCategorical.blanket lm h v i kids c = GPGMCategorical.blanket lm1 h v i kids c := by
  intro kids
  induction kids with
  | nil => intro c _; rfl
  | cons k rest ih =>
    intro c hk
    unfold GPGMCategorical.blanket
    simp only
    have e : ∀ m : Libm, GPGMVariable.likelihood m (setVal h v i) k
        (GPGMNode.currentValue (setVal h v i) k)
        = GPGMCategorical.likelihood (setVal h v i) k
          (GPGMNode.currentValue (setVal h v i) k) := by
      intro m
      unfold GPGMVariable.likelihood
      rw [hk k (List.mem_cons_self _ _)]
    rw [e lm, e lm1]
    cases GPGMCategorical.likelihood (setVal h v i) k
        (GPGMNode.currentValue (setVal h v i) k) with
    | ok l => exact ih _ (fun q hq => hk q (List.mem_cons_of_mem _ hq))
    | thrown => rfl
    | undefined => rfl

/-- The body of the loops of `GPGMCategorical::sample` does not use the library
functions when all children are Categorical. -/
theorem catProb_indep_lm (lm lm1 : Libm) (h : Heap) (v : NodeId) (base i : Nat)
    (hk : ∀ k ∈ (h v).m_children, (setVal h v i k).kind = .categorical) :
    GPGMCategorical.catProb lm h v base i = GPGMCategorical.catProb lm1 h v base i := by
  unfold GPGMCategorical.catProb
  cases vecAt (h v).m_weights (sizeAdd base i) with
  | ok w => exact blanket_indep_lm lm lm1 h v i _ _ hk
  | thrown => rfl
  | undefined => rfl

theorem catSample_observed (lm : Libm) (h : Heap) (r : GRand) (v : NodeId)
    (hk : (h v).kind = .categorical) (hobs : (h v).m_observed = true) :
    GPGMVariable.sample lm h r v = .ok () (h, r) := by
  unfold GPGMVariable.sample
  rw [hk]
  simp only
  unfold GPGMCategorical.sample
  rw [if_pos hobs]

/-- The steps of `threeTestSteps` are factory calls and calls of methods of
allocated nodes. -/
theorem threeTestSteps_graph : GraphSteps threeTestSteps (GBayesNet.construct exampleRand) := by
  unfold threeTestSteps
  refine ⟨(by decide : 2 < SIZE_MOD), trivial, trivial,
    ⟨.setWeights 1 0 2 3 none none none none none none, trivial, rfl⟩,
    (by decide : 2 < SIZE_MOD),
    ⟨.addCatParent 4 1 0, ⟨by decide!, by decide!⟩, rfl⟩, trivial, trivial,
    ⟨.setWeights 4 0 5 6 none none none none none none, trivial, rfl⟩, trivial, trivial,
    ⟨.setWeights 4 1 7 8 none none none none none none, trivial, rfl⟩,
    (by decide : 2 < SIZE_MOD),
    ⟨.addCatParent 9 4 0, ⟨by decide!, by decide!⟩, rfl⟩, trivial, trivial,
    ⟨.setWeights 9 0 10 11 none none none none none none, trivial, rfl⟩, trivial, trivial,
    ⟨.setWeights 9 1 12 13 none none none none none none, trivial, rfl⟩,
    ⟨.setObserved 1 0, trivial, rfl⟩, ⟨.setObserved 9 0, trivial, rfl⟩, trivial⟩

/-- In `GBayesNet_threeTest` every node but `pB` is a constant or observed. -/
theorem threeTest_pinned (q : NodeId) (hq : q ≠ 4) :
    ((threeTest exampleRand).m_heap q).pinned = true := by
  by_cases hlt : q < 14
  · have hall : ∀ k, k < 14 → k ≠ 4 → ((threeTest exampleRand).m_heap k).pinned = true := by
      decide!
    exact hall q hlt hq
  · apply pinned_of_constant
    have ha : (threeTest exampleRand).allocated = 14 := by decide!
    exact buildAll_kind_beyond threeTestSteps _ threeTestSteps_graph
      (fun k _ => construct_kind exampleRand k) q (by
        show (threeTest exampleRand).allocated ≤ q
        rw [ha]
        exact Nat.le_of_not_lt hlt)

/-- On every heap with the graph of `GBayesNet_threeTest`, the loop bodies of
the sample of `pB` are 1/3 and 1/9, and the sample sets `pB` to 0 exactly when
the draw is at most 3/4. -/
theorem threeTest_sample_b (lm : Libm) (h : Heap)
    (hg : SameGraph (threeTest exampleRand).m_heap h) :
    GPGMCategorical.catProb lm h 4 0 0 = .ok (1 / 3) ∧
    GPGMCategorical.catProb lm h 4 0 1 = .ok (1 / 9) ∧
    (∀ r : GRand, GPGMVariable.sample lm h r 4
      = .ok () (setVal h 4 (if r.uniform.1 ≤ 3 / 4 then 0 else 1), r.uniform.2)) := by
  have f := frame_fields (hg 4)
  have hk : ((threeTest exampleRand).m_heap 4).kind = .categorical := by decide!
  have hobs : ((threeTest exampleRand).m_heap 4).m_observed = false := by decide!
  have hc0 : GPGMCategorical.catProb lm h 4 0 0 = .ok (1 / 3) := by
    rw [catProb_transfer lm 4 0 0 hg threeTest_pinned hk hobs (by decide!),
      catProb_indep_lm lm exampleLibm _ 4 0 0 (by decide!)]
    decide!
  have hc1 : GPGMCategorical.catProb lm h 4 0 1 = .ok (1 / 9) := by
    rw [catProb_transfer lm 4 0 1 hg threeTest_pinned hk hobs (by decide!),
      catProb_indep_lm lm exampleLibm _ 4 0 1 (by decide!)]
    decide!
  refine ⟨hc0, hc1, fun r => ?_⟩
  have hind : GPGMVariable.currentCatIndex h 4 = .ok 0 := by
    rw [currentCatIndex_transfer hg 4 (by decide!)]
    decide!
  have hs := catSample_two lm h r 4 0 (1 / 3) (1 / 9) (f.2.1.trans hobs)
    (f.2.2.2.2.2.2.1.trans (by decide!)) hind hc0 hc1
    (by rw [f.2.2.2.2.2.2.2.1]; decide!)
  have e : ((1 : ℚ) / 3) / (1 / 3 + 1 / 9) = 3 / 4 := by norm_num
  rw [e] at hs
  unfold GPGMVariable.sample
  rw [f.1, hk]
  exact hs
/-- One sweep of `GBayesNet_threeTest` from a state with the graph of the test:
it returns, `pB` is set according to the draw, and the graph is unchanged. -/
theorem threeTest_sweep (lm : Libm) (bn : GBayesNet)
    (hg : SameGraph (threeTest exampleRand).m_heap bn.m_heap)
    (hs : bn.m_sampleNodes = [1, 4, 9]) :
    GBayesNet.sample lm bn = .ok ()
      { bn with
        m_heap := setVal bn.m_heap 4 (if bn.m_rand.uniform.1 ≤ 3 / 4 then 0 else 1),
        m_rand := bn.m_rand.uniform.2 } := by
  have f1 := frame_fields (hg 1)
  have f9 := frame_fields
    (sameGraph_setVal_right hg 4 (if bn.m_rand.uniform.1 ≤ 3 / 4 then 0 else 1) 9)
  have s1 : GPGMVariable.sample lm bn.m_heap bn.m_rand 1 = .ok () (bn.m_heap, bn.m_rand) :=
    catSample_observed lm _ _ 1 (f1.1.trans (by decide!)) (f1.2.1.trans (by decide!))
  have s4 := (threeTest_sample_b lm bn.m_heap hg).2.2 bn.m_rand
  have s9 : GPGMVariable.sample lm
      (setVal bn.m_heap 4 (if bn.m_rand.uniform.1 ≤ 3 / 4 then 0 else 1)) bn.m_rand.uniform.2 9
      = .ok () (setVal bn.m_heap 4 (if bn.m_rand.uniform.1 ≤ 3 / 4 then 0 else 1),
          bn.m_rand.uniform.2) :=
    catSample_observed lm _ _ 9 (f9.1.trans (by decide!)) (f9.2.1.trans (by decide!))
  unfold GBayesNet.sample
  rw [hs]
  simp only [sampleAll, s1, s4, s9]

/-- Every number of sweeps of `GBayesNet_threeTest` returns and leaves the graph
of the test. -/
theorem threeTest_sweeps (lm : Libm) :
    ∀ (n : Nat) (bn : GBayesNet), SameGraph (threeTest exampleRand).m_heap bn.m_heap →
      bn.m_sampleNodes = [1, 4, 9] →
      ∃ bn1, GBayesNet.sweeps lm n bn = .ok () bn1 ∧
        SameGraph (threeTest exampleRand).m_heap bn1.m_heap ∧ bn1.m_sampleNodes = [1, 4, 9] := by
  intro n
  induction n with
  | zero => intro bn hg hs; exact ⟨bn, rfl, hg, hs⟩
  | succ n ih =>
    intro bn hg hs
    unfold GBayesNet.sweeps
    rw [threeTest_sweep lm bn hg hs]
    exact ih _ (sameGraph_setVal_right hg 4 _) hs

/-- Claim C22. In the network of `GBayesNet_threeTest` (`pA` and `pC` observed
at 0), after every number of sweeps and from every state of the random source:
the sweeps return, the loop bodies of the sample of `pB` are
`2/3 * 1/2 = 1/3` for the category 0 and `1/3 * 1/3 = 1/9` for the category 1,
so that the normalised probability of the category 0 is `3/4`, a sample of `pB`
sets it to 0 when the draw is at most `3/4` and to 1 otherwise, and so does the
next sweep with its one draw. -/
theorem threeTest_b_probability (lm : Libm) (r : GRand) (n : Nat) :
    ∃ bn, GBayesNet.sweeps lm n ((threeTest exampleRand).withRand r) = .ok () bn ∧
      GPGMCategorical.catProb lm bn.m_heap 4 0 0 = .ok (1 / 3) ∧
      GPGMCategorical.catProb lm bn.m_heap 4 0 1 = .ok (1 / 9) ∧
      ((1 : ℚ) / 3) / (1 / 3 + 1 / 9) = 3 / 4 ∧
      (∀ r1 : GRand, GPGMVariable.sample lm bn.m_heap r1 4
        = .ok () (setVal bn.m_heap 4 (if r1.uniform.1 ≤ 3 / 4 then 0 else 1),
            r1.uniform.2)) ∧
      (∃ bn1, GBayesNet.sample lm bn = .ok () bn1 ∧
        bn1.m_rand = bn.m_rand.uniform.2 ∧
        GPGMNode.currentValue bn1.m_heap 4
          = (if bn.m_rand.uniform.1 ≤ 3 / 4 then 0 else 1)) := by
  obtain ⟨bn, hsw, hg, hs⟩ := threeTest_sweeps lm n ((threeTest exampleRand).withRand r)
    (sameGraph_refl _)
    (show (threeTest exampleRand).m_sampleNodes = [1, 4, 9] by decide!)
  have hb := threeTest_sample_b lm bn.m_heap hg
  refine ⟨bn, hsw, hb.1, hb.2.1, by norm_num, hb.2.2, _, threeTest_sweep lm bn hg hs, rfl, ?_⟩
  have f := frame_fields (hg 4)
  exact currentValue_setVal_same bn.m_heap 4 _ (f.1.trans (by decide!))
    (f.2.1.trans (by decide!))

/-- Witness of claim C22: the first sweep of `GBayesNet_threeTest` with the draw
1/2 sets `pB` to 0, and with the draw 99/100 to 1. -/
theorem threeTest_b_probability_witness :
    (∃ bn1, GBayesNet.sample exampleLibm ((threeTest exampleRand).withRand exampleRand)
        = .ok () bn1 ∧ GPGMNode.currentValue bn1.m_heap 4 = 0) ∧
    (∃ bn1, GBayesNet.sample exampleLibm ((threeTest exampleRand).withRand lateRand)
        = .ok () bn1 ∧ GPGMNode.currentValue bn1.m_heap 4 = 1) := by
  obtain ⟨bn, hsw, _, _, _, _, bn1, hs1, _, hv⟩ :=
    threeTest_b_probability exampleLibm exampleRand 0
  obtain ⟨bn', hsw', _, _, _, _, bn1', hs1', _, hv'⟩ :=
    threeTest_b_probability exampleLibm lateRand 0
  have e : bn = (threeTest exampleRand).withRand exampleRand := by
    simp only [GBayesNet.sweeps, Outcome.ok.injEq, true_and] at hsw
    exact hsw.symm
  have e' : bn' = (threeTest exampleRand).withRand lateRand := by
    simp only [GBayesNet.sweeps, Outcome.ok.injEq, true_and] at hsw'
    exact hsw'.symm
  subst e
  subst e'
  refine ⟨⟨bn1, hs1, ?_⟩, ⟨bn1', hs1', ?_⟩⟩
  · rw [hv]
    exact if_pos (by decide!)
  · rw [hv']
    exact if_neg (by decide!)

theorem sameGraph_setVal_left {h h1 : Heap} (a : SameGraph h h1) (v : NodeId) (x : ℚ) :
    SameGraph (setVal h v x) h1 := by
  intro q
  unfold setVal
  by_cases hq : q = v
  · subst hq
    rw [heap_put_same]
    exact a q
  · rw [heap_put_other _ _ _ _ hq]
    exact a q

/-- The method `GPGMNormal::likelihood` on the parameters of the current row. -/
theorem normal_likelihood_of_pair (lm : Libm) (h : Heap) (v : NodeId) (mean dev x : ℚ)
    (hk : (h v).kind = .metropolis .normal) (hp : currentPair h v = .ok (mean, dev)) :
    GPGMVariable.likelihood lm h v x
      = .ok (1 / (dev * SQRT_2PI) * lm.exp (-((x - mean) * (x - mean)) / (2 * dev * dev))) := by
  unfold GPGMVariable.likelihood
  rw [hk]
  unfold GPGMNormal.likelihood
  rw [hp]
  rfl

/-- The method `gibbs` of a node without children returns as soon as its
likelihood is defined. -/
theorem gibbs_returns_leaf (lm : Libm) (h : Heap) (v : NodeId) (x l : ℚ)
    (hc : (h v).m_children = []) (hl : GPGMVariable.likelihood lm h v x = .ok l) :
    ∃ g, GPGMMetropolisNode.gibbs lm h v x = .ok g h := by
  unfold GPGMMetropolisNode.gibbs
  rw [hl, hc]
  simp only
  by_cases hd : lm.log l ≥ MIN_LOG_PROB
  · rw [if_pos hd]
    exact ⟨_, rfl⟩
  · rw [if_neg hd]
    exact ⟨_, rfl⟩

/-- The method `metropolis` returns when `gibbs` does. -/
theorem metropolis_returns (lm : Libm) (h : Heap) (r : GRand) (v : NodeId)
    (hgb : ∀ x, ∃ g, GPGMMetropolisNode.gibbs lm h v x = .ok g h) :
    ∃ acc h0 r1, GPGMMetropolisNode.metropolis lm h r v = .ok acc (h0, r1) := by
  by_cases hc : GPGMMetropolisNode.candidate (h v) r.normal.1 = (h v).m_currentMean
  · exact ⟨false, h, r.normal.2, metropolis_of_candidate_eq lm h r v hc⟩
  · obtain ⟨cand, hcand⟩ := hgb (GPGMMetropolisNode.candidate (h v) r.normal.1)
    obtain ⟨curr, hcurr⟩ := hgb (h v).m_currentMean
    rw [metropolis_of_gibbs lm h r v cand curr h h hc hcand hcurr]
    by_cases h1 : cand ≥ MIN_LOG_PROB
    · rw [if_pos h1]
      by_cases h2 : curr ≥ MIN_LOG_PROB
      · rw [if_pos h2]
        by_cases h3 : lm.log r.normal.2.uniform.1 < cand - curr
        · rw [if_pos h3]
          exact ⟨_, _, _, rfl⟩
        · rw [if_neg h3]
          exact ⟨_, _, _, rfl⟩
      · rw [if_neg h2]
        exact ⟨_, _, _, rfl⟩
    · rw [if_neg h1]
      exact ⟨_, _, _, rfl⟩

/-- In `GBayesNet_simpleTest` every node but `pPar` is a constant or observed. -/
theorem simpleTest_pinned (q : NodeId) (hq : q ≠ 1) :
    ((simpleTest exampleRand).m_heap q).pinned = true := by
  by_cases hlt : q < 9
  · have hall : ∀ k, k < 9 → k ≠ 1 → ((simpleTest exampleRand).m_heap k).pinned = true := by
      decide!
    exact hall q hlt hq
  · apply pinned_of_constant
    have e : (simpleTest exampleRand).m_heap
        = (buildAll simpleTestGraphSteps (GBayesNet.construct exampleRand)).m_heap := rfl
    have ha : (buildAll simpleTestGraphSteps (GBayesNet.construct exampleRand)).allocated = 9 := by
      decide!
    rw [e]
    exact buildAll_kind_beyond simpleTestGraphSteps _ simpleTestGraphSteps_graph
      (fun k _ => construct_kind exampleRand k) q (by
        rw [ha]
        exact Nat.le_of_not_lt hlt)

/-- On every heap with the graph of `GBayesNet_simpleTest`, the loop bodies of
the sample of `pPar` are `0.4 * N(1; 0, 1)` and `0.6 * N(1; 3, 2)`, two
multiples of the same value `exp(-1/2)` of the exponential, and the sample sets
`pPar` to 0 exactly when the draw is at most 4/7. -/
theorem simpleTest_sample_parent (lm : Libm) (hE : lm.exp (-(1 / 2)) ≠ 0) (h : Heap)
    (hg : SameGraph (simpleTest exampleRand).m_heap h) :
    GPGMCategorical.catProb lm h 1 0 0
      = .ok (2 / 5 * (1 / (1 * SQRT_2PI) * lm.exp (-(1 / 2)))) ∧
    GPGMCategorical.catProb lm h 1 0 1
      = .ok (3 / 5 * (1 / (2 * SQRT_2PI) * lm.exp (-(1 / 2)))) ∧
    (2 / 5 * (1 / (1 * SQRT_2PI) * lm.exp (-(1 / 2))))
      / (2 / 5 * (1 / (1 * SQRT_2PI) * lm.exp (-(1 / 2)))
        + 3 / 5 * (1 / (2 * SQRT_2PI) * lm.exp (-(1 / 2)))) = 4 / 7 ∧
    (∀ r : GRand, GPGMVariable.sample lm h r 1
      = .ok () (setVal h 1 (if r.uniform.1 ≤ 4 / 7 then 0 else 1), r.uniform.2)) := by
  have f := frame_fields (hg 1)
  have hk : ((simpleTest exampleRand).m_heap 1).kind = .categorical := by decide!
  have hobs : ((simpleTest exampleRand).m_heap 1).m_observed = false := by decide!
  have hch : ((simpleTest exampleRand).m_heap 1).m_children = [4] := by decide!
  have hc0 : GPGMCategorical.catProb lm h 1 0 0
      = .ok (2 / 5 * (1 / (1 * SQRT_2PI) * lm.exp (-(1 / 2)))) := by
    rw [catProb_transfer lm 1 0 0 hg simpleTest_pinned hk hobs (by decide!)]
    unfold GPGMCategorical.catProb
    have hw : vecAt ((simpleTest exampleRand).m_heap 1).m_weights (sizeAdd 0 0) = .ok 2 := by
      decide!
    rw [hw, hch]
    simp only
    unfold GPGMCategorical.blanket
    simp only
    rw [normal_likelihood_of_pair lm _ 4 0 1 _ (by decide!) (by decide!)]
    simp only [GPGMCategorical.blanket]
    have hcv : GPGMNode.currentValue
        (setVal (simpleTest exampleRand).m_heap 1 ((0 : Nat) : ℚ)) 4 = 1 := by decide!
    have h2 : GPGMNode.currentValue (simpleTest exampleRand).m_heap 2 = 2 / 5 := by decide!
    have ea : (-(((1 : ℚ) - 0) * (1 - 0)) / (2 * 1 * 1)) = -(1 / 2) := by norm_num
    rw [hcv, h2, ea]
  have hc1 : GPGMCategorical.catProb lm h 1 0 1
      = .ok (3 / 5 * (1 / (2 * SQRT_2PI) * lm.exp (-(1 / 2)))) := by
    rw [catProb_transfer lm 1 0 1 hg simpleTest_pinned hk hobs (by decide!)]
    unfold GPGMCategorical.catProb
    have hw : vecAt ((simpleTest exampleRand).m_heap 1).m_weights (sizeAdd 0 1) = .ok 3 := by
      decide!
    rw [hw, hch]
    simp only
    unfold GPGMCategorical.blanket
    simp only
    rw [normal_likelihood_of_pair lm _ 4 3 2 _ (by decide!) (by decide!)]
    simp only [GPGMCategorical.blanket]
    have hcv : GPGMNode.currentValue
        (setVal (simpleTest exampleRand).m_heap 1 ((1 : Nat) : ℚ)) 4 = 1 := by decide!
    have h3 : GPGMNode.currentValue (simpleTest exampleRand).m_heap 3 = 3 / 5 := by decide!
    have ea : (-(((1 : ℚ) - 3) * (1 - 3)) / (2 * 2 * 2)) = -(1 / 2) := by norm_num
    rw [hcv, h3, ea]
  have hS : SQRT_2PI ≠ 0 := by
    unfold SQRT_2PI
    norm_num
  have hratio : (2 / 5 * (1 / (1 * SQRT_2PI) * lm.exp (-(1 / 2))))
      / (2 / 5 * (1 / (1 * SQRT_2PI) * lm.exp (-(1 / 2)))
        + 3 / 5 * (1 / (2 * SQRT_2PI) * lm.exp (-(1 / 2)))) = 4 / 7 := by
    generalize lm.exp (-(1 / 2)) = E at hE
    have ht : E / SQRT_2PI ≠ 0 := div_ne_zero hE hS
    have e0 : 2 / 5 * (1 / (1 * SQRT_2PI) * E) = 2 / 5 * (E / SQRT_2PI) := by ring
    have e1 : 3 / 5 * (1 / (2 * SQRT_2PI) * E) = 3 / 10 * (E / SQRT_2PI) := by ring
    rw [e0, e1]
    generalize E / SQRT_2PI = t at ht
    have e2 : 2 / 5 * t + 3 / 10 * t = 7 / 10 * t := by ring
    rw [e2, mul_div_mul_right _ _ ht]
    norm_num
  refine ⟨hc0, hc1, hratio, fun r => ?_⟩
  have hind : GPGMVariable.currentCatIndex h 1 = .ok 0 := by
    rw [currentCatIndex_transfer hg 1 (by decide!)]
    decide!
  have hs := catSample_two lm h r 1 0 _ _ (f.2.1.trans hobs)
    (f.2.2.2.2.2.2.1.trans (by decide!)) hind hc0 hc1
    (by rw [f.2.2.2.2.2.2.2.1]; decide!)
  rw [hratio] at hs
  unfold GPGMVariable.sample
  rw [f.1, hk]
  exact hs
theorem currentValue_of_node {h h1 : Heap} (q : NodeId) (e : h1 q = h q) :
    GPGMNode.currentValue h1 q = GPGMNode.currentValue h q := by
  unfold GPGMNode.currentValue
  rw [e]

/-- In a state of `GBayesNet_simpleTest` in which `pPar` has the value 0 or 1,
the sample of `pChild` returns; it leaves the graph and `pPar` as they are. -/
theorem simpleTest_child_sample (lm : Libm) (h1 : Heap) (r1 : GRand) (b : ℚ)
    (hb : b = 0 ∨ b = 1) (hg : SameGraph (simpleTest exampleRand).m_heap h1) :
    ∃ h2 r2, GPGMVariable.sample lm (setVal h1 1 b) r1 4 = .ok () (h2, r2) ∧
      SameGraph (simpleTest exampleRand).m_heap h2 ∧ h2 1 = setVal h1 1 b 1 := by
  have hg1 : SameGraph (simpleTest exampleRand).m_heap (setVal h1 1 b) :=
    sameGraph_setVal_right hg 1 b
  have f4 := frame_fields (hg1 4)
  have hk4 : (setVal h1 1 b 4).kind = .metropolis .normal := f4.1.trans (by decide!)
  have hch : (setVal h1 1 b 4).m_children = [] := f4.2.2.2.2.1.trans (by decide!)
  have ha : Agree (setVal (simpleTest exampleRand).m_heap 1 b) (setVal h1 1 b) :=
    agree_setVal 1 b hg simpleTest_pinned (by decide!) (by decide!)
  have hlik : ∀ x, ∃ l, GPGMVariable.likelihood lm (setVal h1 1 b) 4 x = .ok l := by
    intro x
    rw [likelihood_congr lm ha 4 x]
    rcases hb with e | e
    · rw [e]
      exact ⟨_, normal_likelihood_of_pair lm _ 4 0 1 x (by decide!) (by decide!)⟩
    · rw [e]
      exact ⟨_, normal_likelihood_of_pair lm _ 4 3 2 x (by decide!) (by decide!)⟩
  have hgb : ∀ x, ∃ g, GPGMMetropolisNode.gibbs lm (setVal h1 1 b) 4 x
      = .ok g (setVal h1 1 b) := by
    intro x
    obtain ⟨l, hl⟩ := hlik x
    exact gibbs_returns_leaf lm _ 4 x l hch hl
  obtain ⟨acc, h0, r2, hm⟩ := metropolis_returns lm (setVal h1 1 b) r1 4 hgb
  obtain ⟨h2, hs, hoth, _, _⟩ := metropolisSample_node lm (setVal h1 1 b) r1 4 acc h0 r2 hm
  refine ⟨h2, r2, ?_, ?_, hoth 1 (by decide)⟩
  · unfold GPGMVariable.sample
    rw [hk4]
    exact hs
  · exact sameGraph_trans hg1
      (metropolisSample_stable lm (sampleStable_frame lm) _ r1 4 (h2, r2) (by rw [hs]; rfl))

/-- One sweep of `GBayesNet_simpleTest` from a state with the graph of the test:
it returns, `pPar` is set according to the first draw, and the graph is
unchanged. -/
theorem simpleTest_sweep (lm : Libm) (hE : lm.exp (-(1 / 2)) ≠ 0) (bn : GBayesNet)
    (hg : SameGraph (simpleTest exampleRand).m_heap bn.m_heap)
    (hs : bn.m_sampleNodes = [1, 4]) :
    ∃ bn1, GBayesNet.sample lm bn = .ok () bn1 ∧
      SameGraph (simpleTest exampleRand).m_heap bn1.m_heap ∧ bn1.m_sampleNodes = [1, 4] ∧
      GPGMNode.currentValue bn1.m_heap 1 = (if bn.m_rand.uniform.1 ≤ 4 / 7 then 0 else 1) := by
  have s1 := (simpleTest_sample_parent lm hE bn.m_heap hg).2.2.2 bn.m_rand
  have hb : (if bn.m_rand.uniform.1 ≤ 4 / 7 then (0 : ℚ) else 1) = 0 ∨
      (if bn.m_rand.uniform.1 ≤ 4 / 7 then (0 : ℚ) else 1) = 1 := by
    by_cases hu : bn.m_rand.uniform.1 ≤ 4 / 7
    · exact Or.inl (if_pos hu)
    · exact Or.inr (if_neg hu)
  obtain ⟨h2, r2, s4, hg2, e1⟩ := simpleTest_child_sample lm bn.m_heap bn.m_rand.uniform.2
    (if bn.m_rand.uniform.1 ≤ 4 / 7 then 0 else 1) hb hg
  have f := frame_fields (hg 1)
  refine ⟨{ bn with m_heap := h2, m_rand := r2 }, ?_, hg2, hs, ?_⟩
  · unfold GBayesNet.sample
    rw [hs]
    simp only [sampleAll, s1, s4]
  · show GPGMNode.currentValue h2 1 = _
    rw [currentValue_of_node 1 e1]
    exact currentValue_setVal_same bn.m_heap 1 _ (f.1.trans (by decide!))
      (f.2.1.trans (by decide!))

/-- Every number of sweeps of `GBayesNet_simpleTest` returns and leaves the
graph of the test. -/
theorem simpleTest_sweeps (lm : Libm) (hE : lm.exp (-(1 / 2)) ≠ 0) :
    ∀ (n : Nat) (bn : GBayesNet), SameGraph (simpleTest exampleRand).m_heap bn.m_heap →
      bn.m_sampleNodes = [1, 4] →
      ∃ bn1, GBayesNet.sweeps lm n bn = .ok () bn1 ∧
        SameGraph (simpleTest exampleRand).m_heap bn1.m_heap ∧ bn1.m_sampleNodes = [1, 4] := by
  intro n
  induction n with
  | zero => intro bn hg hs; exact ⟨bn, rfl, hg, hs⟩
  | succ n ih =>
    intro bn hg hs
    obtain ⟨bn1, e, hg1, hs1, _⟩ := simpleTest_sweep lm hE bn hg hs
    unfold GBayesNet.sweeps
    rw [e]
    exact ih bn1 hg1 hs1

/-- Claim C21. In the network of `GBayesNet_simpleTest` (`pChild` observed at
1), with an exponential that is not zero at `-1/2`, after every number of
sweeps and from every state of the random source: the sweeps return, the loop
bodies of the sample of `pPar` are `0.4 * 1/(1 * SQRT_2PI) * exp(-1/2)` and
`0.6 * 1/(2 * SQRT_2PI) * exp(-1/2)`, so that the normalised probability of the
category 0 is exactly `4/7`, which is 0.5714286 to seven decimals; a sample of
`pPar` sets it to 0 when the draw is at most `4/7` and to 1 otherwise, and so
does the next sweep with its first draw. -/
theorem simpleTest_parent_probability (lm : Libm) (hE : lm.exp (-(1 / 2)) ≠ 0) (r : GRand)
    (n : Nat) :
    ∃ bn, GBayesNet.sweeps lm n ((simpleTest exampleRand).withRand r) = .ok () bn ∧
      GPGMCategorical.catProb lm bn.m_heap 1 0 0
        = .ok (2 / 5 * (1 / (1 * SQRT_2PI) * lm.exp (-(1 / 2)))) ∧
      GPGMCategorical.catProb lm bn.m_heap 1 0 1
        = .ok (3 / 5 * (1 / (2 * SQRT_2PI) * lm.exp (-(1 / 2)))) ∧
      (2 / 5 * (1 / (1 * SQRT_2PI) * lm.exp (-(1 / 2))))
        / (2 / 5 * (1 / (1 * SQRT_2PI) * lm.exp (-(1 / 2)))
          + 3 / 5 * (1 / (2 * SQRT_2PI) * lm.exp (-(1 / 2)))) = 4 / 7 ∧
      |(4 : ℚ) / 7 - 5714286 / 10000000| < 1 / 20000000 ∧
      (∀ r1 : GRand, GPGMVariable.sample lm bn.m_heap r1 1
        = .ok () (setVal bn.m_heap 1 (if r1.uniform.1 ≤ 4 / 7 then 0 else 1),
            r1.uniform.2)) ∧
      (∃ bn1, GBayesNet.sample lm bn = .ok () bn1 ∧
        GPGMNode.currentValue bn1.m_heap 1
          = (if bn.m_rand.uniform.1 ≤ 4 / 7 then 0 else 1)) := by
  obtain ⟨bn, hsw, hg, hs⟩ := simpleTest_sweeps lm hE n ((simpleTest exampleRand).withRand r)
    (sameGraph_refl _)
    (show (simpleTest exampleRand).m_sampleNodes = [1, 4] by decide!)
  have hb := simpleTest_sample_parent lm hE bn.m_heap hg
  obtain ⟨bn1, e, _, _, hv⟩ := simpleTest_sweep lm hE bn hg hs
  refine ⟨bn, hsw, hb.1, hb.2.1, hb.2.2.1, ?_, hb.2.2.2, bn1, e, hv⟩
  rw [abs_lt]
  constructor <;> norm_num

/-- Witness of claim C21: the first sweep of `GBayesNet_simpleTest` with the
stand-in exponential, which is 2/3 at -1/2, and the first draw 1/2 leaves
`pPar` at 0. -/
theorem simpleTest_parent_probability_witness :
    exampleLibm.exp (-(1 / 2)) ≠ 0 ∧
    (∃ bn1, GBayesNet.sample exampleLibm ((simpleTest exampleRand).withRand exampleRand)
        = .ok () bn1 ∧ GPGMNode.currentValue bn1.m_heap 1 = 0) := by
  obtain ⟨bn, hsw, _, _, _, _, _, bn1, hs1, hv⟩ :=
    simpleTest_parent_probability exampleLibm (by decide!) exampleRand 0
  have e : bn = (simpleTest exampleRand).withRand exampleRand := by
    simp only [GBayesNet.sweeps, Outcome.ok.injEq, true_and] at hsw
    exact hsw.symm
  subst e
  refine ⟨by decide!, bn1, hs1, ?_⟩
  rw [hv]
  exact if_pos (by decide!)

/-! ### The ceiling of eight weights of `setWeights` -/

/-- Claim C31. On a Categorical with more than 8 categories no call of
`setWeights` returns normally, whatever the row and the weights: a row at or
above `catCount()` throws "out of range" and leaves the heap as it was, and a
row below `catCount()` throws the count error whenever all writes of the call
fall inside the weight table, because at most 8 weights can be given (if a
write falls outside the table, the behaviour is undefined).  The call that
throws the count error has stored the weights given, but no call stores the
entries of a row from the ninth on (for rows and indices without wrap-around in
`size_t`): no row of the table is ever assigned as a whole. -/
theorem setWeights_fails_above_eight (h : Heap) (v : NodeId) (cat : Nat) (pW1 pW2 : NodeId)
    (pW3 pW4 pW5 pW6 pW7 pW8 : Option NodeId) (hk : 8 < (h v).m_categories) :
    (GPGMCategorical.setWeights h v cat pW1 pW2 pW3 pW4 pW5 pW6 pW7 pW8).isOk = false ∧
    (GPGMVariable.catCount h v ≤ cat →
      GPGMCategorical.setWeights h v cat pW1 pW2 pW3 pW4 pW5 pW6 pW7 pW8 = .thrown h) ∧
    (cat < GPGMVariable.catCount h v →
      (∀ j, j < 2 + (leadingNodes [pW3, pW4, pW5, pW6, pW7, pW8]).length →
        (cat * (h v).m_categories + j) % 2 ^ 64 < (h v).m_weights.length) →
      (GPGMCategorical.setWeights h v cat pW1 pW2 pW3 pW4 pW5 pW6 pW7 pW8).isThrown = true) ∧
    (∀ h1, GPGMCategorical.setWeights h v cat pW1 pW2 pW3 pW4 pW5 pW6 pW7 pW8 = .thrown h1 →
      cat * (h v).m_categories + 8 ≤ 2 ^ 64 →
      ∀ c i, 8 ≤ i → i < (h v).m_categories → c * (h v).m_categories + i < 2 ^ 64 →
        (h1 v).m_weights[c * (h v).m_categories + i]?
          = (h v).m_weights[c * (h v).m_categories + i]?) := by
  have hlen : (pW1 :: pW2 :: leadingNodes [pW3, pW4, pW5, pW6, pW7, pW8]).length
      ≠ (h v).m_categories := by
    have := leadingNodes_length_le [pW3, pW4, pW5, pW6, pW7, pW8]
    simp only [List.length_cons, List.length_nil] at this ⊢
    omega
  have hout : GPGMVariable.catCount h v ≤ cat →
      GPGMCategorical.setWeights h v cat pW1 pW2 pW3 pW4 pW5 pW6 pW7 pW8 = .thrown h := by
    intro hc
    unfold GPGMCategorical.setWeights
    rw [if_pos hc]
  refine ⟨?_, hout, ?_, ?_⟩
  · by_cases hc : GPGMVariable.catCount h v ≤ cat
    · rw [hout hc]
      rfl
    · rw [setWeights_eq_writeAll h v cat pW1 pW2 pW3 pW4 pW5 pW6 pW7 pW8 (not_le.mp hc)]
      cases writeAll v (rowWrites (sizeMul cat (h v).m_categories) 0
          (pW1 :: pW2 :: leadingNodes [pW3, pW4, pW5, pW6, pW7, pW8])) h with
      | none => rfl
      | some h1 =>
        simp only
        rw [if_pos hlen]
        rfl
  · intro hc hin
    have hsome := writeAll_isSome v (rowWrites (sizeMul cat (h v).m_categories) 0
      (pW1 :: pW2 :: leadingNodes [pW3, pW4, pW5, pW6, pW7, pW8])) h
    rw [setWeights_eq_writeAll h v cat pW1 pW2 pW3 pW4 pW5 pW6 pW7 pW8 hc]
    cases hw : writeAll v (rowWrites (sizeMul cat (h v).m_categories) 0
        (pW1 :: pW2 :: leadingNodes [pW3, pW4, pW5, pW6, pW7, pW8])) h with
    | none =>
      exfalso
      rw [hw] at hsome
      simp only [Option.isSome_none, Bool.false_eq_true, false_iff] at hsome
      apply hsome
      intro iw hiw
      obtain ⟨i, hi, he⟩ := rowWrites_fst _ _ _ iw hiw
      rw [he, Nat.zero_add, sizeAdd_sizeMul]
      refine hin i ?_
      simp only [List.length_cons] at hi
      omega
    | some h1 =>
      simp only
      rw [if_pos hlen]
      rfl
  · intro h1 hthrown hrow c i hi8 him hci
    by_cases hc : GPGMVariable.catCount h v ≤ cat
    · rw [hout hc] at hthrown
      simp only [Outcome.thrown.injEq] at hthrown
      rw [← hthrown]
    · rw [setWeights_eq_writeAll h v cat pW1 pW2 pW3 pW4 pW5 pW6 pW7 pW8 (not_le.mp hc)]
        at hthrown
      cases hw : writeAll v (rowWrites (sizeMul cat (h v).m_categories) 0
          (pW1 :: pW2 :: leadingNodes [pW3, pW4, pW5, pW6, pW7, pW8])) h with
      | none => rw [hw] at hthrown; simp at hthrown
      | some h2 =>
        rw [hw] at hthrown
        simp only at hthrown
        rw [if_pos hlen] at hthrown
        simp only [Outcome.thrown.injEq] at hthrown
        subst hthrown
        obtain ⟨_, _, _, w4, _, _⟩ := writeAll_wrote v _ h h2 hw
        rw [w4]
        apply foldl_set_getElem?_of_not_mem
        intro hmem
        obtain ⟨iw, hiw, he⟩ := List.mem_map.mp hmem
        obtain ⟨t, ht, hidx⟩ := rowWrites_fst _ _ _ iw hiw
        rw [Nat.zero_add, sizeAdd_sizeMul] at hidx
        have hle := leadingNodes_length_le [pW3, pW4, pW5, pW6, pW7, pW8]
        simp only [List.length_cons, List.length_nil] at hle ht
        have ht8 : t < 8 := by omega
        rw [Nat.mod_eq_of_lt (by omega)] at hidx
        rw [hidx] at he
        rcases Nat.lt_trichotomy c cat with hlt | heq | hgt
        · have := Nat.mul_le_mul_right (h v).m_categories (Nat.succ_le_of_lt hlt)
          rw [Nat.succ_mul] at this
          omega
        · rw [heq] at he
          omega
        · have := Nat.mul_le_mul_right (h v).m_categories (Nat.succ_le_of_lt hgt)
          rw [Nat.succ_mul] at this
          omega

/-- Witness of claim C31: the Categorical of nine categories of
`nineCategories` is given the eight weights that `setWeights` can take, for its
only row; the call throws, and the ninth entry of the row is the default weight
as before. -/
theorem setWeights_fails_above_eight_witness :
    8 < ((nineCategories exampleRand).m_heap 1).m_categories ∧
    (GPGMCategorical.setWeights (nineCategories exampleRand).m_heap 1 0 2 3 (some 4) (some 5)
      (some 6) (some 7) (some 8) (some 9)).isOk = false ∧
    (GPGMCategorical.setWeights (nineCategories exampleRand).m_heap 1 0 2 3 (some 4) (some 5)
      (some 6) (some 7) (some 8) (some 9)).isThrown = true ∧
    (GPGMCategorical.setWeights (nineCategories exampleRand).m_heap 1 0 2 3 (some 4) (some 5)
      (some 6) (some 7) (some 8) (some 9)).state?.map (fun s => (s 1).m_weights)
      = some [2, 3, 4, 5, 6, 7, 8, 9, 0] :=
  ⟨by decide!,
    (setWeights_fails_above_eight (nineCategories exampleRand).m_heap 1 0 2 3 (some 4) (some 5)
      (some 6) (some 7) (some 8) (some 9) (by decide!)).1,
    (setWeights_fails_above_eight (nineCategories exampleRand).m_heap 1 0 2 3 (some 4) (some 5)
      (some 6) (some 7) (some 8) (some 9) (by decide!)).2.2.1 (by decide!) (by decide!),
    by decide!⟩

/-! ### A call of `setWeights` that throws the count error -/

/-- Claim C34, as amended. A call `setWeights(cat, ...)` on a row below
`catCount()` that throws was given a number of leading weights
`ws = [pW1, pW2, ...]` other than `categories`, and the throw comes after the
stores: the call leaves `m_weights[cat * categories + i] = ws[i]` for every
weight given (the index taken in `size_t`), every other entry of the table of
this node and the tables of all other nodes as they were, and this node
appended to the children of every node once for each time the node occurs among
the weights given.  Only the throw for a row at or above `catCount()` leaves
the heap as it was. -/
theorem setWeights_count_error_spec (h : Heap) (v : NodeId) (cat : Nat) (pW1 pW2 : NodeId)
    (pW3 pW4 pW5 pW6 pW7 pW8 : Option NodeId) (h1 : Heap)
    (hcat : cat < GPGMVariable.catCount h v)
    (hthrown :
      GPGMCategorical.setWeights h v cat pW1 pW2 pW3 pW4 pW5 pW6 pW7 pW8 = .thrown h1) :
    (pW1 :: pW2 :: leadingNodes [pW3, pW4, pW5, pW6, pW7, pW8]).length ≠ (h v).m_categories ∧
    (h1 v).m_weights.length = (h v).m_weights.length ∧
    (∀ i (hi : i < (pW1 :: pW2 :: leadingNodes [pW3, pW4, pW5, pW6, pW7, pW8]).length),
      (h1 v).m_weights[(cat * (h v).m_categories + i) % 2 ^ 64]?
        = some ((pW1 :: pW2 :: leadingNodes [pW3, pW4, pW5, pW6, pW7, pW8])[i])) ∧
    (∀ j, (∀ i, i < (pW1 :: pW2 :: leadingNodes [pW3, pW4, pW5, pW6, pW7, pW8]).length →
        j ≠ (cat * (h v).m_categories + i) % 2 ^ 64) →
      (h1 v).m_weights[j]? = (h v).m_weights[j]?) ∧
    (∀ q, q ≠ v → (h1 q).m_weights = (h q).m_weights) ∧
    (∀ q, (h1 q).m_children = (h q).m_children ++ List.replicate
      ((pW1 :: pW2 :: leadingNodes [pW3, pW4, pW5, pW6, pW7, pW8]).count q) v) ∧
    (∀ cat1, GPGMVariable.catCount h v ≤ cat1 →
      GPGMCategorical.setWeights h v cat1 pW1 pW2 pW3 pW4 pW5 pW6 pW7 pW8 = .thrown h) := by
  have hout : ∀ cat1, GPGMVariable.catCount h v ≤ cat1 →
      GPGMCategorical.setWeights h v cat1 pW1 pW2 pW3 pW4 pW5 pW6 pW7 pW8 = .thrown h := by
    intro cat1 hc
    unfold GPGMCategorical.setWeights
    rw [if_pos hc]
  rw [setWeights_eq_writeAll h v cat pW1 pW2 pW3 pW4 pW5 pW6 pW7 pW8 hcat] at hthrown
  cases hw : writeAll v (rowWrites (sizeMul cat (h v).m_categories) 0
      (pW1 :: pW2 :: leadingNodes [pW3, pW4, pW5, pW6, pW7, pW8])) h with
  | none => rw [hw] at hthrown; simp at hthrown
  | some h2 =>
    rw [hw] at hthrown
    simp only at hthrown
    split at hthrown
    · rename_i hk
      simp only [Outcome.thrown.injEq] at hthrown
      subst hthrown
      have hle := leadingNodes_length_le [pW3, pW4, pW5, pW6, pW7, pW8]
      obtain ⟨_, _, w3, w4, w5, w6⟩ := writeAll_wrote v _ h h2 hw
      have hnd := rowWrites_nodup (sizeMul cat (h v).m_categories)
        (pW1 :: pW2 :: leadingNodes [pW3, pW4, pW5, pW6, pW7, pW8]) 0
        (by
          simp only [List.length_cons, List.length_nil] at hle ⊢
          unfold SIZE_MOD
          omega)
      refine ⟨hk, ?_, ?_, ?_, w5, ?_, hout⟩
      · rw [w4, foldl_set_length]
      · intro i hi
        have hm := rowWrites_mem (sizeMul cat (h v).m_categories)
          (pW1 :: pW2 :: leadingNodes [pW3, pW4, pW5, pW6, pW7, pW8]) 0 i hi
        rw [Nat.zero_add, sizeAdd_sizeMul] at hm
        rw [w4]
        refine foldl_set_getElem?_of_mem _ _ _ _ hnd hm ?_
        have := w6 _ hm
        exact this
      · intro j hj
        rw [w4]
        apply foldl_set_getElem?_of_not_mem
        intro hmem
        obtain ⟨iw, hiw, he⟩ := List.mem_map.mp hmem
        obtain ⟨i, hi, hidx⟩ := rowWrites_fst _ _ _ iw hiw
        rw [Nat.zero_add, sizeAdd_sizeMul] at hidx
        exact hj i hi (by rw [← he, hidx])
      · intro q
        rw [w3 q, rowWrites_map_snd]
    · simp at hthrown

/-- Witness of claim C34, as amended: the Categorical of three categories of
`threeCategories` is given two weights for its only row.  The call throws after
it has stored the two weights. -/
theorem setWeights_count_error_spec_witness :
    ∃ h1, GPGMCategorical.setWeights (threeCategories exampleRand).m_heap 1 0 2 3 none
        none none none none none = .thrown h1 ∧
      (h1 1).m_weights[0]? = some 2 ∧ (h1 1).m_weights[1]? = some 3 ∧
      (h1 1).m_weights[2]? = ((threeCategories exampleRand).m_heap 1).m_weights[2]? ∧
      (h1 2).m_children = ((threeCategories exampleRand).m_heap 2).m_children ++ [1] := by
  have hs : ∃ h1, GPGMCategorical.setWeights (threeCategories exampleRand).m_heap 1 0 2 3 none
      none none none none none = .thrown h1 := by
    cases hc : GPGMCategorical.setWeights (threeCategories exampleRand).m_heap 1 0 2 3 none
        none none none none none with
    | thrown s => exact ⟨s, rfl⟩
    | ok a s =>
      have : (GPGMCategorical.setWeights (threeCategories exampleRand).m_heap 1 0 2 3 none
        none none none none none).isThrown = true := by decide!
      rw [hc] at this
      simp [Outcome.isThrown] at this
    | undefined =>
      have : (GPGMCategorical.setWeights (threeCategories exampleRand).m_heap 1 0 2 3 none
        none none none none none).isThrown = true := by decide!
      rw [hc] at this
      simp [Outcome.isThrown] at this
  obtain ⟨h1, e⟩ := hs
  have hspec := setWeights_count_error_spec (threeCategories exampleRand).m_heap 1 0 2 3 none
    none none none none none h1 (by decide!) e
  refine ⟨h1, e, ?_, ?_, ?_, ?_⟩
  · exact hspec.2.2.1 0 (by decide)
  · exact hspec.2.2.1 1 (by decide)
  · exact hspec.2.2.2.1 2 (by
      intro i hi
      simp only [leadingNodes, List.length_cons, List.length_nil] at hi
      have hc : ((threeCategories exampleRand).m_heap 1).m_categories = 3 := by decide!
      rw [hc]
      omega)
  · exact hspec.2.2.2.2.2.1 2

/-- Claim C34 does not hold: the call `setWeights(0, w1, w2)` on the Categorical
of three categories of `threeCategories` (weights at the addresses 2 and 3, row
0 below `catCount() = 1`) throws the count error and leaves a heap in which the
first two entries of the weight table are the new weights instead of the default
one, and in which the Categorical is a child of both weights. -/
theorem setWeights_count_error_not_atomic :
    0 < GPGMVariable.catCount (threeCategories exampleRand).m_heap 1 ∧
    (GPGMCategorical.setWeights (threeCategories exampleRand).m_heap 1 0 2 3 none
      none none none none none).isThrown = true ∧
    ((threeCategories exampleRand).m_heap 1).m_weights = [0, 0, 0] ∧
    (GPGMCategorical.setWeights (threeCategories exampleRand).m_heap 1 0 2 3 none
      none none none none none).state?.map (fun s => (s 1).m_weights) = some [2, 3, 0] ∧
    ((threeCategories exampleRand).m_heap 2).m_children = [] ∧
    (GPGMCategorical.setWeights (threeCategories exampleRand).m_heap 1 0 2 3 none
      none none none none none).state?.map (fun s => (s 2).m_children) = some [1] ∧
    (GPGMCategorical.setWeights (threeCategories exampleRand).m_heap 1 0 2 3 none
      none none none none none).state?.map (fun s => (s 3).m_children) = some [1] := by
  refine ⟨by decide!, by decide!, by decide!, by decide!, by decide!, by decide!, by decide!⟩

/-! ### The children lists -/

theorem assignParam_children (h : Heap) (v : NodeId) (i : Nat) (p : NodeId) (h1 : Heap)
    (e : assignParam h v i p = some h1) (q : NodeId) :
    (h1 q).m_children = (h q).m_children ++ (if q = p then [v] else []) := by
  unfold assignParam vecSet at e
  by_cases hi : i < (h v).m_params.length
  · simp only [hi, if_true, Option.some.injEq] at e
    subst e
    by_cases hqv : q = v
    · subst hqv
      by_cases hqp : q = p
      · subst hqp
        simp [GPGMVariable.onNewChild, Heap.put]
      · have hpq : ¬ p = q := fun e => hqp e.symm
        simp [GPGMVariable.onNewChild, Heap.put, hqp, hpq]
    · by_cases hqp : q = p
      · subst hqp
        simp [GPGMVariable.onNewChild, Heap.put, hqv]
      · simp [GPGMVariable.onNewChild, Heap.put, hqv, hqp]
  · simp [hi] at e

theorem replicate_count_singleton (p q v : NodeId) :
    List.replicate ([p].count q) v = if q = p then [v] else [] := by
  by_cases hqp : q = p
  · subst hqp
    simp
  · have hpq : ¬ p = q := fun e => hqp e.symm
    simp [hqp, hpq]

theorem replicate_count_pair (p1 p2 q v : NodeId) :
    List.replicate ([p1, p2].count q) v
      = (if q = p1 then [v] else []) ++ (if q = p2 then [v] else []) := by
  have e : [p1, p2] = [p1] ++ [p2] := rfl
  rw [e, List.count_append, List.replicate_add, replicate_count_singleton,
    replicate_count_singleton]

/-- A call that returns appends its receiver to the children of every node it
registers, once for each registration. -/
theorem nodeCall_children (c : NodeCall) (h h1 : Heap) (hok : c.run h = .ok () h1)
    (q : NodeId) :
    (h1 q).m_children = (h q).m_children ++ List.replicate (c.registered.count q) c.receiver := by
  cases c with
  | addCatParent v pNode pDefaultVal =>
    simp only [NodeCall.run, GPGMVariable.addCatParent] at hok
    simp only [NodeCall.registered, NodeCall.receiver]
    rw [replicate_count_singleton]
    cases hk : (h v).kind with
    | constant => rw [hk] at hok; simp at hok
    | categorical =>
      rw [hk] at hok
      simp only [Outcome.ok.injEq, true_and] at hok
      subst hok
      rw [(catAddCatParent_frame h v pNode pDefaultVal q).2.2.2.2.1]
      split <;> simp
    | metropolis fam =>
      rw [hk] at hok
      simp only [Outcome.ok.injEq, true_and] at hok
      subst hok
      rw [(paramsAddCatParent_frame fam.slots h v pNode pDefaultVal q).2.2.2.2.1]
      split <;> simp
  | setWeights v cat pW1 pW2 pW3 pW4 pW5 pW6 pW7 pW8 =>
    simp only [NodeCall.run] at hok
    simp only [NodeCall.registered, NodeCall.receiver]
    cases hk : (h v).kind with
    | constant => rw [hk] at hok; simp at hok
    | metropolis fam => rw [hk] at hok; simp at hok
    | categorical =>
      rw [hk] at hok
      simp only at hok
      have hcat : cat < GPGMVariable.catCount h v := by
        by_contra hge
        unfold GPGMCategorical.setWeights at hok
        rw [if_pos (by omega)] at hok
        simp at hok
      rw [setWeights_eq_writeAll h v cat pW1 pW2 pW3 pW4 pW5 pW6 pW7 pW8 hcat] at hok
      cases hw : writeAll v (rowWrites (sizeMul cat (h v).m_categories) 0
          (pW1 :: pW2 :: leadingNodes [pW3, pW4, pW5, pW6, pW7, pW8])) h with
      | none => rw [hw] at hok; simp at hok
      | some h2 =>
        rw [hw] at hok
        simp only at hok
        split at hok
        · simp at hok
        · simp only [Outcome.ok.injEq, true_and] at hok
          subst hok
          obtain ⟨_, _, w3, _⟩ := writeAll_wrote v _ h h2 hw
          rw [w3 q, rowWrites_map_snd]
  | setPair v cat p1 p2 =>
    simp only [NodeCall.run] at hok
    simp only [NodeCall.registered, NodeCall.receiver]
    rw [replicate_count_pair]
    cases hk : (h v).kind with
    | constant => rw [hk] at hok; simp at hok
    | categorical => rw [hk] at hok; simp at hok
    | metropolis fam =>
      rw [hk] at hok
      simp only at hok
      split at hok
      · unfold setParamPair at hok
        split at hok
        · simp at hok
        · simp only at hok
          cases ha : assignParam h v (sizeMul 2 cat) p1 with
          | none => rw [ha] at hok; simp at hok
          | some h2 =>
            rw [ha] at hok
            simp only at hok
            cases hb : assignParam h2 v (sizeAdd (sizeMul 2 cat) 1) p2 with
            | none => rw [hb] at hok; simp at hok
            | some h3 =>
              rw [hb] at hok
              simp only [Outcome.ok.injEq, true_and] at hok
              subst hok
              rw [assignParam_children h2 v _ p2 h3 hb q, assignParam_children h v _ p1 h2 ha q,
                List.append_assoc]
      · simp at hok
  | setSingle v cat pLambda =>
    simp only [NodeCall.run] at hok
    simp only [NodeCall.registered, NodeCall.receiver]
    rw [replicate_count_singleton]
    cases hk : (h v).kind with
    | constant => rw [hk] at hok; simp at hok
    | categorical => rw [hk] at hok; simp at hok
    | metropolis fam =>
      rw [hk] at hok
      simp only at hok
      split at hok
      · unfold setParamSingle at hok
        split at hok
        · simp at hok
        · simp only at hok
          cases ha : assignParam h v (sizeMul 1 cat) pLambda with
          | none => rw [ha] at hok; simp at hok
          | some h2 =>
            rw [ha] at hok
            simp only [Outcome.ok.injEq, true_and] at hok
            subst hok
            exact assignParam_children h v _ pLambda h2 ha q
      · simp at hok
  | setObserved v x =>
    simp only [NodeCall.run, Outcome.ok.injEq, true_and] at hok
    subst hok
    simp only [NodeCall.registered, List.count_nil, List.replicate_zero, List.append_nil]
    unfold GPGMNode.setObserved Heap.put
    split
    · rename_i e
      rw [e]
    · rfl

theorem runCalls_count :
    ∀ (cs : List NodeCall) (h h1 : Heap), runCalls cs h = .ok () h1 → ∀ q v,
      (h1 q).m_children.count v = (h q).m_children.count v + registrations cs q v := by
  intro cs
  induction cs with
  | nil =>
    intro h h1 hok q v
    simp only [runCalls, Outcome.ok.injEq, true_and] at hok
    subst hok
    simp [registrations]
  | cons c rest ih =>
    intro h h1 hok q v
    simp only [runCalls] at hok
    cases hc : c.run h with
    | undefined => rw [hc] at hok; simp at hok
    | thrown s => rw [hc] at hok; simp at hok
    | ok a h2 =>
      rw [hc] at hok
      simp only at hok
      rw [ih h2 h1 hok q v, nodeCall_children c h h2 hc q, List.count_append,
        List.count_replicate]
      simp only [registrations, List.map_cons, List.sum_cons]
      by_cases e : c.receiver = v
      · simp [e]
        omega
      · have e1 : ¬ (c.receiver == v) = true := by simpa using e
        simp [e, e1]

/-- Claim C39, as amended. After a sequence of calls of `addCatParent`, the
setters and `setObserved` that all return, a node `v` occurs in the children
list of a node `q` once more for each time a call on `v` has registered `q`
(as a new parent, a weight given or a parameter): `onNewChild` appends without
looking at the list.  A children list that was empty is therefore free of
repetitions exactly when no child has registered the node more than once.  For
a single call, its receiver is appended to the children list of every node once
for each registration. -/
theorem children_registered_spec (cs : List NodeCall) (h h1 : Heap)
    (hok : runCalls cs h = .ok () h1) (q : NodeId) :
    (∀ v, (h1 q).m_children.count v = (h q).m_children.count v + registrations cs q v) ∧
    ((h q).m_children = [] →
      ((h1 q).m_children.Nodup ↔ ∀ v, registrations cs q v ≤ 1)) ∧
    (∀ (c : NodeCall) (g g1 : Heap), c.run g = .ok () g1 → ∀ p,
      (g1 p).m_children
        = (g p).m_children ++ List.replicate (c.registered.count p) c.receiver) := by
  refine ⟨runCalls_count cs h h1 hok q, ?_, fun c g g1 hc p => nodeCall_children c g g1 hc p⟩
  intro hempty
  rw [List.nodup_iff_count_le_one]
  constructor
  · intro hn v
    have := hn v
    rw [runCalls_count cs h h1 hok q v, hempty] at this
    simpa using this
  · intro hn v
    rw [runCalls_count cs h h1 hok q v, hempty]
    simpa using hn v

/-- Witness of claim C39, as amended: the three weights at the addresses 2, 3
and 4 are given to the Categorical of `threeCategories`, which becomes the only
child of the first of them. -/
theorem children_registered_spec_witness :
    ∃ h1, runCalls [.setWeights 1 0 2 3 (some 4) none none none none none]
        (threeCategories exampleRand).m_heap = .ok () h1 ∧
      (h1 2).m_children.count 1 = 1 ∧ (h1 2).m_children.Nodup :=
  ⟨_, outcome_eq_ok_of_isOk _ (threeCategories exampleRand).m_heap (by decide!),
    ((children_registered_spec [.setWeights 1 0 2 3 (some 4) none none none none none]
      (threeCategories exampleRand).m_heap _
      (outcome_eq_ok_of_isOk _ (threeCategories exampleRand).m_heap (by decide!)) 2).1 1).trans
      (by decide!),
    ((children_registered_spec [.setWeights 1 0 2 3 (some 4) none none none none none]
      (threeCategories exampleRand).m_heap _
      (outcome_eq_ok_of_isOk _ (threeCategories exampleRand).m_heap (by decide!)) 2).2.1
      (by decide!)).mpr (fun v => by
        by_cases e : v = 1
        · subst e
          decide
        · have e1 : ¬ (1 : NodeId) = v := fun x => e x.symm
          simp [registrations, NodeCall.receiver, e1])⟩

/-- Claim C39 does not hold: after `p2->setMeanAndDev(0, p1, p1)` on the two
Normal variables of `sharedParameter`, a call that returns, the children list
of `p1` is `[p2, p2]`.  Then `gibbs` of `p1` adds the logarithm of the
likelihood of `p2` twice: with the stand-ins of `exampleLibm` the sum is the
logarithm of the own likelihood and twice the logarithm of the likelihood of
the child. -/
theorem children_list_repeats_child :
    (runCalls [.setPair 2 0 1 1] (normalChain exampleRand).m_heap).isOk = true ∧
    (runCalls [.setPair 2 0 1 1] (normalChain exampleRand).m_heap).state?.map
      (fun s => (s 1).m_children) = some [2, 2, 2] ∧
    ((sharedParameter exampleRand).m_heap 1).m_children = [2, 2] ∧
    ¬ ((sharedParameter exampleRand).m_heap 1).m_children.Nodup ∧
    GPGMVariable.likelihood exampleLibm (sharedParameter exampleRand).m_heap 1 1
      = .ok (100000000000 / 250662827463) ∧
    GPGMVariable.likelihood exampleLibm (sharedParameter exampleRand).m_heap 2 0
      = .ok (200000000000 / 751988482389) ∧
    (GPGMMetropolisNode.gibbs exampleLibm (sharedParameter exampleRand).m_heap 1 1).value?
      = some (exampleLibm.log (100000000000 / 250662827463)
        + exampleLibm.log (200000000000 / 751988482389)
        + exampleLibm.log (200000000000 / 751988482389)) := by
  refine ⟨by decide!, by decide!, by decide!, by decide!, by decide!, by decide!, by decide!⟩

/-! ### The row index stays inside the tables -/

/-- The loop of `currentCatIndex` without wrap-around: started below the
multiplier, it returns an index below the multiplier times the product of the
remaining numbers of categories. -/
theorem currentCatIndexLoop_lt (h : Heap) (val : NodeId → Nat) :
    ∀ (ps : List NodeId) (mult ind : Nat),
      (∀ p ∈ ps, 0 < GPGMCategorical.categories h p) →
      (∀ p ∈ ps, GPGMNode.currentValue h p = (val p : ℚ) ∧
        val p < GPGMCategorical.categories h p) →
      ind < mult →
      mult * (ps.map (GPGMCategorical.categories h)).prod < 2 ^ 64 →
      ∃ r, GPGMVariable.currentCatIndexLoop h ps mult ind = .ok r ∧
        r < mult * (ps.map (GPGMCategorical.categories h)).prod := by
  intro ps
  induction ps with
  | nil =>
    intro mult ind _ _ hlt _
    exact ⟨ind, rfl, by simpa using hlt⟩
  | cons p rest ih =>
    intro mult ind hcat hval hlt hprod
    have hc := hcat p (List.mem_cons_self _ _)
    obtain ⟨hv, hk⟩ := hval p (List.mem_cons_self _ _)
    have hrest : 0 < (rest.map (GPGMCategorical.categories h)).prod := by
      apply List.prod_pos
      intro a ha
      obtain ⟨q, hq, e⟩ := List.mem_map.mp ha
      rw [← e]
      exact hcat q (List.mem_cons_of_mem _ hq)
    simp only [List.map_cons, List.prod_cons] at hprod ⊢
    have h1 : mult * GPGMCategorical.categories h p
        ≤ mult * (GPGMCategorical.categories h p
          * (rest.map (GPGMCategorical.categories h)).prod) := by
      apply Nat.mul_le_mul_left
      exact Nat.le_mul_of_pos_right _ hrest
    have hmc : mult * GPGMCategorical.categories h p < 2 ^ 64 := lt_of_le_of_lt h1 hprod
    have hk1 : mult * (val p + 1) ≤ mult * GPGMCategorical.categories h p :=
      Nat.mul_le_mul_left _ hk
    have hmk : mult * val p < 2 ^ 64 := by
      have : mult * val p ≤ mult * (val p + 1) := Nat.mul_le_mul_left _ (Nat.le_succ _)
      omega
    have hkk : val p < 2 ^ 64 := by
      have : val p ≤ mult * val p := Nat.le_mul_of_pos_left _ (by omega)
      omega
    have hsum : ind + mult * val p < mult * GPGMCategorical.categories h p := by
      have : mult * (val p + 1) = mult * val p + mult := by ring
      omega
    unfold GPGMVariable.currentCatIndexLoop
    rw [hv, toSize_natCast _ hkk]
    simp only
    rw [if_neg (by omega)]
    have e1 : sizeMul mult (GPGMCategorical.categories h p)
        = mult * GPGMCategorical.categories h p := by
      unfold sizeMul SIZE_MOD
      exact Nat.mod_eq_of_lt hmc
    have e2 : sizeAdd ind (sizeMul mult (val p)) = ind + mult * val p := by
      unfold sizeAdd sizeMul SIZE_MOD
      rw [Nat.mod_eq_of_lt hmk]
      exact Nat.mod_eq_of_lt (by omega)
    rw [e1, e2]
    obtain ⟨r, hr, hlt2⟩ := ih (mult * GPGMCategorical.categories h p) (ind + mult * val p)
      (fun q hq => hcat q (List.mem_cons_of_mem _ hq))
      (fun q hq => hval q (List.mem_cons_of_mem _ hq)) hsum
      (by rw [Nat.mul_assoc]; exact hprod)
    exact ⟨r, hr, by rw [← Nat.mul_assoc]; exact hlt2⟩

theorem catCount_of_prod_lt (h : Heap) (v : NodeId)
    (hprod : ((h v).m_catParents.map (GPGMCategorical.categories h)).prod < 2 ^ 64) :
    GPGMVariable.catCount h v
      = ((h v).m_catParents.map (GPGMCategorical.categories h)).prod := by
  have hm := foldl_sizeMul_modEq (GPGMCategorical.categories h) (h v).m_catParents 1
  have hl := foldl_sizeMul_lt (GPGMCategorical.categories h) (h v).m_catParents 1
    (by unfold SIZE_MOD; omega)
  rw [Nat.one_mul] at hm
  unfold GPGMVariable.catCount
  exact Nat.ModEq.eq_of_lt_of_lt hm hl (by unfold SIZE_MOD; exact hprod)

/-- Where no `size_t` product wraps around, the index is in range. For a
variable whose categorical parents have at
least 2 categories each (as the constructor of `GPGMCategorical` ensures) and
hold integer values `val p` in `[0, categories)`, and for which the product of
the parents' numbers of categories is below `2 ^ 64`, `currentCatIndex()`
returns (it neither throws nor is undefined) an index below `catCount()`; and
if the weight table has `categories * catCount()` entries, a product below
`2 ^ 64` as well, every index `categories * currentCatIndex() + i` with
`i < categories` is inside the table. -/
theorem currentCatIndex_in_range (h : Heap) (v : NodeId) (val : NodeId → Nat)
    (hcat : ∀ p ∈ (h v).m_catParents, 2 ≤ (h p).m_categories)
    (hval : ∀ p ∈ (h v).m_catParents,
      GPGMNode.currentValue h p = (val p : ℚ) ∧ val p < (h p).m_categories)
    (hprod : ((h v).m_catParents.map (GPGMCategorical.categories h)).prod < 2 ^ 64) :
    ∃ ind, GPGMVariable.currentCatIndex h v = .ok ind ∧ ind < GPGMVariable.catCount h v ∧
      ((h v).m_weights.length = sizeMul (h v).m_categories (GPGMVariable.catCount h v) →
        (h v).m_categories * GPGMVariable.catCount h v < 2 ^ 64 →
        ∀ i, i < (h v).m_categories →
          sizeAdd (sizeMul (h v).m_categories ind) i < (h v).m_weights.length ∧
          ∃ w, vecAt (h v).m_weights (sizeAdd (sizeMul (h v).m_categories ind) i) = .ok w) := by
  obtain ⟨ind, hind, hlt⟩ := currentCatIndexLoop_lt h val (h v).m_catParents 1 0
    (fun p hp => by
      have := hcat p hp
      unfold GPGMCategorical.categories
      omega)
    hval (by omega) (by rw [Nat.one_mul]; exact hprod)
  rw [Nat.one_mul, ← catCount_of_prod_lt h v hprod] at hlt
  refine ⟨ind, hind, hlt, ?_⟩
  intro hlen hsize i hi
  have hle : (h v).m_categories * (ind + 1) ≤ (h v).m_categories * GPGMVariable.catCount h v :=
    Nat.mul_le_mul_left _ hlt
  have hexp : (h v).m_categories * (ind + 1) = (h v).m_categories * ind + (h v).m_categories := by
    ring
  have e1 : sizeAdd (sizeMul (h v).m_categories ind) i = (h v).m_categories * ind + i := by
    rw [sizeAdd_sizeMul]
    exact Nat.mod_eq_of_lt (by omega)
  have e2 : sizeMul (h v).m_categories (GPGMVariable.catCount h v)
      = (h v).m_categories * GPGMVariable.catCount h v := by
    unfold sizeMul SIZE_MOD
    exact Nat.mod_eq_of_lt hsize
  have hin : sizeAdd (sizeMul (h v).m_categories ind) i < (h v).m_weights.length := by
    rw [e1, hlen, e2]
    omega
  exact ⟨hin, _, vecAt_of_lt _ _ hin⟩

/-- An instance of `currentCatIndex_in_range`: `pAlarm` of `GBayesNet_alarmTest`, whose
parents `pBurglary` and `pEarthquake` have two categories each and the value
0.  The row index is below `catCount() = 4`, and the second weight of the row
is inside the table of 8 weights. -/
theorem currentCatIndex_in_range_witness :
    ∃ ind, GPGMVariable.currentCatIndex (alarmTest exampleRand).m_heap 7 = .ok ind ∧
      ind < GPGMVariable.catCount (alarmTest exampleRand).m_heap 7 ∧
      sizeAdd (sizeMul ((alarmTest exampleRand).m_heap 7).m_categories ind) 1
        < ((alarmTest exampleRand).m_heap 7).m_weights.length :=
  (currentCatIndex_in_range (alarmTest exampleRand).m_heap 7 (fun _ => 0)
    (by decide!) (by decide!) (by decide!)).imp
    (fun _ hw => ⟨hw.1, hw.2.1, (hw.2.2 (by decide!) (by decide!) 1 (by decide!)).1⟩)

theorem vecAt_of_length_le {α : Type} (l : List α) (i : Nat) (hi : l.length ≤ i) :
    vecAt l i = .undefined := by
  unfold vecAt
  rw [List.getElem?_eq_none_iff.mpr hi]

theorem sumWeight_undefined (h : Heap) (v : NodeId) (base : Nat)
    (hvec : vecAt (h v).m_weights (sizeAdd base 0) = .undefined) :
    ∀ n, GPGMCategorical.sumWeight h v base (n + 1) = .undefined := by
  intro n
  induction n with
  | zero => simp only [GPGMCategorical.sumWeight, hvec]
  | succ n ih =>
    rw [GPGMCategorical.sumWeight, ih]

/-- The likelihood of a Categorical whose current row starts outside of the
weight table is not defined. -/
theorem likelihood_undefined_of_row (h : Heap) (v : NodeId) (ind : Nat) (x : ℚ)
    (hind : GPGMVariable.currentCatIndex h v = .ok ind) (hk : 0 < (h v).m_categories)
    (hvec : vecAt (h v).m_weights (sizeAdd (sizeMul (h v).m_categories ind) 0) = .undefined) :
    GPGMCategorical.likelihood h v x = .undefined := by
  obtain ⟨k, e⟩ : ∃ k, (h v).m_categories = k + 1 := ⟨(h v).m_categories - 1, by omega⟩
  unfold GPGMCategorical.likelihood
  rw [hind]
  show (GPGMCategorical.sumWeight h v (sizeMul (h v).m_categories ind) (h v).m_categories).bind _
    = Res.undefined
  have hs := sumWeight_undefined h v _ hvec k
  rw [← e] at hs
  rw [hs]
  rfl

/-! ### The category selected at the boundary of the uniform draw -/

/-- The category that `sample` selects, for a Categorical that is not a weight
of its own row. -/
theorem catSample_isSelected (lm : Libm) (h : Heap) (r : GRand) (v : NodeId) (ind : Nat)
    (p : Nat → ℚ)
    (hobs : (h v).m_observed = false)
    (hk : 0 < (h v).m_categories)
    (hind : GPGMVariable.currentCatIndex h v = .ok ind)
    (hp : ∀ i, i < (h v).m_categories →
      GPGMCategorical.catProb lm h v (sizeMul (h v).m_categories ind) i = .ok (p i))
    (hself : ∀ i, i < (h v).m_categories →
      vecAt (h v).m_weights (sizeAdd (sizeMul (h v).m_categories ind) i) ≠ .ok v) :
    ∃ sel : Nat, GPGMCategorical.sample lm h r v = .ok () (setVal h v sel, r.uniform.2) ∧
      IsSelected p (∑ i in Finset.range (h v).m_categories, p i) r.uniform.1
        (h v).m_categories sel := by
  have hp2 : ∀ (a : ℚ) (j : Nat), j < (h v).m_categories →
      GPGMCategorical.catProb lm (setVal h v a) v (sizeMul (h v).m_categories ind) j
        = .ok (p j) := by
    intro a j hj
    rw [catProb_setVal lm h v _ j a (hself j hj)]
    exact hp j hj
  unfold GPGMCategorical.sample
  rw [hobs, hind]
  simp only [Bool.false_eq_true, if_false]
  rw [sumProb_eq_sum lm h v _ p _ hp]
  simp only
  obtain ⟨k, hkk⟩ : ∃ k, (h v).m_categories = k + 1 := ⟨(h v).m_categories - 1, by omega⟩
  generalize hS : (∑ i in Finset.range (h v).m_categories, p i) = S
  rw [hkk] at hp hp2 ⊢
  unfold GPGMCategorical.pick
  rw [hp 0 (by omega)]
  simp only
  rw [← cumulative_zero]
  by_cases hu : cumulative p S 0 ≥ r.uniform.1
  · rw [if_pos hu]
    exact ⟨0, by simp, Or.inl ⟨by omega, hu, fun j hj => absurd hj (Nat.not_lt_zero j)⟩⟩
  · rw [if_neg hu]
    obtain ⟨sel, hs, hsel⟩ := pick_from lm h v _ S r.uniform.1 p (k + 1) hp2 k 0 (by omega)
      (fun j hj => by
        have e : j = 0 := by omega
        rw [e]
        exact not_le.mp hu)
    refine ⟨sel, ?_, hsel⟩
    rw [hs]

theorem cumulative_last (p : Nat → ℚ) (S : ℚ) (k : Nat)
    (hS : ∑ i in Finset.range (k + 1), p i = S) (h0 : S ≠ 0) : cumulative p S k = 1 := by
  unfold cumulative
  rw [← Finset.sum_div, hS, div_self h0]

/-- Claim C33. For an unobserved Categorical that is not a weight of its own
row, with Markov-blanket probabilities `p_i ≥ 0` of positive sum: a draw `u`
with `0 < u ≤ 1` never selects a category of probability 0, but a draw
`u ≤ 0`, as the draw 0 of a uniform source on `[0, 1)`, always selects the
category 0, whatever its probability, because the second loop stops at
`sumProb2 >= uni`. -/
theorem categorical_sample_zero_draw (lm : Libm) (h : Heap) (r : GRand) (v : NodeId)
    (ind : Nat) (p : Nat → ℚ)
    (hobs : (h v).m_observed = false)
    (hk : 0 < (h v).m_categories)
    (hind : GPGMVariable.currentCatIndex h v = .ok ind)
    (hp : ∀ i, i < (h v).m_categories →
      GPGMCategorical.catProb lm h v (sizeMul (h v).m_categories ind) i = .ok (p i))
    (hself : ∀ i, i < (h v).m_categories →
      vecAt (h v).m_weights (sizeAdd (sizeMul (h v).m_categories ind) i) ≠ .ok v)
    (hnn : ∀ i, i < (h v).m_categories → 0 ≤ p i)
    (hS : 0 < ∑ i in Finset.range (h v).m_categories, p i) :
    (0 < r.uniform.1 → r.uniform.1 ≤ 1 →
      ∃ sel : Nat, GPGMCategorical.sample lm h r v = .ok () (setVal h v sel, r.uniform.2) ∧
        sel < (h v).m_categories ∧ 0 < p sel) ∧
    (r.uniform.1 ≤ 0 →
      GPGMCategorical.sample lm h r v = .ok () (setVal h v (0 : Nat), r.uniform.2)) := by
  obtain ⟨sel, hs, hsel⟩ := catSample_isSelected lm h r v ind p hobs hk hind hp hself
  obtain ⟨k, hkk⟩ : ∃ k, (h v).m_categories = k + 1 := ⟨(h v).m_categories - 1, by omega⟩
  generalize hSe : (∑ i in Finset.range (h v).m_categories, p i) = S at hS hsel
  have hlast : cumulative p S k = 1 := by
    apply cumulative_last
    · rw [← hkk]; exact hSe
    · exact ne_of_gt hS
  constructor
  · intro hu0 hu1
    refine ⟨sel, hs, ?_⟩
    rcases hsel with ⟨hlt, hge, hbefore⟩ | ⟨hend, hall⟩
    · refine ⟨hlt, ?_⟩
      cases sel with
      | zero =>
        rw [cumulative_zero, zero_add] at hge
        have : 0 < p 0 / S := lt_of_lt_of_le hu0 hge
        exact (div_pos_iff_of_pos_right hS).mp this
      | succ s =>
        rw [cumulative_succ] at hge
        have hb := hbefore s (Nat.lt_succ_self s)
        have : 0 < p (s + 1) / S := by linarith
        exact (div_pos_iff_of_pos_right hS).mp this
    · exfalso
      have := hall k (by omega)
      rw [hlast] at this
      linarith
  · intro hu
    rcases hsel with ⟨_, hge, hbefore⟩ | ⟨hend, hall⟩
    · cases sel with
      | zero => exact hs
      | succ s =>
        exfalso
        have hb := hbefore 0 (Nat.succ_pos s)
        rw [cumulative_zero, zero_add] at hb
        have h0 : 0 ≤ p 0 / S := div_nonneg (hnn 0 hk) (le_of_lt hS)
        linarith
    · exfalso
      have := hall k (by omega)
      rw [hlast] at this
      linarith

/-- Witness of claim C33, the failing input: the Categorical of `zeroFirst`,
whose first category has the weight 0, has the value 1 and draws 0; `sample`
returns with the value 0, the category of probability 0. -/
theorem categorical_sample_zero_draw_witness :
    GPGMCategorical.catProb exampleLibm (setVal (zeroFirst exampleRand).m_heap 1 1) 1 0 0
      = .ok 0 ∧
    zeroRand.uniform.1 = 0 ∧
    GPGMCategorical.sample exampleLibm (setVal (zeroFirst exampleRand).m_heap 1 1) zeroRand 1
      = .ok () (setVal (setVal (zeroFirst exampleRand).m_heap 1 1) 1 (0 : Nat),
        zeroRand.uniform.2) ∧
    (GPGMCategorical.sample exampleLibm (setVal (zeroFirst exampleRand).m_heap 1 1) zeroRand
      1).state?.map (fun s => (s.1 1).m_val) = some 0 :=
  ⟨by decide!, by decide!,
    (categorical_sample_zero_draw exampleLibm (setVal (zeroFirst exampleRand).m_heap 1 1)
      zeroRand 1 0 (fun i => ([0, 1] : List ℚ).getD i 0)
      (by decide!) (by decide!) (by decide!) (by decide!) (by decide!) (by decide!)
      (by decide!)).2 (by decide!),
    by decide!⟩

/-! ### The steps of the sample paths, node by node -/

/-- The second loop of `GPGMCategorical::sample`, when it returns, leaves the
heap it started with, if there is no category left, or has set `m_val` to one of
the categories it went through. -/
theorem pick_ok (lm : Libm) (v : NodeId) (base : Nat) (sumProb uni : ℚ) :
    ∀ (remaining i : Nat) (h : Heap) (sumProb2 : ℚ) (s : Heap),
      GPGMCategorical.pick lm v base sumProb uni remaining i h sumProb2 = .ok () s →
      (remaining = 0 ∧ s = h) ∨
      ∃ j : Nat, i ≤ j ∧ j < i + remaining ∧ s = setVal h v (j : ℚ) := by
  intro remaining
  induction remaining with
  | zero =>
    intro i h sumProb2 s hs
    simp only [GPGMCategorical.pick, Outcome.ok.injEq, true_and] at hs
    exact Or.inl ⟨rfl, hs.symm⟩
  | succ k ih =>
    intro i h sumProb2 s hs
    right
    unfold GPGMCategorical.pick at hs
    cases hc : GPGMCategorical.catProb lm h v base i with
    | thrown => rw [hc] at hs; simp at hs
    | undefined => rw [hc] at hs; simp at hs
    | ok catProb =>
      rw [hc] at hs
      simp only at hs
      split at hs
      · simp only [Outcome.ok.injEq, true_and] at hs
        exact ⟨i, le_refl _, by omega, hs.symm⟩
      · rcases ih (i + 1) _ _ s hs with ⟨hk, e⟩ | ⟨j, hj1, hj2, e⟩
        · exact ⟨i, le_refl _, by omega, e⟩
        · refine ⟨j, by omega, by omega, ?_⟩
          rw [e, setVal_setVal]

/-- A call of `GPGMCategorical::sample` that returns leaves the heap as it was
or has set `m_val` of its node to one of the categories of the node. -/
theorem catSample_ok (lm : Libm) (h : Heap) (r : GRand) (v : NodeId) (s : Heap × GRand)
    (hs : GPGMCategorical.sample lm h r v = .ok () s) :
    s.1 = h ∨
    ((h v).m_observed = false ∧
      ∃ j : Nat, j < (h v).m_categories ∧ s.1 = setVal h v (j : ℚ)) := by
  unfold GPGMCategorical.sample at hs
  cases hobs : (h v).m_observed with
  | true =>
    rw [hobs] at hs
    simp only [if_true, Outcome.ok.injEq, true_and] at hs
    exact Or.inl (by rw [← hs])
  | false =>
    rw [hobs] at hs
    simp only [Bool.false_eq_true, if_false] at hs
    cases hi : GPGMVariable.currentCatIndex h v with
    | thrown => rw [hi] at hs; simp at hs
    | undefined => rw [hi] at hs; simp at hs
    | ok ind =>
      rw [hi] at hs
      simp only at hs
      cases hp : GPGMCategorical.sumProb lm h v (sizeMul (h v).m_categories ind)
          (h v).m_categories with
      | thrown s1 => rw [hp] at hs; simp at hs
      | undefined => rw [hp] at hs; simp at hs
      | ok sumProb s1 =>
        rw [hp] at hs
        simp only at hs
        cases hq : GPGMCategorical.pick lm v (sizeMul (h v).m_categories ind) sumProb
            r.uniform.1 (h v).m_categories 0 h 0 with
        | thrown s2 => rw [hq] at hs; simp at hs
        | undefined => rw [hq] at hs; simp at hs
        | ok u s2 =>
          rw [hq] at hs
          simp only [Outcome.ok.injEq, true_and] at hs
          rcases pick_ok lm v _ _ _ _ _ _ _ _ hq with ⟨_, e⟩ | ⟨j, _, hj, e⟩
          · exact Or.inl (by rw [← hs, e])
          · exact Or.inr ⟨rfl, j, by omega, by rw [← hs, e]⟩

/-- A proposal that `metropolis` accepts differs from the current mean. -/
theorem metropolis_accepted_ne (lm : Libm) (h : Heap) (r : GRand) (v : NodeId)
    (h0 : Heap) (r1 : GRand)
    (hm : GPGMMetropolisNode.metropolis lm h r v = .ok true (h0, r1)) :
    GPGMMetropolisNode.candidate (h v) r.normal.1 ≠ (h v).m_currentMean := by
  intro hc
  rw [metropolis_of_candidate_eq lm h r v hc] at hm
  simp at hm

/-- A call `p->sample(pRand)` that returns has changed no node but `p`, and `p`
by a step of `SampleStep`. -/
theorem sample_step (lm : Libm) (h : Heap) (r : GRand) (p : NodeId) (s : Heap × GRand)
    (hs : GPGMVariable.sample lm h r p = .ok () s) :
    (∀ q, q ≠ p → s.1 q = h q) ∧ SampleStep lm (h p) (s.1 p) := by
  unfold GPGMVariable.sample at hs
  cases hk : (h p).kind with
  | constant =>
    rw [hk] at hs
    simp only [Outcome.ok.injEq, true_and] at hs
    rw [← hs]
    exact ⟨fun _ _ => rfl, Or.inl rfl⟩
  | categorical =>
    rw [hk] at hs
    simp only at hs
    rcases catSample_ok lm h r p s hs with e | ⟨hobs, j, hj, e⟩
    · rw [e]
      exact ⟨fun _ _ => rfl, Or.inl rfl⟩
    · rw [e]
      refine ⟨fun q hq => ?_, Or.inr (Or.inl ⟨hk, hobs, j, hj, ?_⟩)⟩
      · unfold setVal
        exact heap_put_other _ _ _ _ hq
      · unfold setVal
        exact heap_put_same _ _ _
  | metropolis fam =>
    rw [hk] at hs
    simp only at hs
    cases hm : GPGMMetropolisNode.metropolis lm h r p with
    | thrown s1 =>
      unfold GPGMMetropolisNode.sample at hs
      rw [hm] at hs
      simp at hs
    | undefined =>
      unfold GPGMMetropolisNode.sample at hs
      rw [hm] at hs
      simp at hs
    | ok acc s1 =>
      obtain ⟨h0, r1⟩ := s1
      obtain ⟨h1, e, hother, hnode, _⟩ := metropolisSample_node lm h r p acc h0 r1 hm
      rw [e] at hs
      simp only [Outcome.ok.injEq, true_and] at hs
      rw [← hs]
      refine ⟨hother, Or.inr (Or.inr ⟨⟨fam, hk⟩, ?_⟩)⟩
      change h1 p = GPGMMetropolisNode.accumulate (h p) ∨
        ∃ z : ℚ, GPGMMetropolisNode.candidate (h p) z ≠ (h p).m_currentMean ∧
          h1 p = GPGMMetropolisNode.accumulate (GPGMMetropolisNode.onAccepted lm
            { h p with m_currentMean := GPGMMetropolisNode.candidate (h p) z })
      rw [hnode]
      cases acc with
      | false =>
        rcases metropolis_ok_heap lm h r p false h0 r1 hm with ⟨_, e0⟩ | ⟨ha, _⟩
        · left
          rw [e0]
          simp
        · simp at ha
      | true =>
        rcases metropolis_ok_heap lm h r p true h0 r1 hm with ⟨ha, _⟩ | ⟨_, e0⟩
        · simp at ha
        · right
          refine ⟨r.normal.1, metropolis_accepted_ne lm h r p h0 r1 hm, ?_⟩
          rw [e0, heap_put_same]
          simp

/-- A property of the record of a node that every step of `SampleStep` keeps
holds after every sequence of calls of `sample` that return. -/
theorem sampleAll_invariant (lm : Libm) (I : GPGMNode → Prop)
    (hI : ∀ n n1, I n → SampleStep lm n n1 → I n1) :
    ∀ (ps : List NodeId) (h : Heap) (r : GRand) (s : Heap × GRand),
      sampleAll lm ps h r = .ok () s → ∀ q, I (h q) → I (s.1 q) := by
  intro ps
  induction ps with
  | nil =>
    intro h r s hs q hq
    simp only [sampleAll, Outcome.ok.injEq, true_and] at hs
    rw [← hs]
    exact hq
  | cons p rest ih =>
    intro h r s hs q hq
    unfold sampleAll at hs
    cases hp : GPGMVariable.sample lm h r p with
    | thrown s1 => rw [hp] at hs; simp at hs
    | undefined => rw [hp] at hs; simp at hs
    | ok u s1 =>
      obtain ⟨h1, r1⟩ := s1
      rw [hp] at hs
      simp only at hs
      obtain ⟨hother, hstep⟩ := sample_step lm h r p (h1, r1) hp
      refine ih h1 r1 s hs q ?_
      by_cases e : q = p
      · rw [e]
        rw [e] at hq
        exact hI _ _ hq hstep
      · rw [show h1 q = h q from hother q e]
        exact hq

/-- A property of the record of a node that every step of `SampleStep` keeps
holds after every number of sweeps that return. -/
theorem sweeps_invariant (lm : Libm) (I : GPGMNode → Prop)
    (hI : ∀ n n1, I n → SampleStep lm n n1 → I n1) :
    ∀ (k : Nat) (bn bn1 : GBayesNet),
      GBayesNet.sweeps lm k bn = .ok () bn1 → ∀ q, I (bn.m_heap q) → I (bn1.m_heap q) := by
  intro k
  induction k with
  | zero =>
    intro bn bn1 hs q hq
    simp only [GBayesNet.sweeps, Outcome.ok.injEq, true_and] at hs
    rw [← hs]
    exact hq
  | succ k ih =>
    intro bn bn1 hs q hq
    unfold GBayesNet.sweeps at hs
    unfold GBayesNet.sample at hs
    cases ha : sampleAll lm bn.m_sampleNodes bn.m_heap bn.m_rand with
    | thrown s1 => rw [ha] at hs; simp at hs
    | undefined => rw [ha] at hs; simp at hs
    | ok u s1 =>
      obtain ⟨h1, r1⟩ := s1
      rw [ha] at hs
      simp only at hs
      exact ih _ _ hs q (sampleAll_invariant lm I hI _ _ _ (h1, r1) ha q hq)

/-! ### The value of a Categorical stays one of its categories -/

theorem accumulate_frame (n : GPGMNode) :
    (GPGMMetropolisNode.accumulate n).m_val = n.m_val ∧
    (GPGMMetropolisNode.accumulate n).m_categories = n.m_categories ∧
    (GPGMMetropolisNode.accumulate n).kind = n.kind := by
  unfold GPGMMetropolisNode.accumulate
  split <;> exact ⟨rfl, rfl, rfl⟩

theorem onAccepted_frame (lm : Libm) (n : GPGMNode) :
    (GPGMMetropolisNode.onAccepted lm n).m_val = n.m_val ∧
    (GPGMMetropolisNode.onAccepted lm n).m_categories = n.m_categories ∧
    (GPGMMetropolisNode.onAccepted lm n).kind = n.kind := by
  unfold GPGMMetropolisNode.onAccepted
  split <;> exact ⟨rfl, rfl, rfl⟩

/-- A step of `sample` keeps the number of categories, and keeps the value
among the categories. -/
theorem sampleStep_value (lm : Libm) (n n1 : GPGMNode)
    (hv : ∃ i : Nat, n.m_val = (i : ℚ) ∧ i < n.m_categories) (hstep : SampleStep lm n n1) :
    ∃ i : Nat, n1.m_val = (i : ℚ) ∧ i < n1.m_categories := by
  rcases hstep with e | ⟨_, _, i, hi, e⟩ | ⟨_, e | ⟨z, _, e⟩⟩
  · rw [e]
    exact hv
  · rw [e]
    exact ⟨i, rfl, hi⟩
  · rw [e, (accumulate_frame n).1, (accumulate_frame n).2.1]
    exact hv
  · rw [e, (accumulate_frame _).1, (accumulate_frame _).2.1, (onAccepted_frame lm _).1,
      (onAccepted_frame lm _).2.1]
    exact hv

/-- Claim C36. The constructor of `GPGMCategorical` stores the value 0 in a node
with at least two categories, and a node whose value is one of its categories
has a value that is one of its categories after every sequence of calls of
`sample`, on this node or on others, that return, and after every number of
sweeps that return.  A call of `GPGMCategorical::sample` that returns changes
no node but its own, and of its own node nothing but `m_val`: an observed node
is left as it is without a draw, an unobserved one takes one draw and stores
one of its categories. -/
theorem categorical_value_in_range (lm : Libm) (ps : List NodeId) (h : Heap) (r : GRand)
    (s : Heap × GRand) (v : NodeId)
    (hv : ∃ i : Nat, (h v).m_val = (i : ℚ) ∧ i < (h v).m_categories)
    (hs : sampleAll lm ps h r = .ok () s) :
    (∃ i : Nat, (s.1 v).m_val = (i : ℚ) ∧ i < (s.1 v).m_categories) ∧
    (∀ (k : Nat) (bn bn1 : GBayesNet), GBayesNet.sweeps lm k bn = .ok () bn1 →
      (∃ i : Nat, (bn.m_heap v).m_val = (i : ℚ) ∧ i < (bn.m_heap v).m_categories) →
      ∃ i : Nat, (bn1.m_heap v).m_val = (i : ℚ) ∧ i < (bn1.m_heap v).m_categories) ∧
    (∀ (categories : Nat) (d : NodeId) (n : GPGMNode),
      GPGMCategorical.construct categories d = .ok n →
      n.m_val = ((0 : Nat) : ℚ) ∧ 0 < n.m_categories) ∧
    (∀ (g : Heap) (r0 : GRand) (s0 : Heap × GRand),
      GPGMCategorical.sample lm g r0 v = .ok () s0 →
      (∀ q, q ≠ v → s0.1 q = g q) ∧
      ((g v).m_observed = true → s0 = (g, r0)) ∧
      ((g v).m_observed = false → 0 < (g v).m_categories →
        s0.2 = r0.uniform.2 ∧
        ∃ j : Nat, j < (g v).m_categories ∧ s0.1 v = { g v with m_val := (j : ℚ) })) := by
  refine ⟨sampleAll_invariant lm _ (fun n n1 hn hstep => sampleStep_value lm n n1 hn hstep)
      ps h r s hs v hv,
    fun k bn bn1 hk hb =>
      sweeps_invariant lm _ (fun n n1 hn hstep => sampleStep_value lm n n1 hn hstep)
        k bn bn1 hk v hb, ?_, ?_⟩
  · intro categories d n hc
    unfold GPGMCategorical.construct at hc
    split at hc
    · simp at hc
    · simp only [Res.ok.injEq] at hc
      rw [← hc]
      exact ⟨by simp, by show 0 < categories; omega⟩
  · intro g r0 s0 hg
    refine ⟨?_, ?_, ?_⟩
    · intro q hq
      rcases catSample_ok lm g r0 v s0 hg with e | ⟨_, j, _, e⟩
      · rw [e]
      · rw [e]
        unfold setVal
        exact heap_put_other _ _ _ _ hq
    · intro hobs
      unfold GPGMCategorical.sample at hg
      rw [hobs] at hg
      simp only [if_true, Outcome.ok.injEq, true_and] at hg
      exact hg.symm
    · intro hobs hcat
      unfold GPGMCategorical.sample at hg
      rw [hobs] at hg
      simp only [Bool.false_eq_true, if_false] at hg
      cases hi : GPGMVariable.currentCatIndex g v with
      | thrown => rw [hi] at hg; simp at hg
      | undefined => rw [hi] at hg; simp at hg
      | ok ind =>
        rw [hi] at hg
        simp only at hg
        cases hp : GPGMCategorical.sumProb lm g v (sizeMul (g v).m_categories ind)
            (g v).m_categories with
        | thrown s1 => rw [hp] at hg; simp at hg
        | undefined => rw [hp] at hg; simp at hg
        | ok sumProb s1 =>
          rw [hp] at hg
          simp only at hg
          cases hq : GPGMCategorical.pick lm v (sizeMul (g v).m_categories ind) sumProb
              r0.uniform.1 (g v).m_categories 0 g 0 with
          | thrown s2 => rw [hq] at hg; simp at hg
          | undefined => rw [hq] at hg; simp at hg
          | ok u s2 =>
            rw [hq] at hg
            simp only [Outcome.ok.injEq, true_and] at hg
            rw [← hg]
            refine ⟨rfl, ?_⟩
            rcases pick_ok lm v _ _ _ _ _ _ _ _ hq with ⟨h0, _⟩ | ⟨j, _, hj, e⟩
            · omega
            · refine ⟨j, by omega, ?_⟩
              show s2 v = _
              rw [e]
              unfold setVal
              exact heap_put_same _ _ _

/-- Witness of claim C36: `pPar` of `GBayesNet_simpleTest`, with the value 0 of
its constructor, is sampled with the draw 99/100; the call returns and the value
is the category 1. -/
theorem categorical_value_in_range_witness :
    (sampleAll exampleLibm [1] (simpleTest exampleRand).m_heap lateRand).isOk = true ∧
    (∃ i : Nat,
      ((((sampleAll exampleLibm [1] (simpleTest exampleRand).m_heap lateRand).state?).getD
        ((simpleTest exampleRand).m_heap, lateRand)).1 1).m_val = (i : ℚ) ∧
      i < ((((sampleAll exampleLibm [1] (simpleTest exampleRand).m_heap lateRand).state?).getD
        ((simpleTest exampleRand).m_heap, lateRand)).1 1).m_categories) ∧
    ((((sampleAll exampleLibm [1] (simpleTest exampleRand).m_heap lateRand).state?).getD
      ((simpleTest exampleRand).m_heap, lateRand)).1 1).m_val = 1 :=
  ⟨by decide!,
    (categorical_value_in_range exampleLibm [1] (simpleTest exampleRand).m_heap lateRand
      _ 1 ⟨0, by decide!, by decide!⟩
      (outcome_eq_ok_of_isOk _ ((simpleTest exampleRand).m_heap, lateRand) (by decide!))).1,
    by decide!⟩

/-! ### The mean of a discrete distribution stays an integer -/

theorem candidate_discrete (n : GPGMNode) (z : ℚ)
    (hd : GPGMMetropolisNode.isDiscrete n.kind = true) :
    GPGMMetropolisNode.candidate n z
      = ((Int.floor (n.m_currentMean + n.m_currentDeviation * z + 1 / 2) : ℤ) : ℚ) := by
  unfold GPGMMetropolisNode.candidate
  simp only [hd, if_true]
  have e : z * n.m_currentDeviation + n.m_currentMean + 1 / 2
      = n.m_currentMean + n.m_currentDeviation * z + 1 / 2 := by ring
  rw [e]

/-- A step of `sample` keeps the mean of a discrete distribution an integer. -/
theorem sampleStep_discrete (lm : Libm) (n n1 : GPGMNode)
    (hn : GPGMMetropolisNode.isDiscrete n.kind = true ∧ ∃ k : ℤ, n.m_currentMean = (k : ℚ))
    (hstep : SampleStep lm n n1) :
    GPGMMetropolisNode.isDiscrete n1.kind = true ∧ ∃ k : ℤ, n1.m_currentMean = (k : ℚ) := by
  rcases hstep with e | ⟨_, _, i, _, e⟩ | ⟨_, e | ⟨z, _, e⟩⟩
  · rw [e]
    exact hn
  · rw [e]
    exact hn
  · rw [e, (accumulate_frame n).2.2, (accumulate_calibration n).1]
    exact hn
  · rw [e, (accumulate_frame _).2.2, (accumulate_calibration _).1, (onAccepted_frame lm _).2.2,
      (onAccepted_stats lm _).1]
    exact ⟨hn.1, _, candidate_discrete n z hn.1⟩

/-- In the heap model, whose arithmetic is exact and whose values are numbers:
for a node of a discrete distribution (`isDiscrete()` true) the
proposal for the normal draw `z` is `floor(currentMean + currentDeviation * z +
0.5)`, every proposal that `metropolis` accepts becomes the current mean and is
an integer, and the constructor stores the prior mean as the current mean; so a
current mean that is an integer is an integer after every sequence of calls of
`sample`, on this node or on others, that return, and after every number of
sweeps that return. -/
theorem discrete_mean_is_integer (lm : Libm) (ps : List NodeId) (h : Heap) (r : GRand)
    (s : Heap × GRand) (v : NodeId)
    (hd : GPGMMetropolisNode.isDiscrete (h v).kind = true)
    (hm : ∃ k : ℤ, (h v).m_currentMean = (k : ℚ))
    (hs : sampleAll lm ps h r = .ok () s) :
    (GPGMMetropolisNode.isDiscrete (s.1 v).kind = true ∧
      ∃ k : ℤ, (s.1 v).m_currentMean = (k : ℚ)) ∧
    (∀ z, GPGMMetropolisNode.candidate (h v) z
      = ((Int.floor ((h v).m_currentMean + (h v).m_currentDeviation * z + 1 / 2) : ℤ) : ℚ)) ∧
    (∀ (g : Heap) (r0 : GRand) (g1 : Heap) (r1 : GRand),
      GPGMMetropolisNode.isDiscrete (g v).kind = true →
      GPGMMetropolisNode.metropolis lm g r0 v = .ok true (g1, r1) →
      (g1 v).m_currentMean = GPGMMetropolisNode.candidate (g v) r0.normal.1 ∧
      ∃ k : ℤ, (g1 v).m_currentMean = (k : ℚ)) ∧
    (∀ (fam : Family) (priorMean priorDeviation : ℚ) (d : NodeId),
      (fam.construct priorMean priorDeviation d).m_currentMean = priorMean) ∧
    (∀ (k : Nat) (bn bn1 : GBayesNet), GBayesNet.sweeps lm k bn = .ok () bn1 →
      GPGMMetropolisNode.isDiscrete (bn.m_heap v).kind = true →
      (∃ k : ℤ, (bn.m_heap v).m_currentMean = (k : ℚ)) →
      ∃ k : ℤ, (bn1.m_heap v).m_currentMean = (k : ℚ)) := by
  refine ⟨sampleAll_invariant lm _ (fun n n1 hn hstep => sampleStep_discrete lm n n1 hn hstep)
      ps h r s hs v ⟨hd, hm⟩,
    fun z => candidate_discrete (h v) z hd, ?_, fun _ _ _ _ => rfl, ?_⟩
  · intro g r0 g1 r1 hg hacc
    rcases metropolis_ok_heap lm g r0 v true g1 r1 hacc with ⟨ha, _⟩ | ⟨_, e⟩
    · simp at ha
    · rw [e, heap_put_same]
      exact ⟨rfl, _, candidate_discrete (g v) _ hg⟩
  · intro k bn bn1 hk hdisc hint
    exact (sweeps_invariant lm _ (fun n n1 hn hstep => sampleStep_discrete lm n n1 hn hstep)
      k bn bn1 hk v ⟨hdisc, hint⟩).2

/-- An instance of `discrete_mean_is_integer`: the discrete uniform variable of
`discreteNet`, with
the prior mean 0 and the deviation 1, is sampled with the normal draw 1 and the
uniform draw 1/2; the proposal `floor(0 + 1 * 1 + 0.5) = 1` is accepted and is
the current mean after the call. -/
theorem discrete_mean_is_integer_witness :
    (sampleAll exampleLibm [1] (discreteNet exampleRand).m_heap
      { exampleRand with drawn := 1 }).isOk = true ∧
    (∃ k : ℤ,
      ((((sampleAll exampleLibm [1] (discreteNet exampleRand).m_heap
        { exampleRand with drawn := 1 }).state?).getD
        ((discreteNet exampleRand).m_heap, exampleRand)).1 1).m_currentMean = (k : ℚ)) ∧
    ((((sampleAll exampleLibm [1] (discreteNet exampleRand).m_heap
      { exampleRand with drawn := 1 }).state?).getD
      ((discreteNet exampleRand).m_heap, exampleRand)).1 1).m_currentMean = 1 :=
  ⟨by decide!,
    (discrete_mean_is_integer exampleLibm [1] (discreteNet exampleRand).m_heap
      { exampleRand with drawn := 1 } _ 1 (by decide!) ⟨0, by decide!⟩
      (outcome_eq_ok_of_isOk _ ((discreteNet exampleRand).m_heap, exampleRand)
        (by decide!))).1.2,
    by decide!⟩

/-! ### The count of samples at a recomputation of the deviation -/

/-- A step of `sample` keeps the count of accepted proposals at or below 9 and
at or below the count of samples. -/
theorem sampleStep_counts (lm : Libm) (n n1 : GPGMNode)
    (hn : n.m_nNewValues ≤ 9 ∧ n.m_nNewValues ≤ n.m_nSamples) (hstep : SampleStep lm n n1) :
    n1.m_nNewValues ≤ 9 ∧ n1.m_nNewValues ≤ n1.m_nSamples := by
  rcases hstep with e | ⟨_, _, i, _, e⟩ | ⟨_, e | ⟨z, _, e⟩⟩
  · rw [e]
    exact hn
  · rw [e]
    exact hn
  · rw [e]
    unfold GPGMMetropolisNode.accumulate
    split
    · exact ⟨hn.1, Nat.le_succ_of_le hn.2⟩
    · exact hn
  · rw [e]
    unfold GPGMMetropolisNode.accumulate GPGMMetropolisNode.onAccepted
    obtain ⟨h9, hle⟩ := hn
    split <;> split <;> simp only at * <;> constructor <;> omega

/-- Claim C37. A `GPGMMetropolisNode` is constructed with both counts at 0.  On
a node whose count of accepted proposals is at most 9 and at most the count of
samples, as after the constructor, the same holds after every sequence of calls
of `sample`, on this node or on others, that return, and after every number of
sweeps that return.  `metropolis` leaves both counts as they are, and the
deviation is recomputed when the count of accepted proposals is 9 before the
increment: then the count of samples, the divisor of the recomputation, is at
least 9 and not zero. -/
theorem recalibration_count_at_least_nine (lm : Libm) (ps : List NodeId) (h : Heap) (r : GRand)
    (s : Heap × GRand) (v : NodeId)
    (h9 : (h v).m_nNewValues ≤ 9) (hle : (h v).m_nNewValues ≤ (h v).m_nSamples)
    (hs : sampleAll lm ps h r = .ok () s) :
    ((s.1 v).m_nNewValues ≤ 9 ∧ (s.1 v).m_nNewValues ≤ (s.1 v).m_nSamples) ∧
    ((s.1 v).m_nNewValues + 1 ≥ 10 →
      9 ≤ (s.1 v).m_nSamples ∧ ((s.1 v).m_nSamples : ℚ) ≠ 0) ∧
    (∀ (r0 : GRand) (acc : Bool) (g1 : Heap) (r1 : GRand),
      GPGMMetropolisNode.metropolis lm s.1 r0 v = .ok acc (g1, r1) →
      (g1 v).m_nNewValues = (s.1 v).m_nNewValues ∧ (g1 v).m_nSamples = (s.1 v).m_nSamples ∧
      ((g1 v).m_nNewValues + 1 ≥ 10 →
        (GPGMMetropolisNode.onAccepted lm (g1 v)).m_currentDeviation
          = lm.sqrt ((g1 v).m_sumOfSquaredValues / (g1 v).m_nSamples
            - (g1 v).m_sumOfValues / (g1 v).m_nSamples
              * ((g1 v).m_sumOfValues / (g1 v).m_nSamples)))) ∧
    (∀ (fam : Family) (priorMean priorDeviation : ℚ) (d : NodeId),
      (fam.construct priorMean priorDeviation d).m_nNewValues = 0 ∧
      (fam.construct priorMean priorDeviation d).m_nSamples = 0) ∧
    (∀ (k : Nat) (bn bn1 : GBayesNet), GBayesNet.sweeps lm k bn = .ok () bn1 →
      (bn.m_heap v).m_nNewValues ≤ 9 → (bn.m_heap v).m_nNewValues ≤ (bn.m_heap v).m_nSamples →
      (bn1.m_heap v).m_nNewValues ≤ 9 ∧
      (bn1.m_heap v).m_nNewValues ≤ (bn1.m_heap v).m_nSamples) := by
  have hinv := sampleAll_invariant lm _
    (fun n n1 hn hstep => sampleStep_counts lm n n1 hn hstep) ps h r s hs v ⟨h9, hle⟩
  refine ⟨hinv, ?_, ?_, fun _ _ _ _ => ⟨rfl, rfl⟩, ?_⟩
  · intro hten
    have h9s : 9 ≤ (s.1 v).m_nSamples := by omega
    refine ⟨h9s, ?_⟩
    have : (0 : ℚ) < ((s.1 v).m_nSamples : ℚ) := by
      exact_mod_cast (by omega : 0 < (s.1 v).m_nSamples)
    exact ne_of_gt this
  · intro r0 acc g1 r1 hm
    have hnode : g1 v = s.1 v ∨ g1 v = { s.1 v with
        m_currentMean := GPGMMetropolisNode.candidate (s.1 v) r0.normal.1 } := by
      rcases metropolis_ok_heap lm s.1 r0 v acc g1 r1 hm with ⟨_, e⟩ | ⟨_, e⟩
      · exact Or.inl (by rw [e])
      · exact Or.inr (by rw [e, heap_put_same])
    refine ⟨?_, ?_, ?_⟩
    · rcases hnode with e | e <;> rw [e]
    · rcases hnode with e | e <;> rw [e]
    · intro hten
      unfold GPGMMetropolisNode.onAccepted
      rw [if_pos hten]
  · intro k bn bn1 hk hb9 hble
    exact sweeps_invariant lm _ (fun n n1 hn hstep => sampleStep_counts lm n n1 hn hstep)
      k bn bn1 hk v ⟨hb9, hble⟩

/-- Witness of claim C37: the variable of `discreteNet`, in the state of its
constructor, is sampled 9 times with the normal draw 1 and the uniform draw
1/2.  Every proposal is accepted; after the calls both counts are 9, the next
accepted proposal recomputes the deviation, and the count of samples that it
divides by is at least 9. -/
theorem recalibration_count_at_least_nine_witness :
    (sampleAll exampleLibm (List.replicate 9 1) (discreteNet exampleRand).m_heap
      { exampleRand with drawn := 1 }).isOk = true ∧
    ((((sampleAll exampleLibm (List.replicate 9 1) (discreteNet exampleRand).m_heap
      { exampleRand with drawn := 1 }).state?).getD
      ((discreteNet exampleRand).m_heap, exampleRand)).1 1).m_nNewValues = 9 ∧
    (9 ≤ ((((sampleAll exampleLibm (List.replicate 9 1) (discreteNet exampleRand).m_heap
        { exampleRand with drawn := 1 }).state?).getD
        ((discreteNet exampleRand).m_heap, exampleRand)).1 1).m_nSamples ∧
      (((((sampleAll exampleLibm (List.replicate 9 1) (discreteNet exampleRand).m_heap
        { exampleRand with drawn := 1 }).state?).getD
        ((discreteNet exampleRand).m_heap, exampleRand)).1 1).m_nSamples : ℚ) ≠ 0) :=
  ⟨by decide!, by decide!,
    (recalibration_count_at_least_nine exampleLibm (List.replicate 9 1)
      (discreteNet exampleRand).m_heap { exampleRand with drawn := 1 } _ 1
      (by decide!) (by decide!)
      (outcome_eq_ok_of_isOk _ ((discreteNet exampleRand).m_heap, exampleRand)
        (by decide!))).2.1 (by decide!)⟩

/-! ### The variance at a recomputation of the deviation -/

theorem spread_step_pos (N S1 S2 c : ℚ) (hN : 0 ≤ N) (hD : 0 < N * S2 - S1 * S1) :
    0 < (N + 1) * (S2 + c * c) - (S1 + c) * (S1 + c) := by
  have hNpos : 0 < N := by
    rcases eq_or_lt_of_le hN with e | e
    · exfalso
      rw [← e] at hD
      nlinarith [mul_self_nonneg S1]
    · exact e
  have key : N * ((N + 1) * (S2 + c * c) - (S1 + c) * (S1 + c))
      = (N + 1) * (N * S2 - S1 * S1) + (N * c - S1) * (N * c - S1) := by ring
  have hpos : 0 < N * ((N + 1) * (S2 + c * c) - (S1 + c) * (S1 + c)) := by
    rw [key]
    have h1 : 0 < (N + 1) * (N * S2 - S1 * S1) := mul_pos (by linarith) hD
    have h2 : 0 ≤ (N * c - S1) * (N * c - S1) := mul_self_nonneg _
    linarith
  exact (mul_pos_iff_of_pos_left hNpos).mp hpos

theorem spread_step_equal (N m c : ℚ) (hN : 0 < N) (hc : c ≠ m) :
    0 < (N + 1) * (N * (m * m) + c * c) - (N * m + c) * (N * m + c) := by
  have key : (N + 1) * (N * (m * m) + c * c) - (N * m + c) * (N * m + c)
      = N * ((m - c) * (m - c)) := by ring
  rw [key]
  exact mul_pos hN (mul_self_pos.mpr (sub_ne_zero.mpr (Ne.symm hc)))

theorem accumulate_of_lt (n : GPGMNode) (hlt : n.m_nSamples < 0xffffffff) :
    GPGMMetropolisNode.accumulate n = { n with
      m_sumOfValues := n.m_sumOfValues + n.m_currentMean,
      m_sumOfSquaredValues := n.m_sumOfSquaredValues + n.m_currentMean * n.m_currentMean,
      m_nSamples := n.m_nSamples + 1 } := by
  unfold GPGMMetropolisNode.accumulate
  rw [if_pos hlt]

theorem accumulate_of_ge (n : GPGMNode) (hge : ¬ n.m_nSamples < 0xffffffff) :
    GPGMMetropolisNode.accumulate n = n := by
  unfold GPGMMetropolisNode.accumulate
  rw [if_neg hge]

/-- While the count of samples is below its cap, a step of `sample` keeps the
property `Spread`. -/
theorem sampleStep_spread (lm : Libm) (n n1 : GPGMNode)
    (hn : n.m_nSamples < 0xffffffff → GPGMMetropolisNode.Spread n)
    (hstep : SampleStep lm n n1) :
    n1.m_nSamples < 0xffffffff → GPGMMetropolisNode.Spread n1 := by
  intro hcap
  have hN : (0 : ℚ) ≤ (n.m_nSamples : ℚ) := Nat.cast_nonneg _
  rcases hstep with e | ⟨_, _, i, _, e⟩ | ⟨_, e | ⟨z, hz, e⟩⟩
  · rw [e] at hcap ⊢
    exact hn hcap
  · rw [e] at hcap ⊢
    exact hn hcap
  · by_cases hlt : n.m_nSamples < 0xffffffff
    · obtain ⟨h9, hle, hsp⟩ := hn hlt
      rw [e, accumulate_of_lt n hlt]
      refine ⟨h9, Nat.le_succ_of_le hle, ?_⟩
      simp only [GPGMMetropolisNode.spread, Nat.cast_add, Nat.cast_one]
      rcases hsp with hD | ⟨h1, hs1, hs2⟩
      · left
        exact spread_step_pos _ _ _ _ hN hD
      · right
        refine ⟨h1, ?_, ?_⟩
        · rw [hs1]
          ring
        · rw [hs2]
          ring
    · rw [e, accumulate_of_ge n hlt] at hcap
      exact absurd hcap hlt
  · by_cases hlt : n.m_nSamples < 0xffffffff
    · obtain ⟨h9, hle, hsp⟩ := hn hlt
      have hlt2 : (GPGMMetropolisNode.onAccepted lm
          { n with m_currentMean := GPGMMetropolisNode.candidate n z }).m_nSamples
          < 0xffffffff := by
        rw [(onAccepted_stats lm _).2.1]
        exact hlt
      rw [e, accumulate_of_lt _ hlt2]
      generalize GPGMMetropolisNode.candidate n z = c at hz
      unfold GPGMMetropolisNode.Spread GPGMMetropolisNode.spread
      unfold GPGMMetropolisNode.spread at hsp
      by_cases hten : n.m_nNewValues + 1 ≥ 10
      · have hD : 0 < (n.m_nSamples : ℚ) * n.m_sumOfSquaredValues
            - n.m_sumOfValues * n.m_sumOfValues := by
          rcases hsp with hD | ⟨h1, _, _⟩
          · exact hD
          · omega
        simp only [GPGMMetropolisNode.onAccepted, hten, if_true, Nat.cast_add, Nat.cast_one]
        refine ⟨by omega, by omega, Or.inl ?_⟩
        exact spread_step_pos _ _ _ _ hN hD
      · simp only [GPGMMetropolisNode.onAccepted, hten, if_false, Nat.cast_add, Nat.cast_one]
        refine ⟨by omega, by omega, ?_⟩
        rcases hsp with hD | ⟨h1, hs1, hs2⟩
        · exact Or.inl (spread_step_pos _ _ _ _ hN hD)
        · by_cases h0 : n.m_nSamples = 0
          · right
            have hnew : n.m_nNewValues = 0 := by omega
            rw [hs1, hs2, h0, hnew]
            refine ⟨by omega, ?_, ?_⟩
            · simp
            · simp
          · left
            rw [hs1, hs2]
            have hNpos : (0 : ℚ) < (n.m_nSamples : ℚ) := by
              exact_mod_cast Nat.pos_of_ne_zero h0
            exact spread_step_equal _ _ _ hNpos hz
    · have hge2 : ¬ (GPGMMetropolisNode.onAccepted lm
          { n with m_currentMean := GPGMMetropolisNode.candidate n z }).m_nSamples
          < 0xffffffff := by
        rw [(onAccepted_stats lm _).2.1]
        exact hlt
      rw [e, accumulate_of_ge _ hge2, (onAccepted_stats lm _).2.1] at hcap
      exact absurd hcap hlt

/-- In the heap model, whose arithmetic is exact. A `GPGMMetropolisNode` is
constructed with the counts
and the running sums at 0.  After every sequence of calls of `sample`, on this
node or on others, that return and leave the count of samples of the node below
its cap `0xffffffff`: if the next accepted proposal recomputes the deviation
(the count of accepted proposals is 9), the variance
`m_sumOfSquaredValues / m_nSamples - dMean * dMean` that the recomputation takes
the root of is strictly positive in exact arithmetic, the call of `sample` that
accepts the proposal returns with the root of this variance as the deviation,
and the deviation is positive if the root of a positive number is. -/
theorem recalibration_variance_positive (lm : Libm) (ps : List NodeId) (h : Heap) (r : GRand)
    (s : Heap × GRand) (v : NodeId)
    (hnew : (h v).m_nNewValues = 0) (hcount : (h v).m_nSamples = 0)
    (hsum : (h v).m_sumOfValues = 0) (hsq : (h v).m_sumOfSquaredValues = 0)
    (hs : sampleAll lm ps h r = .ok () s)
    (hcap : (s.1 v).m_nSamples < 0xffffffff) :
    ((s.1 v).m_nNewValues + 1 ≥ 10 →
      0 < (s.1 v).m_sumOfSquaredValues / (s.1 v).m_nSamples
        - (s.1 v).m_sumOfValues / (s.1 v).m_nSamples
          * ((s.1 v).m_sumOfValues / (s.1 v).m_nSamples)) ∧
    (∀ (r0 : GRand) (g1 : Heap) (r1 : GRand),
      GPGMMetropolisNode.metropolis lm s.1 r0 v = .ok true (g1, r1) →
      (s.1 v).m_nNewValues + 1 ≥ 10 →
      ∃ s1, GPGMMetropolisNode.sample lm s.1 r0 v = .ok () (s1, r1) ∧
        (s1 v).m_currentDeviation
          = lm.sqrt ((s.1 v).m_sumOfSquaredValues / (s.1 v).m_nSamples
            - (s.1 v).m_sumOfValues / (s.1 v).m_nSamples
              * ((s.1 v).m_sumOfValues / (s.1 v).m_nSamples)) ∧
        ((∀ x, 0 < x → 0 < lm.sqrt x) → 0 < (s1 v).m_currentDeviation)) ∧
    (∀ (fam : Family) (priorMean priorDeviation : ℚ) (d : NodeId),
      (fam.construct priorMean priorDeviation d).m_nNewValues = 0 ∧
      (fam.construct priorMean priorDeviation d).m_nSamples = 0 ∧
      (fam.construct priorMean priorDeviation d).m_sumOfValues = 0 ∧
      (fam.construct priorMean priorDeviation d).m_sumOfSquaredValues = 0) := by
  have hstart : (h v).m_nSamples < 0xffffffff → GPGMMetropolisNode.Spread (h v) := by
    intro _
    refine ⟨by omega, by omega, Or.inr ⟨by omega, ?_, ?_⟩⟩
    · rw [hsum, hcount]
      simp
    · rw [hsq, hcount]
      simp
  have hinv := sampleAll_invariant lm
    (fun n => n.m_nSamples < 0xffffffff → GPGMMetropolisNode.Spread n)
    (fun n n1 hn hstep => sampleStep_spread lm n n1 hn hstep) ps h r s hs v hstart hcap
  obtain ⟨h9, hle, hsp⟩ := hinv
  have hvar : (s.1 v).m_nNewValues + 1 ≥ 10 →
      0 < (s.1 v).m_sumOfSquaredValues / (s.1 v).m_nSamples
        - (s.1 v).m_sumOfValues / (s.1 v).m_nSamples
          * ((s.1 v).m_sumOfValues / (s.1 v).m_nSamples) := by
    intro hten
    have hD : 0 < GPGMMetropolisNode.spread (s.1 v) := by
      rcases hsp with hD | ⟨h1, _, _⟩
      · exact hD
      · omega
    unfold GPGMMetropolisNode.spread at hD
    have hNpos : (0 : ℚ) < ((s.1 v).m_nSamples : ℚ) := by
      exact_mod_cast (by omega : 0 < (s.1 v).m_nSamples)
    have e : (s.1 v).m_sumOfSquaredValues / (s.1 v).m_nSamples
        - (s.1 v).m_sumOfValues / (s.1 v).m_nSamples
          * ((s.1 v).m_sumOfValues / (s.1 v).m_nSamples)
        = (((s.1 v).m_nSamples : ℚ) * (s.1 v).m_sumOfSquaredValues
          - (s.1 v).m_sumOfValues * (s.1 v).m_sumOfValues)
          / (((s.1 v).m_nSamples : ℚ) * ((s.1 v).m_nSamples : ℚ)) := by
      field_simp
      ring
    rw [e]
    exact div_pos hD (mul_pos hNpos hNpos)
  refine ⟨hvar, ?_, fun _ _ _ _ => ⟨rfl, rfl, rfl, rfl⟩⟩
  intro r0 g1 r1 hm hten
  obtain ⟨s1, e, _, hnode, _⟩ := metropolisSample_node lm s.1 r0 v true g1 r1 hm
  have hg : g1 v = { s.1 v with
      m_currentMean := GPGMMetropolisNode.candidate (s.1 v) r0.normal.1 } := by
    rcases metropolis_ok_heap lm s.1 r0 v true g1 r1 hm with ⟨ha, _⟩ | ⟨_, e0⟩
    · simp at ha
    · rw [e0, heap_put_same]
  have hdev : (s1 v).m_currentDeviation
      = lm.sqrt ((s.1 v).m_sumOfSquaredValues / (s.1 v).m_nSamples
        - (s.1 v).m_sumOfValues / (s.1 v).m_nSamples
          * ((s.1 v).m_sumOfValues / (s.1 v).m_nSamples)) := by
    rw [hnode, (accumulate_calibration _).2.1, hg]
    simp only [if_true, GPGMMetropolisNode.onAccepted, hten]
  refine ⟨s1, e, hdev, ?_⟩
  intro hroot
  rw [hdev]
  exact hroot _ (hvar hten)

/-- An instance of `recalibration_variance_positive`: the variable of
`discreteNet`, in the
state of its constructor, is sampled 9 times with the normal draw 1 and the
uniform draw 1/2.  Every proposal is accepted and the values 1 to 9 are summed;
the next accepted proposal recomputes the deviation from the variance
`285 / 9 - (45 / 9) * (45 / 9) = 20 / 3`. -/
theorem recalibration_variance_positive_witness :
    (sampleAll exampleLibm (List.replicate 9 1) (discreteNet exampleRand).m_heap
      { exampleRand with drawn := 1 }).isOk = true ∧
    ((((sampleAll exampleLibm (List.replicate 9 1) (discreteNet exampleRand).m_heap
      { exampleRand with drawn := 1 }).state?).getD
      ((discreteNet exampleRand).m_heap, exampleRand)).1 1).m_nNewValues = 9 ∧
    0 < ((((sampleAll exampleLibm (List.replicate 9 1) (discreteNet exampleRand).m_heap
        { exampleRand with drawn := 1 }).state?).getD
        ((discreteNet exampleRand).m_heap, exampleRand)).1 1).m_sumOfSquaredValues
        / ((((sampleAll exampleLibm (List.replicate 9 1) (discreteNet exampleRand).m_heap
          { exampleRand with drawn := 1 }).state?).getD
          ((discreteNet exampleRand).m_heap, exampleRand)).1 1).m_nSamples
      - ((((sampleAll exampleLibm (List.replicate 9 1) (discreteNet exampleRand).m_heap
          { exampleRand with drawn := 1 }).state?).getD
          ((discreteNet exampleRand).m_heap, exampleRand)).1 1).m_sumOfValues
        / ((((sampleAll exampleLibm (List.replicate 9 1) (discreteNet exampleRand).m_heap
          { exampleRand with drawn := 1 }).state?).getD
          ((discreteNet exampleRand).m_heap, exampleRand)).1 1).m_nSamples
        * (((((sampleAll exampleLibm (List.replicate 9 1) (discreteNet exampleRand).m_heap
            { exampleRand with drawn := 1 }).state?).getD
            ((discreteNet exampleRand).m_heap, exampleRand)).1 1).m_sumOfValues
          / ((((sampleAll exampleLibm (List.replicate 9 1) (discreteNet exampleRand).m_heap
            { exampleRand with drawn := 1 }).state?).getD
            ((discreteNet exampleRand).m_heap, exampleRand)).1 1).m_nSamples) ∧
    ((((sampleAll exampleLibm (List.replicate 9 1) (discreteNet exampleRand).m_heap
      { exampleRand with drawn := 1 }).state?).getD
      ((discreteNet exampleRand).m_heap, exampleRand)).1 1).m_sumOfSquaredValues = 285 ∧
    ((((sampleAll exampleLibm (List.replicate 9 1) (discreteNet exampleRand).m_heap
      { exampleRand with drawn := 1 }).state?).getD
      ((discreteNet exampleRand).m_heap, exampleRand)).1 1).m_sumOfValues = 45 ∧
    ((((sampleAll exampleLibm (List.replicate 9 1) (discreteNet exampleRand).m_heap
      { exampleRand with drawn := 1 }).state?).getD
      ((discreteNet exampleRand).m_heap, exampleRand)).1 1).m_nSamples = 9 :=
  ⟨by decide!, by decide!,
    (recalibration_variance_positive exampleLibm (List.replicate 9 1)
      (discreteNet exampleRand).m_heap { exampleRand with drawn := 1 } _ 1
      (by decide!) (by decide!) (by decide!) (by decide!)
      (outcome_eq_ok_of_isOk _ ((discreteNet exampleRand).m_heap, exampleRand) (by decide!))
      (by decide!)).1 (by decide!),
    by decide!, by decide!, by decide!⟩

/-! ### The variance at the cap of the count of samples -/

theorem heap_put_put (h : Heap) (p : NodeId) (a b : GPGMNode) :
    (h.put p a).put p b = h.put p b := by
  funext q
  unfold Heap.put
  split <;> rfl

theorem sampleAll_append (lm : Libm) :
    ∀ (ps qs : List NodeId) (h : Heap) (r : GRand) (s : Heap × GRand),
      sampleAll lm ps h r = .ok () s →
      sampleAll lm (ps ++ qs) h r = sampleAll lm qs s.1 s.2 := by
  intro ps
  induction ps with
  | nil =>
    intro qs h r s hs
    simp only [sampleAll, Outcome.ok.injEq, true_and] at hs
    rw [← hs]
    rfl
  | cons p rest ih =>
    intro qs h r s hs
    rw [List.cons_append]
    unfold sampleAll at hs
    cases hp : GPGMVariable.sample lm h r p with
    | thrown s1 => rw [hp] at hs; simp at hs
    | undefined => rw [hp] at hs; simp at hs
    | ok u s1 =>
      obtain ⟨h1, r1⟩ := s1
      rw [hp] at hs
      simp only at hs
      have e : sampleAll lm (p :: (rest ++ qs)) h r = sampleAll lm (rest ++ qs) h1 r1 := by
        rw [sampleAll, hp]
      rw [e]
      exact ih qs h1 r1 s hs

theorem rejectedHeap_node (j : Nat) :
    rejectedHeap j 1 = { Family.construct .normal 0 1 0 with m_nSamples := j } := by
  have hb : (singleNormal capRand).m_heap 1 = Family.construct .normal 0 1 0 := by decide!
  unfold rejectedHeap
  rw [heap_put_same, hb]

theorem rejectedHeap_zero : rejectedHeap 0 = (singleNormal capRand).m_heap := by
  have hb : { (singleNormal capRand).m_heap 1 with m_nSamples := 0 }
      = (singleNormal capRand).m_heap 1 := by decide!
  funext q
  unfold rejectedHeap Heap.put
  split
  · rename_i e
    rw [hb, e]
  · rfl

/-- A call of `sample` on the variable of `singleNormal` before the cap: the
normal draw is 0, the proposal is the current mean and is rejected, and the
count of samples goes up by one. -/
theorem rejected_step (j : Nat) (hj : j < 0xffffffff) :
    GPGMVariable.sample rootLibm (rejectedHeap j) { capRand with drawn := j } 1
      = .ok () (rejectedHeap (j + 1), { capRand with drawn := j + 1 }) := by
  have hz : ({ capRand with drawn := j } : GRand).normal.1 = 0 := by
    simp [GRand.normal, capRand, hj]
  have hc : GPGMMetropolisNode.candidate (rejectedHeap j 1)
      ({ capRand with drawn := j } : GRand).normal.1 = (rejectedHeap j 1).m_currentMean := by
    rw [hz, rejectedHeap_node]
    simp [GPGMMetropolisNode.candidate, Family.construct, GPGMMetropolisNode.construct,
      GPGMNode.construct, GPGMMetropolisNode.isDiscrete]
  have hm := metropolis_of_candidate_eq rootLibm (rejectedHeap j) { capRand with drawn := j } 1 hc
  have hk : (rejectedHeap j 1).kind = .metropolis .normal := by
    rw [rejectedHeap_node]
    rfl
  unfold GPGMVariable.sample
  rw [hk]
  simp only
  rw [metropolisSample_of_metropolis rootLibm _ _ 1 false _ _ hm]
  simp only [Bool.false_eq_true, if_false]
  have hacc : GPGMMetropolisNode.accumulate (rejectedHeap j 1) = rejectedHeap (j + 1) 1 := by
    rw [rejectedHeap_node, rejectedHeap_node, accumulate_of_lt _ hj]
    simp [Family.construct, GPGMMetropolisNode.construct, GPGMNode.construct]
  have hheap : (rejectedHeap j).put 1 (rejectedHeap (j + 1) 1) = rejectedHeap (j + 1) := by
    unfold rejectedHeap
    rw [heap_put_same, heap_put_put]
  rw [hacc, hheap]
  rfl

theorem rejected_steps :
    ∀ (k j : Nat), j + k ≤ 0xffffffff →
      sampleAll rootLibm (List.replicate k 1) (rejectedHeap j) { capRand with drawn := j }
        = .ok () (rejectedHeap (j + k), { capRand with drawn := j + k }) := by
  intro k
  induction k with
  | zero =>
    intro j _
    rfl
  | succ k ih =>
    intro j hjk
    rw [List.replicate_succ, sampleAll, rejected_step j (by omega)]
    simp only
    rw [ih (j + 1) (by omega)]
    have e : j + 1 + k = j + (k + 1) := by omega
    rw [e]

/-- In the heap model, the variance is not positive once the count of samples
is at its cap.  The
Normal variable of `singleNormal` starts in the state of its constructor and is
sampled with the draws of `capRand`: the first `0xffffffff` calls draw the
proposal 0, the current mean, and reject it, so the running sums hold the value
0 only, `0xffffffff` times, and the count is at its cap.  The next calls accept
the proposals 1, 0, 1, ..., which are not added to the sums any more.  After 9
of them the count of accepted proposals is 9 with the sums still at 0; the
tenth recomputes the deviation from the variance `0 / n - (0 / n) * (0 / n) =
0`, and with a root of 0 that is 0 the deviation is 0: the proposals of the
two calls that follow are the current mean and are rejected. -/
theorem recalibration_variance_zero_at_cap :
    (((singleNormal capRand).m_heap 1).m_nNewValues = 0 ∧
      ((singleNormal capRand).m_heap 1).m_nSamples = 0 ∧
      ((singleNormal capRand).m_heap 1).m_sumOfValues = 0 ∧
      ((singleNormal capRand).m_heap 1).m_sumOfSquaredValues = 0) ∧
    (sampleAll rootLibm (List.replicate 0xffffffff 1 ++ List.replicate 9 1)
      (singleNormal capRand).m_heap capRand).state?.map
        (fun s => ((s.1 1).m_nNewValues, (s.1 1).m_nSamples, (s.1 1).m_sumOfValues,
          (s.1 1).m_sumOfSquaredValues, (s.1 1).m_currentMean, (s.1 1).m_currentDeviation))
      = some (9, 0xffffffff, 0, 0, 1, 1) ∧
    (0 : ℚ) / ((0xffffffff : Nat) : ℚ)
      - (0 : ℚ) / ((0xffffffff : Nat) : ℚ) * ((0 : ℚ) / ((0xffffffff : Nat) : ℚ)) = 0 ∧
    (sampleAll rootLibm (List.replicate 0xffffffff 1 ++ List.replicate 10 1)
      (singleNormal capRand).m_heap capRand).isOk = true ∧
    (sampleAll rootLibm (List.replicate 0xffffffff 1 ++ List.replicate 10 1)
      (singleNormal capRand).m_heap capRand).state?.map
        (fun s => ((s.1 1).m_nNewValues, (s.1 1).m_nSamples, (s.1 1).m_sumOfValues,
          (s.1 1).m_sumOfSquaredValues, (s.1 1).m_currentMean, (s.1 1).m_currentDeviation))
      = some (0, 0xffffffff, 0, 0, 0, 0) ∧
    (sampleAll rootLibm (List.replicate 0xffffffff 1 ++ List.replicate 12 1)
      (singleNormal capRand).m_heap capRand).state?.map
        (fun s => ((s.1 1).m_nNewValues, (s.1 1).m_nSamples, (s.1 1).m_sumOfValues,
          (s.1 1).m_sumOfSquaredValues, (s.1 1).m_currentMean, (s.1 1).m_currentDeviation))
      = some (0, 0xffffffff, 0, 0, 0, 0) := by
  have e0 : ({ capRand with drawn := 0 } : GRand) = capRand := rfl
  have h1 := rejected_steps 0xffffffff 0 (by decide)
  rw [Nat.zero_add, e0, rejectedHeap_zero] at h1
  have hA := sampleAll_append rootLibm (List.replicate 0xffffffff 1) (List.replicate 9 1)
    _ _ _ h1
  have hB := sampleAll_append rootLibm (List.replicate 0xffffffff 1) (List.replicate 10 1)
    _ _ _ h1
  have hC := sampleAll_append rootLibm (List.replicate 0xffffffff 1) (List.replicate 12 1)
    _ _ _ h1
  refine ⟨by decide!, ?_, by norm_num, ?_, ?_, ?_⟩
  · rw [hA]
    decide!
  · rw [hB]
    decide!
  · rw [hB]
    decide!
  · rw [hC]
    decide!

/-! ### Claim C29: the constant of the density -/

/-- Claim C29 does not hold with the square root of `2π` itself. For `pChild` of
`GBayesNet_simpleTest`, whose current row holds `mean = 0` and `dev = 1`, at
`x = 0`, where the exponent is 0 and `exp` returns 1, `likelihood` is
`1 / 2.50662827463`; the Gaussian density is `1 / sqrt(2π)` there, a different
number, since `2.50662827463 < sqrt(2π)`. -/
theorem normal_likelihood_not_gaussian :
    GPGMVariable.likelihood exampleLibm (simpleTest exampleRand).m_heap 4 0
      = .ok (100000000000 / 250662827463) ∧
    exampleLibm.exp (-(0 - 0) ^ 2 / (2 * 1 ^ 2)) = 1 ∧
    ((100000000000 / 250662827463 : ℚ) : ℝ)
      ≠ 1 / (1 * Real.sqrt (2 * Real.pi)) * Real.exp (-(0 - 0) ^ 2 / (2 * 1 ^ 2)) := by
  refine ⟨by decide!, by decide!, ?_⟩
  have h1 := Real.pi_gt_d20
  have hlt : (250662827463 / 100000000000 : ℝ) < Real.sqrt (2 * Real.pi) := by
    rw [Real.lt_sqrt (by norm_num)]
    norm_num at h1 ⊢
    linarith
  have hpos : (0 : ℝ) < Real.sqrt (2 * Real.pi) := lt_trans (by norm_num) hlt
  have e : (1 : ℝ) / (1 * Real.sqrt (2 * Real.pi)) * Real.exp (-(0 - 0) ^ 2 / (2 * 1 ^ 2))
      = 1 / Real.sqrt (2 * Real.pi) := by
    norm_num
  rw [e]
  have hq : ((100000000000 / 250662827463 : ℚ) : ℝ) = 1 / (250662827463 / 100000000000 : ℝ) := by
    push_cast
    norm_num
  rw [hq]
  intro heq
  have h2 : (250662827463 / 100000000000 : ℝ) = Real.sqrt (2 * Real.pi) := by
    have h3 := congrArg (fun t : ℝ => 1 / t) heq
    simp only [one_div, inv_inv] at h3
    exact h3
  linarith

/-! ### Claim C35: the assertion of `currentCatIndex` -/

/-- The loop of `currentCatIndex()` returns the second of its two variables, and
the first is the product that `catCount()` computes. -/
theorem currentCatIndexVars_spec (h : Heap) :
    ∀ (ps : List NodeId) (mult ind : Nat) (r : Nat × Nat),
      GPGMVariable.currentCatIndexVars h ps mult ind = .ok r →
      GPGMVariable.currentCatIndexLoop h ps mult ind = .ok r.2 ∧
      r.1 = ps.foldl (fun cats p => sizeMul cats (GPGMCategorical.categories h p)) mult := by
  intro ps
  induction ps with
  | nil =>
    intro mult ind r hr
    simp only [GPGMVariable.currentCatIndexVars, Res.ok.injEq] at hr
    subst hr
    exact ⟨rfl, rfl⟩
  | cons p rest ih =>
    intro mult ind r hr
    unfold GPGMVariable.currentCatIndexVars at hr
    unfold GPGMVariable.currentCatIndexLoop
    cases hv : toSize (GPGMNode.currentValue h p) with
    | ok val =>
      rw [hv] at hr
      simp only at hr ⊢
      by_cases hc : GPGMCategorical.categories h p = 0
      · rw [if_pos hc] at hr
        cases hr
      · rw [if_neg hc] at hr
        rw [if_neg hc]
        simpa only [List.foldl_cons] using ih _ _ r hr
    | thrown =>
      rw [hv] at hr
      cases hr
    | undefined =>
      rw [hv] at hr
      cases hr

/-- The loop with both variables returns whenever the loop of
`currentCatIndex()` does. -/
theorem currentCatIndexVars_ok (h : Heap) :
    ∀ (ps : List NodeId) (mult ind k : Nat),
      GPGMVariable.currentCatIndexLoop h ps mult ind = .ok k →
      ∃ m, GPGMVariable.currentCatIndexVars h ps mult ind = .ok (m, k) := by
  intro ps
  induction ps with
  | nil =>
    intro mult ind k hk
    simp only [GPGMVariable.currentCatIndexLoop, Res.ok.injEq] at hk
    subst hk
    exact ⟨mult, rfl⟩
  | cons p rest ih =>
    intro mult ind k hk
    unfold GPGMVariable.currentCatIndexLoop at hk
    unfold GPGMVariable.currentCatIndexVars
    cases hv : toSize (GPGMNode.currentValue h p) with
    | ok val =>
      rw [hv] at hk
      simp only at hk ⊢
      by_cases hc : GPGMCategorical.categories h p = 0
      · rw [if_pos hc] at hk
        cases hk
      · rw [if_neg hc] at hk
        rw [if_neg hc]
        exact ih _ _ k hk
    | thrown =>
      rw [hv] at hk
      cases hk
    | undefined =>
      rw [hv] at hk
      cases hk

/-- The assertion `GAssert(ind < mult)` of `currentCatIndex()` states that the
returned index is below `catCount()`: whenever `currentCatIndex()` returns
`ind`, the condition of the assertion is `ind < catCount()`. -/
theorem currentCatIndexAssertion_spec (h : Heap) (v : NodeId) (ind : Nat)
    (hind : GPGMVariable.currentCatIndex h v = .ok ind) :
    GPGMVariable.currentCatIndexAssertion h v
      = .ok (decide (ind < GPGMVariable.catCount h v)) := by
  obtain ⟨m, hm⟩ := currentCatIndexVars_ok h (h v).m_catParents 1 0 ind hind
  have hs := (currentCatIndexVars_spec h (h v).m_catParents 1 0 (m, ind) hm).2
  unfold GPGMVariable.currentCatIndexAssertion
  rw [hm]
  show Res.ok (decide (ind < m)) = _
  rw [show m = GPGMVariable.catCount h v from hs]

/-- Claim C35 at a network on which the code breaks its own assertion. The
Categorical of two categories of `wideCategorical` (address 3) has two parents
built by the constructor with `2 ^ 32` categories each, both with the value 0.
`currentCatIndex()` returns 0 and does not throw, but its loop ends with
`ind = 0` and `mult = 2 ^ 64 mod 2 ^ 64 = 0`, so the condition of
`GAssert(ind < mult)` is false: the index is not below `catCount() = 0`. The
weight table has `2 * 0 = 0` entries, and `likelihood(0)` reads `m_weights[0]`
outside of it. -/
theorem currentCatIndex_breaks_assertion :
    ((wideCategorical exampleRand).m_heap 3).m_catParents = [1, 2] ∧
    ((wideCategorical exampleRand).m_heap 1).m_categories = 2 ^ 32 ∧
    ((wideCategorical exampleRand).m_heap 2).m_categories = 2 ^ 32 ∧
    GPGMNode.currentValue (wideCategorical exampleRand).m_heap 1 = 0 ∧
    GPGMNode.currentValue (wideCategorical exampleRand).m_heap 2 = 0 ∧
    GPGMVariable.currentCatIndex (wideCategorical exampleRand).m_heap 3 = .ok 0 ∧
    GPGMVariable.currentCatIndexVars (wideCategorical exampleRand).m_heap
      ((wideCategorical exampleRand).m_heap 3).m_catParents 1 0 = .ok (0, 0) ∧
    GPGMVariable.currentCatIndexAssertion (wideCategorical exampleRand).m_heap 3 = .ok false ∧
    GPGMVariable.catCount (wideCategorical exampleRand).m_heap 3 = 0 ∧
    ((wideCategorical exampleRand).m_heap 3).m_weights.length = 0 ∧
    GPGMCategorical.likelihood (wideCategorical exampleRand).m_heap 3 0 = .undefined := by
  have hind : GPGMVariable.currentCatIndex (wideCategorical exampleRand).m_heap 3 = .ok 0 := by
    decide!
  have hcount : GPGMVariable.catCount (wideCategorical exampleRand).m_heap 3 = 0 := by decide!
  have hk : ((wideCategorical exampleRand).m_heap 3).m_categories = 2 := by decide!
  have e2 : (wideCategorical exampleRand).m_heap
      = GPGMCategorical.addCatParent (wideCategoricalFirst exampleRand).m_heap 3 2 0 := rfl
  have hlen : ((wideCategorical exampleRand).m_heap 3).m_weights.length = 0 := by
    have : ((wideCategorical exampleRand).m_heap 3).m_weights.length
        = sizeMul ((wideCategoricalFirst exampleRand).m_heap 3).m_categories
          (GPGMVariable.catCount (wideCategorical exampleRand).m_heap 3) := by
      rw [e2, catAddCatParent_table, vecResize_length]
    rw [this, hcount]
    decide!
  have hle : ((wideCategorical exampleRand).m_heap 3).m_weights.length
      ≤ sizeAdd (sizeMul ((wideCategorical exampleRand).m_heap 3).m_categories 0) 0 := by
    rw [hlen]
    exact Nat.zero_le _
  exact ⟨by decide!, by decide!, by decide!, by decide!, by decide!, hind, by decide!,
    by decide!, hcount, hlen,
    likelihood_undefined_of_row _ 3 0 0 hind (by rw [hk]; decide) (vecAt_of_length_le _ _ hle)⟩

/-! ### The arithmetic of `double`: comparisons and rounding -/

theorem exactFpu_ieee : exactFpu.Ieee where
  round_zero := rfl
  round_one := rfl
  round_mono := by
    intro p q hpq
    simp only [exactFpu, Dbl.le, Dbl.val]
    exact decide_eq_true hpq
  round_sub := by
    intro p q _ _ hpq
    simp only [exactFpu, Dbl.lt, Dbl.val]
    exact decide_eq_true (by linarith)

/-! ### The rounding of binary64 is an IEEE rounding -/

theorem pow2_eq_zpow (e : ℤ) : pow2 e = (2 : ℚ) ^ e := by
  unfold pow2
  by_cases he : 0 ≤ e
  · rw [if_pos he]
    obtain ⟨n, rfl⟩ := Int.eq_ofNat_of_zero_le he
    simp
  · rw [if_neg he]
    obtain ⟨n, hn⟩ := Int.eq_ofNat_of_zero_le (show 0 ≤ -e by omega)
    have e1 : e = -(n : ℤ) := by omega
    rw [hn, e1, zpow_neg, zpow_natCast]
    simp

theorem pow2_pos (e : ℤ) : 0 < pow2 e := by
  rw [pow2_eq_zpow]
  exact zpow_pos (by norm_num) e

theorem pow2_add (m n : ℤ) : pow2 (m + n) = pow2 m * pow2 n := by
  rw [pow2_eq_zpow, pow2_eq_zpow, pow2_eq_zpow]
  exact zpow_add₀ (by norm_num) m n

theorem pow2_le_pow2 {m n : ℤ} (h : m ≤ n) : pow2 m ≤ pow2 n := by
  rw [pow2_eq_zpow, pow2_eq_zpow]
  exact zpow_le_zpow_right₀ (by norm_num) h

theorem pow2_lt_pow2 {m n : ℤ} (h : m < n) : pow2 m < pow2 n := by
  rw [pow2_eq_zpow, pow2_eq_zpow]
  exact zpow_lt_zpow_right₀ (by norm_num) h

theorem pow2_natCast (n : ℕ) : pow2 (n : ℤ) = ((2 ^ n : ℕ) : ℚ) := by
  unfold pow2
  rw [if_pos (Int.natCast_nonneg n)]
  simp

theorem halvings_spec : ∀ (k n : Nat), n ≤ k → 1 ≤ n →
    2 ^ halvings k n ≤ n ∧ n < 2 ^ (halvings k n + 1) := by
  intro k
  induction k with
  | zero => intro n h1 h2; omega
  | succ k ih =>
    intro n h1 h2
    unfold halvings
    by_cases hn : n < 2
    · rw [if_pos hn]
      constructor <;> simp <;> omega
    · rw [if_neg hn]
      obtain ⟨i1, i2⟩ := ih (n / 2) (by omega) (by omega)
      constructor
      · rw [pow_succ]
        have := Nat.div_mul_le_self n 2
        calc 2 ^ halvings k (n / 2) * 2 ≤ n / 2 * 2 := Nat.mul_le_mul_right 2 i1
          _ ≤ n := this
      · rw [pow_succ]
        have : n < (n / 2 + 1) * 2 := by omega
        calc n < (n / 2 + 1) * 2 := this
          _ ≤ 2 ^ (halvings k (n / 2) + 1) * 2 := Nat.mul_le_mul_right 2 i2

theorem ilog2_spec (n : Nat) (hn : 1 ≤ n) : 2 ^ ilog2 n ≤ n ∧ n < 2 ^ (ilog2 n + 1) :=
  halvings_spec n n (le_refl n) hn

/-- The exponent of a positive number. -/
theorem binade_spec (a : ℚ) (ha : 0 < a) : pow2 (binade a) ≤ a ∧ a < pow2 (binade a + 1) := by
  have hnum : 0 < a.num := Rat.num_pos.mpr ha
  have hden : 0 < a.den := a.den_pos
  obtain ⟨n1, n2⟩ := ilog2_spec a.num.natAbs (by omega)
  obtain ⟨d1, d2⟩ := ilog2_spec a.den (by omega)
  have hnq : ((a.num.natAbs : ℕ) : ℚ) = (a.num : ℚ) := by
    have h : (((a.num.natAbs : ℕ) : ℤ) : ℚ) = (a.num : ℚ) := by
      rw [Int.natAbs_of_nonneg (le_of_lt hnum)]
    rwa [Int.cast_natCast] at h
  have hdq : (0 : ℚ) < (a.den : ℚ) := by exact_mod_cast hden
  have hmul : a * (a.den : ℚ) = (a.num.natAbs : ℚ) := by
    rw [hnq]
    exact Rat.mul_den_eq_num a
  have N1 : pow2 (ilog2 a.num.natAbs : ℤ) ≤ (a.num.natAbs : ℚ) := by
    rw [pow2_natCast]
    exact_mod_cast n1
  have N2 : (a.num.natAbs : ℚ) < pow2 ((ilog2 a.num.natAbs : ℤ) + 1) := by
    have : ((ilog2 a.num.natAbs : ℤ) + 1) = ((ilog2 a.num.natAbs + 1 : ℕ) : ℤ) := by push_cast; rfl
    rw [this, pow2_natCast]
    exact_mod_cast n2
  have D1 : pow2 (ilog2 a.den : ℤ) ≤ (a.den : ℚ) := by
    rw [pow2_natCast]
    exact_mod_cast d1
  have D2 : (a.den : ℚ) < pow2 ((ilog2 a.den : ℤ) + 1) := by
    have : ((ilog2 a.den : ℤ) + 1) = ((ilog2 a.den + 1 : ℕ) : ℤ) := by push_cast; rfl
    rw [this, pow2_natCast]
    exact_mod_cast d2
  -- a < 2 ^ (ln - ld + 1) and 2 ^ (ln - ld - 1) < a
  have up : a < pow2 ((ilog2 a.num.natAbs : ℤ) - (ilog2 a.den : ℤ) + 1) := by
    have e1 : ((ilog2 a.num.natAbs : ℤ) + 1)
        = ((ilog2 a.num.natAbs : ℤ) - (ilog2 a.den : ℤ) + 1) + (ilog2 a.den : ℤ) := by ring
    rw [e1, pow2_add] at N2
    refine lt_of_mul_lt_mul_right ?_ (le_of_lt hdq)
    calc a * (a.den : ℚ) = (a.num.natAbs : ℚ) := hmul
      _ < pow2 ((ilog2 a.num.natAbs : ℤ) - (ilog2 a.den : ℤ) + 1) * pow2 (ilog2 a.den : ℤ) := N2
      _ ≤ pow2 ((ilog2 a.num.natAbs : ℤ) - (ilog2 a.den : ℤ) + 1) * (a.den : ℚ) :=
          mul_le_mul_of_nonneg_left D1 (le_of_lt (pow2_pos _))
  have lo : pow2 ((ilog2 a.num.natAbs : ℤ) - (ilog2 a.den : ℤ) - 1) ≤ a := by
    have e1 : (ilog2 a.num.natAbs : ℤ)
        = ((ilog2 a.num.natAbs : ℤ) - (ilog2 a.den : ℤ) - 1) + ((ilog2 a.den : ℤ) + 1) := by ring
    rw [e1, pow2_add] at N1
    refine le_of_mul_le_mul_right ?_ hdq
    rw [hmul]
    calc pow2 ((ilog2 a.num.natAbs : ℤ) - (ilog2 a.den : ℤ) - 1) * (a.den : ℚ)
        ≤ pow2 ((ilog2 a.num.natAbs : ℤ) - (ilog2 a.den : ℤ) - 1)
            * pow2 ((ilog2 a.den : ℤ) + 1) :=
          mul_le_mul_of_nonneg_left (le_of_lt D2) (le_of_lt (pow2_pos _))
      _ ≤ (a.num.natAbs : ℚ) := N1
  unfold binade
  by_cases hc : pow2 ((ilog2 a.num.natAbs : ℤ) - (ilog2 a.den : ℤ)) ≤ a
  · rw [if_pos hc]
    exact ⟨hc, up⟩
  · rw [if_neg hc]
    refine ⟨lo, ?_⟩
    have : (ilog2 a.num.natAbs : ℤ) - (ilog2 a.den : ℤ) - 1 + 1
        = (ilog2 a.num.natAbs : ℤ) - (ilog2 a.den : ℤ) := by ring
    rw [this]
    exact lt_of_not_le hc

theorem binade_mono (a b : ℚ) (ha : 0 < a) (hab : a ≤ b) : binade a ≤ binade b := by
  by_contra hlt
  have hlt : binade b + 1 ≤ binade a := by omega
  have h1 := (binade_spec a ha).1
  have h2 := (binade_spec b (lt_of_lt_of_le ha hab)).2
  have h3 := pow2_le_pow2 hlt
  linarith

theorem roundHalfEven_bounds (x : ℚ) :
    Int.floor x ≤ roundHalfEven x ∧ roundHalfEven x ≤ Int.floor x + 1 := by
  unfold roundHalfEven
  split_ifs <;> constructor <;> omega

theorem roundHalfEven_intCast (k : ℤ) : roundHalfEven (k : ℚ) = k := by
  unfold roundHalfEven
  rw [Int.floor_intCast]
  simp

theorem roundHalfEven_mono (x y : ℚ) (hxy : x ≤ y) : roundHalfEven x ≤ roundHalfEven y := by
  have hf : Int.floor x ≤ Int.floor y := Int.floor_mono hxy
  by_cases he : Int.floor x = Int.floor y
  · unfold roundHalfEven
    rw [he]
    have hxy2 : x - (Int.floor y : ℚ) ≤ y - (Int.floor y : ℚ) := by linarith
    split_ifs <;> first | omega | (exfalso; linarith)
  · have h1 := (roundHalfEven_bounds x).2
    have h2 := (roundHalfEven_bounds y).1
    omega

theorem roundHalfEven_le (x : ℚ) (k : ℤ) (h : x ≤ k) : roundHalfEven x ≤ k := by
  have := roundHalfEven_mono x k h
  rwa [roundHalfEven_intCast] at this

theorem le_roundHalfEven (x : ℚ) (k : ℤ) (h : (k : ℚ) ≤ x) : k ≤ roundHalfEven x := by
  have := roundHalfEven_mono k x h
  rwa [roundHalfEven_intCast] at this

theorem binary64Ulp_pos (a : ℚ) : 0 < binary64Ulp a := pow2_pos _

theorem binary64Nearest_nonneg (a : ℚ) (ha : 0 < a) : 0 ≤ binary64Nearest a := by
  unfold binary64Nearest
  have h0 : (0 : ℤ) ≤ roundHalfEven (a / binary64Ulp a) :=
    le_roundHalfEven _ 0 (by
      have := div_pos ha (binary64Ulp_pos a)
      push_cast
      linarith)
  have h1 : (0 : ℚ) ≤ (roundHalfEven (a / binary64Ulp a) : ℚ) := by exact_mod_cast h0
  exact mul_nonneg h1 (le_of_lt (binary64Ulp_pos a))

/-- The nearest value of binary64 is monotone in the positive number that is
rounded. -/
theorem binary64Nearest_mono (a b : ℚ) (ha : 0 < a) (hab : a ≤ b) :
    binary64Nearest a ≤ binary64Nearest b := by
  have hb : 0 < b := lt_of_lt_of_le ha hab
  have hbin := binade_mono a b ha hab
  have hE : max (binade a) (-1022) ≤ max (binade b) (-1022) := max_le_max hbin (le_refl _)
  rcases eq_or_lt_of_le hE with heq | hlt
  · have hu : binary64Ulp a = binary64Ulp b := by
      unfold binary64Ulp
      rw [heq]
    unfold binary64Nearest
    rw [hu]
    have hdiv : a / binary64Ulp b ≤ b / binary64Ulp b :=
      div_le_div_of_nonneg_right hab (le_of_lt (binary64Ulp_pos b))
    have := roundHalfEven_mono _ _ hdiv
    have hc : (roundHalfEven (a / binary64Ulp b) : ℚ) ≤ (roundHalfEven (b / binary64Ulp b) : ℚ) := by
      exact_mod_cast this
    exact mul_le_mul_of_nonneg_right hc (le_of_lt (binary64Ulp_pos b))
  · -- a lies in a lower binade than b
    have hEb : max (binade b) (-1022) = binade b := by
      rcases le_total (binade b) (-1022) with h | h
      · exfalso
        rw [max_eq_right h] at hlt
        have := le_max_right (binade a) (-1022)
        omega
      · exact max_eq_left h
    have hEa : binade a ≤ max (binade a) (-1022) := le_max_left _ _
    -- upper bound for the rounding of a
    have ua : binary64Nearest a ≤ pow2 (max (binade a) (-1022) + 1) := by
      unfold binary64Nearest
      have hlt2 : a < pow2 (max (binade a) (-1022) + 1) :=
        lt_of_lt_of_le (binade_spec a ha).2 (pow2_le_pow2 (by omega))
      have e1 : max (binade a) (-1022) + 1 = ((53 : ℕ) : ℤ) + (max (binade a) (-1022) - 52) := by
        push_cast
        ring
      have hq : a / binary64Ulp a ≤ ((2 ^ 53 : ℕ) : ℚ) := by
        rw [div_le_iff₀ (binary64Ulp_pos a)]
        unfold binary64Ulp
        rw [← pow2_natCast, ← pow2_add, ← e1]
        exact le_of_lt hlt2
      have hr : roundHalfEven (a / binary64Ulp a) ≤ ((2 ^ 53 : ℕ) : ℤ) :=
        roundHalfEven_le _ _ (by exact_mod_cast hq)
      have hr2 : (roundHalfEven (a / binary64Ulp a) : ℚ) ≤ ((2 ^ 53 : ℕ) : ℚ) := by
        exact_mod_cast hr
      calc (roundHalfEven (a / binary64Ulp a) : ℚ) * binary64Ulp a
          ≤ ((2 ^ 53 : ℕ) : ℚ) * binary64Ulp a :=
            mul_le_mul_of_nonneg_right hr2 (le_of_lt (binary64Ulp_pos a))
        _ = pow2 (max (binade a) (-1022) + 1) := by
            unfold binary64Ulp
            rw [← pow2_natCast, ← pow2_add, ← e1]
    -- lower bound for the rounding of b
    have lb : pow2 (binade b) ≤ binary64Nearest b := by
      unfold binary64Nearest
      have e1 : binade b = ((52 : ℕ) : ℤ) + (max (binade b) (-1022) - 52) := by
        rw [hEb]
        push_cast
        ring
      have hq : ((2 ^ 52 : ℕ) : ℚ) ≤ b / binary64Ulp b := by
        rw [le_div_iff₀ (binary64Ulp_pos b)]
        unfold binary64Ulp
        rw [← pow2_natCast, ← pow2_add, ← e1]
        exact (binade_spec b hb).1
      have hr : ((2 ^ 52 : ℕ) : ℤ) ≤ roundHalfEven (b / binary64Ulp b) :=
        le_roundHalfEven _ _ (by exact_mod_cast hq)
      have hr2 : ((2 ^ 52 : ℕ) : ℚ) ≤ (roundHalfEven (b / binary64Ulp b) : ℚ) := by
        exact_mod_cast hr
      calc pow2 (binade b) = ((2 ^ 52 : ℕ) : ℚ) * binary64Ulp b := by
            unfold binary64Ulp
            rw [← pow2_natCast, ← pow2_add, ← e1]
        _ ≤ (roundHalfEven (b / binary64Ulp b) : ℚ) * binary64Ulp b :=
            mul_le_mul_of_nonneg_right hr2 (le_of_lt (binary64Ulp_pos b))
    have hmid : pow2 (max (binade a) (-1022) + 1) ≤ pow2 (binade b) :=
      pow2_le_pow2 (by omega)
    linarith

/-- The rounding of a positive number: an infinity from the overflow threshold
on, the nearest value otherwise. -/
theorem binary64_of_pos (q : ℚ) (hq : 0 < q) :
    (pow2 1024 ≤ binary64Nearest q ∧ binary64 q = .posInf) ∨
    (binary64Nearest q < pow2 1024 ∧ binary64 q = .num (binary64Nearest q)) := by
  unfold binary64
  rw [if_neg (ne_of_gt hq), abs_of_pos hq]
  by_cases ho : pow2 1024 ≤ binary64Nearest q
  · left
    rw [if_pos ho]
    exact ⟨ho, by simp [Dbl.inf, not_lt.mpr (le_of_lt hq)]⟩
  · right
    rw [if_neg ho]
    refine ⟨lt_of_not_le ho, ?_⟩
    by_cases hz : binary64Nearest q = 0
    · rw [if_pos hz, hz]
      simp [Dbl.zero, not_lt.mpr (le_of_lt hq)]
    · rw [if_neg hz, if_neg (not_lt.mpr (le_of_lt hq))]

/-- The rounding of a negative number. -/
theorem binary64_of_neg (q : ℚ) (hq : q < 0) :
    (pow2 1024 ≤ binary64Nearest (-q) ∧ binary64 q = .negInf) ∨
    (binary64Nearest (-q) < pow2 1024 ∧ (binary64 q).isFinite = true ∧
      (binary64 q).val = -binary64Nearest (-q) ∧
      (binary64 q = .negZero ∨ binary64 q = .num (-binary64Nearest (-q)))) := by
  unfold binary64
  rw [if_neg (ne_of_lt hq), abs_of_neg hq]
  by_cases ho : pow2 1024 ≤ binary64Nearest (-q)
  · left
    rw [if_pos ho]
    exact ⟨ho, by simp [Dbl.inf, hq]⟩
  · right
    rw [if_neg ho]
    refine ⟨lt_of_not_le ho, ?_⟩
    by_cases hz : binary64Nearest (-q) = 0
    · rw [if_pos hz, hz]
      simp [Dbl.zero, hq, Dbl.isFinite, Dbl.val]
    · rw [if_neg hz, if_pos hq]
      simp [Dbl.isFinite, Dbl.val]

theorem Dbl.le_num_num (x y : ℚ) (h : x ≤ y) : Dbl.le (.num x) (.num y) = true := by
  simp only [Dbl.le, Dbl.val]
  exact decide_eq_true h

/-- Rounding to binary64 is monotone. -/
theorem binary64_mono (p q : ℚ) (hpq : p ≤ q) : Dbl.le (binary64 p) (binary64 q) = true := by
  rcases lt_trichotomy p 0 with hp | hp | hp
  · rcases lt_trichotomy q 0 with hq | hq | hq
    · have hmono := binary64Nearest_mono (-q) (-p) (by linarith) (by linarith)
      rcases binary64_of_neg p hp with ⟨_, e1⟩ | ⟨o1, f1, v1, _⟩
      · rw [e1]
        rcases binary64_of_neg q hq with ⟨_, e2⟩ | ⟨_, _, _, e2 | e2⟩ <;> rw [e2] <;> rfl
      · rcases binary64_of_neg q hq with ⟨o2, _⟩ | ⟨_, f2, v2, _⟩
        · exfalso
          linarith
        · have hv : (binary64 p).val ≤ (binary64 q).val := by
            rw [v1, v2]
            linarith
          revert hv f1 f2
          cases binary64 p <;> cases binary64 q <;> simp [Dbl.isFinite, Dbl.le, Dbl.val]
    · subst hq
      have e0 : binary64 0 = .num 0 := by simp [binary64]
      rw [e0]
      rcases binary64_of_neg p hp with ⟨_, e1⟩ | ⟨_, f1, v1, _⟩
      · rw [e1]
        rfl
      · have hv : (binary64 p).val ≤ 0 := by
          rw [v1]
          have := binary64Nearest_nonneg (-p) (by linarith)
          linarith
        revert hv f1
        cases binary64 p <;> simp [Dbl.isFinite, Dbl.le, Dbl.val]
    · have hn := binary64Nearest_nonneg q hq
      rcases binary64_of_neg p hp with ⟨_, e1⟩ | ⟨_, f1, v1, _⟩
      · rw [e1]
        rcases binary64_of_pos q hq with ⟨_, e2⟩ | ⟨_, e2⟩ <;> rw [e2] <;> rfl
      · have hv : (binary64 p).val ≤ 0 := by
          rw [v1]
          have := binary64Nearest_nonneg (-p) (by linarith)
          linarith
        rcases binary64_of_pos q hq with ⟨_, e2⟩ | ⟨_, e2⟩
        · rw [e2]
          revert f1
          cases binary64 p <;> simp [Dbl.isFinite, Dbl.le]
        · rw [e2]
          revert hv f1
          cases binary64 p <;> simp [Dbl.isFinite, Dbl.le, Dbl.val]
          · intro h
            linarith
          · exact hn
  · subst hp
    have e0 : binary64 0 = .num 0 := by simp [binary64]
    rw [e0]
    rcases eq_or_lt_of_le hpq with hq | hq
    · rw [← hq, e0]
      rfl
    · have hn := binary64Nearest_nonneg q hq
      rcases binary64_of_pos q hq with ⟨_, e2⟩ | ⟨_, e2⟩
      · rw [e2]
        rfl
      · rw [e2]
        exact Dbl.le_num_num _ _ hn
  · have hq : 0 < q := lt_of_lt_of_le hp hpq
    have hmono := binary64Nearest_mono p q hp hpq
    rcases binary64_of_pos q hq with ⟨_, e2⟩ | ⟨o2, e2⟩
    · rw [e2]
      rcases binary64_of_pos p hp with ⟨_, e1⟩ | ⟨_, e1⟩ <;> rw [e1] <;> rfl
    · rcases binary64_of_pos p hp with ⟨o1, _⟩ | ⟨_, e1⟩
      · exfalso
        linarith
      · rw [e1, e2]
        exact Dbl.le_num_num _ _ hmono

/-- A number that binary64 holds is a multiple of `2 ^ -1074`. -/
theorem binary64_fixed_multiple (p : ℚ) (hp : binary64 p = .num p) :
    ∃ k : ℤ, p = k * pow2 (-1074) := by
  have key : ∀ a : ℚ, ∃ k : ℤ, binary64Nearest a = k * pow2 (-1074) := by
    intro a
    have hE : (-1022 : ℤ) ≤ max (binade a) (-1022) := le_max_right _ _
    obtain ⟨n, hn⟩ := Int.eq_ofNat_of_zero_le (show 0 ≤ max (binade a) (-1022) + 1022 by omega)
    refine ⟨roundHalfEven (a / binary64Ulp a) * ((2 ^ n : ℕ) : ℤ), ?_⟩
    unfold binary64Nearest
    have e1 : binary64Ulp a = ((2 ^ n : ℕ) : ℚ) * pow2 (-1074) := by
      unfold binary64Ulp
      rw [← pow2_natCast, ← pow2_add, ← hn]
      congr 1
      ring
    rw [e1]
    push_cast
    ring
  rcases lt_trichotomy p 0 with h | h | h
  · rcases binary64_of_neg p h with ⟨_, e1⟩ | ⟨_, _, _, e1 | e1⟩
    · rw [e1] at hp
      cases hp
    · rw [e1] at hp
      cases hp
    · rw [e1] at hp
      obtain ⟨k, hk⟩ := key (-p)
      refine ⟨-k, ?_⟩
      have : -binary64Nearest (-p) = p := by
        injection hp
      rw [← this, hk]
      push_cast
      ring
  · exact ⟨0, by rw [h]; simp⟩
  · rcases binary64_of_pos p h with ⟨_, e1⟩ | ⟨_, e1⟩
    · rw [e1] at hp
      cases hp
    · rw [e1] at hp
      obtain ⟨k, hk⟩ := key p
      refine ⟨k, ?_⟩
      have : binary64Nearest p = p := by
        injection hp
      rw [← this, hk]

/-- The rounding of a positive number that is at least `2 ^ -1074` is not
zero. -/
theorem binary64Nearest_pos (d : ℚ) (hd : pow2 (-1074) ≤ d) : 0 < binary64Nearest d := by
  have hd0 : 0 < d := lt_of_lt_of_le (pow2_pos _) hd
  have hu : binary64Ulp d ≤ d := by
    unfold binary64Ulp
    rcases le_total (binade d) (-1022) with h | h
    · rw [max_eq_right h]
      exact hd
    · rw [max_eq_left h]
      exact le_trans (pow2_le_pow2 (by omega)) (binade_spec d hd0).1
  unfold binary64Nearest
  have h1 : (1 : ℤ) ≤ roundHalfEven (d / binary64Ulp d) :=
    le_roundHalfEven _ 1 (by
      rw [le_div_iff₀ (binary64Ulp_pos d)]
      push_cast
      linarith)
  have h2 : (1 : ℚ) ≤ (roundHalfEven (d / binary64Ulp d) : ℚ) := by exact_mod_cast h1
  exact mul_pos (by linarith) (binary64Ulp_pos d)

/-- The arithmetic of binary64 has the properties of `Fpu.Ieee`. -/
theorem binary64Fpu_ieee : binary64Fpu.Ieee where
  round_zero := by simp [binary64Fpu, binary64]
  round_one := by
    show binary64 1 = .num 1
    decide!
  round_mono := binary64_mono
  round_sub := by
    intro p q hp hq hpq
    show Dbl.lt (.num 0) (binary64 (q - p)) = true
    obtain ⟨k1, h1⟩ := binary64_fixed_multiple p hp
    obtain ⟨k2, h2⟩ := binary64_fixed_multiple q hq
    have hu := pow2_pos (-1074)
    have hk : k1 < k2 := by
      have : (k1 : ℚ) * pow2 (-1074) < (k2 : ℚ) * pow2 (-1074) := by
        rw [← h1, ← h2]
        exact hpq
      have := lt_of_mul_lt_mul_right this (le_of_lt hu)
      exact_mod_cast this
    have hd : pow2 (-1074) ≤ q - p := by
      rw [h1, h2]
      have h3 : (1 : ℚ) ≤ (k2 : ℚ) - (k1 : ℚ) := by
        have : k1 + 1 ≤ k2 := hk
        have : ((k1 + 1 : ℤ) : ℚ) ≤ (k2 : ℚ) := by exact_mod_cast this
        push_cast at this
        linarith
      nlinarith
    have hpos := binary64Nearest_pos (q - p) hd
    rcases binary64_of_pos (q - p) (by linarith) with ⟨_, e⟩ | ⟨_, e⟩
    · rw [e]
      rfl
    · rw [e]
      simp only [Dbl.lt, Dbl.val]
      exact decide_eq_true hpos

/-! ### Claims C24 and C26: the uniform likelihoods on `double`s -/

theorem Dbl.neg_num (q : ℚ) : Dbl.neg (.num q) = if q = 0 then .negZero else .num (-q) := rfl

theorem Dbl.ceil_num (q : ℚ) :
    Dbl.ceil (.num q) = if q < 0 ∧ Int.ceil q = 0 then .negZero else .num (Int.ceil q) := rfl

theorem Dbl.add_num_num (fl : ℚ → Dbl) (x y : ℚ) :
    Dbl.add fl (.num x) (.num y) = if x + y = 0 then .num 0 else fl (x + y) := rfl

theorem Dbl.ceil_of_finite (d : Dbl) (hd : d.isFinite = true) :
    (Dbl.ceil d).isFinite = true ∧ (Dbl.ceil d).val = Int.ceil d.val := by
  cases d with
  | num q =>
    rw [Dbl.ceil_num]
    by_cases hq : q < 0 ∧ Int.ceil q = 0
    · rw [if_pos hq]
      exact ⟨rfl, by simp [Dbl.val, hq.2]⟩
    · rw [if_neg hq]
      exact ⟨rfl, rfl⟩
  | negZero => exact ⟨rfl, by simp [Dbl.ceil, Dbl.val]⟩
  | posInf => cases hd
  | negInf => cases hd
  | nan => cases hd

theorem Dbl.floor_of_finite (d : Dbl) (hd : d.isFinite = true) :
    (Dbl.floor d).isFinite = true ∧ (Dbl.floor d).val = Int.floor d.val := by
  cases d with
  | num q => exact ⟨rfl, rfl⟩
  | negZero => exact ⟨rfl, by simp [Dbl.floor, Dbl.val]⟩
  | posInf => cases hd
  | negInf => cases hd
  | nan => cases hd

/-- Between two numbers lies a number only: if neither `x < a` nor `x > b`
holds for numbers `a` and `b`, and `x` is not NaN, then `x` is a number with
`a <= x <= b`. -/
theorem Dbl.between (a b x : Dbl) (ha : a.isFinite = true) (hb : b.isFinite = true)
    (hx : x.isNan = false) (h1 : Dbl.lt x a = false) (h2 : Dbl.gt x b = false) :
    x.isFinite = true ∧ a.val ≤ x.val ∧ x.val ≤ b.val := by
  unfold Dbl.gt at h2
  cases x <;> cases a <;> cases b <;>
    simp_all [Dbl.lt, Dbl.isFinite, Dbl.isNan, Dbl.val]

/-- The difference `b - a` of two numbers with `a <= b` is not negative. -/
theorem Dbl.sub_nonneg (fp : Fpu) (hfp : fp.Ieee) (a b : Dbl) (ha : a.isFinite = true)
    (hb : b.isFinite = true) (hab : a.val ≤ b.val) :
    Dbl.le (.num 0) (Dbl.sub fp.round b a) = true := by
  have hz := hfp.round_zero
  have key : ∀ r : ℚ, 0 ≤ r → Dbl.le (.num 0) (fp.round r) = true := by
    intro r hr
    have := hfp.round_mono 0 r hr
    rwa [hz] at this
  cases a with
  | num p =>
    cases b with
    | num q =>
      simp only [Dbl.val] at hab
      unfold Dbl.sub
      rw [Dbl.neg_num]
      by_cases hp : p = 0
      · rw [if_pos hp]
        subst hp
        simp only [Dbl.add, Dbl.le, Dbl.val]
        exact decide_eq_true hab
      · rw [if_neg hp]
        simp only [Dbl.add]
        by_cases hs : q + -p = 0
        · rw [if_pos hs]
          rfl
        · rw [if_neg hs]
          exact key _ (by linarith)
    | negZero =>
      simp only [Dbl.val] at hab
      unfold Dbl.sub
      rw [Dbl.neg_num]
      by_cases hp : p = 0
      · rw [if_pos hp]
        rfl
      · rw [if_neg hp]
        simp only [Dbl.add, Dbl.le, Dbl.val]
        exact decide_eq_true (by linarith)
    | posInf => cases hb
    | negInf => cases hb
    | nan => cases hb
  | negZero =>
    cases b with
    | num q =>
      simp only [Dbl.val] at hab
      unfold Dbl.sub Dbl.neg
      simp only [Dbl.add]
      by_cases hs : q + 0 = 0
      · rw [if_pos hs]
        rfl
      · rw [if_neg hs]
        exact key _ (by linarith)
    | negZero => rfl
    | posInf => cases hb
    | negInf => cases hb
    | nan => cases hb
  | posInf => cases ha
  | negInf => cases ha
  | nan => cases ha

/-- Adding 1 to a `double` that is not negative gives at least 1. -/
theorem Dbl.add_one_ge (fp : Fpu) (hfp : fp.Ieee) (s : Dbl)
    (hs : Dbl.le (.num 0) s = true) :
    Dbl.ge (Dbl.add fp.round s (.num 1)) (.num 1) = true := by
  unfold Dbl.ge
  cases s with
  | num r =>
    have hr : 0 ≤ r := by simpa [Dbl.le, Dbl.val] using hs
    simp only [Dbl.add]
    rw [if_neg (by linarith)]
    have := hfp.round_mono 1 (r + 1) (by linarith)
    rwa [hfp.round_one] at this
  | negZero => rfl
  | posInf => rfl
  | negInf => cases hs
  | nan => cases hs

/-- A `double` that is at least 1 is not a zero. -/
theorem Dbl.not_zero_of_ge_one (d : Dbl) (hd : Dbl.ge d (.num 1) = true) : d.isZero = false := by
  unfold Dbl.ge at hd
  cases d with
  | num r =>
    have hr : 1 ≤ r := by simpa [Dbl.le, Dbl.val] using hd
    simp only [Dbl.isZero, decide_eq_false_iff_not]
    intro h0
    linarith
  | negZero =>
    have h1 : (1 : ℚ) ≤ 0 := by simpa [Dbl.le, Dbl.val] using hd
    linarith
  | posInf => rfl
  | negInf => rfl
  | nan => rfl

/-- The quotient of two numbers that are not zero is the rounded exact
quotient. -/
theorem Dbl.div_num_num (fl : ℚ → Dbl) (x y : ℚ) (hx : x ≠ 0) (hy : y ≠ 0) :
    Dbl.div fl (.num x) (.num y) = fl (x / y) := by
  simp [Dbl.div, Dbl.isNan, Dbl.isInf, Dbl.isZero, hx, hy, Dbl.val]

/-- The quotient of 1 and an exact number that is not zero, in exact
arithmetic. -/
theorem Dbl.exact_one_div (r : ℚ) (hr : r ≠ 0) :
    Dbl.div exactFpu.round (.num 1) (.num r) = .num (1 / r) := by
  simp [Dbl.div, Dbl.isNan, Dbl.isInf, Dbl.isZero, hr, exactFpu, Dbl.val]

/-- The difference of two numbers in exact arithmetic is a number or a zero
with the exact value. -/
theorem Dbl.exact_sub_val (a b : Dbl) (ha : a.isFinite = true) (hb : b.isFinite = true) :
    (Dbl.sub exactFpu.round b a).isFinite = true ∧
    (Dbl.sub exactFpu.round b a).val = b.val - a.val := by
  cases a <;> cases b <;> simp_all [Dbl.isFinite]
  · rename_i p q
    unfold Dbl.sub
    rw [Dbl.neg_num]
    by_cases hp : p = 0
    · subst hp
      simp [Dbl.add, Dbl.val]
    · rw [if_neg hp]
      simp only [Dbl.add, exactFpu]
      by_cases hs : q + -p = 0
      · rw [if_pos hs]
        simp only [Dbl.val]
        exact ⟨trivial, by linarith⟩
      · rw [if_neg hs]
        simp only [Dbl.val]
        exact ⟨trivial, by ring⟩
  · rename_i p
    unfold Dbl.sub
    rw [Dbl.neg_num]
    by_cases hp : p = 0
    · subst hp
      simp [Dbl.add, Dbl.val]
    · rw [if_neg hp]
      simp [Dbl.add, Dbl.val]
  · rename_i q
    unfold Dbl.sub Dbl.neg
    simp only [Dbl.add, exactFpu]
    by_cases hs : q + 0 = 0
    · rw [if_pos hs]
      simp only [Dbl.val]
      exact ⟨trivial, by linarith⟩
    · rw [if_neg hs]
      simp [Dbl.val]
  · simp [Dbl.sub, Dbl.neg, Dbl.add, Dbl.val]

/-- Adding 1 in exact arithmetic. -/
theorem Dbl.exact_add_one (s : Dbl) (hs : s.isFinite = true) :
    Dbl.add exactFpu.round s (.num 1) = .num (s.val + 1) := by
  cases s with
  | num r =>
    simp only [Dbl.add, exactFpu, Dbl.val]
    by_cases h : r + 1 = 0
    · rw [if_pos h, h]
    · rw [if_neg h]
  | negZero => simp [Dbl.add, Dbl.val]
  | posInf => cases hs
  | negInf => cases hs
  | nan => cases hs

/-- Claim C24, as amended. For current parameters `min` and `max` that are
numbers and an argument `x` that is not NaN, `GPGMUniformDiscrete::likelihood`
on `double`s returns 0 when `x < ceil(min)` or `x > floor(max)`, and the rounded
quotient `1 / (floor(max) - ceil(min) + 1)` otherwise; the division is reached
only for a number `x` with `ceil(min) <= x <= floor(max)`, and its divisor is
then at least 1 and not a zero; with `ceil(min) > floor(max)` the result is 0.
When no operation rounds, the quotient is `1 / (floor(max) - ceil(min) + 1)`
exactly; and when the two operations on the integers `floor(max)` and
`ceil(min)` are exact, as they are below `2 ^ 53`, the result is the rounding of
`1 / (floor(max) - ceil(min) + 1)`. -/
theorem uniformDiscrete_likelihood_double (fp : Fpu) (hfp : fp.Ieee) (min max x : Dbl)
    (hmin : min.isFinite = true) (hmax : max.isFinite = true) (hx : x.isNan = false) :
    (Dbl.lt x (Dbl.ceil min) = true ∨ Dbl.gt x (Dbl.floor max) = true →
      Fp.GPGMUniformDiscrete.likelihood fp min max x = .num 0) ∧
    (Dbl.lt x (Dbl.ceil min) = false → Dbl.gt x (Dbl.floor max) = false →
      Fp.GPGMUniformDiscrete.likelihood fp min max x
        = Dbl.div fp.round (.num 1)
            (Dbl.add fp.round (Dbl.sub fp.round (Dbl.floor max) (Dbl.ceil min)) (.num 1)) ∧
      x.isFinite = true ∧ ((Int.ceil min.val : ℤ) : ℚ) ≤ x.val ∧
      x.val ≤ ((Int.floor max.val : ℤ) : ℚ) ∧
      Dbl.ge (Dbl.add fp.round (Dbl.sub fp.round (Dbl.floor max) (Dbl.ceil min)) (.num 1))
        (.num 1) = true ∧
      (Dbl.add fp.round (Dbl.sub fp.round (Dbl.floor max) (Dbl.ceil min)) (.num 1)).isZero
        = false ∧
      Fp.GPGMUniformDiscrete.likelihood exactFpu min max x
        = .num (1 / ((Int.floor max.val : ℤ) - (Int.ceil min.val : ℤ) + 1)) ∧
      (Dbl.sub fp.round (Dbl.floor max) (Dbl.ceil min)
          = .num ((Int.floor max.val : ℤ) - (Int.ceil min.val : ℤ)) →
        fp.round ((Int.floor max.val : ℤ) - (Int.ceil min.val : ℤ) + 1)
          = .num ((Int.floor max.val : ℤ) - (Int.ceil min.val : ℤ) + 1) →
        Fp.GPGMUniformDiscrete.likelihood fp min max x
          = fp.round (1 / ((Int.floor max.val : ℤ) - (Int.ceil min.val : ℤ) + 1)))) ∧
    (Int.floor max.val < Int.ceil min.val →
      Fp.GPGMUniformDiscrete.likelihood fp min max x = .num 0) := by
  obtain ⟨hcf, hcv⟩ := Dbl.ceil_of_finite min hmin
  obtain ⟨hff, hfv⟩ := Dbl.floor_of_finite max hmax
  have part2 : Dbl.lt x (Dbl.ceil min) = false → Dbl.gt x (Dbl.floor max) = false →
      x.isFinite = true ∧ ((Int.ceil min.val : ℤ) : ℚ) ≤ x.val ∧
      x.val ≤ ((Int.floor max.val : ℤ) : ℚ) := by
    intro h1 h2
    have hb := Dbl.between _ _ x hcf hff hx h1 h2
    rw [hcv, hfv] at hb
    exact hb
  refine ⟨?_, ?_, ?_⟩
  · intro h
    unfold Fp.GPGMUniformDiscrete.likelihood
    by_cases h1 : Dbl.lt x (Dbl.ceil min) = true
    · rw [if_pos h1]
    · rw [if_neg h1]
      rcases h with h | h
      · exact absurd h h1
      · rw [if_pos h]
  · intro h1 h2
    obtain ⟨hxf, hlo, hhi⟩ := part2 h1 h2
    have hab : (Dbl.ceil min).val ≤ (Dbl.floor max).val := by
      rw [hcv, hfv]
      exact le_trans hlo hhi
    have hge := Dbl.add_one_ge fp hfp _ (Dbl.sub_nonneg fp hfp _ _ hcf hff hab)
    have hval : ∀ fq : Fpu, Fp.GPGMUniformDiscrete.likelihood fq min max x
        = Dbl.div fq.round (.num 1)
            (Dbl.add fq.round (Dbl.sub fq.round (Dbl.floor max) (Dbl.ceil min)) (.num 1)) := by
      intro fq
      unfold Fp.GPGMUniformDiscrete.likelihood
      rw [if_neg (by rw [h1]; exact Bool.false_ne_true),
        if_neg (by rw [h2]; exact Bool.false_ne_true)]
    have hpos : (0 : ℚ) < ((Int.floor max.val : ℤ) : ℚ) - ((Int.ceil min.val : ℤ) : ℚ) + 1 := by
      have := le_trans hlo hhi
      linarith
    refine ⟨hval fp, hxf, hlo, hhi, hge, Dbl.not_zero_of_ge_one _ hge, ?_, ?_⟩
    · rw [hval exactFpu]
      obtain ⟨hsf, hsv⟩ := Dbl.exact_sub_val _ _ hcf hff
      rw [Dbl.exact_add_one _ hsf, hsv, hcv, hfv]
      exact Dbl.exact_one_div _ (ne_of_gt hpos)
    · intro hs ha
      rw [hval fp, hs, Dbl.add_num_num, if_neg (ne_of_gt hpos), ha]
      exact Dbl.div_num_num _ _ _ (by norm_num) (ne_of_gt hpos)
  · intro hlt
    unfold Fp.GPGMUniformDiscrete.likelihood
    by_cases h1 : Dbl.lt x (Dbl.ceil min) = true
    · rw [if_pos h1]
    · rw [if_neg h1]
      by_cases h2 : Dbl.gt x (Dbl.floor max) = true
      · rw [if_pos h2]
      · exfalso
        obtain ⟨_, hlo, hhi⟩ := part2 (by simpa using h1) (by simpa using h2)
        have : ((Int.ceil min.val : ℤ) : ℚ) ≤ ((Int.floor max.val : ℤ) : ℚ) := le_trans hlo hhi
        have h3 : (Int.ceil min.val : ℤ) ≤ Int.floor max.val := by exact_mod_cast this
        omega

/-- Witness of claim C24, as amended: the parameters 1/2 and 7/2 on the
arithmetic of binary64. At 5 the likelihood is 0; at 2 the divisor is at least 1,
the quotient without rounding is `1 / (3 - 1 + 1)`, and the result on binary64 is
the rounding of it. -/
theorem uniformDiscrete_likelihood_double_witness :
    Fp.GPGMUniformDiscrete.likelihood binary64Fpu (.num (1 / 2)) (.num (7 / 2)) (.num 5)
      = .num 0 ∧
    Dbl.ge (Dbl.add binary64Fpu.round (Dbl.sub binary64Fpu.round (Dbl.floor (.num (7 / 2)))
      (Dbl.ceil (.num (1 / 2)))) (.num 1)) (.num 1) = true ∧
    Fp.GPGMUniformDiscrete.likelihood exactFpu (.num (1 / 2)) (.num (7 / 2)) (.num 2)
      = .num (1 / ((Int.floor (Dbl.val (.num (7 / 2))) : ℤ)
          - (Int.ceil (Dbl.val (.num (1 / 2))) : ℤ) + 1)) ∧
    Fp.GPGMUniformDiscrete.likelihood binary64Fpu (.num (1 / 2)) (.num (7 / 2)) (.num 2)
      = binary64Fpu.round (1 / ((Int.floor (Dbl.val (.num (7 / 2))) : ℤ)
          - (Int.ceil (Dbl.val (.num (1 / 2))) : ℤ) + 1)) :=
  ⟨(uniformDiscrete_likelihood_double binary64Fpu binary64Fpu_ieee (.num (1 / 2)) (.num (7 / 2))
      (.num 5) rfl rfl rfl).1 (Or.inr (by decide!)),
    ((uniformDiscrete_likelihood_double binary64Fpu binary64Fpu_ieee (.num (1 / 2))
      (.num (7 / 2)) (.num 2) rfl rfl rfl).2.1 (by decide!) (by decide!)).2.2.2.2.1,
    ((uniformDiscrete_likelihood_double binary64Fpu binary64Fpu_ieee (.num (1 / 2))
      (.num (7 / 2)) (.num 2) rfl rfl rfl).2.1 (by decide!) (by decide!)).2.2.2.2.2.2.1,
    ((uniformDiscrete_likelihood_double binary64Fpu binary64Fpu_ieee (.num (1 / 2))
      (.num (7 / 2)) (.num 2) rfl rfl rfl).2.1 (by decide!) (by decide!)).2.2.2.2.2.2.2
      (by decide!) (by decide!)⟩

/-- Claim C24 does not hold for the argument NaN. With the parameters 0.25 and
0.75, `ceil(min) = 1` and `floor(max) = 0`; neither `x < 1` nor `x > 0` holds
for `x = NaN`, the division is reached, its divisor `0 - 1 + 1` is 0 and the
result is an infinity. -/
theorem uniformDiscrete_divides_by_zero_at_nan :
    Dbl.lt .nan (Dbl.ceil (.num (1 / 4))) = false ∧
    Dbl.gt .nan (Dbl.floor (.num (3 / 4))) = false ∧
    Dbl.add binary64Fpu.round (Dbl.sub binary64Fpu.round (Dbl.floor (.num (3 / 4)))
      (Dbl.ceil (.num (1 / 4)))) (.num 1) = .num 0 ∧
    Fp.GPGMUniformDiscrete.likelihood binary64Fpu (.num (1 / 4)) (.num (3 / 4)) .nan
      = .posInf := by
  decide!

theorem Dbl.num_of_val_ne_zero (d : Dbl) (hd : d.isFinite = true) (hv : d.val ≠ 0) :
    d = .num d.val := by
  cases d with
  | num q => rfl
  | negZero => exact absurd rfl hv
  | posInf => cases hd
  | negInf => cases hd
  | nan => cases hd

theorem Dbl.not_zero_of_pos (d : Dbl) (hd : Dbl.lt (.num 0) d = true) : d.isZero = false := by
  cases d with
  | num r =>
    have hr : 0 < r := by simpa [Dbl.lt, Dbl.val] using hd
    simp only [Dbl.isZero, decide_eq_false_iff_not]
    exact ne_of_gt hr
  | negZero => simp [Dbl.lt, Dbl.val] at hd
  | posInf => rfl
  | negInf => rfl
  | nan => rfl

/-- The difference of two numbers with the same value is a zero. -/
theorem Dbl.sub_self_zero (fl : ℚ → Dbl) (a b : Dbl) (ha : a.isFinite = true)
    (hb : b.isFinite = true) (hab : a.val = b.val) : (Dbl.sub fl b a).isZero = true := by
  cases a with
  | num p =>
    cases b with
    | num q =>
      simp only [Dbl.val] at hab
      subst hab
      unfold Dbl.sub
      rw [Dbl.neg_num]
      by_cases hp : p = 0
      · rw [if_pos hp, hp]
        rfl
      · rw [if_neg hp, Dbl.add_num_num, if_pos (by ring)]
        rfl
    | negZero =>
      simp only [Dbl.val] at hab
      subst hab
      rfl
    | posInf => cases hb
    | negInf => cases hb
    | nan => cases hb
  | negZero =>
    cases b with
    | num q =>
      simp only [Dbl.val] at hab
      subst hab
      show (Dbl.add fl (.num 0) (.num 0)).isZero = true
      rw [Dbl.add_num_num, if_pos (by ring)]
      rfl
    | negZero =>
      show (Dbl.add fl .negZero (.num 0)).isZero = true
      simp [Dbl.add, Dbl.isZero]
    | posInf => cases hb
    | negInf => cases hb
    | nan => cases hb
  | posInf => cases ha
  | negInf => cases ha
  | nan => cases ha

/-- The quotient of 1 and a zero is an infinity. -/
theorem Dbl.one_div_zero (fl : ℚ → Dbl) (d : Dbl) (hd : d.isZero = true) :
    (Dbl.div fl (.num 1) d).isInf = true := by
  cases d with
  | num r =>
    have hr : r = 0 := by simpa [Dbl.isZero] using hd
    subst hr
    rfl
  | negZero => rfl
  | posInf => cases hd
  | negInf => cases hd
  | nan => cases hd

/-- The rounded difference `b - a` of two values of the type with `a < b` is
positive. -/
theorem Dbl.sub_pos (fp : Fpu) (hfp : fp.Ieee) (a b : Dbl) (ha : a.isFinite = true)
    (hb : b.isFinite = true) (hva : a.isValue fp = true) (hvb : b.isValue fp = true)
    (hab : a.val < b.val) : Dbl.lt (.num 0) (Dbl.sub fp.round b a) = true := by
  cases a with
  | num p =>
    have hp : fp.round p = .num p := by simpa [Dbl.isValue] using hva
    cases b with
    | num q =>
      have hq : fp.round q = .num q := by simpa [Dbl.isValue] using hvb
      simp only [Dbl.val] at hab
      unfold Dbl.sub
      rw [Dbl.neg_num]
      by_cases h0 : p = 0
      · rw [if_pos h0]
        subst h0
        simp only [Dbl.add, Dbl.lt, Dbl.val]
        exact decide_eq_true hab
      · rw [if_neg h0, Dbl.add_num_num, if_neg (by intro h; linarith)]
        have := hfp.round_sub p q hp hq hab
        rwa [sub_eq_add_neg] at this
    | negZero =>
      simp only [Dbl.val] at hab
      unfold Dbl.sub
      rw [Dbl.neg_num, if_neg (ne_of_lt hab)]
      simp only [Dbl.add, Dbl.lt, Dbl.val]
      exact decide_eq_true (by linarith)
    | posInf => cases hb
    | negInf => cases hb
    | nan => cases hb
  | negZero =>
    cases b with
    | num q =>
      have hq : fp.round q = .num q := by simpa [Dbl.isValue] using hvb
      simp only [Dbl.val] at hab
      unfold Dbl.sub
      show Dbl.lt (.num 0) (Dbl.add fp.round (.num q) (.num 0)) = true
      rw [Dbl.add_num_num, if_neg (by intro h; linarith), add_zero, hq]
      simp only [Dbl.lt, Dbl.val]
      exact decide_eq_true hab
    | negZero => exact absurd hab (lt_irrefl _)
    | posInf => cases hb
    | negInf => cases hb
    | nan => cases hb
  | posInf => cases ha
  | negInf => cases ha
  | nan => cases ha

/-- Claim C26, as amended. For current parameters `min` and `max` that are
numbers and an argument `x` that is not NaN, `GPGMUniformContinuous::likelihood`
on `double`s returns 0 when `x < min` or `x > max`, and the rounded quotient
`1 / (max - min)` otherwise; the division is reached only for a number `x` with
`min <= x <= max`. With `min = max` its divisor is a zero and the result an
infinity; with `min < max` the divisor is positive, the quotient is
`1 / (max - min)` exactly when no operation rounds, and the result is the
rounding of `1 / (max - min)` when the difference is exact. -/
theorem uniformContinuous_likelihood_double (fp : Fpu) (hfp : fp.Ieee) (min max x : Dbl)
    (hmin : min.isFinite = true) (hmax : max.isFinite = true) (hx : x.isNan = false) :
    (Dbl.lt x min = true ∨ Dbl.gt x max = true →
      Fp.GPGMUniformContinuous.likelihood fp min max x = .num 0) ∧
    (Dbl.lt x min = false → Dbl.gt x max = false →
      Fp.GPGMUniformContinuous.likelihood fp min max x
        = Dbl.div fp.round (.num 1) (Dbl.sub fp.round max min) ∧
      x.isFinite = true ∧ min.val ≤ x.val ∧ x.val ≤ max.val ∧
      (min.val = max.val →
        (Dbl.sub fp.round max min).isZero = true ∧
        (Fp.GPGMUniformContinuous.likelihood fp min max x).isInf = true) ∧
      (min.val < max.val → min.isValue fp = true → max.isValue fp = true →
        Dbl.lt (.num 0) (Dbl.sub fp.round max min) = true ∧
        (Dbl.sub fp.round max min).isZero = false) ∧
      (min.val < max.val →
        Fp.GPGMUniformContinuous.likelihood exactFpu min max x
          = .num (1 / (max.val - min.val))) ∧
      (min.val < max.val → Dbl.sub fp.round max min = .num (max.val - min.val) →
        Fp.GPGMUniformContinuous.likelihood fp min max x
          = fp.round (1 / (max.val - min.val)))) := by
  refine ⟨?_, ?_⟩
  · intro h
    unfold Fp.GPGMUniformContinuous.likelihood
    by_cases h1 : Dbl.lt x min = true
    · rw [if_pos h1]
    · rw [if_neg h1]
      rcases h with h | h
      · exact absurd h h1
      · rw [if_pos h]
  · intro h1 h2
    obtain ⟨hxf, hlo, hhi⟩ := Dbl.between min max x hmin hmax hx h1 h2
    have hval : ∀ fq : Fpu, Fp.GPGMUniformContinuous.likelihood fq min max x
        = Dbl.div fq.round (.num 1) (Dbl.sub fq.round max min) := by
      intro fq
      unfold Fp.GPGMUniformContinuous.likelihood
      rw [if_neg (by rw [h1]; exact Bool.false_ne_true),
        if_neg (by rw [h2]; exact Bool.false_ne_true)]
    refine ⟨hval fp, hxf, hlo, hhi, ?_, ?_, ?_, ?_⟩
    · intro heq
      have hz := Dbl.sub_self_zero fp.round min max hmin hmax heq
      exact ⟨hz, by rw [hval fp]; exact Dbl.one_div_zero _ _ hz⟩
    · intro hlt hva hvb
      have hp := Dbl.sub_pos fp hfp min max hmin hmax hva hvb hlt
      exact ⟨hp, Dbl.not_zero_of_pos _ hp⟩
    · intro hlt
      rw [hval exactFpu]
      obtain ⟨hsf, hsv⟩ := Dbl.exact_sub_val min max hmin hmax
      have hne : (Dbl.sub exactFpu.round max min).val ≠ 0 := by
        rw [hsv]
        intro h
        linarith
      rw [Dbl.num_of_val_ne_zero _ hsf hne, Dbl.exact_one_div _ hne, hsv]
    · intro hlt hs
      rw [hval fp, hs]
      exact Dbl.div_num_num _ _ _ (by norm_num) (by intro h0; linarith)

/-- Witness of claim C26, as amended: the parameters 0 and 2 on the arithmetic
of binary64. At 3 the likelihood is 0; at 1 the divisor is positive, the
quotient without rounding is `1 / (2 - 0)`, and the result on binary64 is the
rounding of it. -/
theorem uniformContinuous_likelihood_double_witness :
    Fp.GPGMUniformContinuous.likelihood binary64Fpu (.num 0) (.num 2) (.num 3) = .num 0 ∧
    Dbl.lt (.num 0) (Dbl.sub binary64Fpu.round (.num 2) (.num 0)) = true ∧
    Fp.GPGMUniformContinuous.likelihood exactFpu (.num 0) (.num 2) (.num 1)
      = .num (1 / (Dbl.val (.num 2) - Dbl.val (.num 0))) ∧
    Fp.GPGMUniformContinuous.likelihood binary64Fpu (.num 0) (.num 2) (.num 1)
      = binary64Fpu.round (1 / (Dbl.val (.num 2) - Dbl.val (.num 0))) :=
  ⟨(uniformContinuous_likelihood_double binary64Fpu binary64Fpu_ieee (.num 0) (.num 2)
      (.num 3) rfl rfl rfl).1 (Or.inr (by decide!)),
    (((uniformContinuous_likelihood_double binary64Fpu binary64Fpu_ieee (.num 0) (.num 2)
      (.num 1) rfl rfl rfl).2 (by decide!) (by decide!)).2.2.2.2.2.1
        (by decide!) (by decide!) (by decide!)).1,
    ((uniformContinuous_likelihood_double binary64Fpu binary64Fpu_ieee (.num 0) (.num 2)
      (.num 1) rfl rfl rfl).2 (by decide!) (by decide!)).2.2.2.2.2.2.1 (by decide!),
    ((uniformContinuous_likelihood_double binary64Fpu binary64Fpu_ieee (.num 0) (.num 2)
      (.num 1) rfl rfl rfl).2 (by decide!) (by decide!)).2.2.2.2.2.2.2 (by decide!)
      (by decide!)⟩

/-- Claim C26 does not hold for parameters that are equal. With `min = max = 2`
and `x = 2` neither `x < min` nor `x > max` holds, the division is reached, its
divisor `2 - 2` is 0 and the result is an infinity. -/
theorem uniformContinuous_divides_by_zero_double :
    Dbl.lt (.num 2) (.num 2) = false ∧
    Dbl.gt (.num 2) (.num 2) = false ∧
    Dbl.sub binary64Fpu.round (.num 2) (.num 2) = .num 0 ∧
    Fp.GPGMUniformContinuous.likelihood binary64Fpu (.num 2) (.num 2) (.num 2) = .posInf := by
  decide!

/-! ### Claim C32: the mean of a discrete sampler on `double`s -/

theorem Dbl.floor_isInteger (d : Dbl) (hd : d.isFinite = true) :
    (Dbl.floor d).isInteger = true := by
  cases d with
  | num q =>
    show decide (((Int.floor q : ℤ) : ℚ) = ((Int.floor ((Int.floor q : ℤ) : ℚ) : ℤ) : ℚ)) = true
    rw [Int.floor_intCast]
    exact decide_eq_true rfl
  | negZero => rfl
  | posInf => cases hd
  | negInf => cases hd
  | nan => cases hd

theorem Dbl.floor_cases (d : Dbl) :
    (Dbl.floor d).isInteger = true ∨ (Dbl.floor d).isInf = true ∨ (Dbl.floor d).isNan = true := by
  cases d with
  | num q => exact Or.inl (Dbl.floor_isInteger _ rfl)
  | negZero => exact Or.inl rfl
  | posInf => exact Or.inr (Or.inl rfl)
  | negInf => exact Or.inr (Or.inl rfl)
  | nan => exact Or.inr (Or.inr rfl)

/-- The proposal of a discrete node is the `floor` of a sum. -/
theorem Fp.candidate_floor (fp : Fpu) (n : Fp.GPGMMetropolisNode) (z : Dbl)
    (hd : n.isDiscrete = true) :
    Fp.GPGMMetropolisNode.candidate fp n z
      = Dbl.floor (Dbl.add fp.round
          (Dbl.add fp.round (Dbl.mul fp.round z n.m_currentDeviation) n.m_currentMean)
          (.num (1 / 2))) := by
  unfold Fp.GPGMMetropolisNode.candidate
  rw [if_pos hd]

/-- What `metropolis` changes: nothing when it returns false, and the current
mean, which becomes the proposal, when it returns true. -/
theorem Fp.metropolis_cases (fp : Fpu) (gibbs : Dbl → Dbl) (n : Fp.GPGMMetropolisNode)
    (z u : Dbl) :
    ((Fp.GPGMMetropolisNode.metropolis fp gibbs n z u).1 = false ∧
      (Fp.GPGMMetropolisNode.metropolis fp gibbs n z u).2 = n) ∨
    ((Fp.GPGMMetropolisNode.metropolis fp gibbs n z u).1 = true ∧
      Dbl.eq (Fp.GPGMMetropolisNode.candidate fp n z) n.m_currentMean = false ∧
      (Fp.GPGMMetropolisNode.metropolis fp gibbs n z u).2
        = { n with m_currentMean := Fp.GPGMMetropolisNode.candidate fp n z }) := by
  unfold Fp.GPGMMetropolisNode.metropolis
  by_cases h1 : Dbl.eq (Fp.GPGMMetropolisNode.candidate fp n z) n.m_currentMean = true
  · rw [if_pos h1]
    exact Or.inl ⟨rfl, rfl⟩
  · rw [if_neg h1]
    have h1f : Dbl.eq (Fp.GPGMMetropolisNode.candidate fp n z) n.m_currentMean = false := by
      simpa using h1
    split_ifs
    · exact Or.inr ⟨rfl, h1f, rfl⟩
    · exact Or.inl ⟨rfl, rfl⟩
    · exact Or.inl ⟨rfl, rfl⟩
    · exact Or.inl ⟨rfl, rfl⟩

theorem Fp.onAccepted_keeps (fp : Fpu) (n : Fp.GPGMMetropolisNode) :
    (Fp.GPGMMetropolisNode.onAccepted fp n).m_currentMean = n.m_currentMean ∧
    (Fp.GPGMMetropolisNode.onAccepted fp n).isDiscrete = n.isDiscrete ∧
    (Fp.GPGMMetropolisNode.onAccepted fp n).m_nSamples = n.m_nSamples ∧
    (Fp.GPGMMetropolisNode.onAccepted fp n).m_sumOfValues = n.m_sumOfValues ∧
    (Fp.GPGMMetropolisNode.onAccepted fp n).m_sumOfSquaredValues = n.m_sumOfSquaredValues := by
  unfold Fp.GPGMMetropolisNode.onAccepted
  split_ifs <;> exact ⟨rfl, rfl, rfl, rfl, rfl⟩

theorem Fp.accumulate_keeps (fp : Fpu) (n : Fp.GPGMMetropolisNode) :
    (Fp.GPGMMetropolisNode.accumulate fp n).m_currentMean = n.m_currentMean ∧
    (Fp.GPGMMetropolisNode.accumulate fp n).isDiscrete = n.isDiscrete ∧
    (Fp.GPGMMetropolisNode.accumulate fp n).m_nNewValues = n.m_nNewValues ∧
    (Fp.GPGMMetropolisNode.accumulate fp n).m_currentDeviation = n.m_currentDeviation := by
  unfold Fp.GPGMMetropolisNode.accumulate
  split_ifs <;> exact ⟨rfl, rfl, rfl, rfl⟩

/-- The two ways of a call of `sample`: the proposal is not accepted and the
node is accumulated as it is; or the proposal, which differs from the current
mean, becomes the current mean, is counted and accumulated. -/
theorem Fp.sample_cases (fp : Fpu) (gibbs : Dbl → Dbl) (n : Fp.GPGMMetropolisNode) (z u : Dbl) :
    ((Fp.GPGMMetropolisNode.metropolis fp gibbs n z u).1 = false ∧
      Fp.GPGMMetropolisNode.sample fp gibbs n z u = Fp.GPGMMetropolisNode.accumulate fp n) ∨
    ((Fp.GPGMMetropolisNode.metropolis fp gibbs n z u).1 = true ∧
      Dbl.eq (Fp.GPGMMetropolisNode.candidate fp n z) n.m_currentMean = false ∧
      Fp.GPGMMetropolisNode.sample fp gibbs n z u
        = Fp.GPGMMetropolisNode.accumulate fp (Fp.GPGMMetropolisNode.onAccepted fp
            { n with m_currentMean := Fp.GPGMMetropolisNode.candidate fp n z })) := by
  rcases Fp.metropolis_cases fp gibbs n z u with ⟨h1, h2⟩ | ⟨h1, hne, h2⟩
  · left
    refine ⟨h1, ?_⟩
    unfold Fp.GPGMMetropolisNode.sample
    rw [h1, h2]
    rfl
  · right
    refine ⟨h1, hne, ?_⟩
    unfold Fp.GPGMMetropolisNode.sample
    rw [h1, h2]
    rfl

/-- The current mean after a call of `sample`: the one before the call, or the
proposal, which then differs from it. -/
theorem Fp.sample_mean (fp : Fpu) (gibbs : Dbl → Dbl) (n : Fp.GPGMMetropolisNode) (z u : Dbl) :
    (Fp.GPGMMetropolisNode.sample fp gibbs n z u).isDiscrete = n.isDiscrete ∧
    (((Fp.GPGMMetropolisNode.metropolis fp gibbs n z u).1 = false ∧
        (Fp.GPGMMetropolisNode.sample fp gibbs n z u).m_currentMean = n.m_currentMean) ∨
      ((Fp.GPGMMetropolisNode.metropolis fp gibbs n z u).1 = true ∧
        Dbl.eq (Fp.GPGMMetropolisNode.candidate fp n z) n.m_currentMean = false ∧
        (Fp.GPGMMetropolisNode.sample fp gibbs n z u).m_currentMean
          = Fp.GPGMMetropolisNode.candidate fp n z)) := by
  rcases Fp.sample_cases fp gibbs n z u with ⟨h1, e⟩ | ⟨h1, hne, e⟩
  · rw [e]
    exact ⟨(Fp.accumulate_keeps fp n).2.1, Or.inl ⟨h1, (Fp.accumulate_keeps fp n).1⟩⟩
  · rw [e]
    refine ⟨?_, Or.inr ⟨h1, hne, ?_⟩⟩
    · rw [(Fp.accumulate_keeps fp _).2.1, (Fp.onAccepted_keeps fp _).2.1]
    · rw [(Fp.accumulate_keeps fp _).1, (Fp.onAccepted_keeps fp _).1]

/-- The current mean of a discrete node stays an integer, an infinity or NaN. -/
theorem Fp.run_mean_cases (fp : Fpu) :
    ∀ (calls : List Fp.Call) (n : Fp.GPGMMetropolisNode), n.isDiscrete = true →
      (n.m_currentMean.isInteger = true ∨ n.m_currentMean.isInf = true ∨
        n.m_currentMean.isNan = true) →
      ((Fp.GPGMMetropolisNode.run fp calls n).m_currentMean.isInteger = true ∨
        (Fp.GPGMMetropolisNode.run fp calls n).m_currentMean.isInf = true ∨
        (Fp.GPGMMetropolisNode.run fp calls n).m_currentMean.isNan = true) := by
  intro calls
  induction calls with
  | nil => intro n _ hm; exact hm
  | cons c rest ih =>
    intro n hd hm
    unfold Fp.GPGMMetropolisNode.run
    obtain ⟨hd1, hs⟩ := Fp.sample_mean fp c.gibbs n c.z c.u
    refine ih _ (by rw [hd1]; exact hd) ?_
    rcases hs with ⟨_, e⟩ | ⟨_, _, e⟩
    · rw [e]
      exact hm
    · rw [e, Fp.candidate_floor fp n c.z hd]
      exact Dbl.floor_cases _

/-- The current mean of a discrete node stays an integer as long as the sum of
which the proposal is the `floor` is a number. -/
theorem Fp.run_mean_integer (fp : Fpu) :
    ∀ (calls : List Fp.Call) (n : Fp.GPGMMetropolisNode), n.isDiscrete = true →
      n.m_currentMean.isInteger = true →
      Fp.GPGMMetropolisNode.finiteProposals fp calls n = true →
      (Fp.GPGMMetropolisNode.run fp calls n).m_currentMean.isInteger = true := by
  intro calls
  induction calls with
  | nil => intro n _ hm _; exact hm
  | cons c rest ih =>
    intro n hd hm hf
    unfold Fp.GPGMMetropolisNode.finiteProposals at hf
    rw [Bool.and_eq_true] at hf
    unfold Fp.GPGMMetropolisNode.run
    obtain ⟨hd1, hs⟩ := Fp.sample_mean fp c.gibbs n c.z c.u
    refine ih _ (by rw [hd1]; exact hd) ?_ hf.2
    rcases hs with ⟨_, e⟩ | ⟨_, _, e⟩
    · rw [e]
      exact hm
    · rw [e, Fp.candidate_floor fp n c.z hd]
      exact Dbl.floor_isInteger _ hf.1

/-- Claim C32, as amended. For a discrete node (`isDiscrete()` true) on
`double`s, whatever the rounding: the proposal is
`floor(normal() * m_currentDeviation + m_currentMean + 0.5)`, a value that
`metropolis` accepts is the proposal, and the proposal is an integer whenever
that sum is a number. If the current mean is an integer (as the prior mean that
the constructor stores), then after any sequence of `sample` calls it is an
integer, an infinity or NaN; and it is an integer if the sum was a number in
every call. -/
theorem discrete_mean_integer_or_not_finite (fp : Fpu) (n : Fp.GPGMMetropolisNode)
    (calls : List Fp.Call) (hd : n.isDiscrete = true)
    (hm : n.m_currentMean.isInteger = true) :
    (∀ z, Fp.GPGMMetropolisNode.candidate fp n z
      = Dbl.floor (Dbl.add fp.round
          (Dbl.add fp.round (Dbl.mul fp.round z n.m_currentDeviation) n.m_currentMean)
          (.num (1 / 2)))) ∧
    (∀ gibbs z u, (Fp.GPGMMetropolisNode.metropolis fp gibbs n z u).1 = true →
      (Fp.GPGMMetropolisNode.metropolis fp gibbs n z u).2.m_currentMean
        = Fp.GPGMMetropolisNode.candidate fp n z) ∧
    (∀ z, (Dbl.add fp.round
          (Dbl.add fp.round (Dbl.mul fp.round z n.m_currentDeviation) n.m_currentMean)
          (.num (1 / 2))).isFinite = true →
      (Fp.GPGMMetropolisNode.candidate fp n z).isInteger = true) ∧
    ((Fp.GPGMMetropolisNode.run fp calls n).m_currentMean.isInteger = true ∨
      (Fp.GPGMMetropolisNode.run fp calls n).m_currentMean.isInf = true ∨
      (Fp.GPGMMetropolisNode.run fp calls n).m_currentMean.isNan = true) ∧
    (Fp.GPGMMetropolisNode.finiteProposals fp calls n = true →
      (Fp.GPGMMetropolisNode.run fp calls n).m_currentMean.isInteger = true) := by
  refine ⟨fun z => Fp.candidate_floor fp n z hd, ?_, ?_,
    Fp.run_mean_cases fp calls n hd (Or.inl hm),
    Fp.run_mean_integer fp calls n hd hm⟩
  · intro gibbs z u hacc
    rcases Fp.metropolis_cases fp gibbs n z u with ⟨h1, _⟩ | ⟨_, _, h2⟩
    · rw [h1] at hacc
      cases hacc
    · rw [h2]
  · intro z hz
    rw [Fp.candidate_floor fp n z hd]
    exact Dbl.floor_isInteger _ hz

/-- Witness of claim C32, as amended: a UniformDiscrete node on
`[300000000, 300000001]` with the prior mean 300000000 and the prior deviation
1, on the arithmetic of binary64. In its first nine calls every proposal sum is
a number, and the current mean is an integer after them. -/
theorem discrete_mean_integer_or_not_finite_witness :
    (Fp.GPGMMetropolisNode.create true (.num 300000000) (.num 1)).isDiscrete = true ∧
    (Fp.GPGMMetropolisNode.create true (.num 300000000) (.num 1)).m_currentMean.isInteger
      = true ∧
    (Fp.GPGMMetropolisNode.run binary64Fpu (Fp.alternating 300000000 300000001 9)
      (Fp.GPGMMetropolisNode.create true (.num 300000000) (.num 1))).m_currentMean.isInteger
      = true :=
  ⟨rfl, by decide!,
    (discrete_mean_integer_or_not_finite binary64Fpu
      (Fp.GPGMMetropolisNode.create true (.num 300000000) (.num 1))
      (Fp.alternating 300000000 300000001 9) rfl (by decide!)).2.2.2.2 (by decide!)⟩

/-- Claim C32 does not hold on `double`s. A UniformDiscrete node on
`[300000000, 300000001]` with the integer prior mean 300000000 and the prior
deviation 1, normal draws that alternate between 1 and -1 and uniform draws 1/2,
on the arithmetic of binary64: the first nine calls accept their proposals and
leave the sums 2700000005 and 810000003000000000, the second of them rounded.
The tenth acceptance recomputes the deviation as the square root of
`810000003000000000 / 9 - (2700000005 / 9) ^ 2`, which is negative after
rounding: the deviation becomes NaN. In the eleventh call the proposal is
`floor(NaN) = NaN`, which `metropolis` accepts, since no comparison with NaN
holds: the current mean is NaN, not an integer. -/
theorem discrete_mean_becomes_nan :
    (Fp.GPGMMetropolisNode.create true (.num 300000000) (.num 1)).m_currentMean.isInteger
      = true ∧
    (Fp.GPGMMetropolisNode.run binary64Fpu (Fp.alternating 300000000 300000001 9)
      (Fp.GPGMMetropolisNode.create true (.num 300000000) (.num 1)))
      = { isDiscrete := true, m_currentMean := .num 300000001, m_currentDeviation := .num 1,
          m_nSamples := 9, m_nNewValues := 9, m_sumOfValues := .num 2700000005,
          m_sumOfSquaredValues := .num 810000003000000000 } ∧
    Dbl.lt (Dbl.sub binary64 (Dbl.div binary64 (.num 810000003000000000) (.num 9))
      (Dbl.mul binary64 (Dbl.div binary64 (.num 2700000005) (.num 9))
        (Dbl.div binary64 (.num 2700000005) (.num 9)))) (.num 0) = true ∧
    (Fp.GPGMMetropolisNode.run binary64Fpu (Fp.alternating 300000000 300000001 10)
      (Fp.GPGMMetropolisNode.create true (.num 300000000) (.num 1))).m_currentDeviation
      = .nan ∧
    (Fp.GPGMMetropolisNode.run binary64Fpu (Fp.alternating 300000000 300000001 11)
      (Fp.GPGMMetropolisNode.create true (.num 300000000) (.num 1))).m_currentMean = .nan ∧
    Dbl.isInteger .nan = false := by
  decide!

/-! ### Claim C38: the values that enter the running sums -/

theorem Fp.accumulate_below (fp : Fpu) (n : Fp.GPGMMetropolisNode)
    (h : n.m_nSamples < 0xffffffff) :
    Fp.GPGMMetropolisNode.accumulate fp n
      = { n with
          m_sumOfValues := Dbl.add fp.round n.m_sumOfValues n.m_currentMean,
          m_sumOfSquaredValues := Dbl.add fp.round n.m_sumOfSquaredValues
            (Dbl.mul fp.round n.m_currentMean n.m_currentMean),
          m_nSamples := n.m_nSamples + 1 } := by
  unfold Fp.GPGMMetropolisNode.accumulate
  rw [if_pos h]

theorem Fp.accumulate_at_cap (fp : Fpu) (n : Fp.GPGMMetropolisNode)
    (h : ¬ n.m_nSamples < 0xffffffff) :
    Fp.GPGMMetropolisNode.accumulate fp n = n := by
  unfold Fp.GPGMMetropolisNode.accumulate
  rw [if_neg h]

theorem Fp.onAccepted_count (fp : Fpu) (n : Fp.GPGMMetropolisNode) :
    (Fp.GPGMMetropolisNode.onAccepted fp n).m_nNewValues ≤ n.m_nNewValues + 1 ∧
    (n.m_nNewValues + 1 < 10 →
      (Fp.GPGMMetropolisNode.onAccepted fp n).m_nNewValues = n.m_nNewValues + 1) := by
  unfold Fp.GPGMMetropolisNode.onAccepted
  split_ifs with h
  · exact ⟨Nat.zero_le _, fun h2 => absurd h (by omega)⟩
  · exact ⟨le_refl _, fun _ => rfl⟩

/-- The counter of the accumulated values never decreases. -/
theorem Fp.sample_count (fp : Fpu) (gibbs : Dbl → Dbl) (n : Fp.GPGMMetropolisNode) (z u : Dbl) :
    (n.m_nSamples < 0xffffffff →
      (Fp.GPGMMetropolisNode.sample fp gibbs n z u).m_nSamples = n.m_nSamples + 1) ∧
    (¬ n.m_nSamples < 0xffffffff →
      (Fp.GPGMMetropolisNode.sample fp gibbs n z u).m_nSamples = n.m_nSamples) := by
  rcases Fp.sample_cases fp gibbs n z u with ⟨_, e⟩ | ⟨_, _, e⟩
  · rw [e]
    exact ⟨fun h => by rw [Fp.accumulate_below fp n h],
      fun h => by rw [Fp.accumulate_at_cap fp n h]⟩
  · rw [e]
    have hs := (Fp.onAccepted_keeps fp
      { n with m_currentMean := Fp.GPGMMetropolisNode.candidate fp n z }).2.2.1
    constructor
    · intro h
      rw [Fp.accumulate_below fp _ (by rw [hs]; exact h)]
      show (Fp.GPGMMetropolisNode.onAccepted fp _).m_nSamples + 1 = _
      rw [hs]
    · intro h
      rw [Fp.accumulate_at_cap fp _ (by rw [hs]; exact h)]
      exact hs

/-- One call of `sample` keeps the relation between the node and the values
accumulated so far. -/
theorem Fp.sample_accumulated (fp : Fpu) (gibbs : Dbl → Dbl) (n : Fp.GPGMMetropolisNode)
    (z u : Dbl) (H : List Dbl) (hinv : Fp.GPGMMetropolisNode.Accumulated n H) :
    Fp.GPGMMetropolisNode.Accumulated (Fp.GPGMMetropolisNode.sample fp gibbs n z u)
      (if n.m_nSamples < 0xffffffff then
        H ++ [(Fp.GPGMMetropolisNode.sample fp gibbs n z u).m_currentMean]
      else H) := by
  intro hcap
  by_cases hb : n.m_nSamples < 0xffffffff
  · obtain ⟨hlen, hnew, hdis⟩ := hinv hb
    have hcnt := (Fp.sample_count fp gibbs n z u).1 hb
    rw [if_pos hb]
    rcases Fp.sample_cases fp gibbs n z u with ⟨_, e⟩ | ⟨_, hne, e⟩
    · -- the proposal is not accepted
      have hm : (Fp.GPGMMetropolisNode.sample fp gibbs n z u).m_currentMean = n.m_currentMean := by
        rw [e]
        exact (Fp.accumulate_keeps fp n).1
      have hn : (Fp.GPGMMetropolisNode.sample fp gibbs n z u).m_nNewValues = n.m_nNewValues := by
        rw [e]
        exact (Fp.accumulate_keeps fp n).2.2.1
      rw [hcnt, hm, hn]
      refine ⟨by rw [List.length_append, hlen]; rfl, by omega, ?_⟩
      rcases hdis with ⟨a, ha, b, hb2, hab⟩ | ⟨h1, hall⟩
      · exact Or.inl ⟨a, List.mem_append_left _ ha, b, List.mem_append_left _ hb2, hab⟩
      · right
        refine ⟨h1, ?_⟩
        intro d hd
        rcases List.mem_append.mp hd with hd | hd
        · exact hall d hd
        · exact List.mem_singleton.mp hd
    · -- the proposal, different from the current mean, is accepted
      have hm : (Fp.GPGMMetropolisNode.sample fp gibbs n z u).m_currentMean
          = Fp.GPGMMetropolisNode.candidate fp n z := by
        rw [e, (Fp.accumulate_keeps fp _).1, (Fp.onAccepted_keeps fp _).1]
      have hn : (Fp.GPGMMetropolisNode.sample fp gibbs n z u).m_nNewValues
          = (Fp.GPGMMetropolisNode.onAccepted fp
              { n with m_currentMean := Fp.GPGMMetropolisNode.candidate fp n z }).m_nNewValues := by
        rw [e, (Fp.accumulate_keeps fp _).2.2.1]
      obtain ⟨hc1, hc2⟩ := Fp.onAccepted_count fp
        { n with m_currentMean := Fp.GPGMMetropolisNode.candidate fp n z }
      rw [hcnt, hm, hn]
      refine ⟨by rw [List.length_append, hlen]; rfl,
        le_trans hc1 (Nat.succ_le_succ hnew), ?_⟩
      rcases hdis with ⟨a, ha, b, hb2, hab⟩ | ⟨h1, hall⟩
      · exact Or.inl ⟨a, List.mem_append_left _ ha, b, List.mem_append_left _ hb2, hab⟩
      · cases H with
        | nil =>
          right
          have h0 : n.m_nNewValues = 0 := by
            have : n.m_nSamples = 0 := by rw [← hlen]; rfl
            omega
          refine ⟨?_, ?_⟩
          · have := hc2 (by show n.m_nNewValues + 1 < 10; omega)
            rw [this]
            show n.m_nNewValues + 1 ≤ 1
            omega
          · intro d hd
            simpa using hd
        | cons d rest =>
          left
          have hd : d = n.m_currentMean := hall d (List.mem_cons_self _ _)
          refine ⟨Fp.GPGMMetropolisNode.candidate fp n z,
            List.mem_append_right _ (List.mem_singleton_self _), d,
            List.mem_append_left _ (List.mem_cons_self _ _), ?_⟩
          rw [hd]
          exact hne
  · exfalso
    rw [(Fp.sample_count fp gibbs n z u).2 hb] at hcap
    exact hb hcap

/-- A sequence of calls of `sample` keeps the relation between the node and the
values accumulated so far. -/
theorem Fp.run_accumulated (fp : Fpu) :
    ∀ (calls : List Fp.Call) (n : Fp.GPGMMetropolisNode) (H : List Dbl),
      Fp.GPGMMetropolisNode.Accumulated n H →
      Fp.GPGMMetropolisNode.Accumulated (Fp.GPGMMetropolisNode.run fp calls n)
        (H ++ Fp.GPGMMetropolisNode.accumulated fp calls n) := by
  intro calls
  induction calls with
  | nil =>
    intro n H hinv
    simpa [Fp.GPGMMetropolisNode.run, Fp.GPGMMetropolisNode.accumulated] using hinv
  | cons c rest ih =>
    intro n H hinv
    have hstep := Fp.sample_accumulated fp c.gibbs n c.z c.u H hinv
    have := ih _ _ hstep
    unfold Fp.GPGMMetropolisNode.run Fp.GPGMMetropolisNode.accumulated
    by_cases hb : n.m_nSamples < 0xffffffff
    · rw [if_pos hb] at this
      rw [if_pos hb]
      rw [List.append_assoc] at this
      exact this
    · rw [if_neg hb] at this
      rw [if_neg hb]
      exact this

/-- The sum of the squared distances of the elements of a list from `c`. -/
theorem sum_sq_dist (c : ℚ) : ∀ l : List ℚ,
    (l.map (fun x => (x - c) ^ 2)).sum
      = (l.map (fun x => x ^ 2)).sum - 2 * c * l.sum + l.length * c ^ 2 := by
  intro l
  induction l with
  | nil => simp
  | cons x t ih =>
    simp only [List.map_cons, List.sum_cons, List.length_cons, ih]
    push_cast
    ring

theorem sum_sq_dist_nonneg (c : ℚ) : ∀ l : List ℚ, 0 ≤ (l.map (fun x => (x - c) ^ 2)).sum := by
  intro l
  induction l with
  | nil => simp
  | cons x t ih =>
    simp only [List.map_cons, List.sum_cons]
    have := sq_nonneg (x - c)
    linarith

theorem sum_sq_dist_pos (c : ℚ) : ∀ l : List ℚ, (∃ b ∈ l, b ≠ c) →
    0 < (l.map (fun x => (x - c) ^ 2)).sum := by
  intro l
  induction l with
  | nil => rintro ⟨b, hb, _⟩; cases hb
  | cons x t ih =>
    rintro ⟨b, hb, hne⟩
    simp only [List.map_cons, List.sum_cons]
    have h1 := sq_nonneg (x - c)
    have h2 := sum_sq_dist_nonneg c t
    rcases List.mem_cons.mp hb with hbx | hbt
    · subst hbx
      have : 0 < (b - c) ^ 2 := by
        have : b - c ≠ 0 := sub_ne_zero.mpr hne
        positivity
      linarith
    · have := ih ⟨b, hbt, hne⟩
      linarith

/-- The quantity `n * sum of squares - (sum) ^ 2` of a list of numbers is not
negative, and positive when two of the numbers differ. -/
theorem spread_nonneg_pos : ∀ l : List ℚ,
    0 ≤ l.length * (l.map (fun x => x ^ 2)).sum - l.sum ^ 2 ∧
    ((∃ a ∈ l, ∃ b ∈ l, a ≠ b) →
      0 < l.length * (l.map (fun x => x ^ 2)).sum - l.sum ^ 2) := by
  intro l
  induction l with
  | nil =>
    refine ⟨by simp, ?_⟩
    rintro ⟨a, ha, _⟩
    cases ha
  | cons c t ih =>
    have e : (((c :: t).length : ℕ) : ℚ) * ((c :: t).map (fun x => x ^ 2)).sum - (c :: t).sum ^ 2
        = (t.length * (t.map (fun x => x ^ 2)).sum - t.sum ^ 2)
          + (t.map (fun x => (x - c) ^ 2)).sum := by
      rw [sum_sq_dist]
      simp only [List.map_cons, List.sum_cons, List.length_cons]
      push_cast
      ring
    rw [e]
    have hq := sum_sq_dist_nonneg c t
    refine ⟨by linarith [ih.1], ?_⟩
    rintro ⟨a, ha, b, hb, hab⟩
    rcases List.mem_cons.mp ha with hac | hat
    · rcases List.mem_cons.mp hb with hbc | hbt
      · exact absurd (hac.trans hbc.symm) hab
      · have := sum_sq_dist_pos c t ⟨b, hbt, fun h => hab (hac.trans h.symm)⟩
        linarith [ih.1]
    · rcases List.mem_cons.mp hb with hbc | hbt
      · have := sum_sq_dist_pos c t ⟨a, hat, fun h => hab (h.trans hbc.symm)⟩
        linarith [ih.1]
      · have := ih.2 ⟨a, hat, b, hbt, hab⟩
        linarith

/-- The variance of a list of numbers of which two differ is positive. -/
theorem variance_pos (l : List ℚ) (h : ∃ a ∈ l, ∃ b ∈ l, a ≠ b) :
    0 < (l.map (fun x => x ^ 2)).sum / l.length - (l.sum / l.length) ^ 2 := by
  have hpos := (spread_nonneg_pos l).2 h
  have hlen : (0 : ℚ) < l.length := by
    obtain ⟨a, ha, _⟩ := h
    have : 0 < l.length := List.length_pos_of_mem ha
    exact_mod_cast this
  have e : (l.map (fun x => x ^ 2)).sum / l.length - (l.sum / l.length) ^ 2
      = (l.length * (l.map (fun x => x ^ 2)).sum - l.sum ^ 2) / (l.length : ℚ) ^ 2 := by
    field_simp
    ring
  rw [e]
  exact div_pos hpos (by positivity)

/-- Two numbers that `==` does not find equal have different values. -/
theorem Dbl.val_ne_of_eq_false (a b : Dbl) (ha : a.isFinite = true) (hb : b.isFinite = true)
    (h : Dbl.eq a b = false) : a.val ≠ b.val := by
  cases a <;> cases b <;> simp_all [Dbl.eq, Dbl.isFinite, Dbl.val]

/-- The deviation that `sample` recomputes is the square root of
`Fp.GPGMMetropolisNode.recomputed`. -/
theorem Fp.onAccepted_deviation (fp : Fpu) (n : Fp.GPGMMetropolisNode)
    (h : n.m_nNewValues + 1 ≥ 10) :
    (Fp.GPGMMetropolisNode.onAccepted fp n).m_currentDeviation
      = Dbl.sqrt fp.sqrt (Fp.GPGMMetropolisNode.recomputed fp n) := by
  unfold Fp.GPGMMetropolisNode.onAccepted
  rw [if_pos h]
  rfl

/-- The running sums after a call of `sample` below the cap: the current mean
after the call and its square have been added. -/
theorem Fp.sample_sums (fp : Fpu) (gibbs : Dbl → Dbl) (n : Fp.GPGMMetropolisNode) (z u : Dbl)
    (h : n.m_nSamples < 0xffffffff) :
    (Fp.GPGMMetropolisNode.sample fp gibbs n z u).m_sumOfValues
      = Dbl.add fp.round n.m_sumOfValues
          (Fp.GPGMMetropolisNode.sample fp gibbs n z u).m_currentMean ∧
    (Fp.GPGMMetropolisNode.sample fp gibbs n z u).m_sumOfSquaredValues
      = Dbl.add fp.round n.m_sumOfSquaredValues
          (Dbl.mul fp.round (Fp.GPGMMetropolisNode.sample fp gibbs n z u).m_currentMean
            (Fp.GPGMMetropolisNode.sample fp gibbs n z u).m_currentMean) := by
  rcases Fp.sample_cases fp gibbs n z u with ⟨_, e⟩ | ⟨_, _, e⟩
  · rw [e, Fp.accumulate_below fp n h]
    exact ⟨rfl, rfl⟩
  · obtain ⟨f1, _, f3, f4, f5⟩ := Fp.onAccepted_keeps fp
      { n with m_currentMean := Fp.GPGMMetropolisNode.candidate fp n z }
    rw [e, Fp.accumulate_below fp _ (by rw [f3]; exact h)]
    show Dbl.add fp.round (Fp.GPGMMetropolisNode.onAccepted fp _).m_sumOfValues
        (Fp.GPGMMetropolisNode.onAccepted fp _).m_currentMean = _ ∧
      Dbl.add fp.round (Fp.GPGMMetropolisNode.onAccepted fp _).m_sumOfSquaredValues
        (Dbl.mul fp.round (Fp.GPGMMetropolisNode.onAccepted fp _).m_currentMean
          (Fp.GPGMMetropolisNode.onAccepted fp _).m_currentMean) = _
    rw [f4, f5]
    exact ⟨rfl, rfl⟩

theorem Dbl.exact_add_val (fl : ℚ → Dbl) (hex : ∀ q, fl q = .num q) (s : ℚ) (d : Dbl)
    (hd : d.isFinite = true) : Dbl.add fl (.num s) d = .num (s + d.val) := by
  cases d with
  | num y =>
    rw [Dbl.add_num_num, hex]
    by_cases h : s + y = 0
    · rw [if_pos h]
      simp only [Dbl.val]
      rw [h]
    · rw [if_neg h]
      rfl
  | negZero => simp [Dbl.add, Dbl.val]
  | posInf => cases hd
  | negInf => cases hd
  | nan => cases hd

theorem Dbl.exact_mul_self (fl : ℚ → Dbl) (hex : ∀ q, fl q = .num q) (d : Dbl)
    (hd : d.isFinite = true) : Dbl.mul fl d d = .num (d.val ^ 2) := by
  cases d with
  | num y =>
    by_cases h : y = 0
    · subst h
      simp [Dbl.mul, Dbl.isNan, Dbl.isInf, Dbl.isZero, Dbl.zero, Dbl.val]
    · simp [Dbl.mul, Dbl.isNan, Dbl.isInf, Dbl.isZero, h, hex, Dbl.val, sq]
  | negZero => simp [Dbl.mul, Dbl.isNan, Dbl.isInf, Dbl.isZero, Dbl.zero, Dbl.val, Dbl.isNeg]
  | posInf => cases hd
  | negInf => cases hd
  | nan => cases hd

theorem Dbl.exact_div_pos (fl : ℚ → Dbl) (hex : ∀ q, fl q = .num q) (a b : ℚ) (hb : 0 < b) :
    Dbl.div fl (.num a) (.num b) = .num (a / b) := by
  by_cases h : a = 0
  · subst h
    simp [Dbl.div, Dbl.isNan, Dbl.isInf, Dbl.isZero, ne_of_gt hb, Dbl.zero, Dbl.isNeg,
      not_lt.mpr (le_of_lt hb)]
  · simp [Dbl.div, Dbl.isNan, Dbl.isInf, Dbl.isZero, ne_of_gt hb, h, hex, Dbl.val]

theorem Dbl.exact_sub_num (fl : ℚ → Dbl) (hex : ∀ q, fl q = .num q) (x y : ℚ) :
    Dbl.sub fl (.num x) (.num y) = .num (x - y) := by
  unfold Dbl.sub
  rw [Dbl.neg_num]
  by_cases h : y = 0
  · rw [if_pos h, h]
    simp [Dbl.add]
  · rw [if_neg h, Dbl.add_num_num, hex]
    by_cases h2 : x + -y = 0
    · rw [if_pos h2]
      congr 1
      linarith
    · rw [if_neg h2]
      congr 1
      ring

/-- When no operation rounds, the quantity of which `sample` takes the square
root is the exact one. -/
theorem Fp.recomputed_exact (fp : Fpu) (hex : ∀ q, fp.round q = .num q)
    (n : Fp.GPGMMetropolisNode) (s1 s2 : ℚ) (h1 : n.m_sumOfValues = .num s1)
    (h2 : n.m_sumOfSquaredValues = .num s2) (hn : 0 < n.m_nSamples) :
    Fp.GPGMMetropolisNode.recomputed fp n
      = .num (s2 / n.m_nSamples - (s1 / n.m_nSamples) ^ 2) := by
  have hk : Dbl.ofNat fp n.m_nSamples = .num (n.m_nSamples : ℚ) := by
    unfold Dbl.ofNat
    rw [if_neg (by omega), hex]
  have hq : (0 : ℚ) < (n.m_nSamples : ℚ) := by exact_mod_cast hn
  unfold Fp.GPGMMetropolisNode.recomputed
  rw [h1, h2, hk, Dbl.exact_div_pos _ hex _ _ hq, Dbl.exact_div_pos _ hex _ _ hq,
    Dbl.exact_mul_self _ hex (.num (s1 / n.m_nSamples)) rfl, Dbl.exact_sub_num _ hex]
  rfl

/-- When no operation rounds, the running sums of a node below the cap are the
sums of the accumulated values and of their squares. -/
theorem Fp.run_exact_sums (fp : Fpu) (hex : ∀ q, fp.round q = .num q) :
    ∀ (calls : List Fp.Call) (n : Fp.GPGMMetropolisNode) (H : List Dbl),
      (n.m_nSamples < 0xffffffff → (∀ d ∈ H, d.isFinite = true) →
        n.m_sumOfValues = .num (H.map Dbl.val).sum ∧
        n.m_sumOfSquaredValues = .num ((H.map Dbl.val).map (fun x => x ^ 2)).sum) →
      ((Fp.GPGMMetropolisNode.run fp calls n).m_nSamples < 0xffffffff →
        (∀ d ∈ H ++ Fp.GPGMMetropolisNode.accumulated fp calls n, d.isFinite = true) →
        (Fp.GPGMMetropolisNode.run fp calls n).m_sumOfValues
          = .num ((H ++ Fp.GPGMMetropolisNode.accumulated fp calls n).map Dbl.val).sum ∧
        (Fp.GPGMMetropolisNode.run fp calls n).m_sumOfSquaredValues
          = .num (((H ++ Fp.GPGMMetropolisNode.accumulated fp calls n).map Dbl.val).map
              (fun x => x ^ 2)).sum) := by
  intro calls
  induction calls with
  | nil =>
    intro n H hinv
    simpa [Fp.GPGMMetropolisNode.run, Fp.GPGMMetropolisNode.accumulated] using hinv
  | cons c rest ih =>
    intro n H hinv
    unfold Fp.GPGMMetropolisNode.run Fp.GPGMMetropolisNode.accumulated
    by_cases hb : n.m_nSamples < 0xffffffff
    · rw [if_pos hb]
      have := ih (Fp.GPGMMetropolisNode.sample fp c.gibbs n c.z c.u)
        (H ++ [(Fp.GPGMMetropolisNode.sample fp c.gibbs n c.z c.u).m_currentMean]) (by
          intro _ hfin
          have hH : ∀ d ∈ H, d.isFinite = true :=
            fun d hd => hfin d (List.mem_append_left _ hd)
          have hm : (Fp.GPGMMetropolisNode.sample fp c.gibbs n c.z c.u).m_currentMean.isFinite
              = true := hfin _ (List.mem_append_right _ (List.mem_singleton_self _))
          obtain ⟨e1, e2⟩ := hinv hb hH
          obtain ⟨s1, s2⟩ := Fp.sample_sums fp c.gibbs n c.z c.u hb
          rw [s1, s2, e1, e2, Dbl.exact_mul_self _ hex _ hm, Dbl.exact_add_val _ hex _ _ hm,
            Dbl.exact_add_val _ hex _ (.num _) rfl]
          simp [Dbl.val])
      rw [List.append_assoc] at this
      exact this
    · rw [if_neg hb]
      intro hcap
      exfalso
      have hmono : ∀ (cs : List Fp.Call) (m : Fp.GPGMMetropolisNode),
          ¬ m.m_nSamples < 0xffffffff →
          ¬ (Fp.GPGMMetropolisNode.run fp cs m).m_nSamples < 0xffffffff := by
        intro cs
        induction cs with
        | nil => intro m hm; exact hm
        | cons c2 r2 ih2 =>
          intro m hm
          unfold Fp.GPGMMetropolisNode.run
          exact ih2 _ (by rw [(Fp.sample_count fp c2.gibbs m c2.z c2.u).2 hm]; exact hm)
      exact hmono rest _ (by
        rw [(Fp.sample_count fp c.gibbs n c.z c.u).2 hb]; exact hb) hcap

/-- Claim C38, as amended. For a node started from its constructor state, on
`double`s and whatever the rounding, after a sequence of `sample` calls that
leaves `m_nSamples` below the cap `0xffffffff` and `m_nNewValues` at 9, so that
the next accepted proposal recomputes the deviation: every call has added its
value to the sums, at least 9 values, and two of the accumulated values differ.
If all of them are numbers, their variance is strictly positive in exact
arithmetic. The quantity
`m_sumOfSquaredValues / m_nSamples - (m_sumOfValues / m_nSamples)^2` that the
code computes is that variance, and the recomputed deviation the square root of
it, where no rounding error has occurred: where the running sums are the sums of
the accumulated values and of their squares and the quantity is computed as
without rounding; this is so, in particular, if no operation rounds. -/
theorem recalibration_values_distinct (fp : Fpu) (isDiscrete : Bool)
    (priorMean priorDeviation : Dbl) (calls : List Fp.Call)
    (hcap : (Fp.GPGMMetropolisNode.run fp calls
      (Fp.GPGMMetropolisNode.create isDiscrete priorMean priorDeviation)).m_nSamples
        < 0xffffffff)
    (hnew : (Fp.GPGMMetropolisNode.run fp calls
      (Fp.GPGMMetropolisNode.create isDiscrete priorMean priorDeviation)).m_nNewValues + 1
        ≥ 10) :
    (Fp.GPGMMetropolisNode.accumulated fp calls
      (Fp.GPGMMetropolisNode.create isDiscrete priorMean priorDeviation)).length
      = (Fp.GPGMMetropolisNode.run fp calls
          (Fp.GPGMMetropolisNode.create isDiscrete priorMean priorDeviation)).m_nSamples ∧
    9 ≤ (Fp.GPGMMetropolisNode.run fp calls
      (Fp.GPGMMetropolisNode.create isDiscrete priorMean priorDeviation)).m_nSamples ∧
    (∃ a ∈ Fp.GPGMMetropolisNode.accumulated fp calls
        (Fp.GPGMMetropolisNode.create isDiscrete priorMean priorDeviation),
      ∃ b ∈ Fp.GPGMMetropolisNode.accumulated fp calls
        (Fp.GPGMMetropolisNode.create isDiscrete priorMean priorDeviation),
      Dbl.eq a b = false) ∧
    ((∀ d ∈ Fp.GPGMMetropolisNode.accumulated fp calls
        (Fp.GPGMMetropolisNode.create isDiscrete priorMean priorDeviation),
        d.isFinite = true) →
      0 < Fp.variance ((Fp.GPGMMetropolisNode.accumulated fp calls
        (Fp.GPGMMetropolisNode.create isDiscrete priorMean priorDeviation)).map Dbl.val) ∧
      ((Fp.GPGMMetropolisNode.run fp calls
            (Fp.GPGMMetropolisNode.create isDiscrete priorMean priorDeviation)).m_sumOfValues
          = .num ((Fp.GPGMMetropolisNode.accumulated fp calls
              (Fp.GPGMMetropolisNode.create isDiscrete priorMean priorDeviation)).map
                Dbl.val).sum →
        (Fp.GPGMMetropolisNode.run fp calls
            (Fp.GPGMMetropolisNode.create isDiscrete priorMean priorDeviation)).m_sumOfSquaredValues
          = .num (((Fp.GPGMMetropolisNode.accumulated fp calls
              (Fp.GPGMMetropolisNode.create isDiscrete priorMean priorDeviation)).map
                Dbl.val).map (fun x => x ^ 2)).sum →
        Fp.GPGMMetropolisNode.recomputed fp (Fp.GPGMMetropolisNode.run fp calls
            (Fp.GPGMMetropolisNode.create isDiscrete priorMean priorDeviation))
          = Fp.GPGMMetropolisNode.recomputed fp.exact (Fp.GPGMMetropolisNode.run fp calls
            (Fp.GPGMMetropolisNode.create isDiscrete priorMean priorDeviation)) →
        Fp.GPGMMetropolisNode.recomputed fp (Fp.GPGMMetropolisNode.run fp calls
            (Fp.GPGMMetropolisNode.create isDiscrete priorMean priorDeviation))
          = .num (Fp.variance ((Fp.GPGMMetropolisNode.accumulated fp calls
              (Fp.GPGMMetropolisNode.create isDiscrete priorMean priorDeviation)).map Dbl.val)) ∧
        (Fp.GPGMMetropolisNode.onAccepted fp (Fp.GPGMMetropolisNode.run fp calls
            (Fp.GPGMMetropolisNode.create isDiscrete priorMean priorDeviation))).m_currentDeviation
          = fp.sqrt (Fp.variance ((Fp.GPGMMetropolisNode.accumulated fp calls
              (Fp.GPGMMetropolisNode.create isDiscrete priorMean priorDeviation)).map
                Dbl.val))) ∧
      ((∀ q, fp.round q = .num q) →
        Fp.GPGMMetropolisNode.recomputed fp (Fp.GPGMMetropolisNode.run fp calls
            (Fp.GPGMMetropolisNode.create isDiscrete priorMean priorDeviation))
          = .num (Fp.variance ((Fp.GPGMMetropolisNode.accumulated fp calls
              (Fp.GPGMMetropolisNode.create isDiscrete priorMean priorDeviation)).map Dbl.val)) ∧
        (Fp.GPGMMetropolisNode.onAccepted fp (Fp.GPGMMetropolisNode.run fp calls
            (Fp.GPGMMetropolisNode.create isDiscrete priorMean priorDeviation))).m_currentDeviation
          = fp.sqrt (Fp.variance ((Fp.GPGMMetropolisNode.accumulated fp calls
              (Fp.GPGMMetropolisNode.create isDiscrete priorMean priorDeviation)).map
                Dbl.val)))) := by
  have h0 : Fp.GPGMMetropolisNode.Accumulated
      (Fp.GPGMMetropolisNode.create isDiscrete priorMean priorDeviation) [] := by
    intro _
    exact ⟨rfl, Nat.le_refl _, Or.inr ⟨Nat.zero_le _, fun d hd => by cases hd⟩⟩
  have hrun := Fp.run_accumulated fp calls _ [] h0
  rw [List.nil_append] at hrun
  obtain ⟨hlen, hle, hdis⟩ := hrun hcap
  have hdist : ∃ a ∈ Fp.GPGMMetropolisNode.accumulated fp calls
        (Fp.GPGMMetropolisNode.create isDiscrete priorMean priorDeviation),
      ∃ b ∈ Fp.GPGMMetropolisNode.accumulated fp calls
        (Fp.GPGMMetropolisNode.create isDiscrete priorMean priorDeviation),
      Dbl.eq a b = false := by
    rcases hdis with h | ⟨h, _⟩
    · exact h
    · omega
  refine ⟨hlen, by omega, hdist, ?_⟩
  intro hfin
  have hvar : 0 < Fp.variance ((Fp.GPGMMetropolisNode.accumulated fp calls
      (Fp.GPGMMetropolisNode.create isDiscrete priorMean priorDeviation)).map Dbl.val) := by
    obtain ⟨a, ha, b, hb, hab⟩ := hdist
    exact variance_pos _ ⟨a.val, List.mem_map.mpr ⟨a, ha, rfl⟩, b.val,
      List.mem_map.mpr ⟨b, hb, rfl⟩, Dbl.val_ne_of_eq_false a b (hfin a ha) (hfin b hb) hab⟩
  have hdev : Fp.GPGMMetropolisNode.recomputed fp (Fp.GPGMMetropolisNode.run fp calls
        (Fp.GPGMMetropolisNode.create isDiscrete priorMean priorDeviation))
      = .num (Fp.variance ((Fp.GPGMMetropolisNode.accumulated fp calls
          (Fp.GPGMMetropolisNode.create isDiscrete priorMean priorDeviation)).map Dbl.val)) →
      (Fp.GPGMMetropolisNode.onAccepted fp (Fp.GPGMMetropolisNode.run fp calls
        (Fp.GPGMMetropolisNode.create isDiscrete priorMean priorDeviation))).m_currentDeviation
      = fp.sqrt (Fp.variance ((Fp.GPGMMetropolisNode.accumulated fp calls
          (Fp.GPGMMetropolisNode.create isDiscrete priorMean priorDeviation)).map Dbl.val)) := by
    intro hq2
    rw [Fp.onAccepted_deviation fp _ hnew, hq2]
    show (if _ < 0 then Dbl.nan else if _ = 0 then Dbl.num 0 else fp.sqrt _) = _
    rw [if_neg (not_lt.mpr (le_of_lt hvar)), if_neg (ne_of_gt hvar)]
  refine ⟨hvar, ?_, ?_⟩
  · intro hs1 hs2 hq
    have hqe := Fp.recomputed_exact fp.exact (fun _ => rfl) _ _ _ hs1 hs2 (by omega)
    have hq2 : Fp.GPGMMetropolisNode.recomputed fp (Fp.GPGMMetropolisNode.run fp calls
          (Fp.GPGMMetropolisNode.create isDiscrete priorMean priorDeviation))
        = .num (Fp.variance ((Fp.GPGMMetropolisNode.accumulated fp calls
            (Fp.GPGMMetropolisNode.create isDiscrete priorMean priorDeviation)).map Dbl.val)) := by
      rw [hq, hqe]
      unfold Fp.variance
      rw [List.length_map, hlen]
    exact ⟨hq2, hdev hq2⟩
  intro hex
  have hsum := Fp.run_exact_sums fp hex calls
    (Fp.GPGMMetropolisNode.create isDiscrete priorMean priorDeviation) []
    (fun _ _ => ⟨rfl, rfl⟩) hcap (by rw [List.nil_append]; exact hfin)
  rw [List.nil_append] at hsum
  have hq := Fp.recomputed_exact fp hex _ _ _ hsum.1 hsum.2 (by omega)
  have hq2 : Fp.GPGMMetropolisNode.recomputed fp (Fp.GPGMMetropolisNode.run fp calls
        (Fp.GPGMMetropolisNode.create isDiscrete priorMean priorDeviation))
      = .num (Fp.variance ((Fp.GPGMMetropolisNode.accumulated fp calls
          (Fp.GPGMMetropolisNode.create isDiscrete priorMean priorDeviation)).map Dbl.val)) := by
    rw [hq]
    unfold Fp.variance
    rw [List.length_map, hlen]
  exact ⟨hq2, hdev hq2⟩

/-- Witness of claim C38, as amended: a UniformDiscrete node on `[0, 1]` with
the prior mean 0 and the prior deviation 1, on the arithmetic of binary64. After
nine calls that accept their proposals the accumulated values are 1 and 0 in
turn, nine of them, and their variance is positive. After seven calls that
accept nothing and nine that accept their proposals, sixteen values are
accumulated, no operation on the sums or on the quantity has rounded, and the
quantity that the code computes is their variance. -/
theorem recalibration_values_distinct_witness :
    (Fp.GPGMMetropolisNode.run binary64Fpu (Fp.alternating 0 1 9)
      (Fp.GPGMMetropolisNode.create true (.num 0) (.num 1))).m_nSamples < 0xffffffff ∧
    (Fp.GPGMMetropolisNode.run binary64Fpu (Fp.alternating 0 1 9)
      (Fp.GPGMMetropolisNode.create true (.num 0) (.num 1))).m_nNewValues + 1 ≥ 10 ∧
    9 ≤ (Fp.GPGMMetropolisNode.run binary64Fpu (Fp.alternating 0 1 9)
      (Fp.GPGMMetropolisNode.create true (.num 0) (.num 1))).m_nSamples ∧
    0 < Fp.variance ((Fp.GPGMMetropolisNode.accumulated binary64Fpu (Fp.alternating 0 1 9)
      (Fp.GPGMMetropolisNode.create true (.num 0) (.num 1))).map Dbl.val) ∧
    Fp.GPGMMetropolisNode.recomputed binary64Fpu (Fp.GPGMMetropolisNode.run binary64Fpu
        (Fp.still 0 1 7 ++ Fp.alternating 0 1 9)
        (Fp.GPGMMetropolisNode.create true (.num 0) (.num 1)))
      = .num (Fp.variance ((Fp.GPGMMetropolisNode.accumulated binary64Fpu
          (Fp.still 0 1 7 ++ Fp.alternating 0 1 9)
          (Fp.GPGMMetropolisNode.create true (.num 0) (.num 1))).map Dbl.val)) :=
  ⟨by decide!, by decide!,
    (recalibration_values_distinct binary64Fpu true (.num 0) (.num 1) (Fp.alternating 0 1 9)
      (by decide!) (by decide!)).2.1,
    ((recalibration_values_distinct binary64Fpu true (.num 0) (.num 1) (Fp.alternating 0 1 9)
      (by decide!) (by decide!)).2.2.2 (by decide!)).1,
    (((recalibration_values_distinct binary64Fpu true (.num 0) (.num 1)
      (Fp.still 0 1 7 ++ Fp.alternating 0 1 9)
      (by decide!) (by decide!)).2.2.2 (by decide!)).2.1 (by decide!) (by decide!)
      (by decide!)).1⟩

theorem Fp.run_cons (fp : Fpu) (c : Fp.Call) (rest : List Fp.Call)
    (n : Fp.GPGMMetropolisNode) :
    Fp.GPGMMetropolisNode.run fp (c :: rest) n
      = Fp.GPGMMetropolisNode.run fp rest (Fp.GPGMMetropolisNode.sample fp c.gibbs n c.z c.u) :=
  rfl

theorem Fp.run_append (fp : Fpu) : ∀ (xs ys : List Fp.Call) (n : Fp.GPGMMetropolisNode),
    Fp.GPGMMetropolisNode.run fp (xs ++ ys) n
      = Fp.GPGMMetropolisNode.run fp ys (Fp.GPGMMetropolisNode.run fp xs n) := by
  intro xs
  induction xs with
  | nil => intro ys n; rfl
  | cons c rest ih =>
    intro ys n
    show Fp.GPGMMetropolisNode.run fp (rest ++ ys) _ = _
    rw [ih]
    rfl

/-- A call with the normal draw 0 proposes the current mean 0 again: nothing is
accepted, and below the cap the value 0 is accumulated once more. -/
theorem Fp.still_step (min max : ℚ) (s : Nat) :
    Fp.GPGMMetropolisNode.sample binary64Fpu (Fp.uniformDiscreteLeaf min max) (Fp.zeros s)
      (.num 0) (.num (1 / 2))
      = Fp.zeros (if s < 0xffffffff then s + 1 else s) := by
  have hc : Dbl.eq (Fp.GPGMMetropolisNode.candidate binary64Fpu (Fp.zeros s) (.num 0))
      (Fp.zeros s).m_currentMean = true := by
    show Dbl.eq (Fp.GPGMMetropolisNode.candidate binary64Fpu (Fp.zeros 0) (.num 0)) (.num 0)
      = true
    decide!
  have hm : Fp.GPGMMetropolisNode.metropolis binary64Fpu (Fp.uniformDiscreteLeaf min max)
      (Fp.zeros s) (.num 0) (.num (1 / 2)) = (false, Fp.zeros s) := by
    unfold Fp.GPGMMetropolisNode.metropolis
    rw [if_pos hc]
  unfold Fp.GPGMMetropolisNode.sample
  rw [hm]
  show Fp.GPGMMetropolisNode.accumulate binary64Fpu (Fp.zeros s) = _
  by_cases hs : s < 0xffffffff
  · rw [if_pos hs, Fp.accumulate_below _ _ hs]
    have e1 : Dbl.add binary64Fpu.round (Fp.zeros s).m_sumOfValues (Fp.zeros s).m_currentMean
        = .num 0 := by
      show Dbl.add binary64 (.num 0) (.num 0) = .num 0
      decide!
    have e2 : Dbl.add binary64Fpu.round (Fp.zeros s).m_sumOfSquaredValues
        (Dbl.mul binary64Fpu.round (Fp.zeros s).m_currentMean (Fp.zeros s).m_currentMean)
        = .num 0 := by
      show Dbl.add binary64 (.num 0) (Dbl.mul binary64 (.num 0) (.num 0)) = .num 0
      decide!
    rw [e1, e2]
    rfl
  · rw [if_neg hs, Fp.accumulate_at_cap _ _ hs]

/-- Calls with the normal draw 0 from the constructor state accumulate the
value 0, up to the cap. -/
theorem Fp.still_run (min max : ℚ) : ∀ (k s : Nat), s + k ≤ 0xffffffff →
    Fp.GPGMMetropolisNode.run binary64Fpu (Fp.still min max k) (Fp.zeros s)
      = Fp.zeros (s + k) := by
  intro k
  induction k with
  | zero => intro s _; rfl
  | succ k ih =>
    intro s hs
    have e : Fp.still min max (k + 1)
        = { gibbs := Fp.uniformDiscreteLeaf min max, z := .num 0, u := .num (1 / 2) }
          :: Fp.still min max k := rfl
    rw [e, Fp.run_cons, Fp.still_step, if_pos (by omega), ih (s + 1) (by omega)]
    congr 1
    omega

/-- Claim C38 does not hold on `double`s, below the cap and at it.

Below the cap: a UniformDiscrete node on `[200000000, 200000001]` with the prior
mean 200000000 and the prior deviation 1, normal draws that alternate between 1
and -1 and uniform draws 1/2, on the arithmetic of binary64. The first nine
calls accept their proposals and leave `m_nSamples = 9`, `m_nNewValues = 9` and
the sums 1800000005 and 360000002000000000, the second of them rounded. On
these sums the quantity `m_sumOfSquaredValues / m_nSamples -
(m_sumOfValues / m_nSamples)^2` is `-25/81` in exact arithmetic, and the code
computes 0 for it: the tenth call sets the deviation to 0, and the two calls
after it propose the current mean and change nothing.

At the cap: a UniformDiscrete node on `[0, 1]` with the prior mean 0 and the
prior deviation 1. After `0xffffffff` calls with the normal draw 0 the sums hold
the value 0 only. The ten proposals accepted after them are not accumulated;
the tenth recomputes the deviation from the quantity 0: it becomes 0. -/
theorem recalibration_variance_not_positive :
    (Fp.GPGMMetropolisNode.run binary64Fpu (Fp.alternating 200000000 200000001 9)
      (Fp.GPGMMetropolisNode.create true (.num 200000000) (.num 1))
      = { isDiscrete := true, m_currentMean := .num 200000001, m_currentDeviation := .num 1,
          m_nSamples := 9, m_nNewValues := 9, m_sumOfValues := .num 1800000005,
          m_sumOfSquaredValues := .num 360000002000000000 } ∧
      (360000002000000000 : ℚ) / 9 - (1800000005 / 9) ^ 2 = -25 / 81 ∧
      Fp.GPGMMetropolisNode.recomputed binary64Fpu
        (Fp.GPGMMetropolisNode.run binary64Fpu (Fp.alternating 200000000 200000001 9)
          (Fp.GPGMMetropolisNode.create true (.num 200000000) (.num 1))) = .num 0 ∧
      (Fp.GPGMMetropolisNode.run binary64Fpu (Fp.alternating 200000000 200000001 10)
        (Fp.GPGMMetropolisNode.create true (.num 200000000) (.num 1))).m_currentDeviation
        = .num 0 ∧
      (Fp.GPGMMetropolisNode.run binary64Fpu (Fp.alternating 200000000 200000001 10)
        (Fp.GPGMMetropolisNode.create true (.num 200000000) (.num 1))).m_currentMean
        = .num 200000000 ∧
      (Fp.GPGMMetropolisNode.run binary64Fpu (Fp.alternating 200000000 200000001 12)
        (Fp.GPGMMetropolisNode.create true (.num 200000000) (.num 1))).m_currentMean
        = .num 200000000 ∧
      (Fp.GPGMMetropolisNode.run binary64Fpu (Fp.alternating 200000000 200000001 12)
        (Fp.GPGMMetropolisNode.create true (.num 200000000) (.num 1))).m_nNewValues = 0) ∧
    (Fp.GPGMMetropolisNode.run binary64Fpu (Fp.still 0 1 0xffffffff)
        (Fp.GPGMMetropolisNode.create true (.num 0) (.num 1)) = Fp.zeros 0xffffffff ∧
      (Fp.GPGMMetropolisNode.run binary64Fpu (Fp.still 0 1 0xffffffff ++ Fp.alternating 0 1 9)
        (Fp.GPGMMetropolisNode.create true (.num 0) (.num 1)))
        = { isDiscrete := true, m_currentMean := .num 1, m_currentDeviation := .num 1,
            m_nSamples := 0xffffffff, m_nNewValues := 9, m_sumOfValues := .num 0,
            m_sumOfSquaredValues := .num 0 } ∧
      Fp.GPGMMetropolisNode.recomputed binary64Fpu
        (Fp.GPGMMetropolisNode.run binary64Fpu (Fp.still 0 1 0xffffffff ++ Fp.alternating 0 1 9)
          (Fp.GPGMMetropolisNode.create true (.num 0) (.num 1))) = .num 0 ∧
      (Fp.GPGMMetropolisNode.run binary64Fpu (Fp.still 0 1 0xffffffff ++ Fp.alternating 0 1 10)
        (Fp.GPGMMetropolisNode.create true (.num 0) (.num 1))).m_currentDeviation = .num 0) := by
  have hstill : Fp.GPGMMetropolisNode.run binary64Fpu (Fp.still 0 1 0xffffffff)
      (Fp.GPGMMetropolisNode.create true (.num 0) (.num 1)) = Fp.zeros 0xffffffff := by
    have := Fp.still_run 0 1 0xffffffff 0 (by norm_num)
    rw [Nat.zero_add] at this
    exact this
  refine ⟨by decide!, ⟨hstill, ?_, ?_, ?_⟩⟩
  · rw [Fp.run_append, hstill]
    decide!
  · rw [Fp.run_append, hstill]
    decide!
  · rw [Fp.run_append, hstill]
    decide!

/-! ### The heap model and the arithmetic of `double` agree on numbers -/

theorem Dbl.lt_of_finite (a b : Dbl) (ha : a.isFinite = true) (hb : b.isFinite = true) :
    Dbl.lt a b = decide (a.val < b.val) := by
  cases a <;> cases b <;> simp_all [Dbl.lt, Dbl.isFinite, Dbl.val]

/-- On numbers and in exact arithmetic, `GPGMUniformDiscrete::likelihood` on
`double`s has the value that the heap model gives it. -/
theorem uniformDiscrete_likelihood_agrees (h : Heap) (v : NodeId) (lo hi x : ℚ)
    (hp : currentPair h v = .ok (lo, hi)) :
    GPGMUniformDiscrete.likelihood h v x
      = .ok (Fp.GPGMUniformDiscrete.likelihood exactFpu (.num lo) (.num hi) (.num x)).val := by
  rw [uniformDiscrete_likelihood_eq h v lo hi x hp]
  obtain ⟨hcf, hcv⟩ := Dbl.ceil_of_finite (.num lo) rfl
  obtain ⟨hff, hfv⟩ := Dbl.floor_of_finite (.num hi) rfl
  have h1 : Dbl.lt (.num x) (Dbl.ceil (.num lo)) = decide (x < ((Int.ceil lo : ℤ) : ℚ)) := by
    rw [Dbl.lt_of_finite (.num x) _ rfl hcf, hcv]
    rfl
  have h2 : Dbl.gt (.num x) (Dbl.floor (.num hi)) = decide (x > ((Int.floor hi : ℤ) : ℚ)) := by
    unfold Dbl.gt
    rw [Dbl.lt_of_finite _ (.num x) hff rfl, hfv]
    rfl
  unfold Fp.GPGMUniformDiscrete.likelihood
  rw [h1, h2]
  by_cases hg1 : x < ((Int.ceil lo : ℤ) : ℚ)
  · rw [if_pos (Or.inl hg1), if_pos (decide_eq_true hg1)]
    rfl
  · by_cases hg2 : x > ((Int.floor hi : ℤ) : ℚ)
    · rw [if_pos (Or.inr hg2), if_neg (by simpa using hg1), if_pos (decide_eq_true hg2)]
      rfl
    · rw [if_neg (not_or.mpr ⟨hg1, hg2⟩), if_neg (by simpa using hg1),
        if_neg (by simpa using hg2)]
      obtain ⟨hsf, hsv⟩ := Dbl.exact_sub_val _ _ hcf hff
      rw [Dbl.exact_add_one _ hsf, hsv, hcv, hfv]
      have hpos : (0 : ℚ) < ((Int.floor hi : ℤ) : ℚ) - ((Int.ceil lo : ℤ) : ℚ) + 1 := by
        have := le_trans (not_lt.mp hg1) (not_lt.mp hg2)
        linarith
      show Res.ok _ = Res.ok (Dbl.div exactFpu.round (.num 1)
        (.num (((Int.floor hi : ℤ) : ℚ) - ((Int.ceil lo : ℤ) : ℚ) + 1))).val
      rw [Dbl.exact_one_div _ (ne_of_gt hpos)]
      rfl

/-- On numbers and in exact arithmetic, `GPGMUniformContinuous::likelihood` on
`double`s has the value that the heap model gives it, unless it divides by
zero. -/
theorem uniformContinuous_likelihood_agrees (h : Heap) (v : NodeId) (lo hi x : ℚ)
    (hp : currentPair h v = .ok (lo, hi)) (hne : lo ≠ hi) :
    GPGMUniformContinuous.likelihood h v x
      = .ok (Fp.GPGMUniformContinuous.likelihood exactFpu (.num lo) (.num hi) (.num x)).val := by
  rw [uniformContinuous_likelihood_eq h v lo hi x hp]
  have h1 : Dbl.lt (.num x) (.num lo) = decide (x < lo) :=
    Dbl.lt_of_finite (.num x) (.num lo) rfl rfl
  have h2 : Dbl.gt (.num x) (.num hi) = decide (x > hi) :=
    Dbl.lt_of_finite (.num hi) (.num x) rfl rfl
  unfold Fp.GPGMUniformContinuous.likelihood
  rw [h1, h2]
  by_cases hg1 : x < lo
  · rw [if_pos (Or.inl hg1), if_pos (decide_eq_true hg1)]
    rfl
  · by_cases hg2 : x > hi
    · rw [if_pos (Or.inr hg2), if_neg (by simpa using hg1), if_pos (decide_eq_true hg2)]
      rfl
    · rw [if_neg (not_or.mpr ⟨hg1, hg2⟩), if_neg (by simpa using hg1),
        if_neg (by simpa using hg2)]
      have hlt : lo < hi := lt_of_le_of_ne (le_trans (not_lt.mp hg1) (not_lt.mp hg2)) hne
      obtain ⟨hsf, hsv⟩ := Dbl.exact_sub_val (.num lo) (.num hi) rfl rfl
      have hne0 : (Dbl.sub exactFpu.round (.num hi) (.num lo)).val ≠ 0 := by
        rw [hsv]
        intro h0
        simp only [Dbl.val] at h0
        linarith
      rw [Dbl.num_of_val_ne_zero _ hsf hne0, Dbl.exact_one_div _ hne0, hsv]
      rfl

end GClasses
